import Mathlib

/-!
# back-bdb tool core (`servers/slapd/back-bdb/tools.c`)

A shallow embedding of the bulk-load / reindex entry points of the back-bdb
backend: the name-to-id resolver with its hole list, the per-entry load
pipeline, the cursor session, and the IDL cache with its flush protocol.

Conventions.
* `ID` is `unsigned long`; ids are natural numbers (`Nat`) and `NOID` is the
  all-ones value.
* Return codes are integers; `0` is success.
* Process-wide statics (`cursor`, `holes`, `nholes`, `nhmax`, `index_nattrs`, ...)
  become fields of explicit state records that every entry point threads.
* Collaborators that live outside `tools.c` (the key/value store, the id
  generator, the dn2id map, the schema indexer, transactions) are modelled by
  small pure definitions or by outcome oracles collected in an environment.
-/

namespace BackBdb

/-! ## Basic types -/

/-- Modelled from the spec: `NOID` is the reserved sentinel meaning "none"; in
slapd it is the all-ones `ID`, here for a 64-bit `unsigned long`. -/
def NOID : Nat := 2 ^ 64 - 1

/-- One relative name component of a canonical name. -/
abbrev RDN := Nat

/-- A distinguished name (`struct berval`), as its list of components, leftmost
first.  `bv_len == 0` is the empty list. -/
abbrev Name := List RDN

/-- Berkeley DB status "no such key / no further item" (`db.h`); only its being
non-zero and different from the other codes is used. -/
def DB_NOTFOUND : Int := -30989

/-- Berkeley DB status "key/data pair already present" (`db.h`). -/
def DB_KEYEXIST : Int := -30996

/-- Status `LDAP_BUSY` used as the "slot still running" marker. -/
def LDAP_BUSY : Int := 51

/-- Status `LDAP_OTHER`. -/
def LDAP_OTHER : Int := 80

/-- Transaction handle (`DB_TXN *`); `none` is the null transaction. -/
abbrev DB_TXN := Unit

/-- An attribute of an entry, as far as the tool core sees it: an opaque
descriptor handed to the schema indexer. -/
abbrev Attribute := Nat

/-- The part of `Entry` the tool core touches. -/
structure Entry where
  e_id : Nat
  e_name : Name
  e_nname : Name
  e_attrs : List Attribute
deriving DecidableEq, Repr

/-- A hole record (`struct dn_id`). -/
structure dn_id where
  id : Nat
  dn : Name
deriving DecidableEq, Repr

/-- Initial capacity of the hole buffer. -/
def HOLE_SIZE : Nat := 4096

/-- Modelled from the spec: `dnParent` derives the parent by stripping one name
component (the leftmost). -/
def dnParent (dn : Name) : Name := dn.tail

/-! ## Environment: configuration and collaborator outcomes -/

/-- Configuration of the backend together with the outcomes of the collaborators
that `tools.c` calls but does not define.  A status of `0` means the call
succeeds. -/
structure ToolEnv where
  /-- The configured suffixes (`be_nsuffix`), consulted by `be_issuffix`. -/
  be_nsuffix : List Name
  /-- True when `slapMode & SLAP_TOOL_QUICK`. -/
  quick : Bool
  /-- True when `slapMode & SLAP_TOOL_READONLY`. -/
  readonly : Bool
  /-- Field `bi_linear_index`. -/
  bi_linear_index : Bool
  /-- Worker pool size `slap_tool_thread_max`. -/
  slap_tool_thread_max : Nat
  /-- Status of `TXN_BEGIN`. -/
  txn_begin_rc : Int
  /-- Status of `TXN_COMMIT`. -/
  txn_commit_rc : Int
  /-- Status of `bdb_next_id` when the last id handed out is the argument. -/
  next_id_rc : Nat → Int
  /-- Status of `bdb_dn2id_add` for a canonical name and its new id. -/
  dn2id_add_rc : Name → Nat → Int
  /-- Status of `bdb_index_recset` for one attribute. -/
  recset_rc : Attribute → Int
  /-- Final (non-`LDAP_BUSY`) status of `bdb_index_recrun` for a slice `base`. -/
  recrun_rc : Nat → Nat → Int
  /-- Status of `bdb_index_entry_add`. -/
  index_entry_add_rc : Entry → Int
  /-- Status of `bdb_id2entry_add`. -/
  id2entry_add_rc : Entry → Int
  /-- Status of `bdb_id2entry_update`. -/
  id2entry_update_rc : Entry → Int
  /-- Status of opening a cursor on the primary store. -/
  cursor_open_rc : Int
  /-- Status of `entry_decode`. -/
  entry_decode_rc : Int

/-- Function `be_issuffix`: is the canonical name one of the configured
suffixes? -/
def be_issuffix (env : ToolEnv) (ndn : Name) : Bool := decide (ndn ∈ env.be_nsuffix)

/-! ## Name-to-id resolver state -/

/-- The statics and backend fields used by the resolver. -/
structure ToolState where
  /-- Modelled from the spec: the name-to-id map, a finite map from canonical
  name to id; each binding also records the ancestor info it was linked under. -/
  dn2id : List (Name × Nat × Option Nat)
  /-- Field `bi_lastid` of the id generator. -/
  bi_lastid : Nat
  /-- The hole buffer `holes` (an array; slots at `nholes` and above are not
  live). -/
  holes : Nat → dn_id
  /-- Capacity `nhmax` of the hole buffer. -/
  nhmax : Nat
  /-- Number `nholes` of live holes. -/
  nholes : Nat

/-- State at the start of a load: empty map, empty hole buffer of `HOLE_SIZE`
slots (static storage, hence zeroed). -/
def ToolState.init (lastid : Nat) : ToolState :=
  { dn2id := [], bi_lastid := lastid, holes := fun _ => ⟨0, []⟩,
    nhmax := HOLE_SIZE, nholes := 0 }

/-- Lookup in the name-to-id map. -/
def dn2id_lookup : List (Name × Nat × Option Nat) → Name → Option Nat
  | [], _ => none
  | (k, v, _) :: m, n => if n = k then some v else dn2id_lookup m n

/-- Modelled from the spec: `bdb_cache_find_ndn` is `find(canonical-name)`,
returning the id bound to the name, or `none` for `DB_NOTFOUND`. -/
def bdb_cache_find_ndn (st : ToolState) (ndn : Name) : Option Nat :=
  dn2id_lookup st.dn2id ndn

/-- Modelled from the spec: `bdb_next_id` is a monotonic `next_id()` generator;
on success it hands out `bi_lastid + 1`.  On failure nothing changes. -/
def bdb_next_id (env : ToolEnv) (st : ToolState) (e_id : Nat) : Int × Nat × ToolState :=
  if env.next_id_rc st.bi_lastid ≠ 0 then (env.next_id_rc st.bi_lastid, e_id, st)
  else (0, st.bi_lastid + 1, { st with bi_lastid := st.bi_lastid + 1 })

/-- Modelled from the spec: `bdb_dn2id_add` is `add(ancestor-info, entry)`,
binding the canonical name to the id under the given ancestor. -/
def bdb_dn2id_add (env : ToolEnv) (st : ToolState) (ei : Option Nat) (ndn : Name) (id : Nat) :
    Int × ToolState :=
  if env.dn2id_add_rc ndn id ≠ 0 then (env.dn2id_add_rc ndn id, st)
  else (0, { st with dn2id := (ndn, id, ei) :: st.dn2id })

/-- The hole branch of `bdb_tool_next_id` (lines 355-367): grow the buffer by
doubling when `nholes == nhmax - 1`, then store `(id, ndn)` in `holes[nholes++]`. -/
def hole_append (st : ToolState) (id : Nat) (ndn : Name) : ToolState :=
  { st with
    nhmax := if st.nholes = st.nhmax - 1 then st.nhmax * 2 else st.nhmax
    holes := fun j => if j = st.nholes then ⟨id, ndn⟩ else st.holes j
    nholes := st.nholes + 1 }

/-- The scan `for (i=0; i<nholes; i++)` of the hit branch, started at slot `i`
with `fuel` slots left: the index of the hole whose id is `e_id`, unless a
larger id is met first. -/
def hole_scan (holes : Nat → dn_id) (e_id : Nat) : Nat → Nat → Option Nat
  | 0, _ => none
  | fuel + 1, i =>
    if (holes i).id = e_id then some i
    else if (holes i).id > e_id then none
    else hole_scan holes e_id fuel (i + 1)

/-- The removal `for (j=i;j<nholes;j++) holes[j] = holes[j+1]; holes[j].id = 0;`
that leaves `j == nholes`. -/
def hole_shift (holes : Nat → dn_id) (i nholes : Nat) : Nat → dn_id :=
  fun j =>
    if j = nholes then ⟨0, (holes nholes).dn⟩
    else if i ≤ j ∧ j < nholes then holes (j + 1)
    else holes j

/-- The hit branch of `bdb_tool_next_id` for a non-hole call (lines 371-384). -/
def hole_close (st : ToolState) (e_id : Nat) : ToolState :=
  match hole_scan st.holes e_id st.nholes 0 with
  | some i => { st with holes := hole_shift st.holes i st.nholes, nholes := st.nholes - 1 }
  | none => st

/-- Function `bdb_tool_next_id`.  Arguments: the canonical name `e->e_nname`, the
name `e->e_name`, the current `e->e_id`, the `hole` flag.  Result: status,
`e->e_id` afterwards, and the new state.  The recursion is on the canonical name:
`npdn` is `dnParent` of `r :: npdn`. -/
def bdb_tool_next_id (env : ToolEnv) :
    (ndn : Name) → (dn : Name) → (e_id : Nat) → (hole : Bool) → ToolState → Int × Nat × ToolState
  | [], _, _, _, st => (0, 0, st)
  | r :: npdn, dn, e_id, hole, st =>
    match bdb_cache_find_ndn st (r :: npdn) with
    | none =>
      let up : Int × Nat × Option Nat × ToolState :=
        if be_issuffix env (r :: npdn) then (0, e_id, none, st)
        else
          match bdb_tool_next_id env npdn (dnParent dn) e_id true st with
          | (rc, pid, st1) => (rc, pid, if e_id ≠ pid then some pid else none, st1)
      if up.1 ≠ 0 then (up.1, up.2.1, up.2.2.2)
      else
        match bdb_next_id env up.2.2.2 up.2.1 with
        | (rc, id, st2) =>
          if rc ≠ 0 then (rc, id, st2)
          else
            match bdb_dn2id_add env st2 up.2.2.1 (r :: npdn) id with
            | (rc, st3) =>
              if rc ≠ 0 then (rc, id, st3)
              else if hole then (0, id, hole_append st3 id (r :: npdn))
              else (0, id, st3)
    | some id =>
      if hole then (0, e_id, st) else (0, id, hole_close st id)

/-- The live part `holes[0..nholes-1]` of the hole buffer. -/
def ToolState.holeList (st : ToolState) : List dn_id :=
  (List.range st.nholes).map st.holes

/-- Drive the resolver once per supplied entry, as `bdb_tool_entry_put` does with
`hole = 0`. -/
def resolve_all (env : ToolEnv) : List Entry → ToolState → ToolState
  | [], st => st
  | e :: es, st =>
    resolve_all env es (bdb_tool_next_id env e.e_nname e.e_name e.e_id false st).2.2

/-- Invariant of the resolver state relative to the set `T` of names of the load
and the names `done` supplied so far. -/
structure HoleInv (T done : List Name) (st : ToolState) : Prop where
  asc : ∀ i j, i < j → j < st.nholes → (st.holes i).id < (st.holes j).id
  hole_ok : ∀ i, i < st.nholes →
    (st.holes i).id ≤ st.bi_lastid ∧
    dn2id_lookup st.dn2id (st.holes i).dn = some (st.holes i).id ∧
    (st.holes i).dn ∉ done
  map_ok : ∀ n id, dn2id_lookup st.dn2id n = some id →
    id ≤ st.bi_lastid ∧ n ∈ T ∧ n ≠ [] ∧
    (n ∈ done ∨ ∃ i, i < st.nholes ∧ (st.holes i).dn = n)
  inj : ∀ n m id, dn2id_lookup st.dn2id n = some id →
    dn2id_lookup st.dn2id m = some id → n = m
  done_ok : ∀ n, n ∈ done → n ≠ [] → ∃ id, dn2id_lookup st.dn2id n = some id

/-- What one resolver call guarantees, for a supplied entry (`hole = false`) or
an ancestor (`hole = true`). -/
def NextIdPost (T done : List Name) (ndn : Name) (hole : Bool) (st : ToolState)
    (r : Int × Nat × ToolState) : Prop :=
  r.1 = 0 ∧
  HoleInv T (if hole then done else ndn :: done) r.2.2 ∧
  st.bi_lastid ≤ r.2.2.bi_lastid ∧
  (∀ n id, dn2id_lookup st.dn2id n = some id → dn2id_lookup r.2.2.dn2id n = some id) ∧
  (∀ n, ndn.length < n.length → dn2id_lookup r.2.2.dn2id n = dn2id_lookup st.dn2id n) ∧
  (hole = false → ndn ≠ [] → dn2id_lookup r.2.2.dn2id ndn = some r.2.1)


/-- An environment in which every collaborator succeeds. -/
def ToolEnv.allOk (suffixes : List Name) (quick linear : Bool) (threads : Nat) : ToolEnv :=
  { be_nsuffix := suffixes, quick := quick, readonly := false, bi_linear_index := linear,
    slap_tool_thread_max := threads, txn_begin_rc := 0, txn_commit_rc := 0,
    next_id_rc := fun _ => 0, dn2id_add_rc := fun _ _ => 0, recset_rc := fun _ => 0,
    recrun_rc := fun _ _ => 0, index_entry_add_rc := fun _ => 0,
    id2entry_add_rc := fun _ => 0, id2entry_update_rc := fun _ => 0, cursor_open_rc := 0,
    entry_decode_rc := 0 }

/-- The load of scenario S2: suffix `o=x` (component `1`), entries supplied in the
order `cn=a,ou=b,o=x`, `ou=b,o=x`, `o=x`. -/
def s2_entries : List Entry :=
  [⟨NOID, [3, 2, 1], [3, 2, 1], []⟩, ⟨NOID, [2, 1], [2, 1], []⟩, ⟨NOID, [1], [1], []⟩]

/-! ## IDL cache -/

/-- An index key (`DBT` key / `struct berval kstr`): its bytes. -/
abbrev Key := List Nat

/-- Capacity of one id block. -/
def IDBLOCK : Nat := 1024

/-- Status `AVL_NOMORE` that `avl_apply` returns when the traversal was not
stopped. -/
def AVL_NOMORE : Int := -6

/-- One id block (`bdb_tool_idl_cache_entry`): the array `ids[IDBLOCK]`.  The
`next` link is the order of the list the block sits in. -/
abbrev IdBlock := Nat → Nat

/-- A cache entry (`bdb_tool_idl_cache`).  `blocks` is the chain `head ... tail`;
`head == NULL` is the empty chain. -/
structure bdb_tool_idl_cache where
  kstr : Key
  blocks : List IdBlock
  first : Nat
  last : Nat
  count : Nat

/-- Configuration and collaborator outcomes for the IDL cache. -/
structure IdlEnv where
  /-- Constant `BDB_IDL_DB_SIZE` of `idl.h`, the list/range threshold. -/
  BDB_IDL_DB_SIZE : Nat
  /-- Field `bi_idl_cache_max_size`; `0` disables caching. -/
  bi_idl_cache_max_size : Nat
  /-- The indeterminate value `ch_malloc` leaves in `ic->first`. -/
  uninit : Nat
  /-- Status of `db->cursor`. -/
  cursor_rc : Int
  /-- Error injected into `c_get(DB_SET)` on a key (`0`: none). -/
  get_rc : Key → Int
  /-- Error injected into `c_put` of an id under a key (`0`: none). -/
  put_rc : Key → Nat → Int
  /-- The uncached path `bdb_idl_insert_key` of `idl.c`, as a function of the
  stored duplicates. -/
  idl_insert_key : Key → Nat → (Key → List Nat) → Int × (Key → List Nat)

/-- An IDL environment with caching enabled in which every store call
succeeds. -/
def IdlEnv.ok (dbsize maxsize : Nat) : IdlEnv :=
  { BDB_IDL_DB_SIZE := dbsize, bi_idl_cache_max_size := maxsize, uninit := 0,
    cursor_rc := 0, get_rc := fun _ => 0, put_rc := fun _ _ => 0,
    idl_insert_key := fun _ _ d => (0, d) }

/-- The process-wide part of the cache: the block counter `bi_idl_cache_size` and
the free list `bdb_tool_idl_free_list`. -/
structure IdlGlobal where
  bi_idl_cache_size : Int
  free_list : List IdBlock

/-- One secondary database.  Modelled from the spec: the store keeps, per key, a
set of id duplicates in the store's duplicate order, which is numeric order of the
ids (`[]` is an absent key).  `app_private` is the tree of cache entries, listed
inorder. -/
structure DB where
  data : Key → List Nat
  app_private : List bdb_tool_idl_cache

/-- A store in which every key is absent. -/
def emptyData : Key → List Nat := fun _ => []

/-- The store with the duplicates under one key replaced. -/
def setData (data : Key → List Nat) (k : Key) (d : List Nat) : Key → List Nat :=
  fun x => if x = k then d else data x

/-- Modelled from the spec: the order of the tree, "shorter length first; then
byte-wise memcmp". -/
def key_lt (a b : Key) : Bool :=
  if a.length < b.length then true
  else if b.length < a.length then false
  else decide (a < b)

/-- Modelled from the spec: `avl_find` returns the entry whose key compares equal. -/
def avl_find : List bdb_tool_idl_cache → Key → Option bdb_tool_idl_cache
  | [], _ => none
  | ic :: rest, k => if ic.kstr = k then some ic else avl_find rest k

/-- Modelled from the spec: `avl_insert` with `avl_dup_error` places the entry at
its position in key order and refuses a key that is already present. -/
def avl_insert : List bdb_tool_idl_cache → bdb_tool_idl_cache → List bdb_tool_idl_cache
  | [], ic => [ic]
  | e :: rest, ic =>
    if ic.kstr = e.kstr then e :: rest
    else if key_lt ic.kstr e.kstr then ic :: e :: rest
    else e :: avl_insert rest ic

/-- Writing through the pointer `ic`: the tree node with that key takes the new
field values. -/
def avl_update : List bdb_tool_idl_cache → bdb_tool_idl_cache → List bdb_tool_idl_cache
  | [], _ => []
  | e :: rest, ic => if e.kstr = ic.kstr then ic :: rest else e :: avl_update rest ic

/-- Modelled from the spec: `c_put` on a store with sorted duplicates.  The id is
placed at its sorted position whatever the flag (`DB_KEYFIRST`, `DB_KEYLAST`,
`DB_NODUPDATA`); an id already stored under the key gives `DB_KEYEXIST`. -/
def c_put (env : IdlEnv) (k : Key) (nid : Nat) (dups : List Nat) : Int × List Nat :=
  if env.put_rc k nid ≠ 0 then (env.put_rc k nid, dups)
  else if nid ∈ dups then (DB_KEYEXIST, dups)
  else (0, List.orderedInsert (fun a b => a ≤ b) nid dups)

/-- A cursor positioned inside the duplicates of one key: the duplicates, the
index of the current item, and whether the current item has been deleted. -/
structure DupCursor where
  dups : List Nat
  pos : Nat
  deleted : Bool

/-- Modelled from the spec: `c_get(DB_NEXT_DUP)`.  Moves to the following
duplicate and returns it; `none` is `DB_NOTFOUND`, which leaves the cursor where
it was. -/
def c_get_next_dup (c : DupCursor) : Option (Nat × DupCursor) :=
  let p := if c.deleted then c.pos else c.pos + 1
  match c.dups.get? p with
  | some v => some (v, { c with pos := p, deleted := false })
  | none => none

/-- Modelled from the spec: `c_del` removes the current item. -/
def c_del (c : DupCursor) : DupCursor :=
  if c.deleted then c else { c with dups := c.dups.eraseIdx c.pos, deleted := true }

/-- The loop `while ( c_get( DB_NEXT_DUP ) == 0 ) c_del` of the flush, run for at
most `fuel` rounds. -/
def del_rest : Nat → DupCursor → DupCursor
  | 0, c => c
  | fuel + 1, c =>
    match c_get_next_dup c with
    | some (_, c1) => del_rest fuel (c_del c1)
    | none => c

/-- The inner loop of the normal write: for each slot value, skip a zero, else
`c_put(DB_NODUPDATA)`; `DB_KEYEXIST` is ignored, another error stops with `-1`. -/
def put_ids (env : IdlEnv) (k : Key) : List Nat → List Nat → Int × List Nat
  | [], d => (0, d)
  | x :: xs, d =>
    if x = 0 then put_ids env k xs d
    else
      let r := c_put env k x d
      if r.1 ≠ 0 ∧ r.1 ≠ DB_KEYEXIST then (-1, r.2) else put_ids env k xs r.2

/-- The bound `end` of the inner loop for a block: `IDBLOCK` for a block that has a
successor, else `count & (IDBLOCK-1)`, or `IDBLOCK` when that is zero. -/
def block_end (count : Nat) (hasNext : Bool) : Nat :=
  if hasNext then IDBLOCK
  else if count % IDBLOCK = 0 then IDBLOCK else count % IDBLOCK

/-- The outer loop `for ( ice = ic->head, n=0; ice; ice = ice->next, n++ )` of the
normal write.  Result: status, the final `n`, the duplicates. -/
def flush_blocks (env : IdlEnv) (k : Key) (count : Nat) :
    List IdBlock → Nat → List Nat → Int × Nat × List Nat
  | [], n, d => (0, n, d)
  | b :: rest, n, d =>
    let r := put_ids env k ((List.range (block_end count (!rest.isEmpty))).map b) d
    if r.1 ≠ 0 then (-1, n, r.2) else flush_blocks env k count rest (n + 1) r.2

/-- The part of `bdb_tool_idl_flush_one` after its cursor has been opened (lines
773-855), on the duplicates stored under the entry's key.  Result: status, the
counter `n` of the normal write when that branch ran, and the duplicates
afterwards. -/
def flush_one_dups (env : IdlEnv) (ic : bdb_tool_idl_cache) (dups : List Nat) :
    Int × Option Nat × List Nat :=
  let rc_get : Int :=
    if env.get_rc ic.kstr ≠ 0 then env.get_rc ic.kstr
    else if dups.isEmpty then DB_NOTFOUND else 0
  let nid := dups.headD 0
  -- If key already exists and we're writing a range...
  if rc_get = 0 ∧ ic.count > env.BDB_IDL_DB_SIZE then
    let c0 : DupCursor := { dups := dups, pos := 0, deleted := false }
    let d1 : List Nat :=
      if nid ≠ 0 then
        -- it's not currently a range: delete old info, store range marker
        (c_put env ic.kstr 0 (del_rest dups.length c0).dups).2
      else
        -- skip lo, get hi, delete hi
        let c1 := match c_get_next_dup c0 with
          | some (_, c) => c
          | none => c0
        let c2 := match c_get_next_dup c1 with
          | some (_, c) => c
          | none => c1
        (c_del c2).dups
    (0, none, (c_put env ic.kstr ic.last d1).2)
  else if rc_get ≠ 0 ∧ rc_get ≠ DB_NOTFOUND then (-1, none, dups)
  else if ic.count > env.BDB_IDL_DB_SIZE then
    -- range, didn't exist before
    let p0 := c_put env ic.kstr 0 dups
    if p0.1 ≠ 0 then (-1, none, p0.2)
    else
      let p1 := c_put env ic.kstr ic.first p0.2
      if p1.1 ≠ 0 then (-1, none, p1.2)
      else
        let p2 := c_put env ic.kstr ic.last p1.2
        (if p2.1 ≠ 0 then -1 else 0, none, p2.2)
  else
    -- Just a normal write
    let r := flush_blocks env ic.kstr ic.count ic.blocks 0 dups
    (r.1, some r.2.1, r.2.2)

/-- Function `bdb_tool_idl_flush_one`, applied to the entry `ic`.  Result:
status, the process-wide part, the store, and the entry as left behind when it
is the one `db->app_private` points to, which is not freed (any other entry is
freed, and the caller drops what is returned for it). -/
def bdb_tool_idl_flush_one (env : IdlEnv) (ic : bdb_tool_idl_cache)
    (g : IdlGlobal) (data : Key → List Nat) :
    Int × IdlGlobal × (Key → List Nat) × bdb_tool_idl_cache :=
  -- Freshly allocated, ignore it
  if ic.blocks.isEmpty ∧ ic.count ≤ env.BDB_IDL_DB_SIZE then (0, g, data, ic)
  else if env.cursor_rc ≠ 0 then (-1, g, data, ic)
  else
    let r := flush_one_dups env ic (data ic.kstr)
    let g1 : IdlGlobal :=
      match r.2.1 with
      | some n =>
        if ic.blocks.isEmpty then g
        else { bi_idl_cache_size := g.bi_idl_cache_size - n,
               free_list := ic.blocks ++ g.free_list }
      | none => g
    (r.1, g1, setData data ic.kstr r.2.2, { ic with blocks := [] })

/-- Modelled from the spec: `avl_apply( root, bdb_tool_idl_flush_one, db, -1,
AVL_INORDER )` visits the entries inorder and stops at the first `-1`.  The last
component is the kept entry as left behind, if it was visited. -/
def avl_apply_flush (env : IdlEnv) (keep : Option Key) :
    List bdb_tool_idl_cache → IdlGlobal → (Key → List Nat) → Option bdb_tool_idl_cache →
    Int × IdlGlobal × (Key → List Nat) × Option bdb_tool_idl_cache
  | [], g, d, kept => (AVL_NOMORE, g, d, kept)
  | ic :: rest, g, d, kept =>
    let r := bdb_tool_idl_flush_one env ic g d
    let kept1 := if keep = some ic.kstr then some r.2.2.2 else kept
    if r.1 = -1 then (-1, r.2.1, r.2.2.1, kept1)
    else avl_apply_flush env keep rest r.2.1 r.2.2.1 kept1

/-- Function `bdb_tool_idl_flush_db( db, ic )`; `keep` is the key of `ic` (`none`
for `NULL`).  The tree is freed whatever the status. -/
def bdb_tool_idl_flush_db (env : IdlEnv) (keep : Option Key) (g : IdlGlobal) (db : DB) :
    Int × IdlGlobal × DB × Option bdb_tool_idl_cache :=
  let r := avl_apply_flush env keep db.app_private g db.data none
  (if r.1 ≠ -1 then 0 else r.1, r.2.1, { data := r.2.2.1, app_private := [] }, r.2.2.2)

/-- Function `bdb_tool_idl_flush`, over the secondary databases
`bi_databases[BDB_NDB ..]`. -/
def bdb_tool_idl_flush_loop (env : IdlEnv) : List DB → IdlGlobal → Int × IdlGlobal × List DB
  | [], g => (0, g, [])
  | db :: rest, g =>
    if db.app_private.isEmpty then
      let r := bdb_tool_idl_flush_loop env rest g
      (r.1, r.2.1, db :: r.2.2)
    else
      let f := bdb_tool_idl_flush_db env none g db
      if f.1 ≠ 0 then (f.1, f.2.1, f.2.2.1 :: rest)
      else
        let r := bdb_tool_idl_flush_loop env rest f.2.1
        (r.1, r.2.1, f.2.2.1 :: r.2.2)

/-- Function `bdb_tool_idl_flush`. -/
def bdb_tool_idl_flush (env : IdlEnv) (g : IdlGlobal) (dbs : List DB) :
    Int × IdlGlobal × List DB :=
  let r := bdb_tool_idl_flush_loop env dbs g
  (r.1, if r.1 = 0 then { r.2.1 with bi_idl_cache_size := 0 } else r.2.1, r.2.2)

/-- The creation branch of `bdb_tool_idl_add` (lines 921-957): the new entry with
the count (and `first`) loaded from the store. -/
def idl_cache_load (env : IdlEnv) (key : Key) (dups : List Nat) : bdb_tool_idl_cache :=
  let ic : bdb_tool_idl_cache :=
    { kstr := key, blocks := [], first := env.uninit, last := 0, count := 0 }
  if env.get_rc key ≠ 0 ∨ dups.isEmpty then ic
  else if dups.headD 0 = 0 then { ic with count := env.BDB_IDL_DB_SIZE + 1 }
  else { ic with count := dups.length, first := dups.headD 0 }

/-- The store `ice->ids[ ic->count & (IDBLOCK-1) ] = id` into the tail block. -/
def tail_store : List IdBlock → Nat → Nat → List IdBlock
  | [], _, _ => []
  | [b], slot, id => [fun i => if i = slot then id else b i]
  | b :: rest, slot, id => b :: tail_store rest slot id

/-- Lines 992-1013 of `bdb_tool_idl_add`: take a block from the free list (or
allocate one), zero it, link it as the new tail, and store the id in it. -/
def idl_new_block (id : Nat) (ic : bdb_tool_idl_cache) (g : IdlGlobal) (db : DB) :
    Int × IdlGlobal × DB :=
  let g1 : IdlGlobal :=
    { bi_idl_cache_size := g.bi_idl_cache_size + 1, free_list := g.free_list.tail }
  let ice : IdBlock := fun _ => 0
  let first1 := if ic.count = 0 then id else ic.first
  let ic2 : bdb_tool_idl_cache :=
    { ic with blocks := tail_store (ic.blocks ++ [ice]) (ic.count % IDBLOCK) id,
              first := first1, count := ic.count + 1 }
  (0, g1, { db with app_private := avl_update db.app_private ic2 })

/-- The part of `bdb_tool_idl_add` after the entry `ic` has been found or created
(lines 958-1015); `ic` is the tree node with that key. -/
def idl_add_to (env : IdlEnv) (id : Nat) (ic : bdb_tool_idl_cache) (g : IdlGlobal) (db : DB) :
    Int × IdlGlobal × DB :=
  -- are we a range already?
  if ic.count > env.BDB_IDL_DB_SIZE then
    (0, g, { db with app_private := avl_update db.app_private { ic with last := id } })
  -- Are we at the limit, and converting to a range?
  else if ic.count = env.BDB_IDL_DB_SIZE then
    let g1 : IdlGlobal :=
      if ic.blocks.length ≠ 0 then
        { bi_idl_cache_size := g.bi_idl_cache_size - ic.blocks.length,
          free_list := ic.blocks ++ g.free_list }
      else g
    let ic1 : bdb_tool_idl_cache := { ic with blocks := [], last := id, count := ic.count + 1 }
    (0, g1, { db with app_private := avl_update db.app_private ic1 })
  -- No free block, create that too
  else if ic.blocks.isEmpty ∨ ic.count % IDBLOCK = 0 then
    if g.bi_idl_cache_size ≥ (env.bi_idl_cache_max_size : Int) then
      let f := bdb_tool_idl_flush_db env (some ic.kstr) g db
      if f.1 ≠ 0 then (f.1, f.2.1, f.2.2.1)
      else
        let ic1 := f.2.2.2.getD ic
        idl_new_block id ic1 f.2.1 { f.2.2.1 with app_private := avl_insert [] ic1 }
    else idl_new_block id ic g db
  else
    let ic1 : bdb_tool_idl_cache :=
      { ic with blocks := tail_store ic.blocks (ic.count % IDBLOCK) id, count := ic.count + 1 }
    (0, g, { db with app_private := avl_update db.app_private ic1 })

/-- Function `bdb_tool_idl_add` for one secondary database. -/
def bdb_tool_idl_add (env : IdlEnv) (key : Key) (id : Nat) (g : IdlGlobal) (db : DB) :
    Int × IdlGlobal × DB :=
  if env.bi_idl_cache_max_size = 0 then
    ((env.idl_insert_key key id db.data).1, g,
      { db with data := (env.idl_insert_key key id db.data).2 })
  else
    match avl_find db.app_private key with
    | none =>
      -- No entry yet, create one
      let fresh : bdb_tool_idl_cache :=
        { kstr := key, blocks := [], first := env.uninit, last := 0, count := 0 }
      if env.cursor_rc ≠ 0 then
        (env.cursor_rc, g, { db with app_private := avl_insert db.app_private fresh })
      else
        let ic := idl_cache_load env key (db.data key)
        idl_add_to env id ic g { db with app_private := avl_insert db.app_private ic }
    | some ic => idl_add_to env id ic g db

/-! ## IDL cache: what a flush will write -/

/-- Every store call of the IDL cache succeeds and caching is enabled. -/
structure IdlEnv.Good (env : IdlEnv) : Prop where
  caching : env.bi_idl_cache_max_size ≠ 0
  cursor_ok : env.cursor_rc = 0
  get_ok : ∀ k, env.get_rc k = 0
  put_ok : ∀ k i, env.put_rc k i = 0

/-- The slot values the normal write of `bdb_tool_idl_flush_one` visits, block by
block, each block up to its bound `end`. -/
def visit_ids (count : Nat) : List IdBlock → List Nat
  | [] => []
  | b :: rest =>
    (List.range (block_end count (!rest.isEmpty))).map b ++ visit_ids count rest

/-- One `c_put(DB_NODUPDATA)` of the normal write on the duplicates of a key,
when the store call itself cannot fail: a zero is skipped, an id already stored is
left alone. -/
def dup_ins (d : List Nat) (x : Nat) : List Nat :=
  if x = 0 ∨ x ∈ d then d else List.orderedInsert (fun a b => a ≤ b) x d

/-- The duplicates after the normal write of the given slot values. -/
def dup_merge (d : List Nat) (xs : List Nat) : List Nat := xs.foldl dup_ins d

/-- The duplicates under the entry's own key after `bdb_tool_idl_flush_one`, as a
function of the duplicates before. -/
def flush_key (env : IdlEnv) (ic : bdb_tool_idl_cache) (dups : List Nat) : List Nat :=
  if ic.blocks.isEmpty ∧ ic.count ≤ env.BDB_IDL_DB_SIZE then dups
  else if env.cursor_rc ≠ 0 then dups
  else (flush_one_dups env ic dups).2.2

/-- The status of `bdb_tool_idl_flush_one`, as a function of the duplicates under
the entry's own key. -/
def flush_rc (env : IdlEnv) (ic : bdb_tool_idl_cache) (dups : List Nat) : Int :=
  if ic.blocks.isEmpty ∧ ic.count ≤ env.BDB_IDL_DB_SIZE then 0
  else if env.cursor_rc ≠ 0 then -1
  else (flush_one_dups env ic dups).1

/-- The keys of the tree are pairwise different (`avl_dup_error`). -/
def TreeOk (t : List bdb_tool_idl_cache) : Prop := (t.map (fun ic => ic.kstr)).Nodup

/-- A run of `bdb_tool_idl_add` under one key, one call per id. -/
def idl_add_all (env : IdlEnv) (key : Key) : List Nat → IdlGlobal → DB → IdlGlobal × DB
  | [], g, db => (g, db)
  | id :: ids, g, db =>
    idl_add_all env key ids (bdb_tool_idl_add env key id g db).2.1
      (bdb_tool_idl_add env key id g db).2.2

/-- What one key looks like to the cache: the stored duplicates `S`, and the
fields `count`, `first`, `last` of its cache entry with the non-zero slot values
`P` a normal write would visit. -/
structure KView where
  S : List Nat
  c : Nat
  f : Nat
  l : Nat
  P : List Nat

/-- The view right after the cache entry of a key has been created from the
stored duplicates. -/
def KView.load (env : IdlEnv) (key : Key) (S : List Nat) : KView :=
  { S := S, c := (idl_cache_load env key S).count, f := (idl_cache_load env key S).first,
    l := 0, P := [] }

/-- One `bdb_tool_idl_add` seen on the view; `p` tells whether the call ran the
memory-pressure flush. -/
def KView.add (env : IdlEnv) (p : Bool) (id : Nat) (v : KView) : KView :=
  if v.c > env.BDB_IDL_DB_SIZE then { v with l := id }
  else if v.c = env.BDB_IDL_DB_SIZE then { v with P := [], l := id, c := v.c + 1 }
  else if p then
    { S := dup_merge v.S v.P, c := v.c + 1, f := if v.c = 0 then id else v.f, l := v.l,
      P := if id = 0 then [] else [id] }
  else
    { v with c := v.c + 1, f := if v.c = 0 then id else v.f,
             P := v.P ++ (if id = 0 then [] else [id]) }

/-- A run of calls on the view, each with its own pressure flag. -/
def KView.run (env : IdlEnv) : List (Bool × Nat) → KView → KView
  | [], v => v
  | (p, id) :: rest, v => KView.run env rest (KView.add env p id v)

/-- The duplicates a flush leaves under the key, computed from the view. -/
def KView.final (env : IdlEnv) (key : Key) (v : KView) : List Nat :=
  if v.c > env.BDB_IDL_DB_SIZE then
    flush_key env { kstr := key, blocks := [], first := v.f, last := v.l, count := v.c } v.S
  else dup_merge v.S v.P

/-- The cache of a database holds exactly one entry, for `key`, and the view
describes it. -/
def KView.Rep (env : IdlEnv) (key : Key) (v : KView) (db : DB) : Prop :=
  ∃ ic, db.app_private = [ic] ∧ ic.kstr = key ∧ db.data key = v.S ∧ ic.count = v.c ∧
    ic.first = v.f ∧ ic.last = v.l ∧
    (v.c ≤ env.BDB_IDL_DB_SIZE → (visit_ids ic.count ic.blocks).filter (fun x => x ≠ 0) = v.P) ∧
    (v.c > env.BDB_IDL_DB_SIZE → ic.blocks = []) ∧
    (ic.blocks = [] → v.P = [])

/-- Invariant of the view during a run of inserts whose ids are all at least
`lo`: either `lo` is the first stored duplicate, or nothing is stored yet and `lo`
is the entry's `first`, still waiting in a block while the entry is a list. -/
def KView.LoInv (env : IdlEnv) (lo : Nat) (v : KView) : Prop :=
  lo ≠ 0 ∧ (∀ x ∈ v.P, lo ≤ x) ∧
  (v.S.head? = some lo ∨
    (v.S = [] ∧ v.f = lo ∧ v.c ≠ 0 ∧ (v.c ≤ env.BDB_IDL_DB_SIZE → lo ∈ v.P)))

/-- The store after `avl_apply` has run `bdb_tool_idl_flush_one` over the tree
(stopping at the first `-1`). -/
def flush_data (env : IdlEnv) : List bdb_tool_idl_cache → (Key → List Nat) → (Key → List Nat)
  | [], d => d
  | ic :: rest, d =>
    if flush_rc env ic (d ic.kstr) = -1 then setData d ic.kstr (flush_key env ic (d ic.kstr))
    else flush_data env rest (setData d ic.kstr (flush_key env ic (d ic.kstr)))

/-- Did every `bdb_tool_idl_flush_one` of the traversal return something other
than `-1`? -/
def flush_ok (env : IdlEnv) : List bdb_tool_idl_cache → (Key → List Nat) → Bool
  | [], _ => true
  | ic :: rest, d =>
    if flush_rc env ic (d ic.kstr) = -1 then false
    else flush_ok env rest (setData d ic.kstr (flush_key env ic (d ic.kstr)))

/-- The states of one secondary database that a load can reach: it starts with
an empty cache over any store, and then runs `bdb_tool_idl_add` and
`bdb_tool_idl_flush_db`, the process-wide part being whatever the other databases
left. -/
inductive DbReach (env : IdlEnv) : DB → Prop where
  | init (data : Key → List Nat) : DbReach env ⟨data, []⟩
  | add (key : Key) (id : Nat) (g : IdlGlobal) (db : DB) :
      DbReach env db → DbReach env (bdb_tool_idl_add env key id g db).2.2
  | flush (g : IdlGlobal) (db : DB) :
      DbReach env db → DbReach env (bdb_tool_idl_flush_db env none g db).2.2.1

/-- The id just inserted under `key` is held by the cache entry of `key`: as
`last` of a range, or in a slot that a normal write will visit. -/
def IdHeld (env : IdlEnv) (key : Key) (id : Nat) (db : DB) : Prop :=
  ∃ ic, avl_find db.app_private key = some ic ∧
    ((ic.count > env.BDB_IDL_DB_SIZE ∧ ic.last = id) ∨
     (ic.count ≤ env.BDB_IDL_DB_SIZE ∧ ic.blocks ≠ [] ∧
       (id = 0 ∨ id ∈ visit_ids ic.count ic.blocks)))

/-! ## Load pipeline: `bdb_tool_index_add` and `bdb_tool_entry_put` -/

/-- The calls an entry point makes to its collaborators, in program order, with
the transaction handle each one receives. -/
inductive Call where
  | txn_begin
  | txn_commit (tid : Option DB_TXN)
  | txn_abort (tid : Option DB_TXN)
  | next_id (tid : Option DB_TXN)
  | index_add (tid : Option DB_TXN)
  | id2entry_add (tid : Option DB_TXN)
  | id2entry_update (tid : Option DB_TXN)
  | recset (a : Attribute)
  | broadcast
  | recrun (base : Nat)
  | index_entry_add (tid : Option DB_TXN)
deriving DecidableEq, Repr

/-- The loop `for ( a = e->e_attrs; ...) rc = bdb_index_recset(...)` of
`bdb_tool_index_add`: the first non-zero status stops it. -/
def recset_loop (env : ToolEnv) : List Attribute → Int × List Call
  | [] => (0, [])
  | a :: as =>
    if env.recset_rc a ≠ 0 then (env.recset_rc a, [Call.recset a])
    else ((recset_loop env as).1, Call.recset a :: (recset_loop env as).2)

/-- The polling loop `for ( i=1; i<slap_tool_thread_max; i++ )` of
`bdb_tool_index_add`, over the slots `i, i+1, ...` (`n` of them), each read once
it is no longer `LDAP_BUSY`: the first non-zero slot status is returned. -/
def poll_slots (env : ToolEnv) (id : Nat) : Nat → Nat → Int
  | 0, _ => 0
  | n + 1, i => if env.recrun_rc id i ≠ 0 then env.recrun_rc id i else poll_slots env id n (i + 1)

/-- Function `bdb_tool_index_add`: status and the collaborator calls made by the
producer.  `bi_nattrs` is the backend's current number of indexed attributes. -/
def bdb_tool_index_add (env : ToolEnv) (bi_nattrs : Nat) (txn : Option DB_TXN) (e : Entry) :
    Int × List Call :=
  if bi_nattrs = 0 then (0, [])
  else if env.quick then
    let rs := recset_loop env e.e_attrs
    if rs.1 ≠ 0 then (rs.1, rs.2)
    else
      let r0 := env.recrun_rc e.e_id 0
      if r0 ≠ 0 then (r0, rs.2 ++ [Call.broadcast, Call.recrun 0])
      else (poll_slots env e.e_id (env.slap_tool_thread_max - 1) 1,
            rs.2 ++ [Call.broadcast, Call.recrun 0])
  else (env.index_entry_add_rc e, [Call.index_entry_add txn])

/-- Modelled from the spec: the primary store maps an id to a serialized entry,
in key order; a stored value may be empty (`none`). -/
abbrev Id2Entry := List (Nat × Option Entry)

/-- Modelled from the spec: `bdb_id2entry_add` and `bdb_id2entry_update` write
`id → serialized(entry)` into the primary store, keeping key order and replacing
a record with the same key. -/
def id2entry_put : Id2Entry → Nat → Entry → Id2Entry
  | [], id, e => [(id, some e)]
  | (k, v) :: rest, id, e =>
    if id < k then (id, some e) :: (k, v) :: rest
    else if id = k then (id, some e) :: rest
    else (k, v) :: id2entry_put rest id e

/-- Cursor over the primary store (`DBC`): the index of the current record, or
`none` while it is not positioned. -/
structure DBC where
  pos : Option Nat
deriving DecidableEq, Repr

/-- The statics of `tools.c` and the backend fields the entry points use. -/
structure Session where
  /-- Resolver state (`holes`, `nholes`, `nhmax`, the dn2id map, `bi_lastid`). -/
  tool : ToolState
  /-- Static `cursor`; `none` is `NULL`. -/
  cursor : Option DBC
  /-- Static `key.data`, decoded as an id. -/
  key_data : Option Nat
  /-- Static `data.data`. -/
  data_data : Option Entry
  /-- Static `index_nattrs`. -/
  index_nattrs : Nat
  /-- Field `bi_nattrs`. -/
  bi_nattrs : Nat
  /-- Field `bi_attrs`; `none` is `NULL` (no index configured). -/
  bi_attrs : Option (Nat → Attribute)
  /-- The primary store. -/
  id2entry : Id2Entry
  /-- True when `bdb_tool_info` is set, that is the worker pool was started. -/
  tool_info : Bool
  /-- Flag `slapd_shutdown`. -/
  slapd_shutdown : Bool
  /-- Block counter and free list of the IDL cache. -/
  idl_g : IdlGlobal
  /-- The secondary databases `bi_databases[BDB_NDB ..]`. -/
  dbs : List DB

/-- Function `bdb_tool_entry_put`.  Result: the returned id, the collaborator
calls in program order, and the state.  Modelled from the spec: `TXN_ABORT`
discards the store writes made under the transaction (the dn2id bindings and the
primary-store record); the statics (`holes`, `bi_lastid`) are not restored. -/
def bdb_tool_entry_put (env : ToolEnv) (e : Entry) (s : Session) : Nat × List Call × Session :=
  if ¬ env.quick ∧ env.txn_begin_rc ≠ 0 then (NOID, [Call.txn_begin], s)
  else
    let tid : Option DB_TXN := if env.quick then none else some ()
    let t0 : List Call := if env.quick then [] else [Call.txn_begin]
    -- add dn2id indices
    let r := bdb_tool_next_id env e.e_nname e.e_name e.e_id false s.tool
    let e1 : Entry := { e with e_id := r.2.1 }
    let s1 : Session := { s with tool := r.2.2 }
    let t1 := t0 ++ [Call.next_id tid]
    -- the three steps up to the label `done`
    let body : Int × List Call × Session :=
      if r.1 ≠ 0 then (r.1, t1, s1)
      else
        let rc2 : Int :=
          if ¬ env.bi_linear_index then (bdb_tool_index_add env s.bi_nattrs tid e1).1 else 0
        let t2 := if ¬ env.bi_linear_index then t1 ++ [Call.index_add tid] else t1
        if rc2 ≠ 0 then (rc2, t2, s1)
        else
          -- id2entry index
          let rc3 := env.id2entry_add_rc e1
          if rc3 ≠ 0 then (rc3, t2 ++ [Call.id2entry_add tid], s1)
          else (0, t2 ++ [Call.id2entry_add tid],
                { s1 with id2entry := id2entry_put s1.id2entry e1.e_id e1 })
    -- done:
    if body.1 = 0 then
      if ¬ env.quick then
        if env.txn_commit_rc ≠ 0 then (NOID, body.2.1 ++ [Call.txn_commit tid], body.2.2)
        else (e1.e_id, body.2.1 ++ [Call.txn_commit tid], body.2.2)
      else (e1.e_id, body.2.1, body.2.2)
    else
      if ¬ env.quick then
        (NOID, body.2.1 ++ [Call.txn_abort tid],
          { body.2.2 with tool := { body.2.2.tool with dn2id := s.tool.dn2id },
                          id2entry := s.id2entry })
      else (NOID, body.2.1, body.2.2)

/-- Is the call one of `TXN_COMMIT` / `TXN_ABORT`, that is the end of a
transaction? -/
def Call.endsTxn : Call → Bool
  | .txn_commit _ => true
  | .txn_abort _ => true
  | _ => false

/-- Is the call one of `TXN_BEGIN` / `TXN_COMMIT` / `TXN_ABORT`? -/
def Call.isTxn : Call → Bool
  | .txn_begin => true
  | .txn_commit _ => true
  | .txn_abort _ => true
  | _ => false

/-- The transaction handle a store call receives (`none` for the null
transaction); calls that take no handle give `none` as well. -/
def Call.tid : Call → Option DB_TXN
  | .txn_commit t => t
  | .txn_abort t => t
  | .next_id t => t
  | .index_add t => t
  | .id2entry_add t => t
  | .id2entry_update t => t
  | .index_entry_add t => t
  | _ => none

/-- A session state right after a successful `bdb_tool_entry_open` on an empty
backend with `n` indexed attributes. -/
def Session.fresh (lastid n : Nat) : Session :=
  { tool := ToolState.init lastid, cursor := some ⟨none⟩, key_data := none, data_data := none,
    index_nattrs := 0, bi_nattrs := n, bi_attrs := if n = 0 then none else some (fun i => i),
    id2entry := [], tool_info := false, slapd_shutdown := false,
    idl_g := ⟨0, []⟩, dbs := [] }

/-! ## Cursor session -/

/-- Modelled from the spec: `c_get(DB_NEXT)` on the primary store; from an
unpositioned cursor it is `DB_FIRST`.  `none` is `DB_NOTFOUND`. -/
def id2entry_c_next (store : Id2Entry) (c : DBC) : Option (Nat × Nat × Option Entry) :=
  let p := match c.pos with
    | none => 0
    | some i => i + 1
  match store.get? p with
  | some kv => some (p, kv.1, kv.2)
  | none => none

/-- Modelled from the spec: `c_get(DB_FIRST)` on the primary store. -/
def id2entry_c_first (store : Id2Entry) : Option (Nat × Nat × Option Entry) :=
  match store.get? 0 with
  | some kv => some (0, kv.1, kv.2)
  | none => none

/-- Modelled from the spec: `c_get(DB_SET)` on the primary store, searching from
index `i`. -/
def id2entry_c_set : Id2Entry → Nat → Nat → Option (Nat × Nat × Option Entry)
  | [], _, _ => none
  | (k, v) :: rest, id, i => if k = id then some (i, k, v) else id2entry_c_set rest id (i + 1)

/-- Function `bdb_tool_entry_open`. -/
def bdb_tool_entry_open (env : ToolEnv) (s : Session) : Int × Session :=
  let s0 : Session := { s with key_data := none, data_data := none }
  if s0.cursor.isNone ∧ env.cursor_open_rc ≠ 0 then (-1, s0)
  else
    let s1 : Session := if s0.cursor.isNone then { s0 with cursor := some ⟨none⟩ } else s0
    -- Set up for threaded slapindex
    if env.quick ∧ ¬ env.readonly ∧ s1.bi_nattrs ≠ 0 then (0, { s1 with tool_info := true })
    else (0, s1)

/-- A line written to `stderr` by `bdb_tool_entry_close`. -/
inductive ErrLine where
  | entries_missing
  | entry (id : Nat) (dn : Name)
deriving DecidableEq, Repr

/-- Function `bdb_tool_entry_close`.  Result: status, the lines written to
`stderr`, the state. -/
def bdb_tool_entry_close (ienv : IdlEnv) (s : Session) : Int × List ErrLine × Session :=
  let s1 : Session := if s.tool_info then { s with slapd_shutdown := true } else s
  let s2 : Session := { s1 with key_data := none, data_data := none, cursor := none }
  let f := bdb_tool_idl_flush ienv s2.idl_g s2.dbs
  let s3 : Session := { s2 with idl_g := f.2.1, dbs := f.2.2 }
  if s3.tool.nholes ≠ 0 then
    (-1, ErrLine.entries_missing ::
          (List.range s3.tool.nholes).map
            (fun i => ErrLine.entry (s3.tool.holes i).id (s3.tool.holes i).dn), s3)
  else (0, [], s3)

/-- Function `bdb_tool_entry_next`; `none` is a dereference of the `NULL`
cursor. -/
def bdb_tool_entry_next (s : Session) : Option (Nat × Session) :=
  match s.cursor with
  | none => none
  | some c =>
    match id2entry_c_next s.id2entry c with
    | some (p, k, v) =>
      some (if v.isNone then NOID else k,
        { s with cursor := some ⟨some p⟩, key_data := some k, data_data := v })
    | none =>
      -- linear indexing with more attrs to index, at the end of the database: start over
      if s.index_nattrs ≠ 0 then
        let s1 : Session :=
          { s with bi_attrs := s.bi_attrs.map
                     (fun a i => if i = 0 then a s.index_nattrs else a i),
                   index_nattrs := s.index_nattrs - 1 }
        match id2entry_c_first s.id2entry with
        | some (p, k, v) =>
          some (if v.isNone then NOID else k,
            { s1 with cursor := some ⟨some p⟩, key_data := some k, data_data := v })
        | none => some (NOID, s1)
      else some (NOID, s)

/-- Function `bdb_tool_entry_get`: the entry decoded from the static `data`, with
its id set.  The outer `none` is the failed `assert( data.data != NULL )`, the
inner `none` a `NULL` entry. -/
def bdb_tool_entry_get (env : ToolEnv) (id : Nat) (s : Session) : Option (Option Entry) :=
  match s.data_data with
  | none => none
  | some e => some (if env.entry_decode_rc = 0 then some { e with e_id := id } else none)

/-- Function `bdb_tool_id2entry_get`; `none` is a dereference of the `NULL` cursor
or a failed assertion. -/
def bdb_tool_id2entry_get (env : ToolEnv) (id : Nat) (s : Session) :
    Option (Int × Option Entry × Session) :=
  match s.cursor with
  | none => none
  | some _ =>
    match id2entry_c_set s.id2entry id 0 with
    | some (p, _, v) =>
      let s1 : Session := { s with cursor := some ⟨some p⟩, data_data := v }
      match bdb_tool_entry_get env id s1 with
      | none => none
      | some (some e) => some (0, some e, { s1 with key_data := none })
      | some none => some (LDAP_OTHER, none, { s1 with key_data := none })
    | none => some (DB_NOTFOUND, none, { s with key_data := none })

/-- Function `bdb_tool_entry_reindex`; `none` is a failed assertion.  When
`bi_attrs` is set there is at least one indexed attribute. -/
def bdb_tool_entry_reindex (env : ToolEnv) (id : Nat) (s : Session) :
    Option (Int × List Call × Session) :=
  -- No indexes configured, nothing to do.
  if s.bi_attrs.isNone then some (0, [], s)
  else
    -- Get the first attribute to index
    let s1 : Session :=
      if env.bi_linear_index ∧ s.index_nattrs = 0 then
        { s with index_nattrs := s.bi_nattrs - 1, bi_nattrs := 1 }
      else s
    match bdb_tool_entry_get env id s1 with
    | none => none
    | some none => some (-1, [], s1)
    | some (some e) =>
      if ¬ env.quick ∧ env.txn_begin_rc ≠ 0 then
        some (env.txn_begin_rc, [Call.txn_begin, Call.txn_abort none], s1)
      else
        let tid : Option DB_TXN := if env.quick then none else some ()
        let t0 : List Call := if env.quick then [] else [Call.txn_begin]
        let r := bdb_tool_index_add env s1.bi_nattrs tid e
        let t1 := t0 ++ [Call.index_add tid]
        if r.1 = 0 then
          if ¬ env.quick then some (env.txn_commit_rc, t1 ++ [Call.txn_commit tid], s1)
          else some (0, t1, s1)
        else
          if ¬ env.quick then some (r.1, t1 ++ [Call.txn_abort tid], s1)
          else some (r.1, t1, s1)

/-- Function `bdb_tool_entry_modify`; `none` is the failed
`assert( e->e_id != NOID )`. -/
def bdb_tool_entry_modify (env : ToolEnv) (e : Entry) (s : Session) :
    Option (Nat × List Call × Session) :=
  if e.e_id = NOID then none
  else if ¬ env.quick then
    -- the cursor is closed before TXN_BEGIN
    let s0 : Session := { s with cursor := none }
    if env.txn_begin_rc ≠ 0 then some (NOID, [Call.txn_begin], s0)
    else
      -- id2entry index
      if env.id2entry_update_rc e = 0 then
        some (if env.txn_commit_rc ≠ 0 then NOID else e.e_id,
          [Call.txn_begin, Call.id2entry_update (some ()), Call.txn_commit (some ())],
          { s0 with id2entry := id2entry_put s0.id2entry e.e_id e })
      else
        some (NOID,
          [Call.txn_begin, Call.id2entry_update (some ()), Call.txn_abort (some ())], s0)
  else
    if env.id2entry_update_rc e = 0 then
      some (e.e_id, [Call.id2entry_update none],
        { s with id2entry := id2entry_put s.id2entry e.e_id e })
    else some (NOID, [Call.id2entry_update none], s)

/-- The operations of a session between `bdb_tool_entry_open` and
`bdb_tool_entry_close`. -/
inductive ToolOp where
  | next
  | id2entry_get (id : Nat)
  | put (e : Entry)
  | reindex (id : Nat)
  | modify (e : Entry)

/-- One operation of a session; `none` when the operation crashes. -/
def run_op (env : ToolEnv) : ToolOp → Session → Option Session
  | .next, s => (bdb_tool_entry_next s).map (fun r => r.2)
  | .id2entry_get id, s => (bdb_tool_id2entry_get env id s).map (fun r => r.2.2)
  | .put e, s => some (bdb_tool_entry_put env e s).2.2
  | .reindex id, s => (bdb_tool_entry_reindex env id s).map (fun r => r.2.2)
  | .modify e, s => (bdb_tool_entry_modify env e s).map (fun r => r.2.2)

/-- A sequence of operations, each under its own collaborator outcomes. -/
def run_ops : List (ToolEnv × ToolOp) → Session → Option Session
  | [], s => some s
  | (env, op) :: rest, s =>
    match run_op env op s with
    | some s1 => run_ops rest s1
    | none => none

/-- Is the operation a `bdb_tool_entry_modify` in non-quick mode? -/
def is_txn_modify : ToolEnv × ToolOp → Bool
  | (env, .modify _) => !env.quick
  | _ => false

/-! ## Reindex pipeline: linear multi-pass -/

/-- One record of the driver's trace: `bi_nattrs` and the attribute in slot 0 of
`bi_attrs` as `bdb_tool_entry_reindex` hands them to the indexer, and the id it
was called with. -/
structure ReindexCall where
  nattrs : Nat
  attr : Option Attribute
  id : Nat
deriving DecidableEq, Repr

/-- Modelled from the spec: the body of the driver loop of the reindex tool (the
caller of `bdb_tool_entry_next` and `bdb_tool_entry_reindex`, which is not part
of `tools.c`): `while id != NOID { bdb_tool_entry_reindex(id); id =
bdb_tool_entry_next() }`, with `fuel` bounding the number of loop tests.  The
status of `bdb_tool_entry_reindex` is not looked at.  `none`: out of fuel, or a
failed assertion. -/
def reindex_drive (env : ToolEnv) : Nat → Nat → Session → Option (List ReindexCall × Session)
  | 0, _, _ => none
  | fuel + 1, id, s =>
    if id = NOID then some ([], s)
    else
      match bdb_tool_entry_reindex env id s with
      | none => none
      | some r =>
        match bdb_tool_entry_next r.2.2 with
        | none => none
        | some n =>
          match reindex_drive env fuel n.1 n.2 with
          | none => none
          | some t =>
            some (⟨r.2.2.bi_nattrs, r.2.2.bi_attrs.map (fun a => a 0), id⟩ :: t.1, t.2)

/-- Modelled from the spec: the driver loop of the reindex tool,
`id = bdb_tool_entry_next(); while id != NOID { ... }`. -/
def reindex_all (env : ToolEnv) (fuel : Nat) (s : Session) : Option (List ReindexCall × Session) :=
  match bdb_tool_entry_next s with
  | none => none
  | some n => reindex_drive env fuel n.1 n.2

/-- The reindex calls of the passes that follow the current one when
`index_nattrs = r`: one full scan with the attribute of slot `r`, then slot
`r - 1`, down to slot `1`. -/
def later_passes (a : Nat → Attribute) (store : Id2Entry) : Nat → List ReindexCall
  | 0 => []
  | r + 1 => store.map (fun kv => ⟨1, some (a (r + 1)), kv.1⟩) ++ later_passes a store r

/-- The state of the driver inside a pass: the cursor is on record `i` of the
store, `data` holds its value, and either the first `bdb_tool_entry_reindex` of
the run is still to come (`index_nattrs = 0`, `bi_nattrs = r + 1`) or it has run
(`bi_nattrs = 1`, `index_nattrs = r`). -/
structure InPass (store : Id2Entry) (a : Nat → Attribute) (r i : Nat) (s : Session) : Prop where
  hstore : s.id2entry = store
  hcur : s.cursor = some ⟨some i⟩
  hdata : ∃ k e, store.get? i = some (k, some e) ∧ s.data_data = some e
  hattrs : s.bi_attrs = some a
  hn : (s.bi_nattrs = 1 ∧ s.index_nattrs = r) ∨ (s.index_nattrs = 0 ∧ s.bi_nattrs = r + 1)

/-! ## IDL cache: the key comparison -/

/-- A `struct berval`: the length `bv_len` (of the unsigned type `ber_len_t`) and
the bytes `bv_val`, by offset. -/
structure berval where
  bv_len : Nat
  bv_val : Nat → Nat

/-- The C library's `memcmp` over `n` bytes from offset `i`: zero when the bytes
agree, else of the sign of the difference of the first pair of bytes that differ
(here that difference itself). -/
def memcmp (p q : Nat → Nat) : Nat → Nat → Int
  | 0, _ => 0
  | n + 1, i => if p i = q i then memcmp p q n (i + 1) else (p i : Int) - (q i : Int)

/-- Conversion of an unsigned value to the 32-bit `int`: the low 32 bits, read in
two's complement. -/
def to_int (x : Nat) : Int :=
  if x % 2 ^ 32 < 2 ^ 31 then ((x % 2 ^ 32 : Nat) : Int) else ((x % 2 ^ 32 : Nat) : Int) - 2 ^ 32

/-- Function `bdb_tool_idl_cmp` on the keys of two cache entries.  `lbits` is the
width of `ber_len_t`, whose declaration is not part of `tools.c`; the lengths are
below `2 ^ lbits` and their difference is taken in that unsigned type before it is
assigned to the `int rc`. -/
def bdb_tool_idl_cmp (lbits : Nat) (c1 c2 : berval) : Int :=
  let rc := to_int ((c1.bv_len + 2 ^ lbits - c2.bv_len) % 2 ^ lbits)
  if rc ≠ 0 then rc else memcmp c1.bv_val c2.bv_val c1.bv_len 0

/-- The cache entry a call of `bdb_tool_idl_add` for `key` works on: the entry
found in the tree, else the one it creates, with the count loaded from the
store. -/
def idl_entry_of (env : IdlEnv) (key : Key) (db : DB) : bdb_tool_idl_cache :=
  match avl_find db.app_private key with
  | some ic => ic
  | none => idl_cache_load env key (db.data key)

/-- Every list-state entry of the tree still has the `last` it was created
with. -/
def ListLast (env : IdlEnv) (t : List bdb_tool_idl_cache) : Prop :=
  ∀ ic ∈ t, ic.count ≤ env.BDB_IDL_DB_SIZE → ic.last = 0

/-- The ids of the live holes are strictly ascending and none is above the last
id handed out. -/
structure HolesAsc (st : ToolState) : Prop where
  asc : ∀ i j, i < j → j < st.nholes → (st.holes i).id < (st.holes j).id
  le_last : ∀ i, i < st.nholes → (st.holes i).id ≤ st.bi_lastid

/-- The hole buffer is within its capacity: `nhmax` is `HOLE_SIZE` doubled some
number of times and has not outgrown the `unsigned` it is kept in, and `nholes ≤
nhmax - 1`. -/
structure HoleBound (st : ToolState) : Prop where
  cap : ∃ k, st.nhmax = HOLE_SIZE * 2 ^ k
  small : st.nhmax ≤ 2 ^ 31
  room : st.nholes ≤ st.nhmax - 1

/-- The first non-zero status of a list of statuses; `0` when there is none. -/
def first_error : List Int → Int
  | [] => 0
  | r :: rest => if r ≠ 0 then r else first_error rest

/-! ## IDL cache: the puts of the normal write -/

/-- The ids for which the inner loop of the normal write (see `put_ids`) issues
`c_put(DB_NODUPDATA)`, in program order: a zero slot is skipped, and the loop
stops after a put that fails with something other than `DB_KEYEXIST`. -/
def put_ids_calls (env : IdlEnv) (k : Key) : List Nat → List Nat → List Nat
  | [], _ => []
  | x :: xs, d =>
    if x = 0 then put_ids_calls env k xs d
    else
      let r := c_put env k x d
      if r.1 ≠ 0 ∧ r.1 ≠ DB_KEYEXIST then [x] else x :: put_ids_calls env k xs r.2

/-- The ids for which the normal write (see `flush_blocks`) issues
`c_put(DB_NODUPDATA)`, block after block. -/
def flush_blocks_calls (env : IdlEnv) (k : Key) (count : Nat) :
    List IdBlock → List Nat → List Nat
  | [], _ => []
  | b :: rest, d =>
    let xs := (List.range (block_end count (!rest.isEmpty))).map b
    let r := put_ids env k xs d
    if r.1 ≠ 0 then put_ids_calls env k xs d
    else put_ids_calls env k xs d ++ flush_blocks_calls env k count rest r.2

/-- The ids for which `bdb_tool_idl_flush_one` issues `c_put(DB_NODUPDATA)`; the
branches are those of `bdb_tool_idl_flush_one` and `flush_one_dups`, and only the
normal write uses that flag. -/
def flush_one_puts (env : IdlEnv) (ic : bdb_tool_idl_cache) (dups : List Nat) : List Nat :=
  if ic.blocks.isEmpty ∧ ic.count ≤ env.BDB_IDL_DB_SIZE then []
  else if env.cursor_rc ≠ 0 then []
  else
    let rc_get : Int :=
      if env.get_rc ic.kstr ≠ 0 then env.get_rc ic.kstr
      else if dups.isEmpty then DB_NOTFOUND else 0
    if rc_get = 0 ∧ ic.count > env.BDB_IDL_DB_SIZE then []
    else if rc_get ≠ 0 ∧ rc_get ≠ DB_NOTFOUND then []
    else if ic.count > env.BDB_IDL_DB_SIZE then []
    else flush_blocks_calls env ic.kstr ic.count ic.blocks dups

/-- The non-zero slot values a normal write of the entry visits, in block
order. -/
def pending_ids (ic : bdb_tool_idl_cache) : List Nat :=
  (visit_ids ic.count ic.blocks).filter (fun x => x ≠ 0)

/-- A list of puts cut after the first one whose status is neither `0` nor
`DB_KEYEXIST`. -/
def puts_until_error (env : IdlEnv) (k : Key) : List Nat → List Nat
  | [] => []
  | x :: xs =>
    if env.put_rc k x ≠ 0 ∧ env.put_rc k x ≠ DB_KEYEXIST then [x]
    else x :: puts_until_error env k xs

/-! ## IDL cache: block accounting -/

/-- The number of id blocks linked from the cache entries of a tree. -/
def linked_blocks (t : List bdb_tool_idl_cache) : Nat :=
  (t.map (fun ic => ic.blocks.length)).sum

/-- The block accounting of one secondary database against the process-wide
counter: no range-state entry holds a block, and `bi_idl_cache_size` is the number
of blocks linked from the entries of this database plus `rest`, the number linked
from the entries of the other secondary databases. -/
structure BlockInv (env : IdlEnv) (rest : Int) (g : IdlGlobal) (db : DB) : Prop where
  range_free : ∀ ic ∈ db.app_private, ic.count > env.BDB_IDL_DB_SIZE → ic.blocks = []
  counter : g.bi_idl_cache_size = (linked_blocks db.app_private : Int) + rest

/-- The blocks the cache of one database has in hand: those linked from its
entries and those on the free list. -/
def block_pool (g : IdlGlobal) (db : DB) : Nat :=
  linked_blocks db.app_private + g.free_list.length

/-- One call on the cache from the indexer: `bdb_tool_idl_add` on the secondary
database number `i`, or `bdb_tool_idl_flush_db( db, NULL )` on it. -/
inductive IdlOp where
  | add (i : Nat) (key : Key) (id : Nat)
  | flush (i : Nat)

/-- The id blocks linked from the cache entries of all secondary databases. -/
def total_linked (dbs : List DB) : Nat :=
  (dbs.map (fun db => linked_blocks db.app_private)).sum

/-- A sequence of calls on the secondary databases `dbs`, which share the
process-wide part `g`.  The run stops at the first call that does not return 0
and gives its status; a call on a database that does not exist is skipped. -/
def idl_run (env : IdlEnv) : List IdlOp → IdlGlobal → List DB → Int × IdlGlobal × List DB
  | [], g, dbs => (0, g, dbs)
  | IdlOp.add i key id :: ops, g, dbs =>
    match dbs.get? i with
    | none => idl_run env ops g dbs
    | some db =>
      let r := bdb_tool_idl_add env key id g db
      if r.1 ≠ 0 then (r.1, r.2.1, dbs.set i r.2.2)
      else idl_run env ops r.2.1 (dbs.set i r.2.2)
  | IdlOp.flush i :: ops, g, dbs =>
    match dbs.get? i with
    | none => idl_run env ops g dbs
    | some db =>
      let r := bdb_tool_idl_flush_db env none g db
      if r.1 ≠ 0 then (r.1, r.2.1, dbs.set i r.2.2.1)
      else idl_run env ops r.2.1 (dbs.set i r.2.2.1)

/-- The accounting invariant over all secondary databases: no range entry holds
blocks, keys are pairwise different in each tree, and the counter is the number
of linked blocks. -/
structure RunInv (env : IdlEnv) (g : IdlGlobal) (dbs : List DB) : Prop where
  trees : ∀ db ∈ dbs, TreeOk db.app_private
  range_free : ∀ db ∈ dbs, ∀ ic ∈ db.app_private,
    ic.count > env.BDB_IDL_DB_SIZE → ic.blocks = []
  counter : g.bi_idl_cache_size = (total_linked dbs : Int)

/-! ## IDL cache with block addresses

The functions of the IDL cache once more, on chains whose blocks keep the address
they were allocated at, so that it can be said which block is linked from where.
Erasing the addresses gives the definitions above. -/

/-- An id block (`bdb_tool_idl_cache_entry`) at its address: the array
`ids[IDBLOCK]`.  The `next` link is the order of the list the block sits in. -/
structure bdb_tool_idl_cache_entry where
  addr : Nat
  ids : IdBlock

/-- A cache entry (`bdb_tool_idl_cache`) whose chain `head ... tail` is made of
addressed blocks; `head == NULL` is the empty chain. -/
structure idl_cache_ptr where
  kstr : Key
  chain : List bdb_tool_idl_cache_entry
  first : Nat
  last : Nat
  count : Nat

/-- The process-wide part of the cache, with addressed blocks on the free list,
and the allocator. -/
structure IdlHeap where
  /-- Field `bi_idl_cache_size`, the block counter. -/
  bi_idl_cache_size : Int
  /-- The static `bdb_tool_idl_free_list`, head first. -/
  free_list : List bdb_tool_idl_cache_entry
  /-- Modelled from the spec: `ch_malloc` gives storage that no block allocated
  before occupies (no block is ever given back to it); here it hands out the
  addresses `brk`, `brk + 1`, ... -/
  brk : Nat

/-- One secondary database, its tree made of entries with addressed chains. -/
structure DBPtr where
  data : Key → List Nat
  app_private : List idl_cache_ptr

/-- The cache entry without the addresses. -/
def idl_cache_ptr.plain (ic : idl_cache_ptr) : bdb_tool_idl_cache :=
  { kstr := ic.kstr, blocks := ic.chain.map (fun b => b.ids), first := ic.first,
    last := ic.last, count := ic.count }

/-- The process-wide part without the addresses. -/
def IdlHeap.plain (g : IdlHeap) : IdlGlobal :=
  { bi_idl_cache_size := g.bi_idl_cache_size, free_list := g.free_list.map (fun b => b.ids) }

/-- The database without the addresses. -/
def DBPtr.plain (db : DBPtr) : DB :=
  { data := db.data, app_private := db.app_private.map idl_cache_ptr.plain }

/-- Modelled from the spec: `avl_find` returns the entry whose key compares equal. -/
def avl_find_ptr : List idl_cache_ptr → Key → Option idl_cache_ptr
  | [], _ => none
  | ic :: rest, k => if ic.kstr = k then some ic else avl_find_ptr rest k

/-- Modelled from the spec: `avl_insert` with `avl_dup_error` places the entry at
its position in key order and refuses a key that is already present. -/
def avl_insert_ptr : List idl_cache_ptr → idl_cache_ptr → List idl_cache_ptr
  | [], ic => [ic]
  | e :: rest, ic =>
    if ic.kstr = e.kstr then e :: rest
    else if key_lt ic.kstr e.kstr then ic :: e :: rest
    else e :: avl_insert_ptr rest ic

/-- Writing through the pointer `ic`: the tree node with that key takes the new
field values. -/
def avl_update_ptr : List idl_cache_ptr → idl_cache_ptr → List idl_cache_ptr
  | [], _ => []
  | e :: rest, ic => if e.kstr = ic.kstr then ic :: rest else e :: avl_update_ptr rest ic

/-- Function `bdb_tool_idl_flush_one` on an entry with an addressed chain.  The
cursor part (lines 762-847) reads only the ids, so it is `flush_one_dups` of the
entry without addresses; lines 848-853 hand the chain to the free list. -/
def bdb_tool_idl_flush_one_ptr (env : IdlEnv) (ic : idl_cache_ptr)
    (g : IdlHeap) (data : Key → List Nat) :
    Int × IdlHeap × (Key → List Nat) × idl_cache_ptr :=
  -- Freshly allocated, ignore it
  if ic.chain.isEmpty ∧ ic.count ≤ env.BDB_IDL_DB_SIZE then (0, g, data, ic)
  else if env.cursor_rc ≠ 0 then (-1, g, data, ic)
  else
    let r := flush_one_dups env ic.plain (data ic.kstr)
    let g1 : IdlHeap :=
      match r.2.1 with
      | some n =>
        if ic.chain.isEmpty then g
        else
          -- ic->tail->next = bdb_tool_idl_free_list; bdb_tool_idl_free_list = ic->head;
          { g with bi_idl_cache_size := g.bi_idl_cache_size - n,
                   free_list := ic.chain ++ g.free_list }
      | none => g
    (r.1, g1, setData data ic.kstr r.2.2, { ic with chain := [] })

/-- Modelled from the spec: `avl_apply( root, bdb_tool_idl_flush_one, db, -1,
AVL_INORDER )` visits the entries inorder and stops at the first `-1`.  The last
component is the kept entry as left behind, if it was visited. -/
def avl_apply_flush_ptr (env : IdlEnv) (keep : Option Key) :
    List idl_cache_ptr → IdlHeap → (Key → List Nat) → Option idl_cache_ptr →
    Int × IdlHeap × (Key → List Nat) × Option idl_cache_ptr
  | [], g, d, kept => (AVL_NOMORE, g, d, kept)
  | ic :: rest, g, d, kept =>
    let r := bdb_tool_idl_flush_one_ptr env ic g d
    let kept1 := if keep = some ic.kstr then some r.2.2.2 else kept
    if r.1 = -1 then (-1, r.2.1, r.2.2.1, kept1)
    else avl_apply_flush_ptr env keep rest r.2.1 r.2.2.1 kept1

/-- Function `bdb_tool_idl_flush_db( db, ic )`; `keep` is the key of `ic` (`none`
for `NULL`).  The tree is freed whatever the status. -/
def bdb_tool_idl_flush_db_ptr (env : IdlEnv) (keep : Option Key) (g : IdlHeap) (db : DBPtr) :
    Int × IdlHeap × DBPtr × Option idl_cache_ptr :=
  let r := avl_apply_flush_ptr env keep db.app_private g db.data none
  (if r.1 ≠ -1 then 0 else r.1, r.2.1, { data := r.2.2.1, app_private := [] }, r.2.2.2)

/-- The creation branch of `bdb_tool_idl_add` (lines 921-957): the new entry, with
`head = tail = NULL` and the count (and `first`) loaded from the store. -/
def idl_cache_load_ptr (env : IdlEnv) (key : Key) (dups : List Nat) : idl_cache_ptr :=
  { kstr := key, chain := [], first := (idl_cache_load env key dups).first,
    last := (idl_cache_load env key dups).last, count := (idl_cache_load env key dups).count }

/-- The store `ice->ids[ ic->count & (IDBLOCK-1) ] = id` into the tail block. -/
def tail_store_ptr :
    List bdb_tool_idl_cache_entry → Nat → Nat → List bdb_tool_idl_cache_entry
  | [], _, _ => []
  | [b], slot, id => [{ b with ids := fun i => if i = slot then id else b.ids i }]
  | b :: rest, slot, id => b :: tail_store_ptr rest slot id

/-- Lines 992-1013 of `bdb_tool_idl_add`: take the head block off the free list,
or allocate a block when the free list is empty; zero it, link it as the new
tail, and store the id in it. -/
def idl_new_block_ptr (id : Nat) (ic : idl_cache_ptr) (g : IdlHeap) (db : DBPtr) :
    Int × IdlHeap × DBPtr :=
  -- ice = bdb_tool_idl_free_list, else ice = ch_malloc( ... )
  let ice_addr : Nat := match g.free_list with
    | b :: _ => b.addr
    | [] => g.brk
  -- bdb_tool_idl_free_list = ice->next
  let g1 : IdlHeap :=
    { bi_idl_cache_size := g.bi_idl_cache_size + 1, free_list := g.free_list.tail,
      brk := if g.free_list.isEmpty then g.brk + 1 else g.brk }
  -- memset( ice, 0, sizeof( *ice ))
  let ice : bdb_tool_idl_cache_entry := { addr := ice_addr, ids := fun _ => 0 }
  let first1 := if ic.count = 0 then id else ic.first
  let ic2 : idl_cache_ptr :=
    { ic with chain := tail_store_ptr (ic.chain ++ [ice]) (ic.count % IDBLOCK) id,
              first := first1, count := ic.count + 1 }
  (0, g1, { db with app_private := avl_update_ptr db.app_private ic2 })

/-- The part of `bdb_tool_idl_add` after the entry `ic` has been found or created
(lines 958-1015); `ic` is the tree node with that key. -/
def idl_add_to_ptr (env : IdlEnv) (id : Nat) (ic : idl_cache_ptr) (g : IdlHeap) (db : DBPtr) :
    Int × IdlHeap × DBPtr :=
  -- are we a range already?
  if ic.count > env.BDB_IDL_DB_SIZE then
    (0, g, { db with app_private := avl_update_ptr db.app_private { ic with last := id } })
  -- Are we at the limit, and converting to a range?
  else if ic.count = env.BDB_IDL_DB_SIZE then
    let g1 : IdlHeap :=
      if ic.chain.length ≠ 0 then
        -- ic->tail->next = bdb_tool_idl_free_list; bdb_tool_idl_free_list = ic->head;
        { g with bi_idl_cache_size := g.bi_idl_cache_size - ic.chain.length,
                 free_list := ic.chain ++ g.free_list }
      else g
    let ic1 : idl_cache_ptr := { ic with chain := [], last := id, count := ic.count + 1 }
    (0, g1, { db with app_private := avl_update_ptr db.app_private ic1 })
  -- No free block, create that too
  else if ic.chain.isEmpty ∨ ic.count % IDBLOCK = 0 then
    if g.bi_idl_cache_size ≥ (env.bi_idl_cache_max_size : Int) then
      let f := bdb_tool_idl_flush_db_ptr env (some ic.kstr) g db
      if f.1 ≠ 0 then (f.1, f.2.1, f.2.2.1)
      else
        let ic1 := f.2.2.2.getD ic
        idl_new_block_ptr id ic1 f.2.1 { f.2.2.1 with app_private := avl_insert_ptr [] ic1 }
    else idl_new_block_ptr id ic g db
  else
    let ic1 : idl_cache_ptr :=
      { ic with chain := tail_store_ptr ic.chain (ic.count % IDBLOCK) id,
                count := ic.count + 1 }
    (0, g, { db with app_private := avl_update_ptr db.app_private ic1 })

/-- Function `bdb_tool_idl_add` for one secondary database, on addressed
chains. -/
def bdb_tool_idl_add_ptr (env : IdlEnv) (key : Key) (id : Nat) (g : IdlHeap) (db : DBPtr) :
    Int × IdlHeap × DBPtr :=
  if env.bi_idl_cache_max_size = 0 then
    ((env.idl_insert_key key id db.data).1, g,
      { db with data := (env.idl_insert_key key id db.data).2 })
  else
    match avl_find_ptr db.app_private key with
    | none =>
      -- No entry yet, create one
      let fresh : idl_cache_ptr :=
        { kstr := key, chain := [], first := env.uninit, last := 0, count := 0 }
      if env.cursor_rc ≠ 0 then
        (env.cursor_rc, g, { db with app_private := avl_insert_ptr db.app_private fresh })
      else
        let ic := idl_cache_load_ptr env key (db.data key)
        idl_add_to_ptr env id ic g { db with app_private := avl_insert_ptr db.app_private ic }
    | some ic => idl_add_to_ptr env id ic g db

/-- A sequence of calls on the secondary databases `dbs`, which share the
process-wide part `g`.  The run stops at the first call that does not return 0
and gives its status; a call on a database that does not exist is skipped. -/
def idl_run_ptr (env : IdlEnv) :
    List IdlOp → IdlHeap → List DBPtr → Int × IdlHeap × List DBPtr
  | [], g, dbs => (0, g, dbs)
  | IdlOp.add i key id :: ops, g, dbs =>
    match dbs.get? i with
    | none => idl_run_ptr env ops g dbs
    | some db =>
      let r := bdb_tool_idl_add_ptr env key id g db
      if r.1 ≠ 0 then (r.1, r.2.1, dbs.set i r.2.2)
      else idl_run_ptr env ops r.2.1 (dbs.set i r.2.2)
  | IdlOp.flush i :: ops, g, dbs =>
    match dbs.get? i with
    | none => idl_run_ptr env ops g dbs
    | some db =>
      let r := bdb_tool_idl_flush_db_ptr env none g db
      if r.1 ≠ 0 then (r.1, r.2.1, dbs.set i r.2.2.1)
      else idl_run_ptr env ops r.2.1 (dbs.set i r.2.2.1)

/-- The addresses of the blocks linked from the entries of a tree, entry by
entry, each chain from head to tail. -/
def tree_addrs : List idl_cache_ptr → List Nat
  | [] => []
  | ic :: rest => ic.chain.map (fun b => b.addr) ++ tree_addrs rest

/-- The addresses of the blocks linked from the cache entries of all secondary
databases. -/
def linked_addrs : List DBPtr → List Nat
  | [] => []
  | db :: rest => tree_addrs db.app_private ++ linked_addrs rest

/-- The addresses of the blocks on the free list, head first. -/
def free_addrs (g : IdlHeap) : List Nat := g.free_list.map (fun b => b.addr)

/-- The blocks at the addresses `l`, with the allocator at `b`, are pairwise
different blocks that the allocator has handed out. -/
def HeapOk (b : Nat) (l : List Nat) : Prop := l.Nodup ∧ ∀ a ∈ l, a < b

/-- From the addresses `l1` with the allocator at `b1` to the addresses `l2` with
the allocator at `b2`: no address occurs more often than before, except that an
address allocated in between may occur once. -/
def AddrStep (b1 : Nat) (l1 : List Nat) (b2 : Nat) (l2 : List Nat) : Prop :=
  b1 ≤ b2 ∧ ∀ a, l2.count a ≤ l1.count a + (if b1 ≤ a ∧ a < b2 then 1 else 0)

/-! ## Resolver: hole reconciliation -/


theorem hole_scan_found (holes : Nat → dn_id) (e : Nat) (i0 : Nat)
    (hid : (holes i0).id = e) :
    ∀ (fuel i : Nat), i ≤ i0 → i0 < i + fuel →
      (∀ k, i ≤ k → k < i0 → (holes k).id < e) →
      hole_scan holes e fuel i = some i0 := by
  intro fuel
  induction fuel with
  | zero => intro i h1 h2; omega
  | succ f ih =>
    intro i h1 h2 hlt
    rw [hole_scan]
    by_cases hi : i = i0
    · subst hi; simp [hid]
    · have hk : (holes i).id < e := hlt i (le_refl _) (by omega)
      have h1x : (holes i).id ≠ e := by omega
      have h2x : ¬ (e < (holes i).id) := by omega
      simp only [h1x, h2x, if_false, gt_iff_lt]
      exact ih (i + 1) (by omega) (by omega) (fun k hk1 hk2 => hlt k (by omega) hk2)

theorem HoleInv.init (T : List Name) (lastid : Nat) : HoleInv T [] (ToolState.init lastid) := by
  constructor
  · intro i j _ h; simp [ToolState.init] at h
  · intro i h; simp [ToolState.init] at h
  · intro n id h; simp [ToolState.init, dn2id_lookup] at h
  · intro n m id h; simp [ToolState.init, dn2id_lookup] at h
  · intro n h; simp at h


theorem dn2id_lookup_cons (k : Name) (v : Nat) (ei : Option Nat)
    (m : List (Name × Nat × Option Nat)) (n : Name) :
    dn2id_lookup ((k, v, ei) :: m) n = if n = k then some v else dn2id_lookup m n := rfl

theorem HoleInv.close (T done : List Name) (st : ToolState) (ndn : Name) (i0 : Nat)
    (h : HoleInv T done st) (hi0 : i0 < st.nholes) (hdn : (st.holes i0).dn = ndn) :
    HoleInv T (ndn :: done)
      { st with holes := hole_shift st.holes i0 st.nholes, nholes := st.nholes - 1 } := by
  have hsh : ∀ j, j < st.nholes - 1 →
      hole_shift st.holes i0 st.nholes j = st.holes (if i0 ≤ j then j + 1 else j) := by
    intro j hj
    unfold hole_shift
    have h1 : j ≠ st.nholes := by omega
    have h2 : j < st.nholes := by omega
    by_cases h3 : i0 ≤ j <;> simp [h1, h2, h3]
  have hlook0 := (h.hole_ok i0 hi0).2.1
  rw [hdn] at hlook0
  constructor
  · intro i j hij hj
    simp only at hj ⊢
    rw [hsh i (by omega), hsh j hj]
    apply h.asc
    · split_ifs <;> omega
    · split_ifs <;> omega
  · intro j hj
    simp only at hj ⊢
    rw [hsh j hj]
    have hσ : (if i0 ≤ j then j + 1 else j) < st.nholes := by split_ifs <;> omega
    have hne : (if i0 ≤ j then j + 1 else j) ≠ i0 := by split_ifs <;> omega
    obtain ⟨a, b, c⟩ := h.hole_ok _ hσ
    refine ⟨a, b, ?_⟩
    intro hmem
    rcases List.mem_cons.1 hmem with heq | hmem
    · rw [heq, hlook0] at b
      have hid : (st.holes i0).id = (st.holes (if i0 ≤ j then j + 1 else j)).id := by
        simpa using b
      rcases Nat.lt_or_gt_of_ne hne with hlt | hgt
      · have := h.asc _ _ hlt hi0; omega
      · have := h.asc _ _ hgt hσ; omega
    · exact c hmem
  · intro n id hl
    simp only at hl ⊢
    obtain ⟨a, b, c, d⟩ := h.map_ok n id hl
    refine ⟨a, b, c, ?_⟩
    by_cases hn : n = ndn
    · left; simp [hn]
    · rcases d with d | ⟨i, hi, hdi⟩
      · left; exact List.mem_cons_of_mem _ d
      · right
        have hii : i ≠ i0 := by
          intro hh; rw [hh, hdn] at hdi; exact hn hdi.symm
        by_cases hlt : i < i0
        · refine ⟨i, by omega, ?_⟩
          rw [hsh i (by omega)]
          have : ¬ i0 ≤ i := by omega
          simp [this, hdi]
        · refine ⟨i - 1, by omega, ?_⟩
          rw [hsh (i - 1) (by omega)]
          have h1 : i0 ≤ i - 1 := by omega
          have h2 : i - 1 + 1 = i := by omega
          simp [h1, h2, hdi]
  · intro n m id h1 h2
    exact h.inj n m id h1 h2
  · intro n hn hne
    simp only
    rcases List.mem_cons.1 hn with heq | hmem
    · rw [heq]; exact ⟨_, hlook0⟩
    · exact h.done_ok n hmem hne


theorem HoleInv.alloc (T done : List Name) (st : ToolState) (ndn : Name) (ei : Option Nat)
    (hole : Bool) (h : HoleInv T done st) (hnone : dn2id_lookup st.dn2id ndn = none)
    (hT : ndn ∈ T) (hne : ndn ≠ []) :
    HoleInv T (if hole then done else ndn :: done)
      (if hole then
        hole_append { st with bi_lastid := st.bi_lastid + 1,
                              dn2id := (ndn, st.bi_lastid + 1, ei) :: st.dn2id }
          (st.bi_lastid + 1) ndn
       else { st with bi_lastid := st.bi_lastid + 1,
                      dn2id := (ndn, st.bi_lastid + 1, ei) :: st.dn2id }) := by
  have hfresh : ∀ n id, dn2id_lookup st.dn2id n = some id → n ≠ ndn := by
    intro n id hl hn; rw [hn, hnone] at hl; exact Option.noConfusion hl
  have hnd : ndn ∉ done := by
    intro hmem
    obtain ⟨id, hid⟩ := h.done_ok ndn hmem hne
    rw [hnone] at hid; exact Option.noConfusion hid
  cases hole
  · -- the entry supplied by the caller
    simp only [Bool.false_eq_true, if_false]
    constructor
    · intro i j hij hj; exact h.asc i j hij hj
    · intro i hi
      obtain ⟨a, b, c⟩ := h.hole_ok i hi
      simp only at hi ⊢
      refine ⟨by omega, ?_, ?_⟩
      · rw [dn2id_lookup_cons, if_neg (hfresh _ _ b)]; exact b
      · intro hmem
        rcases List.mem_cons.1 hmem with heq | hmem
        · exact hfresh _ _ b heq
        · exact c hmem
    · intro n id hl
      simp only [dn2id_lookup_cons] at hl ⊢
      by_cases hn : n = ndn
      · simp only [hn, if_true, Option.some.injEq] at hl
        subst hn
        exact ⟨by omega, hT, hne, Or.inl (List.mem_cons_self _ _)⟩
      · simp only [hn, if_false] at hl
        obtain ⟨a, b, c, d⟩ := h.map_ok n id hl
        refine ⟨by omega, b, c, ?_⟩
        rcases d with d | d
        · exact Or.inl (List.mem_cons_of_mem _ d)
        · exact Or.inr d
    · intro n m id h1 h2
      simp only [dn2id_lookup_cons] at h1 h2
      by_cases hn : n = ndn <;> by_cases hm : m = ndn
      · rw [hn, hm]
      · simp only [hn, hm, if_true, if_false, Option.some.injEq] at h1 h2
        have := (h.map_ok m id h2).1; omega
      · simp only [hn, hm, if_true, if_false, Option.some.injEq] at h1 h2
        have := (h.map_ok n id h1).1; omega
      · simp only [hn, hm, if_false] at h1 h2
        exact h.inj n m id h1 h2
    · intro n hn hnn
      simp only [dn2id_lookup_cons]
      by_cases hq : n = ndn
      · exact ⟨st.bi_lastid + 1, by simp [hq]⟩
      · rcases List.mem_cons.1 hn with heq | hmem
        · exact absurd heq hq
        · obtain ⟨id, hid⟩ := h.done_ok n hmem hnn
          exact ⟨id, by simp [hq, hid]⟩
  · -- an ancestor created on the way: it becomes a hole
    simp only [if_true, hole_append]
    constructor
    · intro i j hij hj
      simp only at hj ⊢
      have hi : i ≠ st.nholes := by omega
      by_cases hjn : j = st.nholes
      · simp only [hi, hjn, if_true, if_false]
        have := (h.hole_ok i (by omega)).1; omega
      · simp only [hi, hjn, if_false]
        exact h.asc i j hij (by omega)
    · intro i hi
      simp only at hi ⊢
      by_cases hin : i = st.nholes
      · simp only [hin, if_true, dn2id_lookup_cons]
        exact ⟨le_refl _, trivial, hnd⟩
      · simp only [hin, if_false]
        obtain ⟨a, b, c⟩ := h.hole_ok i (by omega)
        refine ⟨by omega, ?_, c⟩
        rw [dn2id_lookup_cons, if_neg (hfresh _ _ b)]; exact b
    · intro n id hl
      simp only [dn2id_lookup_cons] at hl ⊢
      by_cases hn : n = ndn
      · simp only [hn, if_true, Option.some.injEq] at hl
        subst hn
        refine ⟨by omega, hT, hne, Or.inr ⟨st.nholes, by omega, by simp⟩⟩
      · simp only [hn, if_false] at hl
        obtain ⟨a, b, c, d⟩ := h.map_ok n id hl
        refine ⟨by omega, b, c, ?_⟩
        rcases d with d | ⟨i, hi, hdi⟩
        · exact Or.inl d
        · refine Or.inr ⟨i, by omega, ?_⟩
          have : i ≠ st.nholes := by omega
          simp [this, hdi]
    · intro n m id h1 h2
      simp only [dn2id_lookup_cons] at h1 h2
      by_cases hn : n = ndn <;> by_cases hm : m = ndn
      · rw [hn, hm]
      · simp only [hn, hm, if_true, if_false, Option.some.injEq] at h1 h2
        have := (h.map_ok m id h2).1; omega
      · simp only [hn, hm, if_true, if_false, Option.some.injEq] at h1 h2
        have := (h.map_ok n id h1).1; omega
      · simp only [hn, hm, if_false] at h1 h2
        exact h.inj n m id h1 h2
    · intro n hn hnn
      simp only [dn2id_lookup_cons]
      by_cases hq : n = ndn
      · exact ⟨st.bi_lastid + 1, by simp [hq]⟩
      · obtain ⟨id, hid⟩ := h.done_ok n hn hnn
        exact ⟨id, by simp [hq, hid]⟩


theorem HoleInv.skip_root (T done : List Name) (st : ToolState) (h : HoleInv T done st) :
    HoleInv T ([] :: done) st := by
  constructor
  · exact h.asc
  · intro i hi
    obtain ⟨a, b, c⟩ := h.hole_ok i hi
    refine ⟨a, b, ?_⟩
    intro hmem
    rcases List.mem_cons.1 hmem with heq | hmem
    · exact (h.map_ok _ _ b).2.2.1 heq
    · exact c hmem
  · intro n id hl
    obtain ⟨a, b, c, d⟩ := h.map_ok n id hl
    refine ⟨a, b, c, ?_⟩
    rcases d with d | d
    · exact Or.inl (List.mem_cons_of_mem _ d)
    · exact Or.inr d
  · exact h.inj
  · intro n hn hnn
    rcases List.mem_cons.1 hn with heq | hmem
    · exact absurd heq hnn
    · exact h.done_ok n hmem hnn

theorem next_id_inv (env : ToolEnv) (hnext : ∀ i, env.next_id_rc i = 0)
    (hadd : ∀ n i, env.dn2id_add_rc n i = 0) (T : List Name)
    (hT : ∀ n ∈ T, n ∉ env.be_nsuffix → dnParent n ∈ T) :
    ∀ (ndn dn : Name) (e_id : Nat) (hole : Bool) (done : List Name) (st : ToolState),
      HoleInv T done st → ndn ∈ T → (hole = false → ndn ∉ done) →
      NextIdPost T done ndn hole st (bdb_tool_next_id env ndn dn e_id hole st) := by
  intro ndn
  induction ndn with
  | nil =>
    intro dn e_id hole done st h _ _
    simp only [bdb_tool_next_id, NextIdPost]
    refine ⟨trivial, ?_, le_refl _, fun _ _ hl => hl, fun _ _ => trivial, fun _ hh => absurd rfl hh⟩
    cases hole
    · exact h.skip_root
    · exact h
  | cons r npdn ih =>
    intro dn e_id hole done st h hmem hnd
    rw [bdb_tool_next_id]
    cases hfind : bdb_cache_find_ndn st (r :: npdn) with
    | some id =>
      simp only [NextIdPost]
      cases hole
      · -- hit, supplied entry: its hole (if any) is closed
        simp only [Bool.false_eq_true, if_false]
        have hl : dn2id_lookup st.dn2id (r :: npdn) = some id := hfind
        obtain ⟨_, _, _, d⟩ := h.map_ok _ _ hl
        rcases d with d | ⟨i0, hi0, hdn⟩
        · exact absurd d (hnd rfl)
        · have hid : (st.holes i0).id = id := by
            have := (h.hole_ok i0 hi0).2.1
            rw [hdn, hl] at this
            exact (Option.some.inj this).symm
          have hscan : hole_scan st.holes id st.nholes 0 = some i0 := by
            apply hole_scan_found st.holes id i0 hid st.nholes 0 (Nat.zero_le _) (by omega)
            intro k _ hk
            have := h.asc k i0 hk hi0
            omega
          simp only [hole_close, hscan]
          exact ⟨trivial, h.close T done st (r :: npdn) i0 hi0 hdn, le_refl _,
            fun _ _ hh => hh, fun _ _ => trivial, fun _ _ => hl⟩
      · simp only [if_true]
        exact ⟨trivial, h, le_refl _, fun _ _ hh => hh, fun _ _ => trivial,
          fun hh => absurd hh (by simp)⟩
    | none =>
      have hl : dn2id_lookup st.dn2id (r :: npdn) = none := hfind
      -- the state after the ancestors have been resolved
      have key : ∀ (st1 : ToolState) (pid : Nat) (ei : Option Nat), HoleInv T done st1 →
          st.bi_lastid ≤ st1.bi_lastid →
          (∀ n id, dn2id_lookup st.dn2id n = some id → dn2id_lookup st1.dn2id n = some id) →
          (∀ n, npdn.length < n.length → dn2id_lookup st1.dn2id n = dn2id_lookup st.dn2id n) →
          NextIdPost T done (r :: npdn) hole st
            (match bdb_next_id env st1 pid with
             | (rc, id, st2) =>
               if rc ≠ 0 then (rc, id, st2)
               else
                 match bdb_dn2id_add env st2 ei (r :: npdn) id with
                 | (rc, st3) =>
                   if rc ≠ 0 then (rc, id, st3)
                   else if hole then (0, id, hole_append st3 id (r :: npdn))
                   else (0, id, st3)) := by
        intro st1 pid ei h1 hle hstab hframe
        have hl1 : dn2id_lookup st1.dn2id (r :: npdn) = none := by
          rw [hframe (r :: npdn) (by simp)]; exact hl
        have hinv := h1.alloc T done st1 (r :: npdn) ei hole hl1 hmem (by simp)
        have hfresh : ∀ n id, dn2id_lookup st1.dn2id n = some id → n ≠ r :: npdn := by
          intro n id hh hn; rw [hn, hl1] at hh; exact Option.noConfusion hh
        simp only [bdb_next_id, hnext, bdb_dn2id_add, hadd, ne_eq, not_true_eq_false, if_false,
          NextIdPost]
        cases hole
        · simp only [Bool.false_eq_true, if_false] at hinv ⊢
          refine ⟨trivial, hinv, by omega, ?_, ?_, ?_⟩
          · intro n id hh
            have h2 := hstab n id hh
            rw [dn2id_lookup_cons, if_neg (hfresh n id h2)]; exact h2
          · intro n hn
            have hne : n ≠ r :: npdn := by intro hh; rw [hh] at hn; omega
            rw [dn2id_lookup_cons, if_neg hne]
            exact hframe n (by simp at hn; omega)
          · intro _ _
            simp [dn2id_lookup_cons]
        · simp only [if_true] at hinv ⊢
          refine ⟨trivial, hinv, by simp [hole_append]; omega, ?_, ?_, ?_⟩
          · intro n id hh
            have h2 := hstab n id hh
            simp only [hole_append]
            rw [dn2id_lookup_cons, if_neg (hfresh n id h2)]; exact h2
          · intro n hn
            have hne : n ≠ r :: npdn := by intro hh; rw [hh] at hn; omega
            simp only [hole_append]
            rw [dn2id_lookup_cons, if_neg hne]
            exact hframe n (by simp at hn; omega)
          · intro hh; exact absurd hh (by simp)
      by_cases hsuf : be_issuffix env (r :: npdn) = true
      · simp only [hsuf, if_true, ne_eq, not_true_eq_false, if_false]
        exact key st e_id none h (le_refl _) (fun _ _ hh => hh) (fun _ _ => rfl)
      · have hns : r :: npdn ∉ env.be_nsuffix := by
          simpa [be_issuffix] using hsuf
        have hp : npdn ∈ T := hT _ hmem hns
        have hrec := ih (dnParent dn) e_id true done st h hp (by simp)
        simp only [hsuf, if_false, Bool.false_eq_true]
        generalize bdb_tool_next_id env npdn (dnParent dn) e_id true st = rr at hrec ⊢
        obtain ⟨rc, pid, st1⟩ := rr
        obtain ⟨h0, h1, h2, h3, h4, _⟩ := hrec
        simp only at h0 h1 h2 h3 h4
        simp only [if_true] at h1
        subst h0
        simp only [ne_eq, not_true_eq_false, if_false]
        exact key st1 pid _ h1 h2 h3 h4

theorem resolve_all_append (env : ToolEnv) (pre post : List Entry) (st : ToolState) :
    resolve_all env (pre ++ post) st = resolve_all env post (resolve_all env pre st) := by
  induction pre generalizing st with
  | nil => rfl
  | cons e es ih => simp only [List.cons_append, resolve_all]; exact ih _

theorem resolve_all_inv (env : ToolEnv) (hnext : ∀ i, env.next_id_rc i = 0)
    (hadd : ∀ n i, env.dn2id_add_rc n i = 0) (T : List Name)
    (hT : ∀ n ∈ T, n ∉ env.be_nsuffix → dnParent n ∈ T) :
    ∀ (es : List Entry) (done : List Name) (st : ToolState), HoleInv T done st →
      (∀ e ∈ es, e.e_nname ∈ T) → (es.map Entry.e_nname).Nodup →
      (∀ e ∈ es, e.e_nname ∉ done) →
      HoleInv T ((es.map Entry.e_nname).reverse ++ done) (resolve_all env es st) ∧
      ∀ n id, dn2id_lookup st.dn2id n = some id →
        dn2id_lookup (resolve_all env es st).dn2id n = some id := by
  intro es
  induction es with
  | nil => intro done st h _ _ _; exact ⟨by simpa using h, fun _ _ hh => hh⟩
  | cons e es ih =>
    intro done st h hmem hnd hdone
    have hpost := next_id_inv env hnext hadd T hT e.e_nname e.e_name e.e_id false done st h
      (hmem e (List.mem_cons_self _ _)) (fun _ => hdone e (List.mem_cons_self _ _))
    obtain ⟨_, h1, _, h3, _, _⟩ := hpost
    simp only [Bool.false_eq_true, if_false] at h1
    rw [List.map_cons, List.nodup_cons] at hnd
    have hrest := ih (e.e_nname :: done) _ h1
      (fun x hx => hmem x (List.mem_cons_of_mem _ hx)) hnd.2
      (by
        intro x hx hmemx
        rcases List.mem_cons.1 hmemx with heq | hmemx
        · exact hnd.1 (heq ▸ List.mem_map_of_mem _ hx)
        · exact hdone x (List.mem_cons_of_mem _ hx) hmemx)
    refine ⟨?_, ?_⟩
    · simpa [resolve_all] using hrest.1
    · intro n id hh
      exact hrest.2 n id (h3 n id hh)

/-- C1 (hole reconciliation).  With a name-to-id map that is a finite map and an
id generator that never fails, load any list of entries whose canonical names are
pairwise different and closed under taking parents up to the suffix, calling
`bdb_tool_next_id` with `hole = 0` once per entry in the order of the list,
starting from an empty map.  Then (1) no hole is left after the last call;
(2) every call succeeds and the id it assigns to a non-empty name is the id bound
to that name at the end; (3) an id bound to a name at any point of the load, be it
for the supplied entry or for an ancestor created on the way, is still the id
bound to that name at the end. -/
theorem bdb_tool_next_id_hole_reconciliation (env : ToolEnv)
    (hnext : ∀ i, env.next_id_rc i = 0) (hadd : ∀ n i, env.dn2id_add_rc n i = 0)
    (es : List Entry) (lastid : Nat)
    (hnodup : (es.map Entry.e_nname).Nodup)
    (hclosed : ∀ n ∈ es.map Entry.e_nname, n ∉ env.be_nsuffix →
      dnParent n ∈ es.map Entry.e_nname) :
    (resolve_all env es (ToolState.init lastid)).nholes = 0 ∧
    (∀ pre e post, es = pre ++ e :: post →
      (bdb_tool_next_id env e.e_nname e.e_name e.e_id false
        (resolve_all env pre (ToolState.init lastid))).1 = 0 ∧
      (e.e_nname ≠ [] →
        bdb_cache_find_ndn (resolve_all env es (ToolState.init lastid)) e.e_nname =
          some (bdb_tool_next_id env e.e_nname e.e_name e.e_id false
            (resolve_all env pre (ToolState.init lastid))).2.1)) ∧
    (∀ pre post, es = pre ++ post → ∀ n id,
      bdb_cache_find_ndn (resolve_all env pre (ToolState.init lastid)) n = some id →
      bdb_cache_find_ndn (resolve_all env es (ToolState.init lastid)) n = some id) := by
  have hinit := HoleInv.init (es.map Entry.e_nname) lastid
  have hall := resolve_all_inv env hnext hadd _ hclosed
  have hsplit : ∀ pre post, es = pre ++ post →
      HoleInv (es.map Entry.e_nname) ((pre.map Entry.e_nname).reverse ++ [])
        (resolve_all env pre (ToolState.init lastid)) ∧
      (∀ e ∈ post, e.e_nname ∈ es.map Entry.e_nname) ∧
      (post.map Entry.e_nname).Nodup ∧
      (∀ e ∈ post, e.e_nname ∉ (pre.map Entry.e_nname).reverse ++ []) := by
    intro pre post hes
    have hnd := hnodup
    rw [hes, List.map_append, List.nodup_append] at hnd
    refine ⟨(hall pre [] _ hinit ?_ hnd.1 (by simp)).1, ?_, hnd.2.1, ?_⟩
    · intro e he; rw [hes]; exact List.mem_map_of_mem _ (List.mem_append_left _ he)
    · intro e he; rw [hes]; exact List.mem_map_of_mem _ (List.mem_append_right _ he)
    · intro e he hmem
      simp only [List.append_nil, List.mem_reverse] at hmem
      exact hnd.2.2 hmem (List.mem_map_of_mem _ he)
  refine ⟨?_, ?_, ?_⟩
  · obtain ⟨hfin, _⟩ := hsplit es [] (by simp)
    by_contra hne
    have hpos : 0 < (resolve_all env es (ToolState.init lastid)).nholes := Nat.pos_of_ne_zero hne
    obtain ⟨_, hl, hnot⟩ := hfin.hole_ok 0 hpos
    have hin := (hfin.map_ok _ _ hl).2.1
    exact hnot (by simpa using hin)
  · intro pre e post hes
    obtain ⟨hpre, hmem, hnd, hdis⟩ := hsplit pre (e :: post) hes
    have hpost := next_id_inv env hnext hadd _ hclosed e.e_nname e.e_name e.e_id false _ _ hpre
      (hmem e (List.mem_cons_self _ _)) (fun _ => hdis e (List.mem_cons_self _ _))
    obtain ⟨h0, h1, _, _, _, h5⟩ := hpost
    refine ⟨h0, fun hne => ?_⟩
    simp only [Bool.false_eq_true, if_false] at h1
    rw [List.map_cons, List.nodup_cons] at hnd
    have hrest := hall post _ _ h1 (fun x hx => hmem x (List.mem_cons_of_mem _ hx)) hnd.2
      (by
        intro x hx hmemx
        rcases List.mem_cons.1 hmemx with heq | hmemx
        · exact hnd.1 (heq ▸ List.mem_map_of_mem _ hx)
        · exact hdis x (List.mem_cons_of_mem _ hx) hmemx)
    have hfinal : resolve_all env es (ToolState.init lastid) =
        resolve_all env post (bdb_tool_next_id env e.e_nname e.e_name e.e_id false
          (resolve_all env pre (ToolState.init lastid))).2.2 := by
      rw [hes, resolve_all_append]; rfl
    rw [hfinal]
    exact hrest.2 _ _ (h5 rfl hne)
  · intro pre post hes n id hl
    obtain ⟨hpre, hmem, hnd, hdis⟩ := hsplit pre post hes
    have hrest := hall post _ _ hpre hmem hnd hdis
    rw [hes, resolve_all_append]
    exact hrest.2 n id hl

/-- Scenario S2 as an instance of C1: suffix `o=x`, load order `cn=a,ou=b,o=x`,
`ou=b,o=x`, `o=x`. -/
theorem bdb_tool_next_id_hole_reconciliation_witness :
    (s2_entries.map Entry.e_nname).Nodup ∧
    (resolve_all (ToolEnv.allOk [[1]] true false 1) s2_entries (ToolState.init 0)).nholes = 0 :=
  ⟨by decide,
   (bdb_tool_next_id_hole_reconciliation (ToolEnv.allOk [[1]] true false 1)
      (fun _ => rfl) (fun _ _ => rfl) s2_entries 0 (by decide) (by decide)).1⟩

/-! ## Load pipeline: return value and transaction discipline -/

theorem bdb_tool_next_id_lastid_le (env : ToolEnv) :
    ∀ (ndn dn : Name) (e_id : Nat) (hole : Bool) (st : ToolState),
      (bdb_tool_next_id env ndn dn e_id hole st).2.2.bi_lastid ≤ st.bi_lastid + ndn.length ∧
      (bdb_tool_next_id env ndn dn e_id hole st).2.2.dn2id.length ≤
        st.dn2id.length + ndn.length := by
  intro ndn
  induction ndn with
  | nil => intro dn e_id hole st; simp [bdb_tool_next_id]
  | cons r npdn ih =>
    intro dn e_id hole st
    rw [bdb_tool_next_id]
    cases hfind : bdb_cache_find_ndn st (r :: npdn) with
    | some id =>
      cases hole
      · simp only [Bool.false_eq_true, if_false, hole_close]
        split <;> simp
      · simp
    | none =>
      have key : ∀ (st1 : ToolState) (pid : Nat) (ei : Option Nat),
          st1.bi_lastid ≤ st.bi_lastid + npdn.length →
          st1.dn2id.length ≤ st.dn2id.length + npdn.length →
          (match bdb_next_id env st1 pid with
             | (rc, id, st2) =>
               if rc ≠ 0 then (rc, id, st2)
               else
                 match bdb_dn2id_add env st2 ei (r :: npdn) id with
                 | (rc, st3) =>
                   if rc ≠ 0 then (rc, id, st3)
                   else if hole then (0, id, hole_append st3 id (r :: npdn))
                   else (0, id, st3)).2.2.bi_lastid ≤ st.bi_lastid + (r :: npdn).length ∧
          (match bdb_next_id env st1 pid with
             | (rc, id, st2) =>
               if rc ≠ 0 then (rc, id, st2)
               else
                 match bdb_dn2id_add env st2 ei (r :: npdn) id with
                 | (rc, st3) =>
                   if rc ≠ 0 then (rc, id, st3)
                   else if hole then (0, id, hole_append st3 id (r :: npdn))
                   else (0, id, st3)).2.2.dn2id.length ≤
            st.dn2id.length + (r :: npdn).length := by
        intro st1 pid ei h1 h2
        simp only [bdb_next_id, bdb_dn2id_add, List.length_cons]
        by_cases ha : env.next_id_rc st1.bi_lastid = 0
        · by_cases hb : env.dn2id_add_rc (r :: npdn) (st1.bi_lastid + 1) = 0
          · cases hole <;> simp [ha, hb, hole_append] <;> omega
          · simp [ha, hb]; omega
        · simp [ha]; omega
      by_cases hsuf : be_issuffix env (r :: npdn) = true
      · simp only [hsuf, if_true]
        by_cases hz : (0 : Int) ≠ 0
        · exact absurd rfl hz
        · simp only [ne_eq, not_true_eq_false, if_false]
          exact key st e_id none (by omega) (by omega)
      · have hrec := ih (dnParent dn) e_id true st
        simp only [hsuf, if_false, Bool.false_eq_true]
        generalize bdb_tool_next_id env npdn (dnParent dn) e_id true st = rr at hrec ⊢
        obtain ⟨rc, pid, st1⟩ := rr
        simp only at hrec ⊢
        by_cases hrc : rc = 0
        · simp only [hrc, ne_eq, not_true_eq_false, if_false]
          exact key st1 pid _ hrec.1 hrec.2
        · simp only [hrc, ne_eq, not_false_eq_true, if_true, List.length_cons]
          omega

/-- The id a successful non-hole resolver call assigns is below `NOID`, as long
as the ids bound so far are and the generator is not about to run out. -/
theorem bdb_tool_next_id_ne_noid (env : ToolEnv) (ndn dn : Name) (e_id : Nat) (st : ToolState)
    (hmap : ∀ n id, dn2id_lookup st.dn2id n = some id → id < NOID)
    (hgen : st.bi_lastid + ndn.length < NOID)
    (hrc : (bdb_tool_next_id env ndn dn e_id false st).1 = 0) :
    (bdb_tool_next_id env ndn dn e_id false st).2.1 < NOID := by
  cases ndn with
  | nil => simp [bdb_tool_next_id, NOID]
  | cons r npdn =>
    rw [bdb_tool_next_id] at hrc ⊢
    cases hfind : bdb_cache_find_ndn st (r :: npdn) with
    | some id =>
      simp only [Bool.false_eq_true, if_false]
      exact hmap _ _ hfind
    | none =>
      simp only [hfind] at hrc
      have key : ∀ (st1 : ToolState) (pid : Nat) (ei : Option Nat),
          st1.bi_lastid ≤ st.bi_lastid + npdn.length →
          (match bdb_next_id env st1 pid with
             | (rc, id, st2) =>
               if rc ≠ 0 then (rc, id, st2)
               else
                 match bdb_dn2id_add env st2 ei (r :: npdn) id with
                 | (rc, st3) =>
                   if rc ≠ 0 then (rc, id, st3)
                   else if false = true then (0, id, hole_append st3 id (r :: npdn))
                   else (0, id, st3)).1 = 0 →
          (match bdb_next_id env st1 pid with
             | (rc, id, st2) =>
               if rc ≠ 0 then (rc, id, st2)
               else
                 match bdb_dn2id_add env st2 ei (r :: npdn) id with
                 | (rc, st3) =>
                   if rc ≠ 0 then (rc, id, st3)
                   else if false = true then (0, id, hole_append st3 id (r :: npdn))
                   else (0, id, st3)).2.1 < NOID := by
        intro st1 pid ei h1
        simp only [bdb_next_id, bdb_dn2id_add]
        simp only [List.length_cons] at hgen
        by_cases ha : env.next_id_rc st1.bi_lastid = 0
        · by_cases hb : env.dn2id_add_rc (r :: npdn) (st1.bi_lastid + 1) = 0
          · simp [ha, hb]; omega
          · simp [ha, hb]
        · simp [ha]
      by_cases hsuf : be_issuffix env (r :: npdn) = true
      · simp only [hsuf, if_true, ne_eq, not_true_eq_false, if_false] at hrc ⊢
        exact key st e_id none (by omega) hrc
      · have hrec := (bdb_tool_next_id_lastid_le env npdn (dnParent dn) e_id true st).1
        simp only [hsuf, if_false, Bool.false_eq_true] at hrc ⊢
        generalize bdb_tool_next_id env npdn (dnParent dn) e_id true st = rr at hrec hrc ⊢
        obtain ⟨rc, pid, st1⟩ := rr
        simp only at hrec hrc ⊢
        by_cases hrc0 : rc = 0
        · simp only [hrc0, ne_eq, not_true_eq_false, if_false] at hrc ⊢
          exact key st1 pid _ hrec hrc
        · simp [hrc0] at hrc

/-- C7.  `bdb_tool_entry_put` returns `NOID` if and only if one of its steps
fails: `TXN_BEGIN` (non-quick mode only), the resolver `bdb_tool_next_id`, the
index add (unless `bi_linear_index` skips it), `bdb_id2entry_add`, or `TXN_COMMIT`
(non-quick mode only).  When no step fails it returns the id the resolver
assigned, and that id is not `NOID` (the ids bound so far are below `NOID` and
the generator has not run out of ids). -/
theorem bdb_tool_entry_put_noid_iff (env : ToolEnv) (e : Entry) (s : Session)
    (hmap : ∀ n id, dn2id_lookup s.tool.dn2id n = some id → id < NOID)
    (hgen : s.tool.bi_lastid + e.e_nname.length < NOID) :
    let r := bdb_tool_next_id env e.e_nname e.e_name e.e_id false s.tool
    let e1 : Entry := { e with e_id := r.2.1 }
    let tid : Option DB_TXN := if env.quick then none else some ()
    let begin_fails := env.quick = false ∧ env.txn_begin_rc ≠ 0
    let resolver_fails := r.1 ≠ 0
    let index_fails :=
      env.bi_linear_index = false ∧ (bdb_tool_index_add env s.bi_nattrs tid e1).1 ≠ 0
    let id2entry_fails := env.id2entry_add_rc e1 ≠ 0
    let commit_fails := env.quick = false ∧ env.txn_commit_rc ≠ 0
    ((bdb_tool_entry_put env e s).1 = NOID ↔
      (begin_fails ∨ resolver_fails ∨ index_fails ∨ id2entry_fails ∨ commit_fails)) ∧
    (¬ (begin_fails ∨ resolver_fails ∨ index_fails ∨ id2entry_fails ∨ commit_fails) →
      (bdb_tool_entry_put env e s).1 = r.2.1 ∧ r.2.1 ≠ NOID) := by
  have hne : (bdb_tool_next_id env e.e_nname e.e_name e.e_id false s.tool).1 = 0 →
      (bdb_tool_next_id env e.e_nname e.e_name e.e_id false s.tool).2.1 ≠ NOID := fun h =>
    Nat.ne_of_lt (bdb_tool_next_id_ne_noid env e.e_nname e.e_name e.e_id s.tool hmap hgen h)
  unfold bdb_tool_entry_put
  dsimp only
  generalize bdb_tool_next_id env e.e_nname e.e_name e.e_id false s.tool = r at hne ⊢
  obtain ⟨rc, id, st1⟩ := r
  dsimp only at hne ⊢
  cases hq : env.quick <;> cases hl : env.bi_linear_index <;>
    simp only [Bool.false_eq_true, if_false, if_true, not_false_eq_true, not_true_eq_false,
      true_and, false_and, and_true, and_false, false_or, or_false, ne_eq]
  all_goals
    by_cases h0 : env.txn_begin_rc = 0 <;> by_cases h1 : rc = 0 <;>
    by_cases hc : env.txn_commit_rc = 0 <;>
    by_cases h3 : env.id2entry_add_rc
      { e_id := id, e_name := e.e_name, e_nname := e.e_nname, e_attrs := e.e_attrs } = 0
  all_goals first
    | (have hid := hne h1
       have hid2 : ¬ (NOID = id) := fun hh => hid hh.symm
       try subst h1
       by_cases h2 : (bdb_tool_index_add env s.bi_nattrs (some ())
          { e_id := id, e_name := e.e_name, e_nname := e.e_nname, e_attrs := e.e_attrs }).1 = 0 <;>
       by_cases h2n : (bdb_tool_index_add env s.bi_nattrs none
          { e_id := id, e_name := e.e_name, e_nname := e.e_nname, e_attrs := e.e_attrs }).1 = 0 <;>
       simp [h0, hc, h3, h2, h2n, hid, hid2])
    | (simp [h0, h1, hc, h3])

/-- An instance of C7: loading the suffix entry `o=x` transactionally into an
empty backend, where every step succeeds, does not return `NOID`. -/
theorem bdb_tool_entry_put_noid_iff_witness :
    (Session.fresh 0 0).tool.bi_lastid + [1].length < NOID ∧
    (bdb_tool_entry_put (ToolEnv.allOk [[1]] false false 1) ⟨NOID, [1], [1], []⟩
      (Session.fresh 0 0)).1 ≠ NOID := by
  have h := bdb_tool_entry_put_noid_iff (ToolEnv.allOk [[1]] false false 1)
    ⟨NOID, [1], [1], []⟩ (Session.fresh 0 0)
    (by intro n id hh; simp [Session.fresh, ToolState.init, dn2id_lookup] at hh)
    (by decide)
  refine ⟨by decide, ?_⟩
  have h2 := h.2 (by decide)
  rw [h2.1]
  exact h2.2

/-- C8.  Transaction discipline of `bdb_tool_entry_put`.  In non-quick mode, once
`TXN_BEGIN` has succeeded, the calls are exactly: `TXN_BEGIN`, the resolver, the
index add if the resolver succeeded (and `bi_linear_index` is off), the
primary-store write if both succeeded, and then one final call that is
`TXN_COMMIT` when all three succeeded and `TXN_ABORT` otherwise; so the
transaction is ended exactly once and no step runs after a failed one.  In quick
mode no call is `TXN_BEGIN`, `TXN_COMMIT` or `TXN_ABORT` and every call receives
the null transaction. -/
theorem bdb_tool_entry_put_txn_discipline (env : ToolEnv) (e : Entry) (s : Session) :
    let r := bdb_tool_next_id env e.e_nname e.e_name e.e_id false s.tool
    let e1 : Entry := { e with e_id := r.2.1 }
    let t := (bdb_tool_entry_put env e s).2.1
    (env.quick = false → env.txn_begin_rc = 0 →
      t = [Call.txn_begin, Call.next_id (some ())] ++
          (if r.1 = 0 ∧ env.bi_linear_index = false then [Call.index_add (some ())] else []) ++
          (if r.1 = 0 ∧ (env.bi_linear_index = true ∨
              (bdb_tool_index_add env s.bi_nattrs (some ()) e1).1 = 0) then
            [Call.id2entry_add (some ())] else []) ++
          [if r.1 = 0 ∧ (env.bi_linear_index = true ∨
              (bdb_tool_index_add env s.bi_nattrs (some ()) e1).1 = 0) ∧
              env.id2entry_add_rc e1 = 0 then
            Call.txn_commit (some ()) else Call.txn_abort (some ())] ∧
      (t.filter Call.endsTxn).length = 1 ∧
      (Call.txn_commit (some ()) ∈ t ↔
        (r.1 = 0 ∧ (env.bi_linear_index = true ∨
          (bdb_tool_index_add env s.bi_nattrs (some ()) e1).1 = 0) ∧
          env.id2entry_add_rc e1 = 0)) ∧
      (Call.txn_abort (some ()) ∈ t ↔
        ¬ (r.1 = 0 ∧ (env.bi_linear_index = true ∨
          (bdb_tool_index_add env s.bi_nattrs (some ()) e1).1 = 0) ∧
          env.id2entry_add_rc e1 = 0)) ∧
      (Call.index_add (some ()) ∈ t → r.1 = 0) ∧
      (Call.id2entry_add (some ()) ∈ t →
        r.1 = 0 ∧ (env.bi_linear_index = true ∨
          (bdb_tool_index_add env s.bi_nattrs (some ()) e1).1 = 0))) ∧
    (env.quick = true →
      t = [Call.next_id none] ++
          (if r.1 = 0 ∧ env.bi_linear_index = false then [Call.index_add none] else []) ++
          (if r.1 = 0 ∧ (env.bi_linear_index = true ∨
              (bdb_tool_index_add env s.bi_nattrs none e1).1 = 0) then
            [Call.id2entry_add none] else []) ∧
      (∀ c ∈ t, c.isTxn = false ∧ c.tid = none)) := by
  unfold bdb_tool_entry_put
  dsimp only
  generalize bdb_tool_next_id env e.e_nname e.e_name e.e_id false s.tool = r
  obtain ⟨rc, id, st1⟩ := r
  dsimp only
  refine ⟨fun hq h0 => ?_, fun hq => ?_⟩
  · simp only [hq, h0, Bool.false_eq_true, if_false, not_false_eq_true, ne_eq,
      not_true_eq_false, and_false, true_and, if_true]
    by_cases h1 : rc = 0
    · subst h1
      cases hl : env.bi_linear_index
      · by_cases h2 : (bdb_tool_index_add env s.bi_nattrs (some ())
            { e_id := id, e_name := e.e_name, e_nname := e.e_nname,
              e_attrs := e.e_attrs }).1 = 0
        · by_cases h3 : env.id2entry_add_rc
            { e_id := id, e_name := e.e_name, e_nname := e.e_nname,
              e_attrs := e.e_attrs } = 0 <;>
          by_cases hc : env.txn_commit_rc = 0 <;>
          simp [h2, h3, hc, Call.endsTxn]
        · simp [h2, Call.endsTxn]
      · by_cases h3 : env.id2entry_add_rc
            { e_id := id, e_name := e.e_name, e_nname := e.e_nname,
              e_attrs := e.e_attrs } = 0 <;>
        by_cases hc : env.txn_commit_rc = 0 <;>
        simp [h3, hc, Call.endsTxn]
    · simp [h1, Call.endsTxn]
  · simp only [hq, not_true_eq_false, false_and, if_false, if_true]
    by_cases h1 : rc = 0
    · subst h1
      cases hl : env.bi_linear_index
      · by_cases h2 : (bdb_tool_index_add env s.bi_nattrs none
            { e_id := id, e_name := e.e_name, e_nname := e.e_nname,
              e_attrs := e.e_attrs }).1 = 0
        · by_cases h3 : env.id2entry_add_rc
            { e_id := id, e_name := e.e_name, e_nname := e.e_nname,
              e_attrs := e.e_attrs } = 0 <;>
          simp [h2, h3, Call.isTxn, Call.tid]
        · simp [h2, Call.isTxn, Call.tid]
      · by_cases h3 : env.id2entry_add_rc
            { e_id := id, e_name := e.e_name, e_nname := e.e_nname,
              e_attrs := e.e_attrs } = 0 <;>
        simp [h3, Call.isTxn, Call.tid]
    · simp [h1, Call.isTxn, Call.tid]

/-- An instance of C8: a non-quick load of the suffix entry in which every step
succeeds ends its transaction with exactly one call. -/
theorem bdb_tool_entry_put_txn_discipline_witness :
    (ToolEnv.allOk [[1]] false false 1).quick = false ∧
    (ToolEnv.allOk [[1]] false false 1).txn_begin_rc = 0 ∧
    (((bdb_tool_entry_put (ToolEnv.allOk [[1]] false false 1) ⟨NOID, [1], [1], []⟩
      (Session.fresh 0 0)).2.1).filter Call.endsTxn).length = 1 :=
  ⟨rfl, rfl,
   ((bdb_tool_entry_put_txn_discipline (ToolEnv.allOk [[1]] false false 1)
      ⟨NOID, [1], [1], []⟩ (Session.fresh 0 0)).1 rfl rfl).2.1⟩

/-! ## Cursor session -/

theorem bdb_tool_entry_put_cursor (env : ToolEnv) (e : Entry) (s : Session) :
    (bdb_tool_entry_put env e s).2.2.cursor = s.cursor := by
  unfold bdb_tool_entry_put
  dsimp only
  generalize bdb_tool_next_id env e.e_nname e.e_name e.e_id false s.tool = r
  obtain ⟨rc, id, st1⟩ := r
  dsimp only
  cases hq : env.quick <;> cases hl : env.bi_linear_index <;>
    simp only [Bool.false_eq_true, if_false, if_true, not_false_eq_true, not_true_eq_false,
      true_and, false_and, ne_eq]
  all_goals
    by_cases h1 : rc = 0 <;>
    by_cases h3 : env.id2entry_add_rc
      { e_id := id, e_name := e.e_name, e_nname := e.e_nname, e_attrs := e.e_attrs } = 0 <;>
    by_cases h2 : (bdb_tool_index_add env s.bi_nattrs (some ())
          { e_id := id, e_name := e.e_name, e_nname := e.e_nname, e_attrs := e.e_attrs }).1 = 0 <;>
    by_cases h2n : (bdb_tool_index_add env s.bi_nattrs none
          { e_id := id, e_name := e.e_name, e_nname := e.e_nname, e_attrs := e.e_attrs }).1 = 0 <;>
    simp only [h1, h3, h2, h2n, if_true, if_false, not_true_eq_false, not_false_eq_true] <;>
    split_ifs <;> rfl

theorem run_op_cursor (env : ToolEnv) (op : ToolOp) (s s1 : Session)
    (hno : is_txn_modify (env, op) = false) (hc : s.cursor.isSome = true)
    (hrun : run_op env op s = some s1) : s1.cursor.isSome = true := by
  cases op with
  | next =>
    simp only [run_op, bdb_tool_entry_next] at hrun
    cases hcur : s.cursor with
    | none => simp [hcur] at hc
    | some c =>
      simp only [hcur] at hrun
      cases h1 : id2entry_c_next s.id2entry c with
      | some r =>
        obtain ⟨p, k, v⟩ := r
        simp only [h1, Option.map_some', Option.some.injEq] at hrun
        rw [← hrun]; rfl
      | none =>
        simp only [h1] at hrun
        by_cases h2 : s.index_nattrs = 0
        · simp only [h2, ne_eq, not_true_eq_false, if_false, Option.map_some',
            Option.some.injEq] at hrun
          rw [← hrun]; exact hc
        · simp only [h2, ne_eq, not_false_eq_true, if_true] at hrun
          cases h3 : id2entry_c_first s.id2entry with
          | some r =>
            obtain ⟨p, k, v⟩ := r
            simp only [h3, Option.map_some', Option.some.injEq] at hrun
            rw [← hrun]; rfl
          | none =>
            simp only [h3, Option.map_some', Option.some.injEq] at hrun
            rw [← hrun]; rfl
  | id2entry_get id =>
    simp only [run_op, bdb_tool_id2entry_get] at hrun
    cases hcur : s.cursor with
    | none => simp [hcur] at hc
    | some c =>
      simp only [hcur] at hrun
      cases h1 : id2entry_c_set s.id2entry id 0 with
      | some r =>
        obtain ⟨p, k, v⟩ := r
        simp only [h1] at hrun
        split at hrun
        · simp at hrun
        · simp only [Option.map_some', Option.some.injEq] at hrun
          rw [← hrun]; rfl
        · simp only [Option.map_some', Option.some.injEq] at hrun
          rw [← hrun]; rfl
      | none =>
        simp only [h1, Option.map_some', Option.some.injEq] at hrun
        rw [← hrun]; simp [hcur]
  | put e =>
    simp only [run_op, Option.some.injEq] at hrun
    rw [← hrun, bdb_tool_entry_put_cursor]; exact hc
  | reindex id =>
    simp only [run_op, bdb_tool_entry_reindex] at hrun
    by_cases h0 : s.bi_attrs.isNone = true
    · simp only [h0, if_true, Option.map_some', Option.some.injEq] at hrun
      rw [← hrun]; exact hc
    · simp only [h0, Bool.false_eq_true, if_false] at hrun
      have hs1 : (if env.bi_linear_index = true ∧ s.index_nattrs = 0 then
          ({ s with index_nattrs := s.bi_nattrs - 1, bi_nattrs := 1 } : Session)
          else s).cursor = s.cursor := by
        split_ifs <;> rfl
      generalize (if env.bi_linear_index = true ∧ s.index_nattrs = 0 then
          ({ s with index_nattrs := s.bi_nattrs - 1, bi_nattrs := 1 } : Session)
          else s) = s2 at hrun hs1
      cases hg : bdb_tool_entry_get env id s2 with
      | none => simp [hg] at hrun
      | some oe =>
        cases oe with
        | none =>
          simp only [hg, Option.map_some', Option.some.injEq] at hrun
          rw [← hrun, hs1]; exact hc
        | some e =>
          simp only [hg] at hrun
          have : s2 = s1 := by
            split_ifs at hrun <;> simp only [Option.map_some', Option.some.injEq] at hrun <;>
              exact hrun
          rw [← this, hs1]; exact hc
  | modify e =>
    have hq : env.quick = true := by simpa [is_txn_modify] using hno
    simp only [run_op, bdb_tool_entry_modify, hq, not_true_eq_false, if_false] at hrun
    by_cases h1 : e.e_id = NOID
    · simp [h1] at hrun
    · by_cases h2 : env.id2entry_update_rc e = 0
      · simp only [h1, h2, if_false, if_true, Option.map_some', Option.some.injEq] at hrun
        rw [← hrun]; exact hc
      · simp only [h1, h2, if_false, Option.map_some', Option.some.injEq] at hrun
        rw [← hrun]; exact hc

theorem run_ops_cursor :
    ∀ (ops : List (ToolEnv × ToolOp)) (s s1 : Session),
      (∀ x ∈ ops, is_txn_modify x = false) → s.cursor.isSome = true →
      run_ops ops s = some s1 → s1.cursor.isSome = true := by
  intro ops
  induction ops with
  | nil => intro s s1 _ hc hrun; simp only [run_ops, Option.some.injEq] at hrun; rw [← hrun]; exact hc
  | cons x rest ih =>
    intro s s1 hno hc hrun
    obtain ⟨env, op⟩ := x
    simp only [run_ops] at hrun
    cases h1 : run_op env op s with
    | none => simp [h1] at hrun
    | some s2 =>
      simp only [h1] at hrun
      have hc2 := run_op_cursor env op s s2 (hno _ (List.mem_cons_self _ _)) hc h1
      exact ih s2 s1 (fun y hy => hno y (List.mem_cons_of_mem _ hy)) hc2 hrun

theorem bdb_tool_entry_open_cursor (env : ToolEnv) (s : Session)
    (h : (bdb_tool_entry_open env s).1 = 0) :
    (bdb_tool_entry_open env s).2.cursor.isSome = true := by
  unfold bdb_tool_entry_open at h ⊢
  dsimp only at h ⊢
  by_cases h1 : s.cursor.isNone = true ∧ env.cursor_open_rc ≠ 0
  · simp [h1] at h
  · simp only [h1, if_false]
    by_cases h2 : s.cursor.isNone = true
    · simp only [h2, if_true]
      split_ifs <;> rfl
    · simp only [h2, Bool.false_eq_true, if_false]
      have h3 : s.cursor.isSome = true := by
        cases hh : s.cursor with
        | none => simp [hh] at h2
        | some c => rfl
      split_ifs <;> exact h3

/-- C9, as the code has it.  After a successful `bdb_tool_entry_open`, the shared
primary-store cursor is open after every operation of a session
(`bdb_tool_entry_next`, `bdb_tool_id2entry_get`, `bdb_tool_entry_put`,
`bdb_tool_entry_reindex`, and `bdb_tool_entry_modify` in quick mode) that contains
no non-quick `bdb_tool_entry_modify`; a non-quick `bdb_tool_entry_modify` closes
the cursor before `TXN_BEGIN` and returns with the cursor closed. -/
theorem bdb_tool_session_cursor_open (env0 : ToolEnv) (s0 : Session)
    (hopen : (bdb_tool_entry_open env0 s0).1 = 0) :
    (∀ (ops : List (ToolEnv × ToolOp)) (s : Session),
      (∀ x ∈ ops, is_txn_modify x = false) →
      run_ops ops (bdb_tool_entry_open env0 s0).2 = some s → s.cursor.isSome = true) ∧
    (∀ (env : ToolEnv) (e : Entry) (s : Session) (r : Nat × List Call × Session),
      env.quick = false → bdb_tool_entry_modify env e s = some r → r.2.2.cursor = none) := by
  refine ⟨fun ops s hno hrun => ?_, fun env e s r hq hm => ?_⟩
  · exact run_ops_cursor ops _ s hno (bdb_tool_entry_open_cursor env0 s0 hopen) hrun
  · simp only [bdb_tool_entry_modify, hq, Bool.false_eq_true, not_false_eq_true, if_true] at hm
    by_cases h1 : e.e_id = NOID
    · simp [h1] at hm
    · simp only [h1, if_false] at hm
      split_ifs at hm <;> simp only [Option.some.injEq] at hm <;> rw [← hm]

/-- An instance of C9: a quick-mode session that loads the suffix entry and then
reads the primary store keeps the cursor open. -/
theorem bdb_tool_session_cursor_open_witness :
    (bdb_tool_entry_open (ToolEnv.allOk [[1]] true false 1) (Session.fresh 0 0)).1 = 0 ∧
    ((run_ops [(ToolEnv.allOk [[1]] true false 1, ToolOp.put ⟨NOID, [1], [1], []⟩),
               (ToolEnv.allOk [[1]] true false 1, ToolOp.next)]
        (bdb_tool_entry_open (ToolEnv.allOk [[1]] true false 1) (Session.fresh 0 0)).2).map
      (fun s => s.cursor.isSome)) = some true := by
  refine ⟨rfl, ?_⟩
  have h := (bdb_tool_session_cursor_open (ToolEnv.allOk [[1]] true false 1)
    (Session.fresh 0 0) rfl).1
    [(ToolEnv.allOk [[1]] true false 1, ToolOp.put ⟨NOID, [1], [1], []⟩),
     (ToolEnv.allOk [[1]] true false 1, ToolOp.next)]
  cases hr : run_ops [(ToolEnv.allOk [[1]] true false 1, ToolOp.put ⟨NOID, [1], [1], []⟩),
               (ToolEnv.allOk [[1]] true false 1, ToolOp.next)]
        (bdb_tool_entry_open (ToolEnv.allOk [[1]] true false 1) (Session.fresh 0 0)).2 with
  | none =>
    have hsome : (run_ops
        [(ToolEnv.allOk [[1]] true false 1, ToolOp.put ⟨NOID, [1], [1], []⟩),
         (ToolEnv.allOk [[1]] true false 1, ToolOp.next)]
        (bdb_tool_entry_open (ToolEnv.allOk [[1]] true false 1)
          (Session.fresh 0 0)).2).isSome = true := by decide
    rw [hr] at hsome
    exact absurd hsome (by decide)
  | some s =>
    have := h s (by decide) hr
    simp [this]

/-- C9 fails as stated: after a successful `bdb_tool_entry_open`, one non-quick
`bdb_tool_entry_modify` returns with the shared cursor closed (`NULL`); nothing
in it reopens the cursor. -/
theorem bdb_tool_session_cursor_counterexample :
    (bdb_tool_entry_open (ToolEnv.allOk [[1]] false false 1) (Session.fresh 0 0)).1 = 0 ∧
    ((run_ops [(ToolEnv.allOk [[1]] false false 1, ToolOp.modify ⟨1, [1], [1], []⟩)]
        (bdb_tool_entry_open (ToolEnv.allOk [[1]] false false 1) (Session.fresh 0 0)).2).map
      (fun s => s.cursor)) = some none := by
  decide

/-- C10.  `bdb_tool_entry_close` returns `-1` exactly when the hole list is
non-empty at close and `0` otherwise, for every state of the IDL cache and every
outcome of the flush it performs; when it returns `-1` it writes, after the
heading line, one line per surviving hole with its id and name, in hole-list
order. -/
theorem bdb_tool_entry_close_status (ienv : IdlEnv) (s : Session) :
    ((bdb_tool_entry_close ienv s).1 = -1 ↔ s.tool.nholes ≠ 0) ∧
    (s.tool.nholes = 0 →
      (bdb_tool_entry_close ienv s).1 = 0 ∧ (bdb_tool_entry_close ienv s).2.1 = []) ∧
    (s.tool.nholes ≠ 0 →
      (bdb_tool_entry_close ienv s).2.1 =
        ErrLine.entries_missing ::
          s.tool.holeList.map (fun h => ErrLine.entry h.id h.dn)) := by
  unfold bdb_tool_entry_close
  dsimp only
  have ht : (if s.tool_info = true then ({ s with slapd_shutdown := true } : Session)
      else s).tool = s.tool := by split_ifs <;> rfl
  by_cases h : s.tool.nholes = 0
  · simp [ht, h]
  · simp [ht, h, ToolState.holeList, List.map_map, Function.comp_def]

/-! ## IDL cache: the flush of one entry -/

theorem c_put_good (env : IdlEnv) (hg : env.Good) (k : Key) (x : Nat) (d : List Nat) :
    c_put env k x d =
      if x ∈ d then (DB_KEYEXIST, d) else (0, List.orderedInsert (fun a b => a ≤ b) x d) := by
  simp [c_put, hg.put_ok]

theorem put_ids_good (env : IdlEnv) (hg : env.Good) (k : Key) :
    ∀ (xs d : List Nat), put_ids env k xs d = (0, dup_merge d xs) := by
  intro xs
  induction xs with
  | nil => intro d; rfl
  | cons x xs ih =>
    intro d
    by_cases hx : x = 0
    · simp [put_ids, hx, ih, dup_merge, dup_ins]
    · by_cases hm : x ∈ d
      · simp [put_ids, hx, c_put_good env hg, hm, ih, dup_merge, dup_ins]
      · simp [put_ids, hx, c_put_good env hg, hm, ih, dup_merge, dup_ins]

theorem dup_merge_append (d xs ys : List Nat) :
    dup_merge d (xs ++ ys) = dup_merge (dup_merge d xs) ys := by
  simp [dup_merge, List.foldl_append]

theorem dup_merge_filter (xs : List Nat) :
    ∀ d : List Nat, dup_merge d (xs.filter (fun x => x ≠ 0)) = dup_merge d xs := by
  induction xs with
  | nil => intro d; rfl
  | cons x xs ih =>
    intro d
    by_cases hx : x = 0
    · simp [hx, dup_merge, dup_ins] at ih ⊢
      exact ih d
    · simp only [ne_eq, hx, not_false_eq_true, decide_True, List.filter_cons_of_pos]
      simp only [dup_merge, List.foldl_cons] at ih ⊢
      exact ih _

theorem flush_blocks_good (env : IdlEnv) (hg : env.Good) (k : Key) (count : Nat) :
    ∀ (blocks : List IdBlock) (n : Nat) (d : List Nat),
      flush_blocks env k count blocks n d =
        (0, n + blocks.length, dup_merge d (visit_ids count blocks)) := by
  intro blocks
  induction blocks with
  | nil => intro n d; simp [flush_blocks, visit_ids, dup_merge]
  | cons b rest ih =>
    intro n d
    simp only [flush_blocks, put_ids_good env hg, ne_eq, not_true_eq_false, if_false, ih,
      visit_ids, dup_merge_append, List.length_cons]
    congr 2
    omega

/-- The store after `bdb_tool_idl_flush_one` differs from the store before at the
entry's key only, and what is written there, as well as the status, depends on
the duplicates under that key alone. -/
theorem flush_one_frame (env : IdlEnv) (ic : bdb_tool_idl_cache) (g : IdlGlobal)
    (d : Key → List Nat) :
    (bdb_tool_idl_flush_one env ic g d).2.2.1 = setData d ic.kstr (flush_key env ic (d ic.kstr)) ∧
    (bdb_tool_idl_flush_one env ic g d).1 = flush_rc env ic (d ic.kstr) := by
  have hid : setData d ic.kstr (d ic.kstr) = d := by
    funext x; simp only [setData]; split_ifs with h
    · rw [h]
    · rfl
  unfold flush_key flush_rc bdb_tool_idl_flush_one
  by_cases h1 : ic.blocks.isEmpty = true ∧ ic.count ≤ env.BDB_IDL_DB_SIZE
  · simp only [h1, and_self, if_true, hid]
  · by_cases h2 : env.cursor_rc ≠ 0
    · simp only [h1, h2, if_false, if_true, hid, ne_eq, not_false_eq_true, and_self]
    · simp only [h1, h2, if_false, and_self]

theorem block_end_succ (c : Nat) : block_end (c + 1) false = c % IDBLOCK + 1 := by
  unfold block_end IDBLOCK
  simp only [Bool.false_eq_true, if_false]
  split_ifs <;> omega

theorem block_end_full (c : Nat) (b : Bool) (h : c % IDBLOCK = 0) : block_end c b = IDBLOCK := by
  unfold block_end
  cases b <;> simp [h]

theorem block_end_part (c : Nat) (h : c % IDBLOCK ≠ 0) : block_end c false = c % IDBLOCK := by
  unfold block_end
  simp [h]

theorem tail_store_append (slot id : Nat) (b : IdBlock) :
    ∀ bs : List IdBlock,
      tail_store (bs ++ [b]) slot id = bs ++ [fun i => if i = slot then id else b i] := by
  intro bs
  induction bs with
  | nil => rfl
  | cons b0 rest ih =>
    cases rest with
    | nil => rfl
    | cons b1 rest2 =>
      simp only [List.cons_append] at ih ⊢
      show b0 :: tail_store (b1 :: (rest2 ++ [b])) slot id = _
      rw [ih]

theorem tail_store_ne_nil (slot id : Nat) :
    ∀ bs : List IdBlock, bs ≠ [] → tail_store bs slot id ≠ [] := by
  intro bs h
  cases bs with
  | nil => exact absurd rfl h
  | cons b rest =>
    cases rest with
    | nil => simp [tail_store]
    | cons b1 r2 => simp [tail_store]

theorem range_map_update (r id : Nat) (b : IdBlock) :
    (List.range (r + 1)).map (fun i => if i = r then id else b i) =
      (List.range r).map b ++ [id] := by
  rw [List.range_succ, List.map_append]
  congr 1
  · apply List.map_congr_left
    intro i hi
    have : i ≠ r := by
      have := List.mem_range.1 hi
      omega
    simp [this]
  · simp

theorem visit_ids_new_block (c c2 : Nat) (nb : IdBlock) (h : c % IDBLOCK = 0) :
    ∀ bs : List IdBlock,
      visit_ids c2 (bs ++ [nb]) = visit_ids c bs ++ (List.range (block_end c2 false)).map nb := by
  intro bs
  induction bs with
  | nil => simp [visit_ids]
  | cons b rest ih =>
    simp only [List.cons_append, visit_ids, ih, List.append_assoc]
    congr 2
    cases rest <;> simp [block_end, h]

theorem visit_ids_tail_store (c id : Nat) (h : c % IDBLOCK ≠ 0) :
    ∀ bs : List IdBlock, bs ≠ [] →
      visit_ids (c + 1) (tail_store bs (c % IDBLOCK) id) = visit_ids c bs ++ [id] := by
  intro bs
  induction bs with
  | nil => intro hne; exact absurd rfl hne
  | cons b rest ih =>
    intro _
    cases rest with
    | nil =>
      simp only [tail_store, visit_ids, List.isEmpty_nil, Bool.not_true, List.append_nil,
        block_end_succ, block_end_part c h]
      exact range_map_update _ _ _
    | cons b1 r2 =>
      have hne : tail_store (b1 :: r2) (c % IDBLOCK) id ≠ [] :=
        tail_store_ne_nil _ _ _ (by simp)
      have h1 : (tail_store (b1 :: r2) (c % IDBLOCK) id).isEmpty = false := by
        cases hh : tail_store (b1 :: r2) (c % IDBLOCK) id with
        | nil => exact absurd hh hne
        | cons _ _ => rfl
      show visit_ids (c + 1) (b :: tail_store (b1 :: r2) (c % IDBLOCK) id) = _
      simp only [visit_ids, h1, List.isEmpty_cons, Bool.not_false, List.append_assoc]
      rw [ih (by simp)]
      simp [visit_ids, block_end]

theorem filter_zero_block (r : Nat) :
    ((List.range r).map (fun _ : Nat => (0 : Nat))).filter (fun x => x ≠ 0) = [] := by
  simp [List.filter_eq_nil_iff]

theorem setData_same (d : Key → List Nat) (k : Key) : setData d k (d k) = d := by
  funext x; simp only [setData]; split_ifs with h
  · rw [h]
  · rfl

theorem setData_self (d : Key → List Nat) (k : Key) (X : List Nat) : setData d k X k = X := by
  simp [setData]

theorem setData_other (d : Key → List Nat) (k k2 : Key) (X : List Nat) (h : k2 ≠ k) :
    setData d k X k2 = d k2 := by
  simp [setData, h]

theorem blocks_nil_eta (ic : bdb_tool_idl_cache) (h : ic.blocks = []) :
    ({ ic with blocks := [] } : bdb_tool_idl_cache) = ic := by
  cases ic; simp only at h; subst h; rfl

/-- The flush of one list-state entry when no store call fails: status `0`, and
the slot values it visits are merged into the duplicates of its key. -/
theorem flush_one_list_good (env : IdlEnv) (hg : env.Good) (ic : bdb_tool_idl_cache)
    (g : IdlGlobal) (d : Key → List Nat) (hc : ic.count ≤ env.BDB_IDL_DB_SIZE) :
    (bdb_tool_idl_flush_one env ic g d).1 = 0 ∧
    (bdb_tool_idl_flush_one env ic g d).2.2.1 =
      setData d ic.kstr (dup_merge (d ic.kstr) (visit_ids ic.count ic.blocks)) ∧
    (bdb_tool_idl_flush_one env ic g d).2.2.2 = { ic with blocks := [] } := by
  unfold bdb_tool_idl_flush_one
  by_cases h1 : ic.blocks.isEmpty = true
  · have hb : ic.blocks = [] := List.isEmpty_iff.1 h1
    rw [if_pos ⟨h1, hc⟩]
    refine ⟨rfl, ?_, (blocks_nil_eta ic hb).symm⟩
    simp [hb, visit_ids, dup_merge, setData_same]
  · have hnot : ¬ ic.count > env.BDB_IDL_DB_SIZE := by omega
    rw [if_neg (fun h => h1 h.1), if_neg (by simp [hg.cursor_ok])]
    simp only [flush_one_dups, hg.get_ok, hnot, and_false, ne_eq, not_true_eq_false,
      if_false, flush_blocks_good env hg, and_true, false_and]
    split_ifs with ha hb hb
    · exact absurd rfl hb.2
    · simp
    · exact absurd rfl hb.1
    · simp

theorem flush_db_single_list (env : IdlEnv) (hg : env.Good) (ic : bdb_tool_idl_cache)
    (g : IdlGlobal) (d : Key → List Nat) (keep : Option Key)
    (hc : ic.count ≤ env.BDB_IDL_DB_SIZE) :
    (bdb_tool_idl_flush_db env keep g ⟨d, [ic]⟩).1 = 0 ∧
    (bdb_tool_idl_flush_db env keep g ⟨d, [ic]⟩).2.2.1 =
      ⟨setData d ic.kstr (dup_merge (d ic.kstr) (visit_ids ic.count ic.blocks)), []⟩ ∧
    (bdb_tool_idl_flush_db env keep g ⟨d, [ic]⟩).2.2.2 =
      if keep = some ic.kstr then some { ic with blocks := [] } else none := by
  obtain ⟨h1, h2, h3⟩ := flush_one_list_good env hg ic g d hc
  unfold bdb_tool_idl_flush_db
  simp only [avl_apply_flush, h1, h2, h3]
  simp [AVL_NOMORE]

/-! ## IDL cache: a run of inserts under one key -/

theorem visit_ids_first_block (c id : Nat) :
    (visit_ids (c + 1) [fun i => if i = c % IDBLOCK then id else (fun _ => 0) i]).filter
      (fun x => x ≠ 0) = if id = 0 then [] else [id] := by
  simp only [visit_ids, List.isEmpty_nil, Bool.not_true, List.append_nil, block_end_succ]
  rw [range_map_update, List.filter_append, filter_zero_block]
  by_cases h : id = 0 <;> simp [h]

theorem filter_singleton (id : Nat) :
    ([id] : List Nat).filter (fun x => x ≠ 0) = if id = 0 then [] else [id] := by
  by_cases h : id = 0 <;> simp [h]

/-- One `bdb_tool_idl_add` on a cache that holds the entry of `key` alone follows
the view: it returns `0`, the cache again holds that entry alone, and no other
key of the store is touched. -/
theorem idl_add_rep (env : IdlEnv) (hg : env.Good) (key : Key) (id : Nat) (g : IdlGlobal)
    (db : DB) (v : KView) (hrep : KView.Rep env key v db) :
    ∃ p : Bool, (bdb_tool_idl_add env key id g db).1 = 0 ∧
      KView.Rep env key (KView.add env p id v) (bdb_tool_idl_add env key id g db).2.2 ∧
      ∀ k2, k2 ≠ key → (bdb_tool_idl_add env key id g db).2.2.data k2 = db.data k2 := by
  obtain ⟨ic, ht, hk, hS, hc, hf, hl, hP, hB, hE⟩ := hrep
  obtain ⟨data, tree⟩ := db
  simp only at ht hS
  subst ht
  have hfind : avl_find [ic] key = some ic := by simp [avl_find, hk]
  have hupd : ∀ ic2 : bdb_tool_idl_cache, ic2.kstr = ic.kstr → avl_update [ic] ic2 = [ic2] := by
    intro ic2 h2; simp [avl_update, h2]
  unfold bdb_tool_idl_add
  rw [if_neg hg.caching]
  simp only [hfind]
  unfold idl_add_to
  by_cases hA : ic.count > env.BDB_IDL_DB_SIZE
  · -- range already
    have hv : v.c > env.BDB_IDL_DB_SIZE := by omega
    have hadd : KView.add env false id v = { v with l := id } := by simp [KView.add, hv]
    refine ⟨false, by simp [hA], ?_, fun k2 _ => by simp [hA]⟩
    rw [hadd]
    simp only [hA, if_true, avl_update, eq_self_iff_true]
    exact ⟨_, rfl, hk, hS, hc, hf, rfl, fun h => absurd hv (Nat.not_lt.2 h), hB, hE⟩
  · by_cases hBd : ic.count = env.BDB_IDL_DB_SIZE
    · -- list → range
      have hv : v.c = env.BDB_IDL_DB_SIZE := by omega
      have hadd : KView.add env false id v = { v with P := [], l := id, c := v.c + 1 } := by
        simp [KView.add, hv]
      refine ⟨false, by simp [hA, hBd], ?_, fun k2 _ => by simp [hA, hBd]⟩
      rw [hadd]
      simp only [hA, hBd, if_true, if_false, avl_update, eq_self_iff_true, lt_irrefl,
        gt_iff_lt]
      refine ⟨_, rfl, hk, hS, ?_, hf, rfl, ?_, fun _ => rfl, fun _ => rfl⟩
      · show env.BDB_IDL_DB_SIZE + 1 = v.c + 1
        rw [hv]
      · intro h
        have h2 : v.c + 1 ≤ env.BDB_IDL_DB_SIZE := h
        omega
    · have hlt : ic.count < env.BDB_IDL_DB_SIZE := by omega
      have hv1 : ¬ v.c > env.BDB_IDL_DB_SIZE := by omega
      have hv2 : ¬ v.c = env.BDB_IDL_DB_SIZE := by omega
      have hPP := hP (by omega)
      have haddT : KView.add env true id v =
          { S := dup_merge v.S v.P, c := v.c + 1, f := if v.c = 0 then id else v.f, l := v.l,
            P := if id = 0 then [] else [id] } := by
        simp [KView.add, hv1, hv2]
      have haddF : KView.add env false id v =
          { v with c := v.c + 1, f := if v.c = 0 then id else v.f,
                   P := v.P ++ (if id = 0 then [] else [id]) } := by
        simp [KView.add, hv1, hv2]
      simp only [hA, hBd, if_false]
      by_cases hC : ic.blocks.isEmpty = true ∨ ic.count % IDBLOCK = 0
      · simp only [hC, if_true]
        by_cases hD : g.bi_idl_cache_size ≥ (env.bi_idl_cache_max_size : Int)
        · -- memory-pressure flush, then a fresh block
          obtain ⟨f1, f2, f3⟩ := flush_db_single_list env hg ic g data (some ic.kstr) (by omega)
          simp only [hD, if_true, f1, ne_eq, not_true_eq_false, if_false, f2, f3,
            Option.getD_some, idl_new_block, avl_insert, List.nil_append, avl_update,
            eq_self_iff_true]
          refine ⟨true, by first | rfl | trivial, ?_, ?_⟩
          · rw [haddT]
            refine ⟨_, rfl, hk, ?_, ?_, ?_, hl, ?_, ?_, ?_⟩
            · show setData data ic.kstr _ key = dup_merge v.S v.P
              rw [hk, setData_self, ← dup_merge_filter, hPP, hS]
            · show ic.count + 1 = v.c + 1
              rw [hc]
            · show (if ic.count = 0 then id else ic.first) = if v.c = 0 then id else v.f
              rw [hc, hf]
            · intro _
              exact visit_ids_first_block _ _
            · intro h
              have h2 : v.c + 1 > env.BDB_IDL_DB_SIZE := h
              omega
            · intro h
              have h2 : tail_store [fun _ => 0] (ic.count % IDBLOCK) id = [] := h
              simp [tail_store] at h2
          · intro k2 hk2
            exact setData_other _ _ _ _ (by rw [hk]; exact hk2)
        · -- a fresh block without flush
          simp only [hD, if_false, idl_new_block, avl_update, if_true, eq_self_iff_true]
          refine ⟨false, by first | rfl | trivial, ?_, fun _ _ => by first | rfl | trivial⟩
          rw [haddF]
          refine ⟨_, rfl, hk, hS, ?_, ?_, hl, ?_, ?_, ?_⟩
          · show ic.count + 1 = v.c + 1
            rw [hc]
          · show (if ic.count = 0 then id else ic.first) = if v.c = 0 then id else v.f
            rw [hc, hf]
          · intro _
            show (visit_ids (ic.count + 1)
              (tail_store (ic.blocks ++ [fun _ => 0]) (ic.count % IDBLOCK) id)).filter
                (fun x => x ≠ 0) = v.P ++ (if id = 0 then [] else [id])
            rw [tail_store_append]
            by_cases hbe : ic.blocks = []
            · rw [hbe, hE hbe]
              simp only [List.nil_append]
              exact visit_ids_first_block _ _
            · have hmod : ic.count % IDBLOCK = 0 := by
                rcases hC with h | h
                · exact absurd (List.isEmpty_iff.1 h) hbe
                · exact h
              rw [visit_ids_new_block ic.count (ic.count + 1) _ hmod, List.filter_append, hPP,
                block_end_succ, hmod]
              have hr : List.range (0 + 1) = [0] := rfl
              rw [hr]
              simp only [List.map_cons, List.map_nil, if_true]
              rw [filter_singleton]
          · intro h
            have h2 : v.c + 1 > env.BDB_IDL_DB_SIZE := h
            omega
          · intro h
            have h2 : tail_store (ic.blocks ++ [fun _ => 0]) (ic.count % IDBLOCK) id = [] := h
            rw [tail_store_append] at h2
            simp at h2
      · -- room in the tail block
        have hne : ic.blocks ≠ [] := by
          intro h; exact hC (Or.inl (by simp [h]))
        have hmod : ic.count % IDBLOCK ≠ 0 := fun h => hC (Or.inr h)
        simp only [hC, if_false, avl_update, if_true, eq_self_iff_true]
        refine ⟨false, by first | rfl | trivial, ?_, fun _ _ => by first | rfl | trivial⟩
        rw [haddF]
        refine ⟨_, rfl, hk, hS, ?_, ?_, hl, ?_, ?_, ?_⟩
        · show ic.count + 1 = v.c + 1
          rw [hc]
        · have h0 : ¬ v.c = 0 := by
            intro h0; rw [← hc] at h0; rw [h0] at hmod; simp at hmod
          show ic.first = if v.c = 0 then id else v.f
          rw [if_neg h0, hf]
        · intro _
          show (visit_ids (ic.count + 1) (tail_store ic.blocks (ic.count % IDBLOCK) id)).filter
            (fun x => x ≠ 0) = v.P ++ (if id = 0 then [] else [id])
          rw [visit_ids_tail_store _ _ hmod _ hne, List.filter_append, hPP, filter_singleton]
        · intro h
          have h2 : v.c + 1 > env.BDB_IDL_DB_SIZE := h
          omega
        · intro h
          exact absurd h (tail_store_ne_nil _ _ _ hne)

theorem idl_cache_load_kstr (env : IdlEnv) (key : Key) (S : List Nat) :
    (idl_cache_load env key S).kstr = key ∧ (idl_cache_load env key S).blocks = [] ∧
    (idl_cache_load env key S).last = 0 := by
  unfold idl_cache_load
  dsimp only
  split_ifs <;> exact ⟨rfl, rfl, rfl⟩

theorem KView.Rep_load (env : IdlEnv) (key : Key) (data : Key → List Nat) :
    KView.Rep env key (KView.load env key (data key))
      ⟨data, [idl_cache_load env key (data key)]⟩ := by
  obtain ⟨h1, h2, h3⟩ := idl_cache_load_kstr env key (data key)
  refine ⟨_, rfl, h1, rfl, rfl, rfl, h3, ?_, fun _ => h2, fun _ => rfl⟩
  intro _
  rw [h2]
  rfl

/-- The first `bdb_tool_idl_add` under a key on an empty cache creates the entry
from the stored duplicates and then proceeds as on the cache holding that entry. -/
theorem idl_add_first (env : IdlEnv) (hg : env.Good) (key : Key) (id : Nat) (g : IdlGlobal)
    (data : Key → List Nat) :
    bdb_tool_idl_add env key id g ⟨data, []⟩ =
      bdb_tool_idl_add env key id g ⟨data, [idl_cache_load env key (data key)]⟩ := by
  have hk := (idl_cache_load_kstr env key (data key)).1
  unfold bdb_tool_idl_add
  simp only [hg.caching, if_false, avl_find, hg.cursor_ok, ne_eq, not_true_eq_false, avl_insert,
    hk, if_true]

theorem idl_add_all_rep (env : IdlEnv) (hg : env.Good) (key : Key) :
    ∀ (ids : List Nat) (g : IdlGlobal) (db : DB) (v : KView), KView.Rep env key v db →
      ∃ xs : List (Bool × Nat), xs.map (fun x => x.2) = ids ∧
        KView.Rep env key (KView.run env xs v) (idl_add_all env key ids g db).2 ∧
        ∀ k2, k2 ≠ key → (idl_add_all env key ids g db).2.data k2 = db.data k2 := by
  intro ids
  induction ids with
  | nil =>
    intro g db v h
    exact ⟨[], rfl, h, fun _ _ => rfl⟩
  | cons id rest ih =>
    intro g db v h
    obtain ⟨p, _, h2, h3⟩ := idl_add_rep env hg key id g db v h
    obtain ⟨xs, hmap, h4, h5⟩ := ih (bdb_tool_idl_add env key id g db).2.1
      (bdb_tool_idl_add env key id g db).2.2 _ h2
    refine ⟨(p, id) :: xs, by simp [hmap], ?_, ?_⟩
    · simpa [idl_add_all, KView.run] using h4
    · intro k2 hk2
      simp only [idl_add_all]
      rw [h5 k2 hk2, h3 k2 hk2]

/-- A run of inserts under one key, started on an empty cache, is described by a
run of the view started from the stored duplicates. -/
theorem idl_add_all_from_empty (env : IdlEnv) (hg : env.Good) (key : Key) (id : Nat)
    (ids : List Nat) (g : IdlGlobal) (data : Key → List Nat) :
    ∃ xs : List (Bool × Nat), xs.map (fun x => x.2) = id :: ids ∧
      KView.Rep env key (KView.run env xs (KView.load env key (data key)))
        (idl_add_all env key (id :: ids) g ⟨data, []⟩).2 ∧
      ∀ k2, k2 ≠ key → (idl_add_all env key (id :: ids) g ⟨data, []⟩).2.data k2 = data k2 := by
  have h := idl_add_all_rep env hg key (id :: ids) g
    ⟨data, [idl_cache_load env key (data key)]⟩ _ (KView.Rep_load env key data)
  have heq : idl_add_all env key (id :: ids) g ⟨data, []⟩ =
      idl_add_all env key (id :: ids) g ⟨data, [idl_cache_load env key (data key)]⟩ := by
    simp only [idl_add_all, idl_add_first env hg]
  rw [heq]
  exact h

theorem cache_eta (ic : bdb_tool_idl_cache) (h : ic.blocks = []) :
    ic = ⟨ic.kstr, [], ic.first, ic.last, ic.count⟩ := by
  cases ic; simp only at h; subst h; rfl

/-- The flush of a cache that holds the entry of `key` alone leaves under `key`
what the view predicts, empties the cache and touches no other key. -/
theorem flush_db_rep (env : IdlEnv) (hg : env.Good) (key : Key) (g : IdlGlobal) (db : DB)
    (v : KView) (hrep : KView.Rep env key v db) :
    (bdb_tool_idl_flush_db env none g db).2.2.1.data key = KView.final env key v ∧
    (bdb_tool_idl_flush_db env none g db).2.2.1.app_private = [] ∧
    ∀ k2, k2 ≠ key → (bdb_tool_idl_flush_db env none g db).2.2.1.data k2 = db.data k2 := by
  obtain ⟨ic, ht, hk, hS, hc, hf, hl, hP, hB, hE⟩ := hrep
  obtain ⟨data, tree⟩ := db
  simp only at ht hS
  subst ht
  refine ⟨?_, rfl, ?_⟩
  · by_cases hle : v.c ≤ env.BDB_IDL_DB_SIZE
    · obtain ⟨_, f2, _⟩ := flush_db_single_list env hg ic g data none (by omega)
      rw [f2]
      have hnot : ¬ v.c > env.BDB_IDL_DB_SIZE := by omega
      simp only [KView.final, hnot, if_false]
      rw [hk, setData_self, ← dup_merge_filter, hP hle, hS]
    · have hgt : v.c > env.BDB_IDL_DB_SIZE := by omega
      have hb := hB hgt
      simp only [bdb_tool_idl_flush_db, avl_apply_flush, KView.final, hgt, if_true]
      have hfr := (flush_one_frame env ic g data).1
      have hdat : (if (bdb_tool_idl_flush_one env ic g data).1 = -1 then
          ((-1 : Int), (bdb_tool_idl_flush_one env ic g data).2.1,
            (bdb_tool_idl_flush_one env ic g data).2.2.1, (none : Option bdb_tool_idl_cache))
          else (AVL_NOMORE, (bdb_tool_idl_flush_one env ic g data).2.1,
            (bdb_tool_idl_flush_one env ic g data).2.2.1, none)).2.2.1 =
          (bdb_tool_idl_flush_one env ic g data).2.2.1 := by
        split_ifs <;> rfl
      simp only [reduceCtorEq, if_false] at hdat ⊢
      rw [hdat, hfr]
      have he := cache_eta ic hb
      rw [hk, hf, hl, hc] at he
      rw [← he, hk, setData_self, hS]
  · intro k2 hk2
    simp only [bdb_tool_idl_flush_db, avl_apply_flush]
    have hfr := (flush_one_frame env ic g data).1
    have hdat : (if (bdb_tool_idl_flush_one env ic g data).1 = -1 then
        ((-1 : Int), (bdb_tool_idl_flush_one env ic g data).2.1,
          (bdb_tool_idl_flush_one env ic g data).2.2.1, (none : Option bdb_tool_idl_cache))
        else (AVL_NOMORE, (bdb_tool_idl_flush_one env ic g data).2.1,
          (bdb_tool_idl_flush_one env ic g data).2.2.1, none)).2.2.1 =
        (bdb_tool_idl_flush_one env ic g data).2.2.1 := by
      split_ifs <;> rfl
    simp only [reduceCtorEq, if_false] at hdat ⊢
    rw [hdat, hfr]
    exact setData_other _ _ _ _ (by rw [hk]; exact hk2)

/-! ## IDL cache: properties of the view -/

theorem dup_ins_mem (d : List Nat) (x y : Nat) :
    y ∈ dup_ins d x ↔ y ∈ d ∨ (y = x ∧ x ≠ 0) := by
  unfold dup_ins
  by_cases h : x = 0 ∨ x ∈ d
  · rw [if_pos h]
    constructor
    · intro hy; exact Or.inl hy
    · rintro (hy | ⟨hy, hx⟩)
      · exact hy
      · rcases h with h | h
        · exact absurd h hx
        · rw [hy]; exact h
  · rw [if_neg h, List.mem_orderedInsert]
    have hx : x ≠ 0 := fun hh => h (Or.inl hh)
    constructor
    · rintro (hy | hy)
      · exact Or.inr ⟨hy, hx⟩
      · exact Or.inl hy
    · rintro (hy | ⟨hy, _⟩)
      · exact Or.inr hy
      · exact Or.inl hy

theorem dup_merge_mem (xs : List Nat) :
    ∀ (d : List Nat) (y : Nat), y ∈ dup_merge d xs ↔ y ∈ d ∨ (y ∈ xs ∧ y ≠ 0) := by
  induction xs with
  | nil => intro d y; simp [dup_merge]
  | cons x xs ih =>
    intro d y
    have h := ih (dup_ins d x) y
    simp only [dup_merge, List.foldl_cons] at h ⊢
    rw [h, dup_ins_mem]
    constructor
    · rintro ((h1 | ⟨h1, h2⟩) | ⟨h1, h2⟩)
      · exact Or.inl h1
      · exact Or.inr ⟨by rw [h1]; exact List.mem_cons_self _ _, by rw [h1]; exact h2⟩
      · exact Or.inr ⟨List.mem_cons_of_mem _ h1, h2⟩
    · rintro (h1 | ⟨h1, h2⟩)
      · exact Or.inl (Or.inl h1)
      · rcases List.mem_cons.1 h1 with h3 | h3
        · exact Or.inl (Or.inr ⟨h3, by rw [← h3]; exact h2⟩)
        · exact Or.inr ⟨h3, h2⟩

/-- Inserting an id that is not below the first stored duplicate keeps that first
duplicate in place. -/
theorem dup_ins_head (d : List Nat) (lo x : Nat) (hd : d.head? = some lo) (hx : lo ≤ x) :
    (dup_ins d x).head? = some lo := by
  unfold dup_ins
  split_ifs with h
  · exact hd
  · cases d with
    | nil => simp at hd
    | cons a t =>
      simp only [List.head?_cons, Option.some.injEq] at hd
      subst hd
      have hne : x ≠ a := fun hh => h (Or.inr (by rw [hh]; exact List.mem_cons_self _ _))
      have hnle : ¬ x ≤ a := by omega
      simp [List.orderedInsert, hnle]

theorem dup_merge_head (xs : List Nat) :
    ∀ (d : List Nat) (lo : Nat), d.head? = some lo → (∀ x ∈ xs, lo ≤ x) →
      (dup_merge d xs).head? = some lo := by
  induction xs with
  | nil => intro d lo hd _; exact hd
  | cons x xs ih =>
    intro d lo hd hx
    simp only [dup_merge, List.foldl_cons]
    exact ih _ lo (dup_ins_head d lo x hd (hx x (List.mem_cons_self _ _)))
      (fun y hy => hx y (List.mem_cons_of_mem _ hy))

/-- Starting from no stored duplicate, the smallest id merged ends up first. -/
theorem dup_merge_head_min (lo : Nat) (xs : List Nat) :
    ∀ d : List Nat, (∀ x ∈ d, lo ≤ x) → (lo ∈ d → d.head? = some lo) → (∀ x ∈ xs, lo ≤ x) →
      (∀ x ∈ dup_merge d xs, lo ≤ x) ∧
      (lo ∈ dup_merge d xs → (dup_merge d xs).head? = some lo) := by
  induction xs with
  | nil => intro d h1 h2 _; exact ⟨h1, h2⟩
  | cons x xs ih =>
    intro d h1 h2 hx
    simp only [dup_merge, List.foldl_cons]
    apply ih
    · intro y hy
      rcases (dup_ins_mem d x y).1 hy with h | ⟨h, _⟩
      · exact h1 y h
      · rw [h]; exact hx x (List.mem_cons_self _ _)
    · intro hlo
      have hxlo := hx x (List.mem_cons_self _ _)
      unfold dup_ins at hlo ⊢
      split_ifs at hlo ⊢ with h
      · exact h2 hlo
      · rw [List.mem_orderedInsert] at hlo
        cases d with
        | nil =>
          rcases hlo with h3 | h3
          · simp [List.orderedInsert, h3]
          · simp at h3
        | cons a t =>
          have ha := h1 a (List.mem_cons_self _ _)
          by_cases hle : x ≤ a
          · simp only [List.orderedInsert, hle, if_true, List.head?_cons, Option.some.injEq]
            rcases hlo with h3 | h3
            · exact h3.symm
            · have := h2 h3
              simp only [List.head?_cons, Option.some.injEq] at this
              omega
          · simp only [List.orderedInsert, hle, if_false, List.head?_cons, Option.some.injEq]
            rcases hlo with h3 | h3
            · omega
            · have := h2 h3
              simpa using this
    · intro y hy; exact hx y (List.mem_cons_of_mem _ hy)

theorem del_rest_deleted (a : Nat) :
    ∀ (fuel : Nat) (t : List Nat), t.length ≤ fuel →
      (del_rest fuel ⟨a :: t, 1, true⟩).dups = [a] := by
  intro fuel
  induction fuel with
  | zero =>
    intro t ht
    have : t = [] := List.length_eq_zero.1 (Nat.le_zero.1 ht)
    subst this; rfl
  | succ n ih =>
    intro t ht
    cases t with
    | nil => simp [del_rest, c_get_next_dup]
    | cons b t2 =>
      show (del_rest n ⟨a :: t2, 1, true⟩).dups = [a]
      exact ih t2 (by simpa using ht)

/-- The loop that deletes every duplicate after the first leaves the first
duplicate alone. -/
theorem del_rest_all (a : Nat) (t : List Nat) :
    (del_rest (a :: t).length ⟨a :: t, 0, false⟩).dups = [a] := by
  cases t with
  | nil => simp [del_rest, c_get_next_dup]
  | cons b t2 =>
    show (del_rest (t2.length + 1) ⟨a :: t2, 1, true⟩).dups = [a]
    exact del_rest_deleted a _ t2 (Nat.le_succ _)

/-- What the range write leaves under the key when the view satisfies the
invariant for `lo` and the last id is above `lo`: the marker, `lo`, the last id. -/
theorem KView.final_range (env : IdlEnv) (hg : env.Good) (key : Key) (lo : Nat) (v : KView)
    (hinv : KView.LoInv env lo v) (hc : v.c > env.BDB_IDL_DB_SIZE) (hl : lo < v.l) :
    KView.final env key v = [0, lo, v.l] := by
  obtain ⟨hlo, _, hS⟩ := hinv
  have hnot : ¬ v.c ≤ env.BDB_IDL_DB_SIZE := by omega
  have h0 : ¬ v.l ≤ 0 := by omega
  have h1 : ¬ v.l ≤ lo := by omega
  have h2 : ¬ v.l = lo := by omega
  have h3 : ¬ v.l = 0 := by omega
  simp only [KView.final, hc, if_true, flush_key, hnot, and_false, if_false, hg.cursor_ok,
    ne_eq, not_true_eq_false, flush_one_dups, hg.get_ok]
  rcases hS with hS | ⟨hS, hf, _, _⟩
  · cases hv : v.S with
    | nil => rw [hv] at hS; simp at hS
    | cons a t =>
      rw [hv] at hS
      simp only [List.head?_cons, Option.some.injEq] at hS
      subst hS
      simp only [List.isEmpty_cons, Bool.false_eq_true, if_false, true_and, if_true,
        List.headD_cons, hlo, not_false_eq_true, del_rest_all, c_put_good env hg]
      simp [List.orderedInsert, hlo, Ne.symm hlo, h0, h1, h2, h3]
  · have hd : DB_NOTFOUND ≠ 0 := by decide
    simp only [hS, List.isEmpty_nil, if_true, hd, false_and, if_false, not_true_eq_false,
      and_false, c_put_good env hg, hf]
    simp [List.orderedInsert, hlo, Ne.symm hlo, h0, h1, h2, h3]

theorem KView.add_count (env : IdlEnv) (p : Bool) (id : Nat) (v : KView) :
    (KView.add env p id v).c = if v.c > env.BDB_IDL_DB_SIZE then v.c else v.c + 1 := by
  unfold KView.add
  split_ifs <;> rfl

theorem KView.add_last (env : IdlEnv) (p : Bool) (id : Nat) (v : KView)
    (h : (KView.add env p id v).c > env.BDB_IDL_DB_SIZE) : (KView.add env p id v).l = id := by
  have hc := KView.add_count env p id v
  unfold KView.add
  by_cases h1 : v.c > env.BDB_IDL_DB_SIZE
  · rw [if_pos h1]
  · by_cases h2 : v.c = env.BDB_IDL_DB_SIZE
    · rw [if_neg h1, if_pos h2]
    · rw [if_neg h1] at hc
      omega

theorem KView.run_append (env : IdlEnv) (xs ys : List (Bool × Nat)) (v : KView) :
    KView.run env (xs ++ ys) v = KView.run env ys (KView.run env xs v) := by
  induction xs generalizing v with
  | nil => rfl
  | cons x xs ih =>
    obtain ⟨p, id⟩ := x
    simp only [List.cons_append, KView.run]
    exact ih _

theorem KView.run_count_gt (env : IdlEnv) :
    ∀ (xs : List (Bool × Nat)) (v : KView), v.c + xs.length > env.BDB_IDL_DB_SIZE →
      xs ≠ [] ∨ v.c > env.BDB_IDL_DB_SIZE → (KView.run env xs v).c > env.BDB_IDL_DB_SIZE := by
  intro xs
  induction xs with
  | nil =>
    intro v h1 h2
    rcases h2 with h2 | h2
    · exact absurd rfl h2
    · exact h2
  | cons x xs ih =>
    intro v h1 _
    obtain ⟨p, id⟩ := x
    simp only [KView.run]
    have hc := KView.add_count env p id v
    simp only [List.length_cons] at h1
    apply ih
    · rw [hc]; split_ifs <;> omega
    · by_cases hx : xs = []
      · right
        rw [hc]; subst hx
        simp only [List.length_nil] at h1
        split_ifs <;> omega
      · exact Or.inl hx

theorem KView.run_count_le (env : IdlEnv) :
    ∀ (xs : List (Bool × Nat)) (v : KView), v.c + xs.length ≤ env.BDB_IDL_DB_SIZE →
      (KView.run env xs v).c = v.c + xs.length ∧
      dup_merge (KView.run env xs v).S (KView.run env xs v).P =
        dup_merge (dup_merge v.S v.P) (xs.map (fun x => x.2)) := by
  intro xs
  induction xs with
  | nil => intro v _; exact ⟨rfl, rfl⟩
  | cons x xs ih =>
    intro v h
    obtain ⟨p, id⟩ := x
    simp only [List.length_cons] at h
    have h1 : ¬ v.c > env.BDB_IDL_DB_SIZE := by omega
    have h2 : ¬ v.c = env.BDB_IDL_DB_SIZE := by omega
    have hc := KView.add_count env p id v
    rw [if_neg h1] at hc
    obtain ⟨i1, i2⟩ := ih (KView.add env p id v) (by rw [hc]; omega)
    simp only [KView.run, List.length_cons, List.map_cons]
    refine ⟨by rw [i1, hc]; omega, ?_⟩
    have key : dup_merge (KView.add env p id v).S (KView.add env p id v).P =
        dup_ins (dup_merge v.S v.P) id := by
      unfold KView.add
      rw [if_neg h1, if_neg h2]
      cases p
      · rw [if_neg (by simp)]
        show dup_merge v.S (v.P ++ (if id = 0 then [] else [id])) = _
        rw [dup_merge_append]
        by_cases hid : id = 0
        · rw [if_pos hid, hid]; simp [dup_merge, dup_ins]
        · rw [if_neg hid]; rfl
      · rw [if_pos rfl]
        show dup_merge (dup_merge v.S v.P) (if id = 0 then [] else [id]) = _
        by_cases hid : id = 0
        · rw [if_pos hid, hid]; simp [dup_merge, dup_ins]
        · rw [if_neg hid]; rfl
    rw [i2, key]
    rfl

theorem KView.LoInv_add (env : IdlEnv) (lo : Nat) (p : Bool) (id : Nat) (v : KView)
    (hinv : KView.LoInv env lo v) (hid : lo ≤ id) : KView.LoInv env lo (KView.add env p id v) := by
  obtain ⟨hlo, hP, hS⟩ := hinv
  have hid0 : id ≠ 0 := by omega
  unfold KView.add
  by_cases h1 : v.c > env.BDB_IDL_DB_SIZE
  · rw [if_pos h1]
    refine ⟨hlo, hP, ?_⟩
    rcases hS with hS | ⟨a, b, c, _⟩
    · exact Or.inl hS
    · exact Or.inr ⟨a, b, c, fun h => absurd h (Nat.not_le.2 h1)⟩
  · rw [if_neg h1]
    by_cases h2 : v.c = env.BDB_IDL_DB_SIZE
    · rw [if_pos h2]
      refine ⟨hlo, fun x hx => absurd hx (by simp), ?_⟩
      rcases hS with hS | ⟨a, b, _, _⟩
      · exact Or.inl hS
      · refine Or.inr ⟨a, b, Nat.succ_ne_zero _, fun h => ?_⟩
        have h4 : v.c + 1 ≤ env.BDB_IDL_DB_SIZE := h
        omega
    · rw [if_neg h2]
      cases p
      · rw [if_neg (by simp)]
        refine ⟨hlo, ?_, ?_⟩
        · intro x hx
          have hx2 : x ∈ v.P ++ (if id = 0 then [] else [id]) := hx
          rw [if_neg hid0, List.mem_append, List.mem_singleton] at hx2
          rcases hx2 with hx2 | hx2
          · exact hP x hx2
          · omega
        · rcases hS with hS | ⟨a, b, c, d⟩
          · exact Or.inl hS
          · refine Or.inr ⟨a, ?_, Nat.succ_ne_zero _, fun _ => ?_⟩
            · show (if v.c = 0 then id else v.f) = lo
              rw [if_neg c]; exact b
            · show lo ∈ v.P ++ (if id = 0 then [] else [id])
              exact List.mem_append_left _ (d (by omega))
      · rw [if_pos rfl]
        refine ⟨hlo, ?_, Or.inl ?_⟩
        · intro x hx
          have hx2 : x ∈ (if id = 0 then [] else [id]) := hx
          rw [if_neg hid0, List.mem_singleton] at hx2
          omega
        · show (dup_merge v.S v.P).head? = some lo
          rcases hS with hS | ⟨a, _, _, d⟩
          · exact dup_merge_head _ _ lo hS hP
          · rw [a]
            have hmem : lo ∈ dup_merge [] v.P :=
              (dup_merge_mem v.P [] lo).2 (Or.inr ⟨d (by omega), hlo⟩)
            exact (dup_merge_head_min lo v.P [] (fun x hx => absurd hx (by simp))
              (fun hx => absurd hx (by simp)) hP).2 hmem

theorem KView.LoInv_run (env : IdlEnv) (lo : Nat) :
    ∀ (xs : List (Bool × Nat)) (v : KView), KView.LoInv env lo v →
      (∀ x ∈ xs, lo ≤ x.2) → KView.LoInv env lo (KView.run env xs v) := by
  intro xs
  induction xs with
  | nil => intro v h _; exact h
  | cons x xs ih =>
    intro v h hx
    obtain ⟨p, id⟩ := x
    simp only [KView.run]
    exact ih _ (KView.LoInv_add env lo p id v h (hx (p, id) (List.mem_cons_self _ _)))
      (fun y hy => hx y (List.mem_cons_of_mem _ hy))

theorem KView.run_last (env : IdlEnv) :
    ∀ (xs : List (Bool × Nat)) (v : KView) (init : List Nat) (m : Nat),
      xs.map (fun x => x.2) = init ++ [m] →
      (KView.run env xs v).c > env.BDB_IDL_DB_SIZE → (KView.run env xs v).l = m := by
  intro xs
  induction xs with
  | nil => intro v init m h; simp at h
  | cons x xs ih =>
    intro v init m h hc
    obtain ⟨p, id⟩ := x
    cases init with
    | nil =>
      simp only [List.map_cons, List.nil_append, List.cons.injEq, List.map_eq_nil_iff] at h
      obtain ⟨h1, h2⟩ := h
      subst h1 h2
      exact KView.add_last env p id v hc
    | cons i0 init2 =>
      simp only [List.map_cons, List.cons_append, List.cons.injEq] at h
      exact ih _ init2 m h.2 hc

/-- The range outcome of a run of inserts on a view that satisfies the invariant
for `lo`. -/
theorem KView.run_range (env : IdlEnv) (hg : env.Good) (key : Key) (lo : Nat)
    (xs : List (Bool × Nat)) (v : KView) (init : List Nat) (m : Nat)
    (hinv : KView.LoInv env lo v) (hmap : xs.map (fun x => x.2) = init ++ [m])
    (hge : ∀ x ∈ init ++ [m], lo ≤ x) (hm : lo < m)
    (hlen : v.c + (init ++ [m]).length > env.BDB_IDL_DB_SIZE) :
    (KView.run env xs v).c > env.BDB_IDL_DB_SIZE ∧
    KView.final env key (KView.run env xs v) = [0, lo, m] := by
  have hxs : xs ≠ [] := by
    intro h; rw [h] at hmap; simp at hmap
  have hl : xs.length = (init ++ [m]).length := by
    rw [← hmap, List.length_map]
  have hc := KView.run_count_gt env xs v (by rw [hl]; exact hlen) (Or.inl hxs)
  have hlast := KView.run_last env xs v init m hmap hc
  have hinv2 := KView.LoInv_run env lo xs v hinv (by
    intro x hx
    apply hge
    rw [← hmap]
    exact List.mem_map_of_mem _ hx)
  refine ⟨hc, ?_⟩
  rw [KView.final_range env hg key lo _ hinv2 hc (by rw [hlast]; exact hm), hlast]

/-! ## IDL cache: list/range transition, range writes -/

theorem dup_ins_sorted (d : List Nat) (x : Nat) (h : d.Sorted (fun a b => a ≤ b)) :
    (dup_ins d x).Sorted (fun a b => a ≤ b) := by
  unfold dup_ins
  split_ifs
  · exact h
  · exact h.orderedInsert x d

theorem dup_merge_sorted (xs : List Nat) :
    ∀ d : List Nat, d.Sorted (fun a b => a ≤ b) → (dup_merge d xs).Sorted (fun a b => a ≤ b) := by
  induction xs with
  | nil => intro d h; exact h
  | cons x xs ih =>
    intro d h
    simp only [dup_merge, List.foldl_cons]
    exact ih _ (dup_ins_sorted d x h)

theorem dup_merge_perm (xs : List Nat) :
    ∀ d : List Nat, xs.Nodup → 0 ∉ xs → (∀ x ∈ xs, x ∉ d) →
      (dup_merge d xs).Perm (xs ++ d) := by
  induction xs with
  | nil => intro d _ _ _; exact List.Perm.refl _
  | cons x xs ih =>
    intro d hnd hz hdis
    rw [List.nodup_cons] at hnd
    have hx0 : x ≠ 0 := fun h => hz (by rw [h]; exact List.mem_cons_self _ _)
    have hxd : x ∉ d := hdis x (List.mem_cons_self _ _)
    have hins : dup_ins d x = List.orderedInsert (fun a b => a ≤ b) x d := by
      unfold dup_ins
      rw [if_neg]
      rintro (h | h)
      · exact hx0 h
      · exact hxd h
    simp only [dup_merge, List.foldl_cons]
    have h1 := ih (dup_ins d x) hnd.2 (fun h => hz (List.mem_cons_of_mem _ h)) (by
      intro y hy hmem
      rcases (dup_ins_mem d x y).1 hmem with h | ⟨h, _⟩
      · exact hdis y (List.mem_cons_of_mem _ hy) h
      · exact hnd.1 (h ▸ hy))
    refine h1.trans ?_
    rw [hins]
    have h2 : (List.orderedInsert (fun a b => a ≤ b) x d).Perm (x :: d) :=
      List.perm_orderedInsert _ x d
    exact (List.Perm.append_left xs h2).trans (List.perm_middle)

theorem list_two_split (ids : List Nat) (h : 2 ≤ ids.length) :
    ∃ a mid m, ids = a :: (mid ++ [m]) := by
  cases ids with
  | nil => simp at h
  | cons a t =>
    rcases List.eq_nil_or_concat t with ht | ⟨mid, m, ht⟩
    · subst ht; simp at h
    · exact ⟨a, mid, m, by rw [ht]; simp⟩

theorem getLastD_cons_concat (a m : Nat) (mid : List Nat) :
    (a :: (mid ++ [m])).getLastD 0 = m := by
  induction mid generalizing a with
  | nil => rfl
  | cons b t ih => exact ih b

theorem KView.load_absent (env : IdlEnv) (key : Key) :
    KView.load env key [] = { S := [], c := 0, f := env.uninit, l := 0, P := [] } := by
  simp [KView.load, idl_cache_load]

/-- The range outcome for a key that is absent from the store and an empty cache:
when the first id added is non-zero and the smallest, and the last id is larger,
the flush leaves the marker, the first id and the last id, and the entry holds no
block once it is a range. -/
theorem idl_fresh_range_core (env : IdlEnv) (hg : env.Good) (hdb : 0 < env.BDB_IDL_DB_SIZE)
    (key : Key) (g : IdlGlobal) (data : Key → List Nat) (habsent : data key = [])
    (a : Nat) (mid : List Nat) (m : Nat) (ha : a ≠ 0) (hmin : ∀ x ∈ mid ++ [m], a ≤ x)
    (ham : a < m) (hlen : env.BDB_IDL_DB_SIZE < (a :: (mid ++ [m])).length) :
    (bdb_tool_idl_flush_db env none (idl_add_all env key (a :: (mid ++ [m])) g ⟨data, []⟩).1
      (idl_add_all env key (a :: (mid ++ [m])) g ⟨data, []⟩).2).2.2.1.data key = [0, a, m] ∧
    ∃ ic, (idl_add_all env key (a :: (mid ++ [m])) g ⟨data, []⟩).2.app_private = [ic] ∧
      ic.blocks = [] ∧ ic.count > env.BDB_IDL_DB_SIZE := by
  obtain ⟨xs, hmap, hrep, _⟩ := idl_add_all_from_empty env hg key a (mid ++ [m]) g data
  rw [habsent, KView.load_absent] at hrep
  cases xs with
  | nil => simp at hmap
  | cons x xs2 =>
    obtain ⟨p, id⟩ := x
    simp only [List.map_cons, List.cons.injEq] at hmap
    obtain ⟨hid, hmap2⟩ := hmap
    subst hid
    simp only [KView.run] at hrep
    -- the view after the first insert
    have h0 : ¬ (0 : Nat) > env.BDB_IDL_DB_SIZE := by omega
    have h1 : ¬ (0 : Nat) = env.BDB_IDL_DB_SIZE := by omega
    have hv1 : KView.LoInv env id
        (KView.add env p id { S := [], c := 0, f := env.uninit, l := 0, P := [] }) ∧
        (KView.add env p id { S := [], c := 0, f := env.uninit, l := 0, P := [] }).c = 1 := by
      unfold KView.add
      simp only [h0, h1, if_false]
      cases p
      · simp [KView.LoInv, ha]
      · simp [KView.LoInv, ha, dup_merge]
    obtain ⟨hc, hfin⟩ := KView.run_range env hg key id xs2 _ mid m hv1.1 hmap2 hmin ham (by
      rw [hv1.2]
      simp only [List.length_cons] at hlen
      omega)
    obtain ⟨hd, _, _⟩ := flush_db_rep env hg key
      (idl_add_all env key (id :: (mid ++ [m])) g ⟨data, []⟩).1 _ _ hrep
    refine ⟨by rw [hd, hfin], ?_⟩
    obtain ⟨ic, ht, _, _, hcc, _, _, _, hB, _⟩ := hrep
    exact ⟨ic, ht, hB hc, by rw [hcc]; exact hc⟩

/-- C6.  For a key absent from the store (and an empty cache), add more than
`BDB_IDL_DB_SIZE` ids in strictly ascending order, the first being non-zero.
Then the flush leaves under the key exactly the three duplicates `0`, the first
id, the last id, in this order, and once all ids are added the cache entry is a
range that holds no id block. -/
theorem idl_fresh_key_range_write (env : IdlEnv) (hg : env.Good)
    (hdb : 0 < env.BDB_IDL_DB_SIZE) (key : Key) (g : IdlGlobal) (data : Key → List Nat)
    (habsent : data key = []) (ids : List Nat) (hasc : ids.Sorted (fun a b => a < b))
    (hnz : 0 ∉ ids) (hlen : env.BDB_IDL_DB_SIZE < ids.length) :
    (bdb_tool_idl_flush_db env none (idl_add_all env key ids g ⟨data, []⟩).1
      (idl_add_all env key ids g ⟨data, []⟩).2).2.2.1.data key =
        [0, ids.headD 0, ids.getLastD 0] ∧
    ∃ ic, (idl_add_all env key ids g ⟨data, []⟩).2.app_private = [ic] ∧
      ic.blocks = [] ∧ ic.count > env.BDB_IDL_DB_SIZE := by
  obtain ⟨a, mid, m, hids⟩ := list_two_split ids (by omega)
  subst hids
  have hs := List.sorted_cons.1 hasc
  have hm : a < m := hs.1 m (by simp)
  have hhead : (a :: (mid ++ [m])).headD 0 = a := rfl
  have hlast : (a :: (mid ++ [m])).getLastD 0 = m := getLastD_cons_concat a m mid
  rw [hhead, hlast]
  exact idl_fresh_range_core env hg hdb key g data habsent a mid m
    (fun h => hnz (by rw [← h]; exact List.mem_cons_self _ _))
    (fun x hx => Nat.le_of_lt (hs.1 x hx)) hm hlen

theorem IdlEnv.ok_good (dbsize maxsize : Nat) (h : maxsize ≠ 0) :
    (IdlEnv.ok dbsize maxsize).Good :=
  ⟨h, rfl, fun _ => rfl, fun _ _ => rfl⟩

/-- Scenario S3 with threshold 4 as an instance of C6: the ids `1..9` under a
fresh key end up as `[0, 1, 9]`. -/
theorem idl_fresh_key_range_write_witness :
    (0 < (IdlEnv.ok 4 10).BDB_IDL_DB_SIZE) ∧
    ([1, 2, 3, 4, 5, 6, 7, 8, 9] : List Nat).Sorted (fun a b => a < b) ∧
    (bdb_tool_idl_flush_db (IdlEnv.ok 4 10) none
      (idl_add_all (IdlEnv.ok 4 10) [7] [1, 2, 3, 4, 5, 6, 7, 8, 9] ⟨0, []⟩ ⟨emptyData, []⟩).1
      (idl_add_all (IdlEnv.ok 4 10) [7] [1, 2, 3, 4, 5, 6, 7, 8, 9] ⟨0, []⟩
        ⟨emptyData, []⟩).2).2.2.1.data [7] = [0, 1, 9] :=
  ⟨by decide, by decide,
   (idl_fresh_key_range_write (IdlEnv.ok 4 10) (IdlEnv.ok_good 4 10 (by decide)) (by decide)
      [7] ⟨0, []⟩ emptyData rfl [1, 2, 3, 4, 5, 6, 7, 8, 9] (by decide) (by decide)
      (by decide)).1⟩

/-- C2, as the code has it.  Start from a store in which the key is absent and
from an empty cache, with caching enabled, and add pairwise different non-zero
ids under the key.  After exactly `BDB_IDL_DB_SIZE` ids, in any order, the flush
leaves under the key exactly those ids, as ascending duplicates.  After
`BDB_IDL_DB_SIZE + 1` ids of which the first added is the smallest and the last
added is the largest, the flush leaves exactly the three duplicates `0`, the
smallest id, the largest id. -/
theorem idl_list_range_transition (env : IdlEnv) (hg : env.Good)
    (hdb : 0 < env.BDB_IDL_DB_SIZE) (key : Key) (g : IdlGlobal) (data : Key → List Nat)
    (habsent : data key = []) (ids : List Nat) (hnd : ids.Nodup) (hnz : 0 ∉ ids) :
    (ids.length = env.BDB_IDL_DB_SIZE →
      ((bdb_tool_idl_flush_db env none (idl_add_all env key ids g ⟨data, []⟩).1
        (idl_add_all env key ids g ⟨data, []⟩).2).2.2.1.data key).Sorted (fun a b => a < b) ∧
      ((bdb_tool_idl_flush_db env none (idl_add_all env key ids g ⟨data, []⟩).1
        (idl_add_all env key ids g ⟨data, []⟩).2).2.2.1.data key).Perm ids) ∧
    (ids.length = env.BDB_IDL_DB_SIZE + 1 →
      (∀ x ∈ ids, ids.headD 0 ≤ x ∧ x ≤ ids.getLastD 0) →
      (bdb_tool_idl_flush_db env none (idl_add_all env key ids g ⟨data, []⟩).1
        (idl_add_all env key ids g ⟨data, []⟩).2).2.2.1.data key =
          [0, ids.headD 0, ids.getLastD 0]) := by
  constructor
  · intro hlen
    cases ids with
    | nil => simp at hlen; omega
    | cons a rest =>
      obtain ⟨xs, hmap, hrep, _⟩ := idl_add_all_from_empty env hg key a rest g data
      rw [habsent, KView.load_absent] at hrep
      have hl : xs.length = (a :: rest).length := by rw [← hmap, List.length_map]
      obtain ⟨hc, hE⟩ := KView.run_count_le env xs
        { S := [], c := 0, f := env.uninit, l := 0, P := [] } (by
          simp only [Nat.zero_add, hl, hlen, le_refl])
      obtain ⟨hd, _, _⟩ := flush_db_rep env hg key
        (idl_add_all env key (a :: rest) g ⟨data, []⟩).1 _ _ hrep
      have hnot : ¬ (KView.run env xs
          { S := [], c := 0, f := env.uninit, l := 0, P := [] }).c > env.BDB_IDL_DB_SIZE := by
        rw [hc, hl, hlen]; simp
      have hfin : (bdb_tool_idl_flush_db env none
          (idl_add_all env key (a :: rest) g ⟨data, []⟩).1
          (idl_add_all env key (a :: rest) g ⟨data, []⟩).2).2.2.1.data key =
          dup_merge [] (a :: rest) := by
        rw [hd]
        simp only [KView.final, hnot, if_false]
        rw [hE, hmap]
        rfl
      rw [hfin]
      have hperm := dup_merge_perm (a :: rest) [] hnd hnz (fun _ _ h => by simp at h)
      rw [List.append_nil] at hperm
      have hsorted := dup_merge_sorted (a :: rest) [] List.sorted_nil
      exact ⟨hsorted.lt_of_le (hperm.nodup_iff.2 hnd), hperm⟩
  · intro hlen hmm
    obtain ⟨a, mid, m, hids⟩ := list_two_split ids (by omega)
    subst hids
    have hhead : (a :: (mid ++ [m])).headD 0 = a := rfl
    have hlast : (a :: (mid ++ [m])).getLastD 0 = m := getLastD_cons_concat a m mid
    rw [hhead, hlast] at hmm ⊢
    have ha : a ≠ 0 := fun h => hnz (by rw [← h]; exact List.mem_cons_self _ _)
    have ham : a < m := by
      have h1 := (hmm m (by simp)).1
      have h2 : a ≠ m := by
        intro h
        rw [List.nodup_cons] at hnd
        exact hnd.1 (by rw [h]; simp)
      omega
    exact (idl_fresh_range_core env hg hdb key g data habsent a mid m ha
      (fun x hx => (hmm x (List.mem_cons_of_mem _ hx)).1) ham (by rw [hlen]; omega)).1

/-- An instance of C2: with threshold 4, the four ids `3, 1, 4, 2` end up as
the list `[1, 2, 3, 4]`. -/
theorem idl_list_range_transition_witness :
    (0 < (IdlEnv.ok 4 10).BDB_IDL_DB_SIZE) ∧ ([3, 1, 4, 2] : List Nat).Nodup ∧
    ((bdb_tool_idl_flush_db (IdlEnv.ok 4 10) none
      (idl_add_all (IdlEnv.ok 4 10) [7] [3, 1, 4, 2] ⟨0, []⟩ ⟨emptyData, []⟩).1
      (idl_add_all (IdlEnv.ok 4 10) [7] [3, 1, 4, 2] ⟨0, []⟩
        ⟨emptyData, []⟩).2).2.2.1.data [7]).Perm [3, 1, 4, 2] :=
  ⟨by decide, by decide,
   ((idl_list_range_transition (IdlEnv.ok 4 10) (IdlEnv.ok_good 4 10 (by decide)) (by decide)
      [7] ⟨0, []⟩ emptyData rfl [3, 1, 4, 2] (by decide) (by decide)).1 rfl).2⟩

/-- C2 fails as stated.  With threshold 4, empty store and empty cache, the five
distinct non-zero ids `1, 2, 3, 9, 5` leave `[0, 1, 5]` (the last id added, not
the largest), and `2, 1, 3, 4, 5` leave `[0, 2, 5]` (the first id added, not the
smallest).  With threshold 65536 the 65537 distinct non-zero ids
`1, 3, 4, ..., 65537, 2` leave `[0, 1, 2]`, while the largest id is 65537. -/
theorem idl_list_range_transition_counterexample :
    (bdb_tool_idl_flush_db (IdlEnv.ok 4 10) none
      (idl_add_all (IdlEnv.ok 4 10) [7] [1, 2, 3, 9, 5] ⟨0, []⟩ ⟨emptyData, []⟩).1
      (idl_add_all (IdlEnv.ok 4 10) [7] [1, 2, 3, 9, 5] ⟨0, []⟩
        ⟨emptyData, []⟩).2).2.2.1.data [7] = [0, 1, 5] ∧
    (bdb_tool_idl_flush_db (IdlEnv.ok 4 10) none
      (idl_add_all (IdlEnv.ok 4 10) [7] [2, 1, 3, 4, 5] ⟨0, []⟩ ⟨emptyData, []⟩).1
      (idl_add_all (IdlEnv.ok 4 10) [7] [2, 1, 3, 4, 5] ⟨0, []⟩
        ⟨emptyData, []⟩).2).2.2.1.data [7] = [0, 2, 5] ∧
    (1 :: (List.range' 3 65535 ++ [2])).length = 65536 + 1 ∧
    (1 :: (List.range' 3 65535 ++ [2])).Nodup ∧
    0 ∉ 1 :: (List.range' 3 65535 ++ [2]) ∧
    65537 ∈ 1 :: (List.range' 3 65535 ++ [2]) ∧
    (bdb_tool_idl_flush_db (IdlEnv.ok 65536 1024) none
      (idl_add_all (IdlEnv.ok 65536 1024) [7] (1 :: (List.range' 3 65535 ++ [2])) ⟨0, []⟩
        ⟨emptyData, []⟩).1
      (idl_add_all (IdlEnv.ok 65536 1024) [7] (1 :: (List.range' 3 65535 ++ [2])) ⟨0, []⟩
        ⟨emptyData, []⟩).2).2.2.1.data [7] = [0, 1, 2] := by
  refine ⟨by decide, by decide, ?_, ?_, ?_, ?_, ?_⟩
  · rw [List.length_cons, List.length_append, List.length_range']; rfl
  · rw [List.nodup_cons, List.nodup_append]
    refine ⟨?_, List.nodup_range' _ _, by simp, ?_⟩
    · simp only [List.mem_append, List.mem_range', List.mem_singleton]
      rintro (⟨i, _, hi⟩ | h) <;> omega
    · intro x hx hx2
      simp only [List.mem_range'] at hx
      simp only [List.mem_singleton] at hx2
      obtain ⟨i, _, hi⟩ := hx
      omega
  · intro h
    rw [List.mem_cons, List.mem_append, List.mem_range', List.mem_singleton] at h
    rcases h with h | ⟨i, _, hi⟩ | h <;> omega
  · rw [List.mem_cons, List.mem_append, List.mem_range']
    exact Or.inr (Or.inl ⟨65534, by omega, by omega⟩)
  · exact (idl_fresh_range_core (IdlEnv.ok 65536 1024) (IdlEnv.ok_good 65536 1024 (by decide))
      (by decide) [7] ⟨0, []⟩ emptyData rfl 1 (List.range' 3 65535) 2 (by decide)
      (by
        intro x hx
        simp only [List.mem_append, List.mem_range', List.mem_singleton] at hx
        rcases hx with ⟨i, _, hi⟩ | h <;> omega)
      (by decide) (by
        show 65536 < (1 :: (List.range' 3 65535 ++ [2])).length
        rw [List.length_cons, List.length_append, List.length_range']; decide)).1

/-- C5, as the code has it.  The store holds the key as a list whose first
duplicate is `f` (non-zero), the cache is empty, and ids all greater than `f` are
added under the key until its entry is in range state, the last one being `m`.
Then the flush leaves under the key exactly the three duplicates `0`, `f`, `m`:
no other old duplicate survives. -/
theorem idl_range_merge_prior_list (env : IdlEnv) (hg : env.Good) (key : Key) (g : IdlGlobal)
    (data : Key → List Nat) (f : Nat) (srest : List Nat) (hS : data key = f :: srest)
    (hf : f ≠ 0) (ids : List Nat) (hne : ids ≠ []) (hgt : ∀ x ∈ ids, f < x)
    (hlen : (f :: srest).length + ids.length > env.BDB_IDL_DB_SIZE) :
    (bdb_tool_idl_flush_db env none (idl_add_all env key ids g ⟨data, []⟩).1
      (idl_add_all env key ids g ⟨data, []⟩).2).2.2.1.data key = [0, f, ids.getLastD 0] := by
  rcases List.eq_nil_or_concat ids with h | ⟨init, m, hids0⟩
  · exact absurd h hne
  · have hids : ids = init ++ [m] := by rw [hids0, List.concat_eq_append]
    have hlast : ids.getLastD 0 = m := by
      rw [hids, List.getLastD_eq_getLast?, List.getLast?_append]; rfl
    rw [hlast]
    cases hi : ids with
    | nil => exact absurd hi hne
    | cons i0 rest =>
      obtain ⟨xs, hmap, hrep, _⟩ := idl_add_all_from_empty env hg key i0 rest g data
      rw [← hi] at hmap
      have hload : KView.load env key (data key) =
          { S := f :: srest, c := (f :: srest).length, f := f, l := 0, P := [] } := by
        rw [hS]
        simp [KView.load, idl_cache_load, hg.get_ok, hf]
      rw [hload] at hrep
      have hinv : KView.LoInv env f
          { S := f :: srest, c := (f :: srest).length, f := f, l := 0, P := [] } :=
        ⟨hf, fun x hx => absurd hx (by simp), Or.inl rfl⟩
      have hmap2 : xs.map (fun x => x.2) = init ++ [m] := by
        rw [hmap]; exact hids
      obtain ⟨_, hfin⟩ := KView.run_range env hg key f xs _ init m hinv hmap2
        (fun x hx => Nat.le_of_lt (hgt x (by rw [hids]; simpa using hx)))
        (hgt m (by rw [hids]; simp))
        (by
          have : (init ++ [m]).length = ids.length := by rw [hids]
          rw [this]; exact hlen)
      obtain ⟨hd, _, _⟩ := flush_db_rep env hg key
        (idl_add_all env key (i0 :: rest) g ⟨data, []⟩).1 _ _ hrep
      rw [hd, hfin]

/-- Scenario S4 with threshold 4 as an instance of C5: the store holds
`{10, 20, 30}`, the ids `40, 50` are added, the flush leaves `[0, 10, 50]`. -/
theorem idl_range_merge_prior_list_witness :
    setData emptyData [7] [10, 20, 30] [7] = 10 :: [20, 30] ∧
    (∀ x ∈ ([40, 50] : List Nat), 10 < x) ∧
    (bdb_tool_idl_flush_db (IdlEnv.ok 4 10) none
      (idl_add_all (IdlEnv.ok 4 10) [7] [40, 50] ⟨0, []⟩
        ⟨setData emptyData [7] [10, 20, 30], []⟩).1
      (idl_add_all (IdlEnv.ok 4 10) [7] [40, 50] ⟨0, []⟩
        ⟨setData emptyData [7] [10, 20, 30], []⟩).2).2.2.1.data [7] = [0, 10, 50] :=
  ⟨rfl, by decide,
   idl_range_merge_prior_list (IdlEnv.ok 4 10) (IdlEnv.ok_good 4 10 (by decide)) [7] ⟨0, []⟩
     (setData emptyData [7] [10, 20, 30]) 10 [20, 30] rfl (by decide) [40, 50] (by decide)
     (by decide) (by decide)⟩

/-- C5 fails as stated.  With threshold 4 and the store holding `{10, 20, 30}`
under the key, adding `40` and then `5` puts the entry in range state with last
inserted id `5`; the flush leaves `[0, 5, 10]`, not `[0, 10, 5]`.  Adding `40` and
then `10` leaves the two duplicates `[0, 10]`. -/
theorem idl_range_merge_prior_list_counterexample :
    (bdb_tool_idl_flush_db (IdlEnv.ok 4 10) none
      (idl_add_all (IdlEnv.ok 4 10) [7] [40, 5] ⟨0, []⟩
        ⟨setData emptyData [7] [10, 20, 30], []⟩).1
      (idl_add_all (IdlEnv.ok 4 10) [7] [40, 5] ⟨0, []⟩
        ⟨setData emptyData [7] [10, 20, 30], []⟩).2).2.2.1.data [7] = [0, 5, 10] ∧
    (bdb_tool_idl_flush_db (IdlEnv.ok 4 10) none
      (idl_add_all (IdlEnv.ok 4 10) [7] [40, 10] ⟨0, []⟩
        ⟨setData emptyData [7] [10, 20, 30], []⟩).1
      (idl_add_all (IdlEnv.ok 4 10) [7] [40, 10] ⟨0, []⟩
        ⟨setData emptyData [7] [10, 20, 30], []⟩).2).2.2.1.data [7] = [0, 10] := by
  decide

theorem avl_find_kstr :
    ∀ (t : List bdb_tool_idl_cache) (k : Key) (ic : bdb_tool_idl_cache),
      avl_find t k = some ic → ic.kstr = k := by
  intro t
  induction t with
  | nil => intro k ic h; simp [avl_find] at h
  | cons e rest ih =>
    intro k ic h
    simp only [avl_find] at h
    split_ifs at h with he
    · simp only [Option.some.injEq] at h
      rw [← h]; exact he
    · exact ih k ic h

theorem avl_find_update :
    ∀ (t : List bdb_tool_idl_cache) (k : Key) (ic ic2 : bdb_tool_idl_cache),
      avl_find t k = some ic → ic2.kstr = k → avl_find (avl_update t ic2) k = some ic2 := by
  intro t
  induction t with
  | nil => intro k ic ic2 h; simp [avl_find] at h
  | cons e rest ih =>
    intro k ic ic2 h h2
    simp only [avl_find] at h
    by_cases he : e.kstr = k
    · simp [avl_update, avl_find, he, h2]
    · rw [if_neg he] at h
      have hne : ¬ e.kstr = ic2.kstr := by rw [h2]; exact he
      simp only [avl_update, hne, if_false, avl_find, he]
      exact ih k ic ic2 h h2

/-- C3, as the code has it.  For a cache entry in range state
(`count > BDB_IDL_DB_SIZE`) and any id, `bdb_tool_idl_add` returns `0` and leaves
the entry with `first` and `count` unchanged and `last` equal to the id just
added; so `last` does not decrease exactly when the id is at least the previous
`last`. -/
theorem idl_add_range_state (env : IdlEnv) (hc : env.bi_idl_cache_max_size ≠ 0) (key : Key)
    (id : Nat) (g : IdlGlobal) (db : DB) (ic : bdb_tool_idl_cache)
    (hfind : avl_find db.app_private key = some ic)
    (hrange : ic.count > env.BDB_IDL_DB_SIZE) :
    (bdb_tool_idl_add env key id g db).1 = 0 ∧
    avl_find (bdb_tool_idl_add env key id g db).2.2.app_private key =
      some { ic with last := id } ∧
    (ic.last ≤ ({ ic with last := id } : bdb_tool_idl_cache).last ↔ ic.last ≤ id) ∧
    (bdb_tool_idl_add env key id g db).2.2.data = db.data := by
  have hk := avl_find_kstr _ key ic hfind
  have hres : bdb_tool_idl_add env key id g db =
      (0, g, { db with app_private := avl_update db.app_private { ic with last := id } }) := by
    unfold bdb_tool_idl_add
    rw [if_neg hc]
    simp only [hfind, idl_add_to, hrange, if_true]
  rw [hres]
  exact ⟨rfl, avl_find_update _ key ic _ hfind hk, Iff.rfl, rfl⟩

/-- An instance of C3: the store holds the range `[0, 1, 10]` from a prior load;
the first insert makes the entry a range with `last = 10`, the second one,
of id `12`, leaves `first` alone and sets `last = 12`. -/
theorem idl_add_range_state_witness :
    (IdlEnv.ok 65536 1024).bi_idl_cache_max_size ≠ 0 ∧
    (avl_find (bdb_tool_idl_add (IdlEnv.ok 65536 1024) [7] 12
      (bdb_tool_idl_add (IdlEnv.ok 65536 1024) [7] 10 ⟨0, []⟩
        ⟨setData emptyData [7] [0, 1, 10], []⟩).2.1
      (bdb_tool_idl_add (IdlEnv.ok 65536 1024) [7] 10 ⟨0, []⟩
        ⟨setData emptyData [7] [0, 1, 10], []⟩).2.2).2.2.app_private [7]).map
      (fun ic => (ic.count, ic.last)) = some (65537, 12) := by
  refine ⟨by decide, ?_⟩
  have h := (idl_add_range_state (IdlEnv.ok 65536 1024) (by decide) [7] 12
    (bdb_tool_idl_add (IdlEnv.ok 65536 1024) [7] 10 ⟨0, []⟩
      ⟨setData emptyData [7] [0, 1, 10], []⟩).2.1
    (bdb_tool_idl_add (IdlEnv.ok 65536 1024) [7] 10 ⟨0, []⟩
      ⟨setData emptyData [7] [0, 1, 10], []⟩).2.2
    ⟨[7], [], 0, 10, 65537⟩ rfl (by decide)).2.1
  rw [h]
  rfl

/-- C3 fails as stated.  The store holds the range `[0, 1, 10]` from a prior
load (threshold 65536).  After the insert of id `10` the cache entry of the key is
in range state with `last = 10`; the insert of id `5` then sets `last = 5`, which
is smaller. -/
theorem idl_add_range_state_counterexample :
    (avl_find (bdb_tool_idl_add (IdlEnv.ok 65536 1024) [7] 10 ⟨0, []⟩
        ⟨setData emptyData [7] [0, 1, 10], []⟩).2.2.app_private [7]).map
      (fun ic => (decide (ic.count > 65536), ic.last)) = some (true, 10) ∧
    (avl_find (bdb_tool_idl_add (IdlEnv.ok 65536 1024) [7] 5
      (bdb_tool_idl_add (IdlEnv.ok 65536 1024) [7] 10 ⟨0, []⟩
        ⟨setData emptyData [7] [0, 1, 10], []⟩).2.1
      (bdb_tool_idl_add (IdlEnv.ok 65536 1024) [7] 10 ⟨0, []⟩
        ⟨setData emptyData [7] [0, 1, 10], []⟩).2.2).2.2.app_private [7]).map
      (fun ic => (decide (ic.count > 65536), ic.last)) = some (true, 5) := by
  decide

/-! ## IDL cache: inserting the same id twice -/

theorem avl_apply_flush_data (env : IdlEnv) (keep : Option Key) :
    ∀ (t : List bdb_tool_idl_cache) (g : IdlGlobal) (d : Key → List Nat)
      (kept : Option bdb_tool_idl_cache),
      (avl_apply_flush env keep t g d kept).2.2.1 = flush_data env t d ∧
      ((avl_apply_flush env keep t g d kept).1 ≠ -1 ↔ flush_ok env t d = true) := by
  intro t
  induction t with
  | nil => intro g d kept; simp [avl_apply_flush, flush_data, flush_ok, AVL_NOMORE]
  | cons ic rest ih =>
    intro g d kept
    obtain ⟨h1, h2⟩ := flush_one_frame env ic g d
    simp only [avl_apply_flush, flush_data, flush_ok, h1, h2]
    by_cases hrc : flush_rc env ic (d ic.kstr) = -1
    · simp [hrc]
    · simp only [hrc, if_false]
      exact ih _ _ _

theorem flush_db_data (env : IdlEnv) (keep : Option Key) (g : IdlGlobal) (db : DB) :
    (bdb_tool_idl_flush_db env keep g db).2.2.1 = ⟨flush_data env db.app_private db.data, []⟩ ∧
    ((bdb_tool_idl_flush_db env keep g db).1 = 0 ↔ flush_ok env db.app_private db.data = true) ∧
    ((bdb_tool_idl_flush_db env keep g db).1 ≠ 0 → (bdb_tool_idl_flush_db env keep g db).1 = -1) := by
  obtain ⟨h1, h2⟩ := avl_apply_flush_data env keep db.app_private g db.data none
  unfold bdb_tool_idl_flush_db
  simp only [h1, true_and]
  by_cases hrc : (avl_apply_flush env keep db.app_private g db.data none).1 = -1
  · have : ¬ flush_ok env db.app_private db.data = true := fun h => (h2.2 h) hrc
    simp [hrc, this]
  · have : flush_ok env db.app_private db.data = true := h2.1 hrc
    simp [hrc, this]

theorem flush_data_other (env : IdlEnv) (key : Key) :
    ∀ (t : List bdb_tool_idl_cache) (d : Key → List Nat), (∀ e ∈ t, e.kstr ≠ key) →
      flush_data env t d key = d key := by
  intro t
  induction t with
  | nil => intro d _; rfl
  | cons e rest ih =>
    intro d h
    have he : key ≠ e.kstr := fun hh => h e (List.mem_cons_self _ _) hh.symm
    simp only [flush_data]
    split_ifs
    · exact setData_other _ _ _ _ he
    · rw [ih _ (fun x hx => h x (List.mem_cons_of_mem _ hx))]
      exact setData_other _ _ _ _ he

theorem avl_find_none :
    ∀ (t : List bdb_tool_idl_cache) (k : Key), avl_find t k = none ↔ ∀ e ∈ t, e.kstr ≠ k := by
  intro t
  induction t with
  | nil => intro k; simp [avl_find]
  | cons e rest ih =>
    intro k
    simp only [avl_find]
    by_cases he : e.kstr = k
    · simp [he]
    · simp [he, ih]

theorem avl_find_mem :
    ∀ (t : List bdb_tool_idl_cache) (k : Key) (ic : bdb_tool_idl_cache),
      avl_find t k = some ic → ic ∈ t := by
  intro t
  induction t with
  | nil => intro k ic h; simp [avl_find] at h
  | cons e rest ih =>
    intro k ic h
    simp only [avl_find] at h
    split_ifs at h
    · simp only [Option.some.injEq] at h
      rw [← h]; exact List.mem_cons_self _ _
    · exact List.mem_cons_of_mem _ (ih k ic h)

/-- When the flush visits every entry and the keys of the tree are pairwise
different, what it leaves under a key is what the flush of that key's entry
writes. -/
theorem flush_data_at (env : IdlEnv) (key : Key) :
    ∀ (t : List bdb_tool_idl_cache) (d : Key → List Nat) (ic : bdb_tool_idl_cache), TreeOk t →
      avl_find t key = some ic → flush_ok env t d = true →
      flush_data env t d key = flush_key env ic (d key) := by
  intro t
  induction t with
  | nil => intro d ic _ h; simp [avl_find] at h
  | cons e rest ih =>
    intro d ic hok hfind hall
    simp only [TreeOk, List.map_cons, List.nodup_cons] at hok
    simp only [flush_ok] at hall
    simp only [avl_find] at hfind
    by_cases hrc : flush_rc env e (d e.kstr) = -1
    · simp [hrc] at hall
    · simp only [hrc, if_false] at hall
      simp only [flush_data, hrc, if_false]
      by_cases he : e.kstr = key
      · rw [if_pos he] at hfind
        simp only [Option.some.injEq] at hfind
        subst hfind
        rw [flush_data_other env key rest _ (by
          intro x hx hxk
          apply hok.1
          rw [he, ← hxk]
          exact List.mem_map_of_mem _ hx)]
        rw [← he, setData_self]
      · rw [if_neg he] at hfind
        rw [ih _ ic hok.2 hfind hall]
        rw [setData_other _ _ _ _ (fun hh => he hh.symm)]

theorem avl_update_keys :
    ∀ (t : List bdb_tool_idl_cache) (ic : bdb_tool_idl_cache),
      (avl_update t ic).map (fun e => e.kstr) = t.map (fun e => e.kstr) := by
  intro t
  induction t with
  | nil => intro ic; rfl
  | cons e rest ih =>
    intro ic
    simp only [avl_update]
    split_ifs with h
    · simp [h]
    · simp [ih]

theorem avl_update_same :
    ∀ (t : List bdb_tool_idl_cache) (k : Key) (ic : bdb_tool_idl_cache),
      avl_find t k = some ic → avl_update t ic = t := by
  intro t
  induction t with
  | nil => intro k ic _; rfl
  | cons e rest ih =>
    intro k ic h
    simp only [avl_find] at h
    by_cases he : e.kstr = k
    · rw [if_pos he] at h
      simp only [Option.some.injEq] at h
      subst h
      simp [avl_update]
    · rw [if_neg he] at h
      have hk := avl_find_kstr rest k ic h
      have hne : ¬ e.kstr = ic.kstr := by rw [hk]; exact he
      simp only [avl_update, hne, if_false]
      rw [ih k ic h]

theorem avl_insert_keys :
    ∀ (t : List bdb_tool_idl_cache) (ic : bdb_tool_idl_cache), avl_find t ic.kstr = none →
      TreeOk t → TreeOk (avl_insert t ic) ∧ avl_find (avl_insert t ic) ic.kstr = some ic ∧
      ∀ k, k ≠ ic.kstr → avl_find (avl_insert t ic) k = avl_find t k := by
  intro t
  induction t with
  | nil =>
    intro ic _ _
    refine ⟨by simp [TreeOk, avl_insert], by simp [avl_insert, avl_find], ?_⟩
    intro k hk
    have : ¬ ic.kstr = k := fun h => hk h.symm
    simp [avl_insert, avl_find, this]
  | cons e rest ih =>
    intro ic hnone hok
    simp only [avl_find] at hnone
    by_cases he : e.kstr = ic.kstr
    · simp [he] at hnone
    · rw [if_neg he] at hnone
      have hne : ¬ ic.kstr = e.kstr := fun h => he h.symm
      have hmem : ∀ x ∈ rest, x.kstr ≠ ic.kstr := (avl_find_none rest ic.kstr).1 hnone
      simp only [TreeOk, List.map_cons, List.nodup_cons] at hok
      simp only [avl_insert, hne, if_false]
      by_cases hlt : key_lt ic.kstr e.kstr = true
      · simp only [hlt, if_true]
        refine ⟨?_, by simp [avl_find], ?_⟩
        · simp only [TreeOk, List.map_cons, List.nodup_cons, List.mem_cons, List.mem_map,
            not_or, not_exists, not_and]
          refine ⟨⟨hne, fun x hx hh => hmem x hx hh⟩, ?_, hok.2⟩
          intro x hx hh
          exact hok.1 (List.mem_map.2 ⟨x, hx, hh⟩)
        · intro k hk
          have : ¬ ic.kstr = k := fun h => hk h.symm
          simp [avl_find, this]
      · simp only [hlt, Bool.false_eq_true, if_false]
        obtain ⟨i1, i2, i3⟩ := ih ic hnone hok.2
        refine ⟨?_, by simp [avl_find, he, i2], ?_⟩
        · simp only [TreeOk, List.map_cons, List.nodup_cons]
          refine ⟨?_, i1⟩
          intro hin
          obtain ⟨x, hx, hxk⟩ := List.mem_map.1 hin
          -- every key of the tree after insertion is a key of the tree before, or the new key
          have hx2 : avl_find (avl_insert rest ic) e.kstr ≠ none := by
            intro hnn
            exact (avl_find_none _ _).1 hnn x hx hxk
          rw [i3 e.kstr he] at hx2
          have hx3 : ∃ y, avl_find rest e.kstr = some y := Option.ne_none_iff_exists'.1 hx2
          obtain ⟨y, hy⟩ := hx3
          have hy2 := avl_find_mem rest e.kstr y hy
          have hy3 := avl_find_kstr rest e.kstr y hy
          exact hok.1 (List.mem_map.2 ⟨y, hy2, hy3⟩)
        · intro k hk
          simp only [avl_find]
          split_ifs
          · rfl
          · exact i3 k hk

theorem flush_key_list (env : IdlEnv) (hg : env.Good) (ic : bdb_tool_idl_cache)
    (hc : ic.count ≤ env.BDB_IDL_DB_SIZE) (S : List Nat) :
    flush_key env ic S = dup_merge S (visit_ids ic.count ic.blocks) ∧ flush_rc env ic S = 0 := by
  obtain ⟨h1, h2, _⟩ := flush_one_list_good env hg ic ⟨0, []⟩ (fun _ => S) hc
  obtain ⟨f1, f2⟩ := flush_one_frame env ic ⟨0, []⟩ (fun _ => S)
  refine ⟨?_, ?_⟩
  · have h3 := congrFun (f1.symm.trans h2) ic.kstr
    rw [setData_self, setData_self] at h3
    exact h3
  · rw [← f2]; exact h1

theorem avl_apply_flush_kept_other (env : IdlEnv) (key : Key) :
    ∀ (t : List bdb_tool_idl_cache) (g : IdlGlobal) (d : Key → List Nat)
      (kept : Option bdb_tool_idl_cache), (∀ e ∈ t, e.kstr ≠ key) →
      (avl_apply_flush env (some key) t g d kept).2.2.2 = kept := by
  intro t
  induction t with
  | nil => intro g d kept _; rfl
  | cons e rest ih =>
    intro g d kept h
    have he : ¬ some key = some e.kstr := by
      intro hh
      simp only [Option.some.injEq] at hh
      exact h e (List.mem_cons_self _ _) hh.symm
    simp only [avl_apply_flush, he, if_false]
    split_ifs
    · rfl
    · exact ih _ _ _ (fun x hx => h x (List.mem_cons_of_mem _ hx))

/-- The memory-pressure flush of a database whose flushes all succeed leaves the
kept list-state entry behind with its blocks released and its other fields as
they were. -/
theorem avl_apply_flush_kept (env : IdlEnv) (hg : env.Good) (ic : bdb_tool_idl_cache)
    (hc : ic.count ≤ env.BDB_IDL_DB_SIZE) :
    ∀ (t : List bdb_tool_idl_cache) (g : IdlGlobal) (d : Key → List Nat)
      (kept : Option bdb_tool_idl_cache), TreeOk t → avl_find t ic.kstr = some ic →
      flush_ok env t d = true →
      (avl_apply_flush env (some ic.kstr) t g d kept).2.2.2 = some { ic with blocks := [] } := by
  intro t
  induction t with
  | nil => intro g d kept _ h; simp [avl_find] at h
  | cons e rest ih =>
    intro g d kept hok hfind hall
    simp only [TreeOk, List.map_cons, List.nodup_cons] at hok
    simp only [flush_ok] at hall
    simp only [avl_find] at hfind
    obtain ⟨_, f2⟩ := flush_one_frame env e g d
    by_cases hrc : flush_rc env e (d e.kstr) = -1
    · simp [hrc] at hall
    · simp only [hrc, if_false] at hall
      have hrc2 : ¬ (bdb_tool_idl_flush_one env e g d).1 = -1 := by rw [f2]; exact hrc
      simp only [avl_apply_flush, hrc2, if_false]
      by_cases he : e.kstr = ic.kstr
      · rw [if_pos he] at hfind
        simp only [Option.some.injEq] at hfind
        subst hfind
        rw [if_pos rfl, avl_apply_flush_kept_other env e.kstr rest _ _ _ (by
          intro x hx hxk
          apply hok.1
          rw [← hxk]
          exact List.mem_map_of_mem _ hx)]
        rw [(flush_one_list_good env hg e g d hc).2.2]
      · rw [if_neg he] at hfind
        have hne : ¬ some ic.kstr = some e.kstr := by
          intro hh
          simp only [Option.some.injEq] at hh
          exact he hh.symm
        rw [if_neg hne]
        obtain ⟨f1, _⟩ := flush_one_frame env e g d
        rw [f1]
        exact ih _ _ _ hok.2 hfind hall

theorem flush_data_update (env : IdlEnv) (ic ic2 : bdb_tool_idl_cache) (hk : ic2.kstr = ic.kstr)
    (hsame : ∀ S, flush_key env ic2 S = flush_key env ic S ∧ flush_rc env ic2 S = flush_rc env ic S) :
    ∀ (t : List bdb_tool_idl_cache) (d : Key → List Nat), avl_find t ic.kstr = some ic →
      flush_data env (avl_update t ic2) d = flush_data env t d := by
  intro t
  induction t with
  | nil => intro d _; rfl
  | cons e rest ih =>
    intro d hfind
    simp only [avl_find] at hfind
    by_cases he : e.kstr = ic.kstr
    · rw [if_pos he] at hfind
      simp only [Option.some.injEq] at hfind
      subst hfind
      have h1 : e.kstr = ic2.kstr := hk.symm
      simp only [avl_update, h1, if_true, flush_data]
      rw [(hsame (d ic2.kstr)).1, (hsame (d ic2.kstr)).2]
    · rw [if_neg he] at hfind
      have h1 : ¬ e.kstr = ic2.kstr := by rw [hk]; exact he
      simp only [avl_update, h1, if_false, flush_data]
      rw [ih _ hfind]

theorem dup_merge_zeros (S : List Nat) (r : Nat) :
    dup_merge S ((List.range r).map (fun _ : Nat => (0 : Nat))) = S := by
  rw [← dup_merge_filter, filter_zero_block]
  rfl

/-- The slot values visited once the id has been stored in a block newly linked
as the tail. -/
theorem visit_ids_fresh_tail (c id : Nat) (bs : List IdBlock)
    (h : bs = [] ∨ c % IDBLOCK = 0) :
    id ∈ visit_ids (c + 1) (tail_store (bs ++ [fun _ => 0]) (c % IDBLOCK) id) ∧
    ∀ S, dup_merge S (visit_ids (c + 1) (tail_store (bs ++ [fun _ => 0]) (c % IDBLOCK) id)) =
      dup_ins (dup_merge S (visit_ids c bs)) id := by
  rw [tail_store_append]
  by_cases hbe : bs = []
  · subst hbe
    simp only [List.nil_append, visit_ids, List.isEmpty_nil, Bool.not_true, List.append_nil,
      block_end_succ]
    rw [range_map_update]
    refine ⟨by simp, ?_⟩
    intro S
    rw [dup_merge_append, dup_merge_zeros]
    rfl
  · have hmod : c % IDBLOCK = 0 := by
      rcases h with h | h
      · exact absurd h hbe
      · exact h
    rw [visit_ids_new_block c (c + 1) _ hmod, block_end_succ, hmod]
    have hr : List.range (0 + 1) = [0] := rfl
    rw [hr]
    simp only [List.map_cons, List.map_nil, if_true]
    refine ⟨by simp, ?_⟩
    intro S
    rw [dup_merge_append]
    rfl

theorem visit_ids_room (c id : Nat) (bs : List IdBlock) (hne : bs ≠ [])
    (hmod : c % IDBLOCK ≠ 0) :
    id ∈ visit_ids (c + 1) (tail_store bs (c % IDBLOCK) id) ∧
    ∀ S, dup_merge S (visit_ids (c + 1) (tail_store bs (c % IDBLOCK) id)) =
      dup_ins (dup_merge S (visit_ids c bs)) id := by
  rw [visit_ids_tail_store _ _ hmod _ hne]
  refine ⟨by simp, ?_⟩
  intro S
  rw [dup_merge_append]
  rfl

/-- What `bdb_tool_idl_add` does to a list-state entry below the threshold: it
stores the id in the tail block of the entry (first alternative), or, under
memory pressure, flushes the database and either stops on the failure of that
flush (second) or starts the entry again with one block (third). -/
theorem idl_add_to_list (env : IdlEnv) (hg : env.Good) (id : Nat) (ic : bdb_tool_idl_cache)
    (g : IdlGlobal) (db : DB) (hok : TreeOk db.app_private)
    (hfind : avl_find db.app_private ic.kstr = some ic)
    (hlt : ic.count < env.BDB_IDL_DB_SIZE) :
    ((idl_add_to env id ic g db).1 = 0 ∧ ∃ ic2 : bdb_tool_idl_cache, ic2.kstr = ic.kstr ∧
        ic2.count = ic.count + 1 ∧ ic2.blocks ≠ [] ∧ id ∈ visit_ids ic2.count ic2.blocks ∧
        (∀ S, dup_merge S (visit_ids ic2.count ic2.blocks) =
          dup_ins (dup_merge S (visit_ids ic.count ic.blocks)) id) ∧
        (idl_add_to env id ic g db).2.2 =
          { db with app_private := avl_update db.app_private ic2 }) ∨
    ((idl_add_to env id ic g db).1 ≠ 0 ∧
        (idl_add_to env id ic g db).2.2 = ⟨flush_data env db.app_private db.data, []⟩) ∨
    ((idl_add_to env id ic g db).1 = 0 ∧ flush_ok env db.app_private db.data = true ∧
      ∃ ic2 : bdb_tool_idl_cache, ic2.kstr = ic.kstr ∧
        ic2.count = ic.count + 1 ∧ ic2.blocks ≠ [] ∧ id ∈ visit_ids ic2.count ic2.blocks ∧
        (∀ S, dup_merge S (visit_ids ic2.count ic2.blocks) = dup_ins S id) ∧
        (idl_add_to env id ic g db).2.2 = ⟨flush_data env db.app_private db.data, [ic2]⟩) := by
  have hA : ¬ ic.count > env.BDB_IDL_DB_SIZE := by omega
  have hB : ¬ ic.count = env.BDB_IDL_DB_SIZE := by omega
  unfold idl_add_to
  simp only [hA, hB, if_false]
  by_cases hC : ic.blocks.isEmpty = true ∨ ic.count % IDBLOCK = 0
  · have hC2 : ic.blocks = [] ∨ ic.count % IDBLOCK = 0 := by
      rcases hC with h | h
      · exact Or.inl (List.isEmpty_iff.1 h)
      · exact Or.inr h
    simp only [hC, if_true]
    by_cases hD : g.bi_idl_cache_size ≥ (env.bi_idl_cache_max_size : Int)
    · simp only [hD, if_true]
      obtain ⟨f1, f2, _⟩ := flush_db_data env (some ic.kstr) g db
      by_cases hf : (bdb_tool_idl_flush_db env (some ic.kstr) g db).1 = 0
      · have hall := f2.1 hf
        have hkept : (bdb_tool_idl_flush_db env (some ic.kstr) g db).2.2.2 =
            some { ic with blocks := [] } :=
          avl_apply_flush_kept env hg ic (by omega) _ _ _ _ hok hfind hall
        right; right
        have hv := visit_ids_fresh_tail ic.count id [] (Or.inl rfl)
        simp only [hf, ne_eq, not_true_eq_false, if_false, hkept, Option.getD_some, f1,
          idl_new_block, avl_insert, avl_update, if_true, eq_self_iff_true]
        refine ⟨trivial, hall,
          { ic with blocks := tail_store ([] ++ [fun _ => 0]) (ic.count % IDBLOCK) id,
                    first := if ic.count = 0 then id else ic.first, count := ic.count + 1 },
          rfl, rfl, ?_, hv.1, hv.2, rfl⟩
        intro h
        have h2 : tail_store ([] ++ [fun _ => 0]) (ic.count % IDBLOCK) id = [] := h
        rw [tail_store_append] at h2
        simp at h2
      · right; left
        rw [if_pos hf]
        exact ⟨hf, f1⟩
    · left
      have hv := visit_ids_fresh_tail ic.count id ic.blocks hC2
      simp only [hD, if_false, idl_new_block]
      refine ⟨trivial,
        { ic with blocks := tail_store (ic.blocks ++ [fun _ => 0]) (ic.count % IDBLOCK) id,
                  first := if ic.count = 0 then id else ic.first, count := ic.count + 1 },
        rfl, rfl, ?_, hv.1, hv.2, rfl⟩
      intro h
      have h2 : tail_store (ic.blocks ++ [fun _ => 0]) (ic.count % IDBLOCK) id = [] := h
      rw [tail_store_append] at h2
      simp at h2
  · left
    have hne : ic.blocks ≠ [] := by
      intro h; exact hC (Or.inl (by simp [h]))
    have hmod : ic.count % IDBLOCK ≠ 0 := fun h => hC (Or.inr h)
    have hv := visit_ids_room ic.count id ic.blocks hne hmod
    simp only [hC, if_false]
    exact ⟨trivial,
      { ic with blocks := tail_store ic.blocks (ic.count % IDBLOCK) id, count := ic.count + 1 },
      rfl, rfl, tail_store_ne_nil _ _ _ hne, hv.1, hv.2, rfl⟩

theorem TreeOk_update (t : List bdb_tool_idl_cache) (ic : bdb_tool_idl_cache) (h : TreeOk t) :
    TreeOk (avl_update t ic) := by
  unfold TreeOk
  rw [avl_update_keys]
  exact h

/-- The part of `bdb_tool_idl_add` after the entry has been found keeps the keys
of the tree pairwise different, and when it returns `0` the entry holds the id. -/
theorem idl_add_to_ok (env : IdlEnv) (hg : env.Good) (id : Nat) (ic : bdb_tool_idl_cache)
    (g : IdlGlobal) (db : DB) (hok : TreeOk db.app_private)
    (hfind : avl_find db.app_private ic.kstr = some ic) :
    TreeOk (idl_add_to env id ic g db).2.2.app_private ∧
    ((idl_add_to env id ic g db).1 = 0 → IdHeld env ic.kstr id (idl_add_to env id ic g db).2.2) := by
  by_cases hA : ic.count > env.BDB_IDL_DB_SIZE
  · have hr : idl_add_to env id ic g db =
        (0, g, { db with app_private := avl_update db.app_private { ic with last := id } }) := by
      unfold idl_add_to
      rw [if_pos hA]
    rw [hr]
    refine ⟨TreeOk_update _ _ hok, fun _ => ⟨{ ic with last := id }, ?_, Or.inl ⟨hA, rfl⟩⟩⟩
    exact avl_find_update _ _ ic _ hfind rfl
  · by_cases hB : ic.count = env.BDB_IDL_DB_SIZE
    · have hr : (idl_add_to env id ic g db).2.2 =
          ⟨db.data, avl_update db.app_private
            { ic with blocks := [], last := id, count := ic.count + 1 }⟩ := by
        unfold idl_add_to
        rw [if_neg hA, if_pos hB]
      rw [hr]
      refine ⟨TreeOk_update _ _ hok, fun _ =>
        ⟨{ ic with blocks := [], last := id, count := ic.count + 1 }, ?_, Or.inl ⟨?_, rfl⟩⟩⟩
      · exact avl_find_update _ _ ic _ hfind rfl
      · show ic.count + 1 > env.BDB_IDL_DB_SIZE
        omega
    · have hlt : ic.count < env.BDB_IDL_DB_SIZE := by omega
      rcases idl_add_to_list env hg id ic g db hok hfind hlt with
        ⟨h0, ic2, k2, c2, b2, m2, _, e2⟩ | ⟨h0, e2⟩ | ⟨h0, _, ic2, k2, c2, b2, m2, _, e2⟩
      · rw [e2]
        refine ⟨TreeOk_update _ _ hok, fun _ => ⟨ic2, ?_, Or.inr ⟨by omega, b2, Or.inr m2⟩⟩⟩
        exact avl_find_update _ _ ic _ hfind k2
      · rw [e2]
        exact ⟨by simp [TreeOk], fun h => absurd h h0⟩
      · rw [e2]
        refine ⟨by simp [TreeOk], fun _ => ⟨ic2, ?_, Or.inr ⟨by omega, b2, Or.inr m2⟩⟩⟩
        simp [avl_find, k2]

/-- Function `bdb_tool_idl_add` keeps the keys of the tree pairwise different, and
when it returns `0` the entry of the key holds the id. -/
theorem idl_add_ok (env : IdlEnv) (hg : env.Good) (key : Key) (id : Nat) (g : IdlGlobal)
    (db : DB) (hok : TreeOk db.app_private) :
    TreeOk (bdb_tool_idl_add env key id g db).2.2.app_private ∧
    ((bdb_tool_idl_add env key id g db).1 = 0 →
      IdHeld env key id (bdb_tool_idl_add env key id g db).2.2) := by
  cases hfind : avl_find db.app_private key with
  | none =>
    have hk := (idl_cache_load_kstr env key (db.data key)).1
    have hr : bdb_tool_idl_add env key id g db =
        idl_add_to env id (idl_cache_load env key (db.data key)) g
          ⟨db.data, avl_insert db.app_private (idl_cache_load env key (db.data key))⟩ := by
      unfold bdb_tool_idl_add
      rw [if_neg hg.caching]
      simp only [hfind, hg.cursor_ok, ne_eq, not_true_eq_false, if_false]
    rw [hr]
    have hnone : avl_find db.app_private (idl_cache_load env key (db.data key)).kstr = none := by
      rw [hk]; exact hfind
    obtain ⟨i1, i2, _⟩ := avl_insert_keys db.app_private _ hnone hok
    have h := idl_add_to_ok env hg id (idl_cache_load env key (db.data key)) g
      ⟨db.data, avl_insert db.app_private (idl_cache_load env key (db.data key))⟩ i1 i2
    rw [hk] at h
    exact h
  | some ic =>
    have hk := avl_find_kstr _ _ _ hfind
    have hr : bdb_tool_idl_add env key id g db = idl_add_to env id ic g db := by
      unfold bdb_tool_idl_add
      rw [if_neg hg.caching]
      simp only [hfind]
    rw [hr]
    have h := idl_add_to_ok env hg id ic g db hok (by rw [hk]; exact hfind)
    rw [hk] at h
    exact h

/-- In every reachable state the keys of the cache tree are pairwise different. -/
theorem DbReach.treeOk (env : IdlEnv) (hg : env.Good) (db : DB) (h : DbReach env db) :
    TreeOk db.app_private := by
  induction h with
  | init data => simp [TreeOk]
  | add key id g db _ ih => exact (idl_add_ok env hg key id g db ih).1
  | flush g db _ _ =>
    rw [(flush_db_data env none g db).1]
    simp [TreeOk]

/-- Inserting again an id the entry already holds, in a state where the insertion
does not make the count reach past the threshold, leaves what a flush will store
as it was. -/
theorem idl_add_to_again (env : IdlEnv) (hg : env.Good) (id : Nat) (ic : bdb_tool_idl_cache)
    (g : IdlGlobal) (db : DB) (hok : TreeOk db.app_private)
    (hfind : avl_find db.app_private ic.kstr = some ic)
    (hcnt : ic.count ≠ env.BDB_IDL_DB_SIZE)
    (hheld : (ic.count > env.BDB_IDL_DB_SIZE ∧ ic.last = id) ∨
      (ic.count ≤ env.BDB_IDL_DB_SIZE ∧ ic.blocks ≠ [] ∧
        (id = 0 ∨ id ∈ visit_ids ic.count ic.blocks))) :
    flush_data env (idl_add_to env id ic g db).2.2.app_private (idl_add_to env id ic g db).2.2.data =
      flush_data env db.app_private db.data := by
  rcases hheld with ⟨hA, hlast⟩ | ⟨hle, _, hmem⟩
  · have hself : ({ ic with last := id } : bdb_tool_idl_cache) = ic := by
      cases ic; simp only at hlast; subst hlast; rfl
    have hr : idl_add_to env id ic g db =
        (0, g, { db with app_private := avl_update db.app_private { ic with last := id } }) := by
      unfold idl_add_to
      rw [if_pos hA]
    rw [hr, hself]
    show flush_data env (avl_update db.app_private ic) db.data = _
    rw [avl_update_same _ _ _ hfind]
  · have hlt : ic.count < env.BDB_IDL_DB_SIZE := by omega
    have hin : ∀ S, id = 0 ∨ id ∈ dup_merge S (visit_ids ic.count ic.blocks) := by
      intro S
      rcases hmem with h | h
      · exact Or.inl h
      · by_cases h0 : id = 0
        · exact Or.inl h0
        · exact Or.inr ((dup_merge_mem _ _ _).2 (Or.inr ⟨h, h0⟩))
    rcases idl_add_to_list env hg id ic g db hok hfind hlt with
      ⟨_, ic2, k2, c2, _, _, v2, e2⟩ | ⟨_, e2⟩ | ⟨_, hall, ic2, k2, c2, _, _, v2, e2⟩
    · rw [e2]
      show flush_data env (avl_update db.app_private ic2) db.data = _
      apply flush_data_update env ic ic2 k2 _ _ _ hfind
      intro S
      obtain ⟨a1, a2⟩ := flush_key_list env hg ic (by omega) S
      obtain ⟨b1, b2⟩ := flush_key_list env hg ic2 (by omega) S
      rw [a1, a2, b1, b2, v2 S]
      refine ⟨?_, rfl⟩
      unfold dup_ins
      rw [if_pos (hin S)]
    · rw [e2]
      rfl
    · rw [e2]
      obtain ⟨b1, _⟩ := flush_key_list env hg ic2 (by omega)
        (flush_data env db.app_private db.data ic2.kstr)
      have hD : flush_data env db.app_private db.data ic.kstr =
          dup_merge (db.data ic.kstr) (visit_ids ic.count ic.blocks) := by
        rw [flush_data_at env ic.kstr _ _ ic hok hfind hall]
        exact (flush_key_list env hg ic (by omega) _).1
      have hnew : flush_key env ic2 (flush_data env db.app_private db.data ic2.kstr) =
          flush_data env db.app_private db.data ic2.kstr := by
        rw [b1, v2, k2]
        unfold dup_ins
        rw [if_pos (by rw [hD]; exact hin _)]
      show flush_data env [ic2] (flush_data env db.app_private db.data) = _
      simp only [flush_data, hnew, setData_same, ite_self]

/-- C4, as the code has it: idempotent duplicate insert.  With caching enabled and no store
call failing, for every reachable cache/store state of a database, every key and
every id: when `bdb_tool_idl_add` returns `0` and leaves the count of the key's
cache entry different from `BDB_IDL_DB_SIZE`, calling it a second time with the
same key and id and then flushing leaves the same store (the stored duplicates of
every key) as flushing right after the first call. -/
theorem idl_add_same_id_twice (env : IdlEnv) (hg : env.Good) (db : DB)
    (hreach : DbReach env db) (g : IdlGlobal) (key : Key) (id : Nat)
    (h1 : (bdb_tool_idl_add env key id g db).1 = 0)
    (hcnt : ∀ ic, avl_find (bdb_tool_idl_add env key id g db).2.2.app_private key = some ic →
      ic.count ≠ env.BDB_IDL_DB_SIZE) :
    (bdb_tool_idl_flush_db env none
      (bdb_tool_idl_add env key id (bdb_tool_idl_add env key id g db).2.1
        (bdb_tool_idl_add env key id g db).2.2).2.1
      (bdb_tool_idl_add env key id (bdb_tool_idl_add env key id g db).2.1
        (bdb_tool_idl_add env key id g db).2.2).2.2).2.2.1 =
    (bdb_tool_idl_flush_db env none (bdb_tool_idl_add env key id g db).2.1
      (bdb_tool_idl_add env key id g db).2.2).2.2.1 := by
  have hok0 := DbReach.treeOk env hg db hreach
  obtain ⟨hok1, hheld⟩ := idl_add_ok env hg key id g db hok0
  obtain ⟨ic, hfind, hh⟩ := hheld h1
  have hk := avl_find_kstr _ _ _ hfind
  have hc := hcnt ic hfind
  generalize bdb_tool_idl_add env key id g db = s1 at hok1 hfind hh hc
  have hr : bdb_tool_idl_add env key id s1.2.1 s1.2.2 = idl_add_to env id ic s1.2.1 s1.2.2 := by
    unfold bdb_tool_idl_add
    rw [if_neg hg.caching]
    simp only [hfind]
  rw [(flush_db_data env none _ _).1, (flush_db_data env none _ _).1, hr]
  rw [idl_add_to_again env hg id ic s1.2.1 s1.2.2 hok1 (by rw [hk]; exact hfind) hc hh]

/-- An instance of C4 with threshold 4: the store holds `[1, 2]` under
the key from a prior load; the first insert of id `9` leaves the count at 3, and
inserting `9` once more before the flush changes nothing: both ways the key ends
up with `[1, 2, 9]`. -/
theorem idl_add_same_id_twice_witness :
    (bdb_tool_idl_add (IdlEnv.ok 4 10) [7] 9 ⟨0, []⟩ ⟨setData emptyData [7] [1, 2], []⟩).1 = 0 ∧
    (bdb_tool_idl_flush_db (IdlEnv.ok 4 10) none
      (bdb_tool_idl_add (IdlEnv.ok 4 10) [7] 9
        (bdb_tool_idl_add (IdlEnv.ok 4 10) [7] 9 ⟨0, []⟩
          ⟨setData emptyData [7] [1, 2], []⟩).2.1
        (bdb_tool_idl_add (IdlEnv.ok 4 10) [7] 9 ⟨0, []⟩
          ⟨setData emptyData [7] [1, 2], []⟩).2.2).2.1
      (bdb_tool_idl_add (IdlEnv.ok 4 10) [7] 9
        (bdb_tool_idl_add (IdlEnv.ok 4 10) [7] 9 ⟨0, []⟩
          ⟨setData emptyData [7] [1, 2], []⟩).2.1
        (bdb_tool_idl_add (IdlEnv.ok 4 10) [7] 9 ⟨0, []⟩
          ⟨setData emptyData [7] [1, 2], []⟩).2.2).2.2).2.2.1 =
    (bdb_tool_idl_flush_db (IdlEnv.ok 4 10) none
      (bdb_tool_idl_add (IdlEnv.ok 4 10) [7] 9 ⟨0, []⟩
        ⟨setData emptyData [7] [1, 2], []⟩).2.1
      (bdb_tool_idl_add (IdlEnv.ok 4 10) [7] 9 ⟨0, []⟩
        ⟨setData emptyData [7] [1, 2], []⟩).2.2).2.2.1 ∧
    (bdb_tool_idl_flush_db (IdlEnv.ok 4 10) none
      (bdb_tool_idl_add (IdlEnv.ok 4 10) [7] 9 ⟨0, []⟩
        ⟨setData emptyData [7] [1, 2], []⟩).2.1
      (bdb_tool_idl_add (IdlEnv.ok 4 10) [7] 9 ⟨0, []⟩
        ⟨setData emptyData [7] [1, 2], []⟩).2.2).2.2.1.data [7] = [1, 2, 9] := by
  refine ⟨by decide, ?_, by decide⟩
  refine idl_add_same_id_twice (IdlEnv.ok 4 10) (IdlEnv.ok_good 4 10 (by decide))
    ⟨setData emptyData [7] [1, 2], []⟩ (DbReach.init _) ⟨0, []⟩ [7] 9 (by decide) ?_
  intro ic h
  have hc : (avl_find (bdb_tool_idl_add (IdlEnv.ok 4 10) [7] 9 ⟨0, []⟩
      ⟨setData emptyData [7] [1, 2], []⟩).2.2.app_private [7]).map (fun e => e.count) =
      some 3 := by decide
  rw [h] at hc
  simp only [Option.map_some', Option.some.injEq] at hc
  rw [hc]
  decide

/-- C4 fails as stated.  Threshold 4, one key, empty store: the inserts of `1`,
`2`, `3` give a reachable state in which the entry's count is
`BDB_IDL_DB_SIZE - 1`.  Inserting `9` once and flushing stores the list
`[1, 2, 3, 9]`; inserting `9` twice (both calls return `0`) and flushing stores the
range `[0, 1, 9]`. -/
theorem idl_add_same_id_twice_counterexample :
    DbReach (IdlEnv.ok 4 10)
      (idl_add_all (IdlEnv.ok 4 10) [7] [1, 2, 3] ⟨0, []⟩ ⟨emptyData, []⟩).2 ∧
    (avl_find (idl_add_all (IdlEnv.ok 4 10) [7] [1, 2, 3] ⟨0, []⟩
      ⟨emptyData, []⟩).2.app_private [7]).map (fun e => e.count) = some (4 - 1) ∧
    (idl_add_all (IdlEnv.ok 4 10) [7] [1, 2, 3] ⟨0, []⟩ ⟨emptyData, []⟩).2.data [7] = [] ∧
    (bdb_tool_idl_flush_db (IdlEnv.ok 4 10) none
      (idl_add_all (IdlEnv.ok 4 10) [7] [1, 2, 3, 9] ⟨0, []⟩ ⟨emptyData, []⟩).1
      (idl_add_all (IdlEnv.ok 4 10) [7] [1, 2, 3, 9] ⟨0, []⟩
        ⟨emptyData, []⟩).2).2.2.1.data [7] = [1, 2, 3, 9] ∧
    (bdb_tool_idl_add (IdlEnv.ok 4 10) [7] 9
      (idl_add_all (IdlEnv.ok 4 10) [7] [1, 2, 3] ⟨0, []⟩ ⟨emptyData, []⟩).1
      (idl_add_all (IdlEnv.ok 4 10) [7] [1, 2, 3] ⟨0, []⟩ ⟨emptyData, []⟩).2).1 = 0 ∧
    (bdb_tool_idl_add (IdlEnv.ok 4 10) [7] 9
      (idl_add_all (IdlEnv.ok 4 10) [7] [1, 2, 3, 9] ⟨0, []⟩ ⟨emptyData, []⟩).1
      (idl_add_all (IdlEnv.ok 4 10) [7] [1, 2, 3, 9] ⟨0, []⟩ ⟨emptyData, []⟩).2).1 = 0 ∧
    (bdb_tool_idl_flush_db (IdlEnv.ok 4 10) none
      (idl_add_all (IdlEnv.ok 4 10) [7] [1, 2, 3, 9, 9] ⟨0, []⟩ ⟨emptyData, []⟩).1
      (idl_add_all (IdlEnv.ok 4 10) [7] [1, 2, 3, 9, 9] ⟨0, []⟩
        ⟨emptyData, []⟩).2).2.2.1.data [7] = [0, 1, 9] := by
  refine ⟨?_, by decide, by decide, by decide, by decide, by decide, by decide⟩
  exact DbReach.add [7] 3 _ _ (DbReach.add [7] 2 _ _ (DbReach.add [7] 1 _ _ (DbReach.init _)))

/-! ## Reindex pipeline: linear multi-pass coverage -/

theorem reindex_state (env : ToolEnv) (hlin : env.bi_linear_index = true) (store : Id2Entry)
    (a : Nat → Attribute) (r i id : Nat) (s : Session) (h : InPass store a r i s) :
    ∃ x, bdb_tool_entry_reindex env id s = some x ∧
      x.2.2 = { s with index_nattrs := r, bi_nattrs := 1 } := by
  obtain ⟨hstore, hcur, ⟨k, e, hget, hdata⟩, hattrs, hn⟩ := h
  have hs1 : (if env.bi_linear_index = true ∧ s.index_nattrs = 0 then
      ({ s with index_nattrs := s.bi_nattrs - 1, bi_nattrs := 1 } : Session) else s) =
      { s with index_nattrs := r, bi_nattrs := 1 } := by
    rcases hn with ⟨h1, h2⟩ | ⟨h1, h2⟩
    · by_cases h0 : s.index_nattrs = 0
      · rw [if_pos ⟨hlin, h0⟩, h1]
        have : r = 0 := by omega
        rw [this]
      · rw [if_neg (fun hh => h0 hh.2)]
        cases s
        simp only at h1 h2
        subst h1 h2
        rfl
    · rw [if_pos ⟨hlin, h1⟩, h2]
      rfl
  have hnone : ¬ s.bi_attrs.isNone = true := by rw [hattrs]; simp
  unfold bdb_tool_entry_reindex
  dsimp only
  rw [if_neg hnone, hs1]
  simp only [bdb_tool_entry_get, hdata]
  by_cases hd : env.entry_decode_rc = 0
  · simp only [hd, if_true]
    split_ifs <;> exact ⟨_, rfl, rfl⟩
  · simp only [hd, if_false]
    exact ⟨_, rfl, rfl⟩

theorem InPass.after_reindex (store : Id2Entry) (a : Nat → Attribute) (r i : Nat) (s : Session)
    (h : InPass store a r i s) :
    InPass store a r i { s with index_nattrs := r, bi_nattrs := 1 } :=
  ⟨h.hstore, h.hcur, h.hdata, h.hattrs, Or.inl ⟨rfl, rfl⟩⟩

theorem entry_next_mid (store : Id2Entry) (a : Nat → Attribute) (r i : Nat) (s : Session)
    (h : InPass store a r i s) (h1 : s.bi_nattrs = 1 ∧ s.index_nattrs = r) (k : Nat) (e : Entry)
    (hget : store.get? (i + 1) = some (k, some e)) :
    ∃ s2, bdb_tool_entry_next s = some (k, s2) ∧ InPass store a r (i + 1) s2 := by
  obtain ⟨hstore, hcur, _, hattrs, _⟩ := h
  refine ⟨{ s with cursor := some ⟨some (i + 1)⟩, key_data := some k, data_data := some e }, ?_,
    ⟨hstore, rfl, ⟨k, e, hget, rfl⟩, hattrs, Or.inl h1⟩⟩
  unfold bdb_tool_entry_next
  simp only [hcur, id2entry_c_next, hstore, hget]
  rfl

theorem entry_next_rotate (store : Id2Entry) (a : Nat → Attribute) (r i : Nat) (s : Session)
    (h : InPass store a (r + 1) i s) (h1 : s.bi_nattrs = 1 ∧ s.index_nattrs = r + 1)
    (hend : store.get? (i + 1) = none) (k : Nat) (e : Entry)
    (hget : store.get? 0 = some (k, some e)) :
    ∃ s2, bdb_tool_entry_next s = some (k, s2) ∧
      InPass store (fun j => if j = 0 then a (r + 1) else a j) r 0 s2 := by
  obtain ⟨hstore, hcur, _, hattrs, _⟩ := h
  refine ⟨{ s with bi_attrs := some (fun j => if j = 0 then a (r + 1) else a j),
                   index_nattrs := r, cursor := some ⟨some 0⟩, key_data := some k,
                   data_data := some e }, ?_,
    ⟨hstore, rfl, ⟨k, e, hget, rfl⟩, rfl, Or.inl ⟨h1.1, rfl⟩⟩⟩
  unfold bdb_tool_entry_next
  simp only [hcur, id2entry_c_next, hstore, hend, h1.2, id2entry_c_first, hget, hattrs,
    Option.map_some', ne_eq, Nat.succ_ne_zero, not_false_eq_true, if_true, Nat.add_sub_cancel]
  rfl

theorem entry_next_last (store : Id2Entry) (a : Nat → Attribute) (i : Nat) (s : Session)
    (h : InPass store a 0 i s) (h1 : s.bi_nattrs = 1 ∧ s.index_nattrs = 0)
    (hend : store.get? (i + 1) = none) :
    bdb_tool_entry_next s = some (NOID, s) := by
  obtain ⟨hstore, hcur, _, _, _⟩ := h
  unfold bdb_tool_entry_next
  simp only [hcur, id2entry_c_next, hstore, hend, h1.2, ne_eq, not_true_eq_false, if_false]

theorem later_passes_congr (a b : Nat → Attribute) (store : Id2Entry)
    (h : ∀ j, j ≠ 0 → a j = b j) : ∀ r, later_passes a store r = later_passes b store r := by
  intro r
  induction r with
  | zero => rfl
  | succ r ih => simp only [later_passes, ih, h (r + 1) (Nat.succ_ne_zero r)]

theorem later_passes_length (a : Nat → Attribute) (store : Id2Entry) :
    ∀ r, (later_passes a store r).length = r * store.length := by
  intro r
  induction r with
  | zero => simp [later_passes]
  | succ r ih =>
    simp only [later_passes, List.length_append, List.length_map, ih]
    ring

theorem reindex_drive_step (env : ToolEnv) (hlin : env.bi_linear_index = true) (store : Id2Entry)
    (a : Nat → Attribute) (r i k : Nat) (s : Session) (h : InPass store a r i s)
    (hk : k ≠ NOID) (f k1 : Nat) (s2 : Session)
    (hnext : bdb_tool_entry_next { s with index_nattrs := r, bi_nattrs := 1 } = some (k1, s2)) :
    reindex_drive env (f + 1) k s =
      (reindex_drive env f k1 s2).map (fun t => (⟨1, some (a 0), k⟩ :: t.1, t.2)) := by
  obtain ⟨x, hx1, hx2⟩ := reindex_state env hlin store a r i k s h
  rw [reindex_drive]
  simp only [hk, if_false, hx1]
  rw [hx2]
  simp only [hnext]
  cases reindex_drive env f k1 s2 with
  | none => rfl
  | some t => simp only [Option.map_some', h.hattrs]

theorem drop_of_get (store : Id2Entry) :
    ∀ (i : Nat) (x : Nat × Option Entry), store.get? i = some x →
      store.drop i = x :: store.drop (i + 1) := by
  induction store with
  | nil => intro i x h; simp at h
  | cons y rest ih =>
    intro i x h
    cases i with
    | zero =>
      simp only [List.get?_cons_zero, Option.some.injEq] at h
      rw [h]; rfl
    | succ j =>
      simp only [List.get?_cons_succ] at h
      simpa using ih j x h

/-- From a record inside a pass the driver runs the rest of this pass and then
every later pass, and stops. -/
theorem reindex_drive_pass (env : ToolEnv) (hlin : env.bi_linear_index = true) (store : Id2Entry)
    (hval : ∀ kv ∈ store, kv.1 ≠ NOID ∧ kv.2.isSome = true) :
    ∀ (r d i : Nat) (a : Nat → Attribute) (s : Session) (k : Nat),
      i + d + 1 = store.length → InPass store a r i s →
      (∃ v, store.get? i = some (k, v)) →
      ∀ fuel, d + 1 + r * store.length + 1 ≤ fuel →
      ∃ s2, reindex_drive env fuel k s =
        some ((store.drop i).map (fun kv => ⟨1, some (a 0), kv.1⟩) ++ later_passes a store r,
          s2) := by
  intro r
  induction r with
  | zero =>
    intro d
    induction d with
    | zero =>
      intro i a s k hi h hk fuel hf
      obtain ⟨v, hv⟩ := hk
      have hkne : k ≠ NOID := (hval _ (List.get?_mem hv)).1
      have hend : store.get? (i + 1) = none := List.get?_eq_none.2 (by omega)
      have hnext := entry_next_last store a i _ (h.after_reindex) ⟨rfl, rfl⟩ hend
      obtain ⟨f, rfl⟩ : ∃ f, fuel = f + 2 := ⟨fuel - 2, by omega⟩
      refine ⟨{ s with index_nattrs := 0, bi_nattrs := 1 }, ?_⟩
      rw [reindex_drive_step env hlin store a 0 i k s h hkne (f + 1) NOID _ hnext]
      rw [drop_of_get store i _ hv, List.drop_of_length_le (by omega)]
      simp [reindex_drive, later_passes]
    | succ d ihd =>
      intro i a s k hi h hk fuel hf
      obtain ⟨v, hv⟩ := hk
      have hkne : k ≠ NOID := (hval _ (List.get?_mem hv)).1
      have hlt : i + 1 < store.length := by omega
      obtain ⟨⟨k1, v1⟩, hg1⟩ : ∃ x, store.get? (i + 1) = some x :=
        ⟨store.get ⟨i + 1, hlt⟩, List.get?_eq_get hlt⟩
      have hsome := (hval _ (List.get?_mem hg1)).2
      obtain ⟨e1, he1⟩ := Option.isSome_iff_exists.1 hsome
      simp only at he1
      subst he1
      obtain ⟨s2, hnext, hin⟩ := entry_next_mid store a 0 i _ (h.after_reindex) ⟨rfl, rfl⟩
        k1 e1 hg1
      obtain ⟨f, rfl⟩ : ∃ f, fuel = f + 1 := ⟨fuel - 1, by omega⟩
      obtain ⟨s3, h3⟩ := ihd (i + 1) a s2 k1 (by omega) hin ⟨_, hg1⟩ f (by omega)
      refine ⟨s3, ?_⟩
      rw [reindex_drive_step env hlin store a 0 i k s h hkne f k1 s2 hnext, h3,
        drop_of_get store i _ hv]
      rfl
  | succ r ihr =>
    intro d
    induction d with
    | zero =>
      intro i a s k hi h hk fuel hf
      obtain ⟨v, hv⟩ := hk
      have hkne : k ≠ NOID := (hval _ (List.get?_mem hv)).1
      have hend : store.get? (i + 1) = none := List.get?_eq_none.2 (by omega)
      have hpos : 0 < store.length := by omega
      obtain ⟨⟨k0, v0⟩, hg0⟩ : ∃ x, store.get? 0 = some x :=
        ⟨store.get ⟨0, hpos⟩, List.get?_eq_get hpos⟩
      have hsome := (hval _ (List.get?_mem hg0)).2
      obtain ⟨e0, he0⟩ := Option.isSome_iff_exists.1 hsome
      simp only at he0
      subst he0
      obtain ⟨s2, hnext, hin⟩ := entry_next_rotate store a r i _ (h.after_reindex) ⟨rfl, rfl⟩
        hend k0 e0 hg0
      obtain ⟨f, rfl⟩ : ∃ f, fuel = f + 1 := ⟨fuel - 1, by omega⟩
      obtain ⟨s3, h3⟩ := ihr (store.length - 1) 0 _ s2 k0 (by omega) hin ⟨_, hg0⟩ f (by
        have : (r + 1) * store.length = r * store.length + store.length := by ring
        omega)
      refine ⟨s3, ?_⟩
      rw [reindex_drive_step env hlin store a (r + 1) i k s h hkne f k0 s2 hnext, h3,
        drop_of_get store i _ hv, List.drop_of_length_le (by omega : store.length ≤ i + 1)]
      rw [later_passes_congr _ a store (fun j hj => by simp [hj]) r]
      simp [later_passes]
    | succ d ihd =>
      intro i a s k hi h hk fuel hf
      obtain ⟨v, hv⟩ := hk
      have hkne : k ≠ NOID := (hval _ (List.get?_mem hv)).1
      have hlt : i + 1 < store.length := by omega
      obtain ⟨⟨k1, v1⟩, hg1⟩ : ∃ x, store.get? (i + 1) = some x :=
        ⟨store.get ⟨i + 1, hlt⟩, List.get?_eq_get hlt⟩
      have hsome := (hval _ (List.get?_mem hg1)).2
      obtain ⟨e1, he1⟩ := Option.isSome_iff_exists.1 hsome
      simp only at he1
      subst he1
      obtain ⟨s2, hnext, hin⟩ := entry_next_mid store a (r + 1) i _ (h.after_reindex)
        ⟨rfl, rfl⟩ k1 e1 hg1
      obtain ⟨f, rfl⟩ : ∃ f, fuel = f + 1 := ⟨fuel - 1, by omega⟩
      obtain ⟨s3, h3⟩ := ihd (i + 1) a s2 k1 (by omega) hin ⟨_, hg1⟩ f (by omega)
      refine ⟨s3, ?_⟩
      rw [reindex_drive_step env hlin store a (r + 1) i k s h hkne f k1 s2 hnext, h3,
        drop_of_get store i _ hv]
      rfl

theorem count_pass (store : Id2Entry) (x y : Attribute) (k : Nat) :
    (store.map (fun kv => (⟨1, some x, kv.1⟩ : ReindexCall))).count ⟨1, some y, k⟩ =
      if x = y then (store.map (fun kv => kv.1)).count k else 0 := by
  induction store with
  | nil => simp
  | cons kv rest ih =>
    simp only [List.map_cons, List.count_cons, ih, beq_iff_eq, ReindexCall.mk.injEq,
      Option.some.injEq, true_and]
    by_cases hxy : x = y
    · simp [hxy]
    · simp [hxy]

theorem count_later_passes (a : Nat → Attribute) (store : Id2Entry) (n : Nat)
    (hinj : ∀ i j, i < n → j < n → a i = a j → i = j) (j : Nat) (hj : j < n) (k : Nat) :
    ∀ r, r < n → (later_passes a store r).count ⟨1, some (a j), k⟩ =
      if 1 ≤ j ∧ j ≤ r then (store.map (fun kv => kv.1)).count k else 0 := by
  intro r
  induction r with
  | zero =>
    intro _
    have : ¬ (1 ≤ j ∧ j ≤ 0) := by omega
    rw [if_neg this]
    rfl
  | succ r ih =>
    intro hr
    simp only [later_passes, List.count_append, count_pass, ih (by omega)]
    by_cases h1 : a (r + 1) = a j
    · have hjr : r + 1 = j := hinj _ _ hr hj h1
      have c1 : ¬ (1 ≤ j ∧ j ≤ r) := by omega
      have c2 : 1 ≤ j ∧ j ≤ r + 1 := by omega
      rw [if_pos h1, if_neg c1, if_pos c2, Nat.add_zero]
    · have hjr : r + 1 ≠ j := fun h => h1 (by rw [h])
      by_cases c1 : 1 ≤ j ∧ j ≤ r
      · have c2 : 1 ≤ j ∧ j ≤ r + 1 := by omega
        rw [if_neg h1, if_pos c1, if_pos c2, Nat.zero_add]
      · have c2 : ¬ (1 ≤ j ∧ j ≤ r + 1) := by omega
        rw [if_neg h1, if_neg c1, if_neg c2]

/-- C11.  Linear multi-pass coverage.  With `bi_linear_index` set, `n ≥ 1` indexed
attributes, a freshly opened cursor and a non-empty primary store of `m` records
(each with a value and an id other than `NOID`), the loop `id =
bdb_tool_entry_next(); while id != NOID { bdb_tool_entry_reindex(id); id =
bdb_tool_entry_next() }` terminates (any fuel above `n * m` suffices) after
exactly `n * m` reindex calls: one scan of the store with the attribute of slot
0, then one with that of slot `n-1`, down to slot 1.  `bi_nattrs` is 1 in every
reindex call, and when the attributes and the stored ids are pairwise different,
each pair of an original attribute and a stored id occurs in exactly one call. -/
theorem reindex_linear_multipass (env : ToolEnv) (hlin : env.bi_linear_index = true) (n : Nat)
    (hn : 1 ≤ n) (a : Nat → Attribute) (s : Session) (hcur : s.cursor = some ⟨none⟩)
    (hix : s.index_nattrs = 0) (hna : s.bi_nattrs = n) (hattrs : s.bi_attrs = some a)
    (hne : s.id2entry ≠ [])
    (hval : ∀ kv ∈ s.id2entry, kv.1 ≠ NOID ∧ kv.2.isSome = true)
    (fuel : Nat) (hf : n * s.id2entry.length < fuel) :
    ∃ trace s2, reindex_all env fuel s = some (trace, s2) ∧
      trace = s.id2entry.map (fun kv => ⟨1, some (a 0), kv.1⟩) ++
        later_passes a s.id2entry (n - 1) ∧
      trace.length = n * s.id2entry.length ∧
      (∀ c ∈ trace, c.nattrs = 1) ∧
      ((∀ i j, i < n → j < n → a i = a j → i = j) →
        (s.id2entry.map (fun kv => kv.1)).Nodup →
        ∀ j, j < n → ∀ kv ∈ s.id2entry, trace.count ⟨1, some (a j), kv.1⟩ = 1) := by
  have hpos : 0 < s.id2entry.length := List.length_pos.2 hne
  obtain ⟨⟨k0, v0⟩, hg0⟩ : ∃ x, s.id2entry.get? 0 = some x :=
    ⟨s.id2entry.get ⟨0, hpos⟩, List.get?_eq_get hpos⟩
  have hsome := (hval _ (List.get?_mem hg0)).2
  obtain ⟨e0, he0⟩ := Option.isSome_iff_exists.1 hsome
  simp only at he0
  subst he0
  have hnext : bdb_tool_entry_next s = some (k0,
      { s with cursor := some ⟨some 0⟩, key_data := some k0, data_data := some e0 }) := by
    unfold bdb_tool_entry_next
    simp only [hcur, id2entry_c_next, hg0]
    rfl
  have hin : InPass s.id2entry a (n - 1) 0
      { s with cursor := some ⟨some 0⟩, key_data := some k0, data_data := some e0 } :=
    ⟨rfl, rfl, ⟨k0, e0, hg0, rfl⟩, hattrs, Or.inr ⟨hix, by
      show s.bi_nattrs = n - 1 + 1
      omega⟩⟩
  have hmul : n * s.id2entry.length = (n - 1) * s.id2entry.length + s.id2entry.length := by
    obtain ⟨p, rfl⟩ : ∃ p, n = p + 1 := ⟨n - 1, by omega⟩
    simp only [Nat.add_sub_cancel]
    ring
  obtain ⟨s2, h2⟩ := reindex_drive_pass env hlin s.id2entry hval (n - 1)
    (s.id2entry.length - 1) 0 a _ k0 (by omega) hin ⟨_, hg0⟩ fuel (by omega)
  simp only [List.drop_zero] at h2
  refine ⟨_, s2, ?_, rfl, ?_, ?_, ?_⟩
  · unfold reindex_all
    simp only [hnext]
    exact h2
  · rw [List.length_append, List.length_map, later_passes_length, hmul]
    omega
  · intro c hc
    rw [List.mem_append] at hc
    rcases hc with hc | hc
    · obtain ⟨kv, _, rfl⟩ := List.mem_map.1 hc
      rfl
    · have hall : ∀ r, ∀ c ∈ later_passes a s.id2entry r, c.nattrs = 1 := by
        intro r
        induction r with
        | zero => intro c hc; simp [later_passes] at hc
        | succ r ih =>
          intro c hc
          simp only [later_passes, List.mem_append, List.mem_map] at hc
          rcases hc with ⟨kv, _, rfl⟩ | hc
          · rfl
          · exact ih c hc
      exact hall _ c hc
  · intro hinj hnd j hj kv hkv
    have hc1 : (s.id2entry.map (fun kv => kv.1)).count kv.1 = 1 :=
      List.count_eq_one_of_mem hnd (List.mem_map_of_mem _ hkv)
    rw [List.count_append, count_pass, count_later_passes a s.id2entry n hinj j hj kv.1 (n - 1)
      (by omega), hc1]
    by_cases h0 : j = 0
    · subst h0
      have c2 : ¬ (1 ≤ 0 ∧ 0 ≤ n - 1) := by omega
      rw [if_pos rfl, if_neg c2]
    · have hne0 : ¬ a 0 = a j := fun h => h0 (hinj 0 j (by omega) hj h).symm
      have c2 : 1 ≤ j ∧ j ≤ n - 1 := by omega
      rw [if_neg hne0, if_pos c2]

/-- An instance of C11: two indexed attributes and a store of three entries give
six reindex calls, a scan with attribute 0 followed by a scan with attribute 1. -/
theorem reindex_linear_multipass_witness :
    (reindex_all (ToolEnv.allOk [[1]] true true 1) 7
      { Session.fresh 0 2 with
        id2entry := [(1, some ⟨1, [1], [1], []⟩), (2, some ⟨2, [2, 1], [2, 1], []⟩),
          (3, some ⟨3, [3, 1], [3, 1], []⟩)] }).map (fun r => r.1) =
      some [⟨1, some 0, 1⟩, ⟨1, some 0, 2⟩, ⟨1, some 0, 3⟩,
            ⟨1, some 1, 1⟩, ⟨1, some 1, 2⟩, ⟨1, some 1, 3⟩] := by
  obtain ⟨trace, s2, h1, h2, _⟩ := reindex_linear_multipass (ToolEnv.allOk [[1]] true true 1) rfl
    2 (by decide) (fun i => i)
    { Session.fresh 0 2 with
      id2entry := [(1, some ⟨1, [1], [1], []⟩), (2, some ⟨2, [2, 1], [2, 1], []⟩),
        (3, some ⟨3, [3, 1], [3, 1], []⟩)] }
    rfl rfl rfl rfl (by simp) (by decide) 7 (by decide)
  rw [h1, h2]
  rfl

/-! ## IDL cache: the key comparison -/

theorem memcmp_eq_zero (p q : Nat → Nat) :
    ∀ n i, memcmp p q n i = 0 ↔ ∀ j, j < n → p (i + j) = q (i + j) := by
  intro n
  induction n with
  | zero => intro i; simp [memcmp]
  | succ n ih =>
    intro i
    simp only [memcmp]
    by_cases h : p i = q i
    · rw [if_pos h, ih]
      constructor
      · intro hall j hj
        cases j with
        | zero => exact h
        | succ j =>
          have := hall j (by omega)
          rw [show i + (j + 1) = i + 1 + j by omega]
          exact this
      · intro hall j hj
        have := hall (j + 1) (by omega)
        rw [show i + 1 + j = i + (j + 1) by omega]
        exact this
    · rw [if_neg h]
      constructor
      · intro h0
        exact absurd (by omega : p i = q i) h
      · intro hall
        exact absurd (hall 0 (by omega)) h

theorem memcmp_neg (p q : Nat → Nat) : ∀ n i, memcmp q p n i = - memcmp p q n i := by
  intro n
  induction n with
  | zero => intro i; simp [memcmp]
  | succ n ih =>
    intro i
    simp only [memcmp]
    by_cases h : p i = q i
    · rw [if_pos h, if_pos h.symm, ih]
    · rw [if_neg h, if_neg (fun hh => h hh.symm)]
      omega

theorem memcmp_trans (p q r : Nat → Nat) :
    ∀ n i, memcmp p q n i ≤ 0 → memcmp q r n i ≤ 0 → memcmp p r n i ≤ 0 := by
  intro n
  induction n with
  | zero => intro i _ _; simp [memcmp]
  | succ n ih =>
    intro i
    simp only [memcmp]
    by_cases h1 : p i = q i <;> by_cases h2 : q i = r i
    · rw [if_pos h1, if_pos h2, if_pos (h1.trans h2)]
      exact ih (i + 1)
    · have h3 : ¬ p i = r i := by rw [h1]; exact h2
      rw [if_pos h1, if_neg h2, if_neg h3]
      intro _ hq
      omega
    · have h3 : ¬ p i = r i := by rw [← h2]; exact h1
      rw [if_neg h1, if_pos h2, if_neg h3]
      intro hp _
      omega
    · rw [if_neg h1, if_neg h2]
      intro hp hq
      have h3 : ¬ p i = r i := by omega
      rw [if_neg h3]
      omega

/-- For lengths below `2 ^ 31` the `int` holds the exact difference. -/
theorem to_int_len_diff (lbits : Nat) (hl : 32 ≤ lbits) (a b : Nat) (ha : a < 2 ^ 31)
    (hb : b < 2 ^ 31) : to_int ((a + 2 ^ lbits - b) % 2 ^ lbits) = (a : Int) - (b : Int) := by
  obtain ⟨t, rfl⟩ : ∃ t, lbits = 32 + t := ⟨lbits - 32, by omega⟩
  have hY : 1 ≤ 2 ^ t := Nat.one_le_two_pow
  rw [pow_add]
  generalize 2 ^ t = Y at hY
  norm_num at ha hb ⊢
  by_cases hab : b ≤ a
  · have h1 : (a + 4294967296 * Y - b) % (4294967296 * Y) = a - b := by
      have : a + 4294967296 * Y - b = (a - b) + 4294967296 * Y := by omega
      rw [this, Nat.add_mod_right]
      exact Nat.mod_eq_of_lt (by omega)
    rw [h1]
    unfold to_int
    norm_num
    have h2 : (a - b) % 4294967296 = a - b := Nat.mod_eq_of_lt (by omega)
    rw [h2]
    have h3 : a - b < 2147483648 := by omega
    rw [if_pos h3]
    omega
  · have h1 : (a + 4294967296 * Y - b) % (4294967296 * Y) = a + 4294967296 * Y - b :=
      Nat.mod_eq_of_lt (by omega)
    rw [h1]
    unfold to_int
    norm_num
    have h2 : (a + 4294967296 * Y - b) % 4294967296 = a + 4294967296 - b := by omega
    rw [h2]
    have h3 : ¬ a + 4294967296 - b < 2147483648 := by omega
    rw [if_neg h3]
    omega

theorem bdb_tool_idl_cmp_small (lbits : Nat) (hl : 32 ≤ lbits) (x y : berval)
    (hx : x.bv_len < 2 ^ 31) (hy : y.bv_len < 2 ^ 31) :
    bdb_tool_idl_cmp lbits x y =
      if (x.bv_len : Int) - (y.bv_len : Int) ≠ 0 then (x.bv_len : Int) - (y.bv_len : Int)
      else memcmp x.bv_val y.bv_val x.bv_len 0 := by
  unfold bdb_tool_idl_cmp
  simp only [to_int_len_diff lbits hl _ _ hx hy]

/-- C12, as the code has it.  For keys whose lengths are below `2 ^ 31` (so that
the difference of two lengths fits the `int`), `bdb_tool_idl_cmp` is a total order
that puts shorter keys first and orders keys of one length byte-wise: it is zero
exactly for keys of the same length and bytes, its sign flips when the arguments
are swapped, it is negative when the first key is shorter, and `≤ 0` is
transitive. -/
theorem bdb_tool_idl_cmp_total_order (lbits : Nat) (hl : 32 ≤ lbits) (a b c : berval)
    (ha : a.bv_len < 2 ^ 31) (hb : b.bv_len < 2 ^ 31) (hc : c.bv_len < 2 ^ 31) :
    (bdb_tool_idl_cmp lbits a b = 0 ↔
      a.bv_len = b.bv_len ∧ ∀ i, i < a.bv_len → a.bv_val i = b.bv_val i) ∧
    Int.sign (bdb_tool_idl_cmp lbits a b) = - Int.sign (bdb_tool_idl_cmp lbits b a) ∧
    (a.bv_len < b.bv_len → bdb_tool_idl_cmp lbits a b < 0) ∧
    (bdb_tool_idl_cmp lbits a b ≤ 0 → bdb_tool_idl_cmp lbits b c ≤ 0 →
      bdb_tool_idl_cmp lbits a c ≤ 0) := by
  rw [bdb_tool_idl_cmp_small lbits hl a b ha hb, bdb_tool_idl_cmp_small lbits hl b a hb ha,
    bdb_tool_idl_cmp_small lbits hl b c hb hc, bdb_tool_idl_cmp_small lbits hl a c ha hc]
  refine ⟨?_, ?_, ?_, ?_⟩
  · by_cases h : (a.bv_len : Int) - (b.bv_len : Int) ≠ 0
    · rw [if_pos h]
      constructor
      · intro h0; exact absurd h0 h
      · intro h0; exact absurd (by omega) h
    · rw [if_neg h, memcmp_eq_zero]
      have hlen : a.bv_len = b.bv_len := by omega
      simp only [Nat.zero_add]
      exact ⟨fun h0 => ⟨hlen, h0⟩, fun h0 => h0.2⟩
  · by_cases h : (a.bv_len : Int) - (b.bv_len : Int) ≠ 0
    · have h2 : (b.bv_len : Int) - (a.bv_len : Int) ≠ 0 := by omega
      rw [if_pos h, if_pos h2, ← Int.sign_neg]
      congr 1
      omega
    · have h2 : ¬ (b.bv_len : Int) - (a.bv_len : Int) ≠ 0 := by omega
      have hlen : b.bv_len = a.bv_len := by omega
      rw [if_neg h, if_neg h2, hlen, memcmp_neg a.bv_val b.bv_val, Int.sign_neg, neg_neg]
  · intro hlt
    have h : (a.bv_len : Int) - (b.bv_len : Int) ≠ 0 := by omega
    rw [if_pos h]
    omega
  · by_cases h1 : (a.bv_len : Int) - (b.bv_len : Int) ≠ 0 <;>
      by_cases h2 : (b.bv_len : Int) - (c.bv_len : Int) ≠ 0
    · rw [if_pos h1, if_pos h2]
      intro p q
      have h3 : (a.bv_len : Int) - (c.bv_len : Int) ≠ 0 := by omega
      rw [if_pos h3]
      omega
    · rw [if_pos h1, if_neg h2]
      intro p _
      have h3 : (a.bv_len : Int) - (c.bv_len : Int) ≠ 0 := by omega
      rw [if_pos h3]
      omega
    · rw [if_neg h1, if_pos h2]
      intro _ q
      have h3 : (a.bv_len : Int) - (c.bv_len : Int) ≠ 0 := by omega
      rw [if_pos h3]
      omega
    · rw [if_neg h1, if_neg h2]
      intro p q
      have h3 : ¬ (a.bv_len : Int) - (c.bv_len : Int) ≠ 0 := by omega
      have hlen : b.bv_len = a.bv_len := by omega
      rw [if_neg h3]
      rw [hlen] at q
      exact memcmp_trans _ _ _ _ _ p q

/-- An instance of C12 with 64-bit lengths: the one-byte key `09` comes before
the two-byte key `01 01`. -/
theorem bdb_tool_idl_cmp_total_order_witness :
    bdb_tool_idl_cmp 64 ⟨1, fun _ => 9⟩ ⟨2, fun _ => 1⟩ < 0 :=
  (bdb_tool_idl_cmp_total_order 64 (by decide) ⟨1, fun _ => 9⟩ ⟨2, fun _ => 1⟩
    ⟨2, fun _ => 1⟩ (by decide) (by decide) (by decide)).2.2.1 (by decide)

/-- C12 fails as stated.  With 64-bit lengths, the empty key is shorter than a
key of `2 ^ 31 + 1` bytes, and the comparison is positive; and the empty key and
a key of `2 ^ 31` bytes compare negative both ways round. -/
theorem bdb_tool_idl_cmp_counterexample :
    (⟨0, fun _ => 0⟩ : berval).bv_len < (⟨2 ^ 31 + 1, fun _ => 0⟩ : berval).bv_len ∧
    0 < bdb_tool_idl_cmp 64 ⟨0, fun _ => 0⟩ ⟨2 ^ 31 + 1, fun _ => 0⟩ ∧
    bdb_tool_idl_cmp 64 ⟨0, fun _ => 0⟩ ⟨2 ^ 31, fun _ => 0⟩ < 0 ∧
    bdb_tool_idl_cmp 64 ⟨2 ^ 31, fun _ => 0⟩ ⟨0, fun _ => 0⟩ < 0 := by
  decide

/-! ## IDL cache: the fields of a list-state entry -/

theorem avl_update_mem :
    ∀ (t : List bdb_tool_idl_cache) (ic x : bdb_tool_idl_cache),
      x ∈ avl_update t ic → x = ic ∨ x ∈ t := by
  intro t
  induction t with
  | nil => intro ic x h; simp [avl_update] at h
  | cons e rest ih =>
    intro ic x h
    simp only [avl_update] at h
    split_ifs at h
    · rcases List.mem_cons.1 h with h | h
      · exact Or.inl h
      · exact Or.inr (List.mem_cons_of_mem _ h)
    · rcases List.mem_cons.1 h with h | h
      · exact Or.inr (by rw [h]; exact List.mem_cons_self _ _)
      · rcases ih ic x h with h | h
        · exact Or.inl h
        · exact Or.inr (List.mem_cons_of_mem _ h)

theorem avl_insert_mem :
    ∀ (t : List bdb_tool_idl_cache) (ic x : bdb_tool_idl_cache),
      x ∈ avl_insert t ic → x = ic ∨ x ∈ t := by
  intro t
  induction t with
  | nil =>
    intro ic x h
    simp only [avl_insert, List.mem_singleton] at h
    exact Or.inl h
  | cons e rest ih =>
    intro ic x h
    simp only [avl_insert] at h
    split_ifs at h
    · exact Or.inr h
    · rcases List.mem_cons.1 h with h | h
      · exact Or.inl h
      · exact Or.inr h
    · rcases List.mem_cons.1 h with h | h
      · exact Or.inr (by rw [h]; exact List.mem_cons_self _ _)
      · rcases ih ic x h with h | h
        · exact Or.inl h
        · exact Or.inr (List.mem_cons_of_mem _ h)

theorem tail_store_last (slot id : Nat) :
    ∀ bs : List IdBlock, bs ≠ [] →
      ∃ init b, tail_store bs slot id = init ++ [b] ∧ b slot = id := by
  intro bs hne
  rcases List.eq_nil_or_concat bs with h | ⟨init, b, h⟩
  · exact absurd h hne
  · rw [List.concat_eq_append] at h
    rw [h, tail_store_append]
    exact ⟨init, _, rfl, by simp⟩

/-- What `bdb_tool_idl_add` does to the fields of a list-state entry below the
threshold: either the memory-pressure flush fails and the tree is left empty, or
the entry gains the id in the slot `count mod IDBLOCK` of its tail block, its
count goes up by one, `last` is not touched, and `first` is set only when the
count was 0. -/
theorem idl_add_to_list_fields (env : IdlEnv) (hg : env.Good) (id : Nat)
    (ic : bdb_tool_idl_cache) (g : IdlGlobal) (db : DB) (hok : TreeOk db.app_private)
    (hfind : avl_find db.app_private ic.kstr = some ic)
    (hlt : ic.count < env.BDB_IDL_DB_SIZE) :
    ((idl_add_to env id ic g db).1 ≠ 0 ∧ (idl_add_to env id ic g db).2.2.app_private = []) ∨
    ((idl_add_to env id ic g db).1 = 0 ∧ ∃ ic2 : bdb_tool_idl_cache,
      avl_find (idl_add_to env id ic g db).2.2.app_private ic.kstr = some ic2 ∧
      (∀ x ∈ (idl_add_to env id ic g db).2.2.app_private, x = ic2 ∨ x ∈ db.app_private) ∧
      ic2.count = ic.count + 1 ∧ ic2.last = ic.last ∧
      ic2.first = (if ic.count = 0 then id else ic.first) ∧
      ∃ init b, ic2.blocks = init ++ [b] ∧ b (ic.count % IDBLOCK) = id) := by
  have hA : ¬ ic.count > env.BDB_IDL_DB_SIZE := by omega
  have hB : ¬ ic.count = env.BDB_IDL_DB_SIZE := by omega
  unfold idl_add_to
  simp only [hA, hB, if_false]
  by_cases hC : ic.blocks.isEmpty = true ∨ ic.count % IDBLOCK = 0
  · simp only [hC, if_true]
    by_cases hD : g.bi_idl_cache_size ≥ (env.bi_idl_cache_max_size : Int)
    · simp only [hD, if_true]
      obtain ⟨f1, f2, _⟩ := flush_db_data env (some ic.kstr) g db
      by_cases hf : (bdb_tool_idl_flush_db env (some ic.kstr) g db).1 = 0
      · have hall := f2.1 hf
        have hkept : (bdb_tool_idl_flush_db env (some ic.kstr) g db).2.2.2 =
            some { ic with blocks := [] } :=
          avl_apply_flush_kept env hg ic (by omega) _ _ _ _ hok hfind hall
        right
        simp only [hf, ne_eq, not_true_eq_false, if_false, hkept, Option.getD_some, f1,
          idl_new_block, avl_insert, avl_update, if_true, eq_self_iff_true]
        refine ⟨trivial,
          { ic with blocks := tail_store ([] ++ [fun _ => 0]) (ic.count % IDBLOCK) id,
                    first := if ic.count = 0 then id else ic.first, count := ic.count + 1 },
          by simp [avl_find], ?_, rfl, rfl, rfl, ?_⟩
        · intro x hx
          exact Or.inl (List.mem_singleton.1 hx)
        · exact ⟨[], _, tail_store_append _ _ _ [], by simp⟩
      · left
        rw [if_pos hf]
        exact ⟨hf, by rw [f1]⟩
    · right
      simp only [hD, if_false, idl_new_block]
      refine ⟨trivial,
        { ic with blocks := tail_store (ic.blocks ++ [fun _ => 0]) (ic.count % IDBLOCK) id,
                  first := if ic.count = 0 then id else ic.first, count := ic.count + 1 },
        avl_find_update _ _ ic _ hfind rfl, fun x hx => avl_update_mem _ _ x hx, rfl, rfl, rfl,
        ?_⟩
      exact ⟨ic.blocks, _, tail_store_append _ _ _ _, by simp⟩
  · right
    have hne : ic.blocks ≠ [] := by
      intro h; exact hC (Or.inl (by simp [h]))
    have hmod : ic.count % IDBLOCK ≠ 0 := fun h => hC (Or.inr h)
    have h0 : ¬ ic.count = 0 := by
      intro h; rw [h] at hmod; exact hmod (by decide)
    simp only [hC, if_false]
    refine ⟨trivial,
      { ic with blocks := tail_store ic.blocks (ic.count % IDBLOCK) id, count := ic.count + 1 },
      avl_find_update _ _ ic _ hfind rfl, fun x hx => avl_update_mem _ _ x hx, rfl, rfl, ?_,
      tail_store_last _ _ _ hne⟩
    rw [if_neg h0]

theorem idl_add_to_range_tree (env : IdlEnv) (id : Nat) (ic : bdb_tool_idl_cache)
    (g : IdlGlobal) (db : DB) (hge : env.BDB_IDL_DB_SIZE ≤ ic.count) :
    ∃ ic2 : bdb_tool_idl_cache, ic2.kstr = ic.kstr ∧ ic2.count > env.BDB_IDL_DB_SIZE ∧
      (idl_add_to env id ic g db).2.2.app_private = avl_update db.app_private ic2 := by
  unfold idl_add_to
  by_cases hA : ic.count > env.BDB_IDL_DB_SIZE
  · rw [if_pos hA]
    exact ⟨{ ic with last := id }, rfl, hA, rfl⟩
  · have hB : ic.count = env.BDB_IDL_DB_SIZE := by omega
    rw [if_neg hA, if_pos hB]
    refine ⟨{ ic with blocks := [], last := id, count := ic.count + 1 }, rfl, ?_, rfl⟩
    show ic.count + 1 > env.BDB_IDL_DB_SIZE
    omega

theorem idl_add_to_listLast (env : IdlEnv) (hg : env.Good) (id : Nat)
    (ic : bdb_tool_idl_cache) (g : IdlGlobal) (db : DB) (hok : TreeOk db.app_private)
    (hfind : avl_find db.app_private ic.kstr = some ic) (hinv : ListLast env db.app_private) :
    ListLast env (idl_add_to env id ic g db).2.2.app_private := by
  by_cases hge : env.BDB_IDL_DB_SIZE ≤ ic.count
  · obtain ⟨ic2, _, hc2, ht⟩ := idl_add_to_range_tree env id ic g db hge
    rw [ht]
    intro x hx hxc
    rcases avl_update_mem _ _ x hx with h | h
    · rw [h] at hxc; omega
    · exact hinv x h hxc
  · rcases idl_add_to_list_fields env hg id ic g db hok hfind (by omega) with
      ⟨_, ht⟩ | ⟨_, ic2, _, hmem, _, hl, _⟩
    · rw [ht]
      intro x hx
      simp at hx
    · intro x hx hxc
      rcases hmem x hx with h | h
      · rw [h, hl]
        exact hinv ic (avl_find_mem _ _ _ hfind) (by omega)
      · exact hinv x h hxc

/-- How `bdb_tool_idl_add` reaches the part that works on the entry: on the entry
found in the tree, or on the entry it has just created and inserted. -/
theorem idl_add_eq_add_to (env : IdlEnv) (hg : env.Good) (key : Key) (id : Nat)
    (g : IdlGlobal) (db : DB) (hok : TreeOk db.app_private) :
    ∃ db1 : DB, bdb_tool_idl_add env key id g db = idl_add_to env id (idl_entry_of env key db) g db1 ∧
      (idl_entry_of env key db).kstr = key ∧ TreeOk db1.app_private ∧
      avl_find db1.app_private key = some (idl_entry_of env key db) ∧
      (∀ x ∈ db1.app_private, x = idl_entry_of env key db ∨ x ∈ db.app_private) ∧
      ((idl_entry_of env key db) ∈ db.app_private ∨ (idl_entry_of env key db).last = 0) ∧
      db1.data = db.data ∧
      (db1.app_private = db.app_private ∨
        (db1.app_private = avl_insert db.app_private (idl_entry_of env key db) ∧
          avl_find db.app_private (idl_entry_of env key db).kstr = none ∧
          (idl_entry_of env key db).blocks = [])) := by
  unfold idl_entry_of
  cases hfind : avl_find db.app_private key with
  | none =>
    obtain ⟨hk, hbl, hl⟩ := idl_cache_load_kstr env key (db.data key)
    have hnone : avl_find db.app_private (idl_cache_load env key (db.data key)).kstr = none := by
      rw [hk]; exact hfind
    obtain ⟨i1, i2, _⟩ := avl_insert_keys db.app_private _ hnone hok
    refine ⟨⟨db.data, avl_insert db.app_private (idl_cache_load env key (db.data key))⟩,
      ?_, hk, i1, by rw [hk] at i2; exact i2, fun x hx => avl_insert_mem _ _ x hx, Or.inr hl,
      rfl, Or.inr ⟨rfl, hnone, hbl⟩⟩
    unfold bdb_tool_idl_add
    rw [if_neg hg.caching]
    simp only [hfind, hg.cursor_ok, ne_eq, not_true_eq_false, if_false]
  | some ic =>
    refine ⟨db, ?_, avl_find_kstr _ _ _ hfind, hok, hfind, fun x hx => Or.inr hx,
      Or.inl (avl_find_mem _ _ _ hfind), rfl, Or.inl rfl⟩
    unfold bdb_tool_idl_add
    rw [if_neg hg.caching]
    simp only [hfind]

theorem idl_add_listLast (env : IdlEnv) (hg : env.Good) (key : Key) (id : Nat) (g : IdlGlobal)
    (db : DB) (hok : TreeOk db.app_private) (hinv : ListLast env db.app_private) :
    ListLast env (bdb_tool_idl_add env key id g db).2.2.app_private := by
  obtain ⟨db1, heq, hk, hok1, hfind1, hmem, hlast, _⟩ := idl_add_eq_add_to env hg key id g db hok
  rw [heq]
  apply idl_add_to_listLast env hg id _ g db1 hok1 (by rw [hk]; exact hfind1)
  intro x hx hxc
  rcases hmem x hx with h | h
  · rcases hlast with h2 | h2
    · rw [h]; rw [h] at hxc; exact hinv _ h2 hxc
    · rw [h]; exact h2
  · exact hinv x h hxc

/-- In every reachable state a list-state entry has `last = 0`. -/
theorem DbReach.listLast (env : IdlEnv) (hg : env.Good) (db : DB) (h : DbReach env db) :
    ListLast env db.app_private := by
  induction h with
  | init data => intro x hx; simp at hx
  | add key id g db hr ih =>
    exact idl_add_listLast env hg key id g db (DbReach.treeOk env hg db hr) ih
  | flush g db _ _ =>
    rw [(flush_db_data env none g db).1]
    intro x hx
    simp at hx

/-- C13, as the code has it.  With caching enabled and no store call failing, in
every reachable state: after a `bdb_tool_idl_add` that returns 0 and leaves the
entry of the key in list state (`count ≤ BDB_IDL_DB_SIZE`), the entry's `last` is
0 (it is assigned only when the entry becomes a range), its count is one more
than before, the id just inserted sits in the tail block at slot `count mod
IDBLOCK` of the count before the call, and `first` is that id when the count
before the call was 0 and is otherwise left as it was. -/
theorem idl_add_list_state (env : IdlEnv) (hg : env.Good) (db : DB) (hreach : DbReach env db)
    (g : IdlGlobal) (key : Key) (id : Nat) (h0 : (bdb_tool_idl_add env key id g db).1 = 0)
    (ic1 : bdb_tool_idl_cache)
    (hfind1 : avl_find (bdb_tool_idl_add env key id g db).2.2.app_private key = some ic1)
    (hlist : ic1.count ≤ env.BDB_IDL_DB_SIZE) :
    ic1.last = 0 ∧ ic1.count = (idl_entry_of env key db).count + 1 ∧
    ic1.first = (if (idl_entry_of env key db).count = 0 then id
      else (idl_entry_of env key db).first) ∧
    ∃ init b, ic1.blocks = init ++ [b] ∧ b ((idl_entry_of env key db).count % IDBLOCK) = id := by
  have hok := DbReach.treeOk env hg db hreach
  have hl : ic1.last = 0 :=
    DbReach.listLast env hg _ (DbReach.add key id g db hreach) ic1
      (avl_find_mem _ _ _ hfind1) hlist
  refine ⟨hl, ?_⟩
  obtain ⟨db1, heq, hk, hok1, hf1, _, _⟩ := idl_add_eq_add_to env hg key id g db hok
  rw [heq] at h0 hfind1
  have hf1k : avl_find db1.app_private (idl_entry_of env key db).kstr =
      some (idl_entry_of env key db) := by rw [hk]; exact hf1
  by_cases hge : env.BDB_IDL_DB_SIZE ≤ (idl_entry_of env key db).count
  · obtain ⟨ic2, hk2, hc2, ht⟩ := idl_add_to_range_tree env id _ g db1 hge
    rw [ht, avl_find_update _ _ _ ic2 hf1 (by rw [hk2, hk])] at hfind1
    simp only [Option.some.injEq] at hfind1
    rw [← hfind1] at hlist
    omega
  · rcases idl_add_to_list_fields env hg id _ g db1 hok1 hf1k (by omega) with
      ⟨hne, _⟩ | ⟨_, ic2, hf2, _, hc, _, hfirst, hslot⟩
    · exact absurd h0 hne
    · rw [hk, hfind1] at hf2
      simp only [Option.some.injEq] at hf2
      subst hf2
      exact ⟨hc, hfirst, hslot⟩

/-- An instance of C13 with threshold 4: the first insert under a fresh key, of
id 5, leaves `last = 0`, `count = 1` and `first = 5`. -/
theorem idl_add_list_state_witness :
    (avl_find (bdb_tool_idl_add (IdlEnv.ok 4 10) [7] 5 ⟨0, []⟩
      ⟨emptyData, []⟩).2.2.app_private [7]).map (fun ic => (ic.last, ic.count, ic.first)) =
      some (0, 1, 5) := by
  cases hfind : avl_find (bdb_tool_idl_add (IdlEnv.ok 4 10) [7] 5 ⟨0, []⟩
      ⟨emptyData, []⟩).2.2.app_private [7] with
  | none =>
    have hs : (avl_find (bdb_tool_idl_add (IdlEnv.ok 4 10) [7] 5 ⟨0, []⟩
      ⟨emptyData, []⟩).2.2.app_private [7]).isSome = true := by decide
    rw [hfind] at hs
    exact absurd hs (by simp)
  | some ic1 =>
    have hc : (avl_find (bdb_tool_idl_add (IdlEnv.ok 4 10) [7] 5 ⟨0, []⟩
      ⟨emptyData, []⟩).2.2.app_private [7]).map (fun ic => ic.count) = some 1 := by decide
    rw [hfind] at hc
    simp only [Option.map_some', Option.some.injEq] at hc
    obtain ⟨h1, h2, h3, _⟩ := idl_add_list_state (IdlEnv.ok 4 10)
      (IdlEnv.ok_good 4 10 (by decide)) ⟨emptyData, []⟩ (DbReach.init _) ⟨0, []⟩ [7] 5
      (by decide) ic1 hfind (by rw [hc]; decide)
    have e0 : (idl_entry_of (IdlEnv.ok 4 10) [7] ⟨emptyData, []⟩).count = 0 := by decide
    rw [e0] at h2 h3
    simp only [Option.map_some', h1, h2, h3, if_true]

/-- C13 fails as stated.  Threshold 4, a fresh key: after the insert of id 5 the
entry is in list state with `count = 1`, `first = 5` and `last = 0`, so `first ≤
last` fails and `last` is not among the ids of its block; after the further
insert of id 3 `first` is still 5, not the smallest id seen. -/
theorem idl_add_list_state_counterexample :
    (avl_find (bdb_tool_idl_add (IdlEnv.ok 4 10) [7] 5 ⟨0, []⟩
      ⟨emptyData, []⟩).2.2.app_private [7]).map
        (fun ic => (ic.count, ic.first, ic.last, visit_ids ic.count ic.blocks)) =
      some (1, 5, 0, [5]) ∧
    (avl_find (idl_add_all (IdlEnv.ok 4 10) [7] [5, 3] ⟨0, []⟩
      ⟨emptyData, []⟩).2.app_private [7]).map
        (fun ic => (ic.count, ic.first, ic.last, visit_ids ic.count ic.blocks)) =
      some (2, 5, 0, [5, 3]) := by
  decide

/-! ## Resolver: invariants of the hole buffer -/

/-- Induction over the steps of `bdb_tool_next_id`: a property of the state that
is kept by the id generator, by a change of the name-to-id map and by the removal
of a hole, and that pays one unit of its budget for each hole appended (with the
id just generated), holds after the call when the budget covers the length of the
name. -/
theorem next_id_steps (env : ToolEnv) (Q : Nat → ToolState → Prop)
    (hmono : ∀ k st, Q (k + 1) st → Q k st)
    (hgen : ∀ k st, Q k st → Q k { st with bi_lastid := st.bi_lastid + 1 })
    (hmap : ∀ k st m, Q k st → Q k { st with dn2id := m })
    (happ : ∀ k st m ndn, Q (k + 1) st →
      Q k (hole_append { st with bi_lastid := st.bi_lastid + 1, dn2id := m }
        (st.bi_lastid + 1) ndn))
    (hclose : ∀ k st id, Q k st → Q k (hole_close st id)) :
    ∀ (ndn dn : Name) (e_id : Nat) (hole : Bool) (st : ToolState) (k : Nat),
      Q (k + ndn.length) st → Q k (bdb_tool_next_id env ndn dn e_id hole st).2.2 := by
  have hdown : ∀ n k st, Q (k + n) st → Q k st := by
    intro n
    induction n with
    | zero => intro k st h; exact h
    | succ n ih => intro k st h; exact ih k st (hmono _ st h)
  intro ndn
  induction ndn with
  | nil =>
    intro dn e_id hole st k h
    exact h
  | cons r npdn ih =>
    intro dn e_id hole st k h
    have h1 : Q (k + 1 + npdn.length) st := by
      have : k + (r :: npdn).length = k + 1 + npdn.length := by
        simp only [List.length_cons]; omega
      rw [← this]; exact h
    rw [bdb_tool_next_id]
    cases hfind : bdb_cache_find_ndn st (r :: npdn) with
    | some id =>
      cases hole
      · exact hclose k st id (hdown _ k st h)
      · exact hdown _ k st h
    | none =>
      -- the steps after the ancestors have been resolved
      have key : ∀ (st1 : ToolState) (pid : Nat) (ei : Option Nat), Q (k + 1) st1 →
          Q k (match bdb_next_id env st1 pid with
             | (rc, id, st2) =>
               if rc ≠ 0 then (rc, id, st2)
               else
                 match bdb_dn2id_add env st2 ei (r :: npdn) id with
                 | (rc, st3) =>
                   if rc ≠ 0 then (rc, id, st3)
                   else if hole then (0, id, hole_append st3 id (r :: npdn))
                   else (0, id, st3)).2.2 := by
        intro st1 pid ei hq
        simp only [bdb_next_id, bdb_dn2id_add]
        by_cases hn : env.next_id_rc st1.bi_lastid = 0
        · simp only [hn, ne_eq, not_true_eq_false, if_false]
          by_cases ha : env.dn2id_add_rc (r :: npdn) (st1.bi_lastid + 1) = 0
          · simp only [ha, ne_eq, not_true_eq_false, if_false]
            cases hole
            · exact hmono k _ (hmap _ _ _ (hgen _ _ hq))
            · exact happ k st1 _ (r :: npdn) hq
          · simp only [ha, ne_eq, not_false_eq_true, if_true]
            exact hmono k _ (hgen _ _ hq)
        · simp only [hn, ne_eq, not_false_eq_true, if_true]
          exact hmono k _ hq
      by_cases hsuf : be_issuffix env (r :: npdn) = true
      · simp only [hsuf, if_true, ne_eq, not_true_eq_false, if_false]
        exact key st e_id none (hdown _ _ st h1)
      · have hrec := ih (dnParent dn) e_id true st (k + 1) h1
        simp only [hsuf, if_false, Bool.false_eq_true]
        generalize bdb_tool_next_id env npdn (dnParent dn) e_id true st = rr at hrec ⊢
        obtain ⟨rc, pid, st1⟩ := rr
        simp only at hrec
        by_cases hrc : rc = 0
        · subst hrc
          simp only [ne_eq, not_true_eq_false, if_false]
          exact key st1 pid _ hrec
        · simp only [ne_eq, hrc, not_false_eq_true, if_true]
          exact hmono k _ hrec

theorem hole_scan_some (holes : Nat → dn_id) (e : Nat) :
    ∀ (fuel i0 i : Nat), hole_scan holes e fuel i0 = some i →
      i0 ≤ i ∧ i < i0 + fuel ∧ (holes i).id = e := by
  intro fuel
  induction fuel with
  | zero => intro i0 i h; simp [hole_scan] at h
  | succ f ih =>
    intro i0 i h
    rw [hole_scan] at h
    by_cases h1 : (holes i0).id = e
    · rw [if_pos h1] at h
      simp only [Option.some.injEq] at h
      subst h
      exact ⟨le_refl _, by omega, h1⟩
    · rw [if_neg h1] at h
      by_cases h2 : (holes i0).id > e
      · rw [if_pos h2] at h
        exact Option.noConfusion h
      · rw [if_neg h2] at h
        obtain ⟨a, b, c⟩ := ih (i0 + 1) i h
        exact ⟨by omega, by omega, c⟩

theorem hole_shift_live (holes : Nat → dn_id) (i n j : Nat) (hj : j < n - 1) :
    hole_shift holes i n j = holes (if i ≤ j then j + 1 else j) := by
  unfold hole_shift
  have h1 : ¬ j = n := by omega
  rw [if_neg h1]
  by_cases h2 : i ≤ j
  · rw [if_pos ⟨h2, by omega⟩, if_pos h2]
  · rw [if_neg (fun h => h2 h.1), if_neg h2]

theorem HolesAsc.after_hole_close (st : ToolState) (id : Nat) (h : HolesAsc st) :
    HolesAsc (hole_close st id) := by
  unfold hole_close
  cases hs : hole_scan st.holes id st.nholes 0 with
  | none => exact h
  | some i =>
    refine ⟨?_, ?_⟩
    · intro a b hab hb
      have hb2 : b < st.nholes - 1 := hb
      show (hole_shift st.holes i st.nholes a).id < (hole_shift st.holes i st.nholes b).id
      rw [hole_shift_live _ _ _ _ (by omega), hole_shift_live _ _ _ _ hb2]
      apply h.asc
      · split_ifs <;> omega
      · split_ifs <;> omega
    · intro a ha
      have ha2 : a < st.nholes - 1 := ha
      show (hole_shift st.holes i st.nholes a).id ≤ st.bi_lastid
      rw [hole_shift_live _ _ _ _ ha2]
      apply h.le_last
      split_ifs <;> omega

theorem HolesAsc.after_hole_append (st : ToolState) (m : List (Name × Nat × Option Nat)) (ndn : Name)
    (h : HolesAsc st) :
    HolesAsc (hole_append { st with bi_lastid := st.bi_lastid + 1, dn2id := m }
      (st.bi_lastid + 1) ndn) := by
  refine ⟨?_, ?_⟩
  · intro a b hab hb
    have hb2 : b < st.nholes + 1 := hb
    show (if a = st.nholes then (⟨st.bi_lastid + 1, ndn⟩ : dn_id) else st.holes a).id <
      (if b = st.nholes then (⟨st.bi_lastid + 1, ndn⟩ : dn_id) else st.holes b).id
    have ha : ¬ a = st.nholes := by omega
    rw [if_neg ha]
    by_cases hbn : b = st.nholes
    · rw [if_pos hbn]
      have := h.le_last a (by omega)
      show (st.holes a).id < st.bi_lastid + 1
      omega
    · rw [if_neg hbn]
      exact h.asc a b hab (by omega)
  · intro a ha
    have ha2 : a < st.nholes + 1 := ha
    show (if a = st.nholes then (⟨st.bi_lastid + 1, ndn⟩ : dn_id) else st.holes a).id ≤
      st.bi_lastid + 1
    by_cases han : a = st.nholes
    · rw [if_pos han]
    · rw [if_neg han]
      have := h.le_last a (by omega)
      omega

/-- C14.  Hole-list ordering invariant.  With an id generator that hands out
strictly increasing ids, the ids `holes[0..nholes-1]` are strictly ascending (and
none exceeds the last id handed out) at the start of a load and after every call
of `bdb_tool_next_id`, whatever the entry, the `hole` flag, the state of the
name-to-id map and the outcomes of the collaborators; consequently the scan of the
hit branch, with its early exit on `holes[i].id > e->e_id`, reaches every live
hole: it never skips a hole whose id equals the entry's id. -/
theorem bdb_tool_next_id_holes_ascending (env : ToolEnv) :
    (∀ lastid, HolesAsc (ToolState.init lastid)) ∧
    (∀ (ndn dn : Name) (e_id : Nat) (hole : Bool) (st : ToolState), HolesAsc st →
      HolesAsc (bdb_tool_next_id env ndn dn e_id hole st).2.2) ∧
    (∀ (st : ToolState), HolesAsc st → ∀ i, i < st.nholes →
      hole_scan st.holes (st.holes i).id st.nholes 0 = some i) := by
  refine ⟨?_, ?_, ?_⟩
  · intro lastid
    exact ⟨fun i j _ hj => absurd hj (Nat.not_lt_zero _),
      fun i hi => absurd hi (Nat.not_lt_zero _)⟩
  · intro ndn dn e_id hole st h
    exact next_id_steps env (fun _ s => HolesAsc s) (fun _ _ hq => hq)
      (fun _ s hq => ⟨hq.asc, fun i hi => Nat.le_succ_of_le (hq.le_last i hi)⟩)
      (fun _ s m hq => ⟨hq.asc, hq.le_last⟩)
      (fun _ s m n hq => hq.after_hole_append s m n)
      (fun _ s id hq => hq.after_hole_close s id) ndn dn e_id hole st 0 h
  · intro st h i hi
    apply hole_scan_found st.holes _ i rfl st.nholes 0 (Nat.zero_le _) (by omega)
    intro k _ hk
    exact h.asc k i hk hi

/-- An instance of C14: after the first entry of scenario S2 has been resolved,
the two holes carry the ids 1 and 2, in this order. -/
theorem bdb_tool_next_id_holes_ascending_witness :
    ((bdb_tool_next_id (ToolEnv.allOk [[1]] true false 1) [3, 2, 1] [3, 2, 1] NOID false
      (ToolState.init 0)).2.2.holeList.map (fun h => h.id)) = [1, 2] ∧
    HolesAsc (bdb_tool_next_id (ToolEnv.allOk [[1]] true false 1) [3, 2, 1] [3, 2, 1] NOID false
      (ToolState.init 0)).2.2 :=
  ⟨by decide,
   (bdb_tool_next_id_holes_ascending (ToolEnv.allOk [[1]] true false 1)).2.1 [3, 2, 1] [3, 2, 1]
      NOID false (ToolState.init 0)
      ((bdb_tool_next_id_holes_ascending (ToolEnv.allOk [[1]] true false 1)).1 0)⟩

theorem range_map_eraseIdx {α : Type} (f : Nat → α) (n i : Nat) (hi : i < n) :
    ((List.range n).map f).eraseIdx i =
      (List.range (n - 1)).map (fun j => f (if i ≤ j then j + 1 else j)) := by
  apply List.ext_getElem?
  intro j
  rw [List.getElem?_eraseIdx]
  simp only [List.getElem?_map]
  by_cases hji : j < i
  · rw [if_pos hji, List.getElem?_range (by omega), List.getElem?_range (by omega)]
    simp only [Option.map_some']
    rw [if_neg (by omega)]
  · rw [if_neg hji]
    by_cases hjn : j < n - 1
    · rw [List.getElem?_range (by omega), List.getElem?_range hjn]
      simp only [Option.map_some']
      rw [if_pos (by omega)]
    · rw [List.getElem?_eq_none (by simp; omega), List.getElem?_eq_none (by simp; omega)]
      rfl

theorem HoleBound.after_append (st : ToolState) (id : Nat) (ndn : Name) (h : HoleBound st)
    (hn : st.nholes < 2 ^ 30) : HoleBound (hole_append st id ndn) := by
  obtain ⟨⟨k, hk⟩, hs, hr⟩ := h
  have hpos : 1 ≤ st.nhmax := by
    rw [hk]
    exact Nat.mul_pos (by decide) (Nat.pow_pos (by decide))
  by_cases hg : st.nholes = st.nhmax - 1
  · refine ⟨⟨k + 1, ?_⟩, ?_, ?_⟩
    · show (if st.nholes = st.nhmax - 1 then st.nhmax * 2 else st.nhmax) = _
      rw [if_pos hg, hk, pow_succ]
      ring
    · show (if st.nholes = st.nhmax - 1 then st.nhmax * 2 else st.nhmax) ≤ 2 ^ 31
      rw [if_pos hg]
      norm_num at hn ⊢
      omega
    · show st.nholes + 1 ≤ (if st.nholes = st.nhmax - 1 then st.nhmax * 2 else st.nhmax) - 1
      rw [if_pos hg]
      omega
  · refine ⟨⟨k, ?_⟩, ?_, ?_⟩
    · show (if st.nholes = st.nhmax - 1 then st.nhmax * 2 else st.nhmax) = _
      rw [if_neg hg, hk]
    · show (if st.nholes = st.nhmax - 1 then st.nhmax * 2 else st.nhmax) ≤ 2 ^ 31
      rw [if_neg hg]
      exact hs
    · show st.nholes + 1 ≤ (if st.nholes = st.nhmax - 1 then st.nhmax * 2 else st.nhmax) - 1
      rw [if_neg hg]
      omega

theorem hole_close_nholes_le (st : ToolState) (id : Nat) :
    (hole_close st id).nholes ≤ st.nholes ∧ (hole_close st id).nhmax = st.nhmax := by
  unfold hole_close
  cases hole_scan st.holes id st.nholes 0 with
  | none => exact ⟨le_refl _, rfl⟩
  | some i => exact ⟨Nat.sub_le _ _, rfl⟩

/-- C17.  Hole buffer bounds.  While fewer than `2 ^ 30` holes are live (so that
the `unsigned` capacity cannot wrap when it doubles), `nholes ≤ nhmax - 1` holds
at the start of a load and after every call of `bdb_tool_next_id`, `nhmax` being
`HOLE_SIZE = 4096` doubled on each growth.  Hence the slot `holes[nholes]` of the
append lies below the capacity after growth, the append leaves the former holes
in place and adds the new one at the end, the slots `holes[j+1]` (`j < nholes`)
and `holes[nholes]` that the removal touches lie below `nhmax`, and the removal
of the hole at position `i` leaves the former holes without element `i`, in
their order, with `nholes` one less. -/
theorem bdb_tool_next_id_hole_bounds (env : ToolEnv) :
    (∀ lastid, HoleBound (ToolState.init lastid)) ∧
    (∀ (ndn dn : Name) (e_id : Nat) (hole : Bool) (st : ToolState), HoleBound st →
      st.nholes + ndn.length ≤ 2 ^ 30 →
      HoleBound (bdb_tool_next_id env ndn dn e_id hole st).2.2) ∧
    (∀ (st : ToolState) (id : Nat) (ndn : Name), HoleBound st → st.nholes < 2 ^ 30 →
      st.nholes < (hole_append st id ndn).nhmax ∧
      (hole_append st id ndn).holeList = st.holeList ++ [⟨id, ndn⟩]) ∧
    (∀ (st : ToolState) (id i : Nat), HoleBound st →
      hole_scan st.holes id st.nholes 0 = some i →
      (∀ j, i ≤ j → j < st.nholes → j + 1 < st.nhmax) ∧ st.nholes < st.nhmax ∧
      (hole_close st id).nholes = st.nholes - 1 ∧
      (hole_close st id).holeList = st.holeList.eraseIdx i) := by
  refine ⟨?_, ?_, ?_, ?_⟩
  · intro lastid
    exact ⟨⟨0, by simp [ToolState.init]⟩, by simp [ToolState.init, HOLE_SIZE],
      by simp [ToolState.init]⟩
  · intro ndn dn e_id hole st h hlen
    exact (next_id_steps env (fun k s => HoleBound s ∧ s.nholes + k ≤ 2 ^ 30)
      (fun k s hq => ⟨hq.1, by have := hq.2; omega⟩)
      (fun k s hq => ⟨⟨hq.1.cap, hq.1.small, hq.1.room⟩, hq.2⟩)
      (fun k s m hq => ⟨⟨hq.1.cap, hq.1.small, hq.1.room⟩, hq.2⟩)
      (fun k s m n hq => ⟨HoleBound.after_append _ _ _ ⟨hq.1.cap, hq.1.small, hq.1.room⟩ (by
          have := hq.2
          show s.nholes < 2 ^ 30
          omega), by
          have := hq.2
          show s.nholes + 1 + k ≤ 2 ^ 30
          omega⟩)
      (fun k s id hq => by
        obtain ⟨c1, c2⟩ := hole_close_nholes_le s id
        refine ⟨⟨?_, ?_, ?_⟩, ?_⟩
        · rw [c2]; exact hq.1.cap
        · rw [c2]; exact hq.1.small
        · rw [c2]; have := hq.1.room; omega
        · have := hq.2; omega)
      ndn dn e_id hole st 0 ⟨h, by rw [Nat.zero_add]; exact hlen⟩).1
  · intro st id ndn h hn
    have hb := HoleBound.after_append st id ndn h hn
    have hpos : 1 ≤ (hole_append st id ndn).nhmax := by
      obtain ⟨k, hk⟩ := hb.cap
      rw [hk]
      exact Nat.mul_pos (by decide) (Nat.pow_pos (by decide))
    refine ⟨?_, ?_⟩
    · have hr : st.nholes + 1 ≤ (hole_append st id ndn).nhmax - 1 := hb.room
      omega
    · show (List.range (st.nholes + 1)).map
          (fun j => if j = st.nholes then (⟨id, ndn⟩ : dn_id) else st.holes j) =
        (List.range st.nholes).map st.holes ++ [⟨id, ndn⟩]
      rw [List.range_succ, List.map_append]
      congr 1
      · apply List.map_congr_left
        intro j hj
        rw [List.mem_range] at hj
        rw [if_neg (by omega)]
      · simp
  · intro st id i h hs
    obtain ⟨_, hi, _⟩ := hole_scan_some st.holes id st.nholes 0 i hs
    have hpos : 1 ≤ st.nhmax := by
      obtain ⟨k, hk⟩ := h.cap
      rw [hk]
      exact Nat.mul_pos (by decide) (Nat.pow_pos (by decide))
    have hr := h.room
    refine ⟨fun j _ hj => by omega, by omega, ?_, ?_⟩
    · simp only [hole_close, hs]
    · simp only [hole_close, hs, ToolState.holeList]
      rw [range_map_eraseIdx _ _ _ (by omega)]
      apply List.map_congr_left
      intro j hj
      rw [List.mem_range] at hj
      exact hole_shift_live _ _ _ _ hj

/-- An instance of C17: resolving the first entry of scenario S2 from the empty
buffer appends two holes and leaves `nholes = 2 ≤ nhmax - 1 = 4095`. -/
theorem bdb_tool_next_id_hole_bounds_witness :
    HoleBound (bdb_tool_next_id (ToolEnv.allOk [[1]] true false 1) [3, 2, 1] [3, 2, 1] NOID false
      (ToolState.init 0)).2.2 ∧
    (bdb_tool_next_id (ToolEnv.allOk [[1]] true false 1) [3, 2, 1] [3, 2, 1] NOID false
      (ToolState.init 0)).2.2.nholes = 2 ∧
    (bdb_tool_next_id (ToolEnv.allOk [[1]] true false 1) [3, 2, 1] [3, 2, 1] NOID false
      (ToolState.init 0)).2.2.nhmax = 4096 :=
  ⟨(bdb_tool_next_id_hole_bounds (ToolEnv.allOk [[1]] true false 1)).2.1 [3, 2, 1] [3, 2, 1]
      NOID false (ToolState.init 0)
      ((bdb_tool_next_id_hole_bounds (ToolEnv.allOk [[1]] true false 1)).1 0) (by decide),
   by decide, by decide⟩

/-! ## Load pipeline: error adoption in `bdb_tool_index_add` -/

theorem poll_slots_first_error (env : ToolEnv) (id : Nat) :
    ∀ n i, poll_slots env id n i = first_error ((List.range' i n).map (env.recrun_rc id)) := by
  intro n
  induction n with
  | zero => intro i; rfl
  | succ n ih =>
    intro i
    simp only [poll_slots, List.range'_succ, List.map_cons, first_error, ih]

theorem recset_loop_first_error (env : ToolEnv) :
    ∀ attrs : List Attribute,
      (recset_loop env attrs).1 = first_error (attrs.map env.recset_rc) ∧
      ∀ c ∈ (recset_loop env attrs).2, ∃ a, c = Call.recset a := by
  intro attrs
  induction attrs with
  | nil => exact ⟨rfl, fun c hc => absurd hc (List.not_mem_nil _)⟩
  | cons a rest ih =>
    simp only [recset_loop, List.map_cons, first_error]
    by_cases h : env.recset_rc a ≠ 0
    · rw [if_pos h, if_pos h]
      refine ⟨rfl, fun c hc => ?_⟩
      rw [List.mem_singleton] at hc
      exact ⟨a, hc⟩
    · rw [if_neg h, if_neg h]
      refine ⟨ih.1, fun c hc => ?_⟩
      rcases List.mem_cons.1 hc with hc | hc
      · exact ⟨a, hc⟩
      · exact ih.2 c hc

/-- C16.  Error adoption in `bdb_tool_index_add`.  With no indexed attribute the
function returns 0 and calls nothing.  In quick mode with at least one indexed
attribute: a failing `bdb_index_recset` gives its error as the result, before the
broadcast and before any slice runs; otherwise, `r0` being the status of the
inline base-0 slice and `r1 .. r(N-1)` the final statuses of the worker slots
(none of them `LDAP_BUSY`), the result is `r0` when `r0 ≠ 0`, else the first
non-zero `r_i` in slot order, else 0. -/
theorem bdb_tool_index_add_error_adoption (env : ToolEnv) (bi_nattrs : Nat)
    (txn : Option DB_TXN) (e : Entry) :
    (bi_nattrs = 0 → bdb_tool_index_add env bi_nattrs txn e = (0, [])) ∧
    (env.quick = true → bi_nattrs ≠ 0 → first_error (e.e_attrs.map env.recset_rc) ≠ 0 →
      (bdb_tool_index_add env bi_nattrs txn e).1 = first_error (e.e_attrs.map env.recset_rc) ∧
      Call.broadcast ∉ (bdb_tool_index_add env bi_nattrs txn e).2 ∧
      ∀ b, Call.recrun b ∉ (bdb_tool_index_add env bi_nattrs txn e).2) ∧
    (env.quick = true → bi_nattrs ≠ 0 → first_error (e.e_attrs.map env.recset_rc) = 0 →
      (∀ i, 1 ≤ i → i < env.slap_tool_thread_max → env.recrun_rc e.e_id i ≠ LDAP_BUSY) →
      (bdb_tool_index_add env bi_nattrs txn e).1 =
        if env.recrun_rc e.e_id 0 ≠ 0 then env.recrun_rc e.e_id 0
        else first_error ((List.range' 1 (env.slap_tool_thread_max - 1)).map
          (env.recrun_rc e.e_id))) := by
  obtain ⟨hrs, hcalls⟩ := recset_loop_first_error env e.e_attrs
  refine ⟨?_, ?_, ?_⟩
  · intro h0
    simp [bdb_tool_index_add, h0]
  · intro hq hn hf
    have hf2 : (recset_loop env e.e_attrs).1 ≠ 0 := by rw [hrs]; exact hf
    have hr : bdb_tool_index_add env bi_nattrs txn e = recset_loop env e.e_attrs := by
      unfold bdb_tool_index_add
      rw [if_neg hn, if_pos hq]
      simp only [hf2, ne_eq, not_false_eq_true, if_true]
    rw [hr]
    refine ⟨hrs, ?_, ?_⟩
    · intro hc
      obtain ⟨a, ha⟩ := hcalls _ hc
      exact Call.noConfusion ha
    · intro b hc
      obtain ⟨a, ha⟩ := hcalls _ hc
      exact Call.noConfusion ha
  · intro hq hn hf _
    have hf2 : ¬ (recset_loop env e.e_attrs).1 ≠ 0 := by rw [hrs, hf]; simp
    unfold bdb_tool_index_add
    rw [if_neg hn, if_pos hq]
    simp only [hf2, if_false]
    by_cases h0 : env.recrun_rc e.e_id 0 ≠ 0
    · rw [if_pos h0, if_pos h0]
    · rw [if_neg h0, if_neg h0, poll_slots_first_error]

/-- An instance of C16: three slots, the inline slice and slot 1 succeed, slot 2
ends with status 80, which is what the function returns. -/
theorem bdb_tool_index_add_error_adoption_witness :
    (bdb_tool_index_add
      { ToolEnv.allOk [[1]] true false 3 with recrun_rc := fun _ b => if b = 2 then 80 else 0 }
      1 none ⟨1, [1], [1], [5]⟩).1 = 80 := by
  have h := (bdb_tool_index_add_error_adoption
    { ToolEnv.allOk [[1]] true false 3 with recrun_rc := fun _ b => if b = 2 then 80 else 0 }
    1 none ⟨1, [1], [1], [5]⟩).2.2 rfl (by decide) (by decide) (by
      intro i _ _
      show (if i = 2 then (80 : Int) else 0) ≠ LDAP_BUSY
      split_ifs <;> decide)
  rw [h]
  decide

/-! ## IDL cache: the puts of the normal write -/

theorem c_put_bad (env : IdlEnv) (k : Key) (x : Nat) (d : List Nat) :
    ((c_put env k x d).1 ≠ 0 ∧ (c_put env k x d).1 ≠ DB_KEYEXIST) ↔
      (env.put_rc k x ≠ 0 ∧ env.put_rc k x ≠ DB_KEYEXIST) := by
  unfold c_put
  by_cases h : env.put_rc k x ≠ 0
  · rw [if_pos h]
  · rw [if_neg h]
    have h0 : env.put_rc k x = 0 := by
      by_contra hh; exact h hh
    by_cases hm : x ∈ d
    · rw [if_pos hm]
      simp [h0]
    · rw [if_neg hm]
      simp [h0]

theorem put_ids_puts (env : IdlEnv) (k : Key) :
    ∀ (xs d : List Nat),
      put_ids_calls env k xs d = puts_until_error env k (xs.filter (fun x => x ≠ 0)) ∧
      ((put_ids env k xs d).1 = 0 ∨ (put_ids env k xs d).1 = -1) ∧
      ((put_ids env k xs d).1 = 0 ↔
        ∀ x ∈ xs.filter (fun x => x ≠ 0), env.put_rc k x = 0 ∨ env.put_rc k x = DB_KEYEXIST) := by
  intro xs
  induction xs with
  | nil => intro d; simp [put_ids_calls, puts_until_error, put_ids]
  | cons x xs ih =>
    intro d
    by_cases hx : x = 0
    · subst hx
      simp only [put_ids_calls, put_ids, if_true, ne_eq, not_true_eq_false, decide_False,
        Bool.false_eq_true, not_false_eq_true, List.filter_cons_of_neg]
      exact ih d
    · have hf : (x :: xs).filter (fun x => x ≠ 0) = x :: xs.filter (fun x => x ≠ 0) := by
        simp [hx]
      rw [hf]
      simp only [put_ids_calls, put_ids, hx, if_false, puts_until_error, c_put_bad]
      by_cases hb : env.put_rc k x ≠ 0 ∧ env.put_rc k x ≠ DB_KEYEXIST
      · rw [if_pos hb, if_pos hb, if_pos hb]
        refine ⟨rfl, Or.inr rfl, ?_⟩
        constructor
        · intro h
          have h2 : (-1 : Int) = 0 := h
          exact absurd h2 (by decide)
        · intro h
          have := h x (List.mem_cons_self _ _)
          rcases this with h1 | h1
          · exact absurd h1 hb.1
          · exact absurd h1 hb.2
      · rw [if_neg hb, if_neg hb, if_neg hb]
        obtain ⟨i1, i2, i3⟩ := ih (c_put env k x d).2
        refine ⟨by rw [i1], i2, ?_⟩
        rw [i3]
        constructor
        · intro h y hy
          rcases List.mem_cons.1 hy with hy | hy
          · rw [hy]
            by_contra hn
            exact hb ⟨fun h0 => hn (Or.inl h0), fun h0 => hn (Or.inr h0)⟩
          · exact h y hy
        · intro h y hy
          exact h y (List.mem_cons_of_mem _ hy)

theorem puts_until_error_cons (env : IdlEnv) (k : Key) (x : Nat) (xs : List Nat) :
    puts_until_error env k (x :: xs) =
      if env.put_rc k x ≠ 0 ∧ env.put_rc k x ≠ DB_KEYEXIST then [x]
      else x :: puts_until_error env k xs := rfl

theorem puts_until_error_append (env : IdlEnv) (k : Key) (ys : List Nat) :
    ∀ xs : List Nat,
      puts_until_error env k (xs ++ ys) =
        if ∀ x ∈ xs, env.put_rc k x = 0 ∨ env.put_rc k x = DB_KEYEXIST then
          xs ++ puts_until_error env k ys
        else puts_until_error env k xs := by
  intro xs
  induction xs with
  | nil => simp
  | cons x xs ih =>
    rw [List.cons_append, puts_until_error_cons, puts_until_error_cons]
    by_cases hb : env.put_rc k x ≠ 0 ∧ env.put_rc k x ≠ DB_KEYEXIST
    · rw [if_pos hb, if_pos hb]
      have : ¬ ∀ y ∈ x :: xs, env.put_rc k y = 0 ∨ env.put_rc k y = DB_KEYEXIST := by
        intro h
        rcases h x (List.mem_cons_self _ _) with h1 | h1
        · exact hb.1 h1
        · exact hb.2 h1
      rw [if_neg this]
    · rw [if_neg hb, if_neg hb, ih]
      have hx : env.put_rc k x = 0 ∨ env.put_rc k x = DB_KEYEXIST := by
        by_contra hn
        exact hb ⟨fun h0 => hn (Or.inl h0), fun h0 => hn (Or.inr h0)⟩
      by_cases hall : ∀ y ∈ xs, env.put_rc k y = 0 ∨ env.put_rc k y = DB_KEYEXIST
      · have h2 : ∀ y ∈ x :: xs, env.put_rc k y = 0 ∨ env.put_rc k y = DB_KEYEXIST := by
          intro y hy
          rcases List.mem_cons.1 hy with hy | hy
          · rw [hy]; exact hx
          · exact hall y hy
        rw [if_pos hall, if_pos h2]
        rfl
      · have h2 : ¬ ∀ y ∈ x :: xs, env.put_rc k y = 0 ∨ env.put_rc k y = DB_KEYEXIST :=
          fun h => hall (fun y hy => h y (List.mem_cons_of_mem _ hy))
        rw [if_neg hall, if_neg h2]

theorem puts_until_error_ok (env : IdlEnv) (k : Key) :
    ∀ xs : List Nat, (∀ x ∈ xs, env.put_rc k x = 0 ∨ env.put_rc k x = DB_KEYEXIST) →
      puts_until_error env k xs = xs := by
  intro xs h
  have := puts_until_error_append env k [] xs
  rw [List.append_nil, if_pos h] at this
  rw [this]
  simp [puts_until_error]

theorem flush_blocks_puts (env : IdlEnv) (k : Key) (count : Nat) :
    ∀ (blocks : List IdBlock) (n : Nat) (d : List Nat),
      flush_blocks_calls env k count blocks d =
        puts_until_error env k ((visit_ids count blocks).filter (fun x => x ≠ 0)) ∧
      ((flush_blocks env k count blocks n d).1 = 0 ∨
        (flush_blocks env k count blocks n d).1 = -1) ∧
      ((flush_blocks env k count blocks n d).1 = 0 ↔
        ∀ x ∈ (visit_ids count blocks).filter (fun x => x ≠ 0),
          env.put_rc k x = 0 ∨ env.put_rc k x = DB_KEYEXIST) := by
  intro blocks
  induction blocks with
  | nil =>
    intro n d
    refine ⟨rfl, Or.inl rfl, ?_⟩
    constructor
    · intro _ x hx
      simp [visit_ids] at hx
    · intro _
      rfl
  | cons b rest ih =>
    intro n d
    obtain ⟨p1, p2, p3⟩ := put_ids_puts env k
      ((List.range (block_end count (!rest.isEmpty))).map b) d
    have hv : (visit_ids count (b :: rest)).filter (fun x => x ≠ 0) =
        ((List.range (block_end count (!rest.isEmpty))).map b).filter (fun x => x ≠ 0) ++
          (visit_ids count rest).filter (fun x => x ≠ 0) := by
      rw [visit_ids, List.filter_append]
    rw [hv, puts_until_error_append]
    by_cases h0 : (put_ids env k ((List.range (block_end count (!rest.isEmpty))).map b) d).1 = 0
    · have hall := p3.1 h0
      have hne : ¬ (put_ids env k ((List.range (block_end count (!rest.isEmpty))).map b) d).1 ≠ 0 :=
        fun h => h h0
      obtain ⟨i1, i2, i3⟩ := ih (n + 1)
        (put_ids env k ((List.range (block_end count (!rest.isEmpty))).map b) d).2
      have e1 : flush_blocks_calls env k count (b :: rest) d =
          put_ids_calls env k ((List.range (block_end count (!rest.isEmpty))).map b) d ++
            flush_blocks_calls env k count rest
              (put_ids env k ((List.range (block_end count (!rest.isEmpty))).map b) d).2 := by
        rw [flush_blocks_calls]
        simp only [if_neg hne]
      have e2 : flush_blocks env k count (b :: rest) n d =
          flush_blocks env k count rest (n + 1)
            (put_ids env k ((List.range (block_end count (!rest.isEmpty))).map b) d).2 := by
        rw [flush_blocks]
        simp only [if_neg hne]
      rw [e1, e2, if_pos hall, p1, puts_until_error_ok env k _ hall, i1]
      refine ⟨rfl, i2, ?_⟩
      rw [i3]
      constructor
      · intro h y hy
        rcases List.mem_append.1 hy with hy | hy
        · exact hall y hy
        · exact h y hy
      · intro h y hy
        exact h y (List.mem_append_right _ hy)
    · have hnall := fun h => h0 (p3.2 h)
      have hne : (put_ids env k ((List.range (block_end count (!rest.isEmpty))).map b) d).1 ≠ 0 :=
        h0
      have e1 : flush_blocks_calls env k count (b :: rest) d =
          put_ids_calls env k ((List.range (block_end count (!rest.isEmpty))).map b) d := by
        rw [flush_blocks_calls]
        simp only [if_pos hne]
      have e2 : (flush_blocks env k count (b :: rest) n d).1 = -1 := by
        rw [flush_blocks]
        simp only [if_pos hne]
      rw [e1, e2, if_neg hnall, p1]
      refine ⟨rfl, Or.inr rfl, ?_⟩
      constructor
      · intro h; exact absurd h (by decide)
      · intro h
        exact absurd (fun y hy => h y (List.mem_append_left _ hy)) hnall

/-- The normal write of `bdb_tool_idl_flush_one` on a list-state entry that holds
a block, once the cursor is open and positioned: the puts issued, and the
status. -/
theorem flush_one_list_puts (env : IdlEnv) (ic : bdb_tool_idl_cache) (g : IdlGlobal)
    (data : Key → List Nat) (hc : ic.count ≤ env.BDB_IDL_DB_SIZE) (hb : ic.blocks ≠ [])
    (hcur : env.cursor_rc = 0)
    (hget : env.get_rc ic.kstr = 0 ∨ env.get_rc ic.kstr = DB_NOTFOUND) :
    flush_one_puts env ic (data ic.kstr) = puts_until_error env ic.kstr (pending_ids ic) ∧
    ((bdb_tool_idl_flush_one env ic g data).1 = 0 ∨
      (bdb_tool_idl_flush_one env ic g data).1 = -1) ∧
    ((bdb_tool_idl_flush_one env ic g data).1 = 0 ↔
      ∀ x ∈ pending_ids ic, env.put_rc ic.kstr x = 0 ∨ env.put_rc ic.kstr x = DB_KEYEXIST) := by
  have h1 : ¬ (ic.blocks.isEmpty = true ∧ ic.count ≤ env.BDB_IDL_DB_SIZE) := by
    intro h; exact hb (List.isEmpty_iff.1 h.1)
  have h2 : ¬ env.cursor_rc ≠ 0 := fun h => h hcur
  have h3 : ¬ ic.count > env.BDB_IDL_DB_SIZE := by omega
  have hrc : ∀ rc : Int, rc = 0 ∨ rc = DB_NOTFOUND → ¬ (rc ≠ 0 ∧ rc ≠ DB_NOTFOUND) := by
    intro rc h hh
    rcases h with h | h
    · exact hh.1 h
    · exact hh.2 h
  have hrg : (if env.get_rc ic.kstr ≠ 0 then env.get_rc ic.kstr
      else if (data ic.kstr).isEmpty then DB_NOTFOUND else 0) = 0 ∨
      (if env.get_rc ic.kstr ≠ 0 then env.get_rc ic.kstr
      else if (data ic.kstr).isEmpty then DB_NOTFOUND else 0) = DB_NOTFOUND := by
    split_ifs with a b
    · rcases hget with h | h
      · exact absurd h a
      · exact Or.inr h
    · exact Or.inr rfl
    · exact Or.inl rfl
  obtain ⟨p1, p2, p3⟩ := flush_blocks_puts env ic.kstr ic.count ic.blocks 0 (data ic.kstr)
  have e1 : flush_one_puts env ic (data ic.kstr) =
      flush_blocks_calls env ic.kstr ic.count ic.blocks (data ic.kstr) := by
    unfold flush_one_puts
    rw [if_neg h1, if_neg h2]
    simp only [h3, and_false, if_false, hrc _ hrg]
  have e2 : (bdb_tool_idl_flush_one env ic g data).1 =
      (flush_blocks env ic.kstr ic.count ic.blocks 0 (data ic.kstr)).1 := by
    unfold bdb_tool_idl_flush_one
    rw [if_neg h1, if_neg h2]
    simp only [flush_one_dups, h3, and_false, if_false, hrc _ hrg]
  rw [e1, e2]
  exact ⟨p1, p2, p3⟩

/-- How one `bdb_tool_idl_add` changes what the normal write of a list-state
entry will put: the id is appended (unless it is zero), after the earlier ids
when the blocks were not released in the call, and alone when the call ran the
memory-pressure flush (a block was needed and the block counter had reached its
maximum), which wrote the earlier ids and released the blocks. -/
theorem idl_add_to_list_pending (env : IdlEnv) (hg : env.Good) (id : Nat)
    (ic : bdb_tool_idl_cache) (g : IdlGlobal) (db : DB) (hok : TreeOk db.app_private)
    (hfind : avl_find db.app_private ic.kstr = some ic)
    (hlt : ic.count < env.BDB_IDL_DB_SIZE) :
    (idl_add_to env id ic g db).1 ≠ 0 ∨
    ((idl_add_to env id ic g db).1 = 0 ∧ ∃ ic2 : bdb_tool_idl_cache,
      avl_find (idl_add_to env id ic g db).2.2.app_private ic.kstr = some ic2 ∧
      pending_ids ic2 =
        if (ic.blocks.isEmpty = true ∨ ic.count % IDBLOCK = 0) ∧
            g.bi_idl_cache_size ≥ (env.bi_idl_cache_max_size : Int) then
          (if id = 0 then [] else [id])
        else pending_ids ic ++ (if id = 0 then [] else [id])) := by
  have hA : ¬ ic.count > env.BDB_IDL_DB_SIZE := by omega
  have hB : ¬ ic.count = env.BDB_IDL_DB_SIZE := by omega
  by_cases hCD : (ic.blocks.isEmpty = true ∨ ic.count % IDBLOCK = 0) ∧
      g.bi_idl_cache_size ≥ (env.bi_idl_cache_max_size : Int)
  · -- a block is needed and the counter has reached the maximum
    rw [if_pos hCD]
    obtain ⟨hC, hD⟩ := hCD
    unfold idl_add_to
    simp only [hA, hB, if_false, hC, if_true, hD]
    obtain ⟨f1, f2, _⟩ := flush_db_data env (some ic.kstr) g db
    by_cases hf : (bdb_tool_idl_flush_db env (some ic.kstr) g db).1 = 0
    · have hall := f2.1 hf
      have hkept : (bdb_tool_idl_flush_db env (some ic.kstr) g db).2.2.2 =
          some { ic with blocks := [] } :=
        avl_apply_flush_kept env hg ic (by omega) _ _ _ _ hok hfind hall
      right
      simp only [hf, ne_eq, not_true_eq_false, if_false, hkept, Option.getD_some, f1,
        idl_new_block, avl_insert, avl_update, if_true, eq_self_iff_true]
      refine ⟨trivial,
        { ic with blocks := tail_store ([] ++ [fun _ => 0]) (ic.count % IDBLOCK) id,
                  first := if ic.count = 0 then id else ic.first, count := ic.count + 1 },
        by simp [avl_find], ?_⟩
      show (visit_ids (ic.count + 1)
        (tail_store ([] ++ [fun _ => 0]) (ic.count % IDBLOCK) id)).filter (fun x => x ≠ 0) = _
      rw [tail_store_append]
      exact visit_ids_first_block _ _
    · left
      rw [if_pos hf]
      exact hf
  · rw [if_neg hCD]
    by_cases hC : ic.blocks.isEmpty = true ∨ ic.count % IDBLOCK = 0
    · have hD : ¬ g.bi_idl_cache_size ≥ (env.bi_idl_cache_max_size : Int) :=
        fun h => hCD ⟨hC, h⟩
      right
      unfold idl_add_to
      simp only [hA, hB, if_false, hC, if_true, hD, idl_new_block]
      refine ⟨trivial,
        { ic with blocks := tail_store (ic.blocks ++ [fun _ => 0]) (ic.count % IDBLOCK) id,
                  first := if ic.count = 0 then id else ic.first, count := ic.count + 1 },
        avl_find_update _ _ ic _ hfind rfl, ?_⟩
      show (visit_ids (ic.count + 1)
        (tail_store (ic.blocks ++ [fun _ => 0]) (ic.count % IDBLOCK) id)).filter
          (fun x => x ≠ 0) =
        (visit_ids ic.count ic.blocks).filter (fun x => x ≠ 0) ++ (if id = 0 then [] else [id])
      rw [tail_store_append]
      by_cases hbe : ic.blocks = []
      · rw [hbe]
        simp only [List.nil_append, visit_ids, List.filter_nil]
        exact visit_ids_first_block _ _
      · have hmod : ic.count % IDBLOCK = 0 := by
          rcases hC with h | h
          · exact absurd (List.isEmpty_iff.1 h) hbe
          · exact h
        rw [visit_ids_new_block ic.count (ic.count + 1) _ hmod, List.filter_append,
          block_end_succ, hmod]
        have hr : List.range (0 + 1) = [0] := rfl
        rw [hr]
        simp only [List.map_cons, List.map_nil, if_true]
        rw [filter_singleton]
    · right
      have hne : ic.blocks ≠ [] := by
        intro h; exact hC (Or.inl (by simp [h]))
      have hmod : ic.count % IDBLOCK ≠ 0 := fun h => hC (Or.inr h)
      unfold idl_add_to
      simp only [hA, hB, if_false, hC]
      refine ⟨trivial,
        { ic with blocks := tail_store ic.blocks (ic.count % IDBLOCK) id,
                  count := ic.count + 1 },
        avl_find_update _ _ ic _ hfind rfl, ?_⟩
      show (visit_ids (ic.count + 1) (tail_store ic.blocks (ic.count % IDBLOCK) id)).filter
        (fun x => x ≠ 0) =
        (visit_ids ic.count ic.blocks).filter (fun x => x ≠ 0) ++ (if id = 0 then [] else [id])
      rw [visit_ids_tail_store _ _ hmod _ hne, List.filter_append, filter_singleton]

/-- C15.  List flush writes exactly the cached ids.  (1) For a cache entry in
list state that holds a block, once the cursor is open and `c_get(DB_SET)` has
answered `0` or `DB_NOTFOUND`, `bdb_tool_idl_flush_one` puts with `DB_NODUPDATA`
the non-zero slot values of the blocks in block order, each once, up to and
including the first put that fails with something other than `DB_KEYEXIST`; it
returns 0 when every put gives 0 or `DB_KEYEXIST`, and then has put exactly those
values, and -1 when some put gives another error.  (2) Those values are the
non-zero ids inserted since the blocks were last released, in arrival order:
there is none for an entry just created, whatever count it loaded, and none
after a release; and with caching enabled and no store call failing, each
`bdb_tool_idl_add` that returns 0 and leaves the entry in list state appends its
id, after the earlier ones, or alone when the call ran the memory-pressure flush
and so released the blocks. -/
theorem idl_flush_list_puts (env : IdlEnv) :
    (∀ (ic : bdb_tool_idl_cache) (g : IdlGlobal) (data : Key → List Nat),
      ic.count ≤ env.BDB_IDL_DB_SIZE → ic.blocks ≠ [] → env.cursor_rc = 0 →
      (env.get_rc ic.kstr = 0 ∨ env.get_rc ic.kstr = DB_NOTFOUND) →
      flush_one_puts env ic (data ic.kstr) = puts_until_error env ic.kstr (pending_ids ic) ∧
      ((∀ x ∈ pending_ids ic, env.put_rc ic.kstr x = 0 ∨ env.put_rc ic.kstr x = DB_KEYEXIST) →
        flush_one_puts env ic (data ic.kstr) = pending_ids ic ∧
        (bdb_tool_idl_flush_one env ic g data).1 = 0) ∧
      ((∃ x ∈ pending_ids ic, env.put_rc ic.kstr x ≠ 0 ∧ env.put_rc ic.kstr x ≠ DB_KEYEXIST) →
        (bdb_tool_idl_flush_one env ic g data).1 = -1)) ∧
    (∀ (key : Key) (S : List Nat), pending_ids (idl_cache_load env key S) = []) ∧
    (∀ ic : bdb_tool_idl_cache, pending_ids { ic with blocks := [] } = []) ∧
    (env.Good → ∀ (db : DB), DbReach env db → ∀ (g : IdlGlobal) (key : Key) (id : Nat),
      (bdb_tool_idl_add env key id g db).1 = 0 → ∀ ic1 : bdb_tool_idl_cache,
      avl_find (bdb_tool_idl_add env key id g db).2.2.app_private key = some ic1 →
      ic1.count ≤ env.BDB_IDL_DB_SIZE →
      pending_ids ic1 =
        if ((idl_entry_of env key db).blocks.isEmpty = true ∨
              (idl_entry_of env key db).count % IDBLOCK = 0) ∧
            g.bi_idl_cache_size ≥ (env.bi_idl_cache_max_size : Int) then
          (if id = 0 then [] else [id])
        else pending_ids (idl_entry_of env key db) ++ (if id = 0 then [] else [id])) := by
  refine ⟨?_, ?_, ?_, ?_⟩
  · intro ic g data hc hb hcur hget
    obtain ⟨p1, p2, p3⟩ := flush_one_list_puts env ic g data hc hb hcur hget
    refine ⟨p1, fun hall => ⟨?_, p3.2 hall⟩, ?_⟩
    · rw [p1, puts_until_error_ok env _ _ hall]
    · rintro ⟨x, hx, hbad⟩
      rcases p2 with h | h
      · rcases p3.1 h x hx with h1 | h1
        · exact absurd h1 hbad.1
        · exact absurd h1 hbad.2
      · exact h
  · intro key S
    have hb := (idl_cache_load_kstr env key S).2.1
    simp [pending_ids, hb, visit_ids]
  · intro ic
    simp [pending_ids, visit_ids]
  · intro hg db hreach g key id h0 ic1 hfind1 hlist
    have hok := DbReach.treeOk env hg db hreach
    obtain ⟨db1, heq, hk, hok1, hf1, _, _⟩ := idl_add_eq_add_to env hg key id g db hok
    rw [heq] at h0 hfind1
    have hf1k : avl_find db1.app_private (idl_entry_of env key db).kstr =
        some (idl_entry_of env key db) := by rw [hk]; exact hf1
    by_cases hge : env.BDB_IDL_DB_SIZE ≤ (idl_entry_of env key db).count
    · obtain ⟨ic2, hk2, hc2, ht⟩ := idl_add_to_range_tree env id _ g db1 hge
      rw [ht, avl_find_update _ _ _ ic2 hf1 (by rw [hk2, hk])] at hfind1
      simp only [Option.some.injEq] at hfind1
      rw [← hfind1] at hlist
      omega
    · rcases idl_add_to_list_pending env hg id _ g db1 hok1 hf1k (by omega) with
        hne | ⟨_, ic2, hf2, hp⟩
      · exact absurd h0 hne
      · rw [hk, hfind1] at hf2
        simp only [Option.some.injEq] at hf2
        subst hf2
        exact hp

/-- An instance of C15 with threshold 4: an entry with count 3 whose single block
holds the ids 5 and 9 in the slots 1 and 2 (the count 1 was loaded from the
store), in an environment where every store call succeeds: the flush puts 5,
then 9, and returns 0. -/
theorem idl_flush_list_puts_witness :
    flush_one_puts (IdlEnv.ok 4 10)
      ⟨[7], [fun i => if i = 1 then 5 else if i = 2 then 9 else 0], 1, 0, 3⟩ [1] = [5, 9] ∧
    (bdb_tool_idl_flush_one (IdlEnv.ok 4 10)
      ⟨[7], [fun i => if i = 1 then 5 else if i = 2 then 9 else 0], 1, 0, 3⟩ ⟨1, []⟩
      (setData emptyData [7] [1])).1 = 0 := by
  have h := ((idl_flush_list_puts (IdlEnv.ok 4 10)).1
    ⟨[7], [fun i => if i = 1 then 5 else if i = 2 then 9 else 0], 1, 0, 3⟩ ⟨1, []⟩
    (setData emptyData [7] [1]) (by decide) (by simp) rfl (Or.inl rfl)).2.1
    (fun _ _ => Or.inl rfl)
  exact ⟨h.1, h.2⟩

/-! ## IDL cache: block accounting -/

theorem flush_blocks_count (env : IdlEnv) (k : Key) (count : Nat) :
    ∀ (blocks : List IdBlock) (n : Nat) (d : List Nat),
      (flush_blocks env k count blocks n d).1 ≠ -1 →
      (flush_blocks env k count blocks n d).2.1 = n + blocks.length := by
  intro blocks
  induction blocks with
  | nil => intro n d _; rfl
  | cons b rest ih =>
    intro n d h
    rw [flush_blocks] at h ⊢
    by_cases h0 : (put_ids env k ((List.range (block_end count (!rest.isEmpty))).map b) d).1 ≠ 0
    · simp only [if_pos h0] at h
      exact absurd rfl h
    · simp only [if_neg h0] at h ⊢
      rw [ih _ _ h, List.length_cons]
      omega

theorem flush_one_blocks (env : IdlEnv) (ic : bdb_tool_idl_cache) (g : IdlGlobal)
    (d : Key → List Nat) (hr : ic.count > env.BDB_IDL_DB_SIZE → ic.blocks = [])
    (hrc : (bdb_tool_idl_flush_one env ic g d).1 ≠ -1) :
    (bdb_tool_idl_flush_one env ic g d).2.1.bi_idl_cache_size =
      g.bi_idl_cache_size - (ic.blocks.length : Int) ∧
    (bdb_tool_idl_flush_one env ic g d).2.1.free_list.length =
      g.free_list.length + ic.blocks.length ∧
    (bdb_tool_idl_flush_one env ic g d).2.2.2.blocks = [] := by
  unfold bdb_tool_idl_flush_one at hrc ⊢
  by_cases h1 : ic.blocks.isEmpty = true ∧ ic.count ≤ env.BDB_IDL_DB_SIZE
  · have hb : ic.blocks = [] := List.isEmpty_iff.1 h1.1
    rw [if_pos h1]
    simp [hb]
  · rw [if_neg h1] at hrc ⊢
    by_cases h2 : env.cursor_rc ≠ 0
    · rw [if_pos h2] at hrc
      exact absurd rfl hrc
    · rw [if_neg h2] at hrc ⊢
      by_cases hc : ic.count > env.BDB_IDL_DB_SIZE
      · -- a range: no NODUPDATA loop, and the entry holds no block
        have hb := hr hc
        have hn : (flush_one_dups env ic (d ic.kstr)).2.1 = none := by
          unfold flush_one_dups
          simp only [hc, and_true, if_true]
          split_ifs <;> rfl
        simp only [hn, hb, List.length_nil, Nat.cast_zero, sub_zero, Nat.add_zero, and_self]
      · have hn : (flush_one_dups env ic (d ic.kstr)).1 ≠ -1 →
            (flush_one_dups env ic (d ic.kstr)).2.1 = some ic.blocks.length := by
          unfold flush_one_dups
          simp only [hc, and_false, if_false]
          split_ifs <;>
            first
            | (intro h; exact absurd rfl h)
            | (intro h
               have := flush_blocks_count env ic.kstr ic.count ic.blocks 0 _ h
               simp only [this, Nat.zero_add])
        have hn2 := hn hrc
        simp only [hn2]
        by_cases hb : ic.blocks.isEmpty = true
        · have hb2 : ic.blocks = [] := List.isEmpty_iff.1 hb
          simp [hb2]
        · simp only [hb, Bool.false_eq_true, if_false]
          refine ⟨trivial, ?_, trivial⟩
          rw [List.length_append, Nat.add_comm]

theorem avl_apply_flush_blocks (env : IdlEnv) (keep : Option Key) :
    ∀ (t : List bdb_tool_idl_cache) (g : IdlGlobal) (d : Key → List Nat)
      (kept : Option bdb_tool_idl_cache),
      (∀ ic ∈ t, ic.count > env.BDB_IDL_DB_SIZE → ic.blocks = []) →
      (avl_apply_flush env keep t g d kept).1 ≠ -1 →
      (avl_apply_flush env keep t g d kept).2.1.bi_idl_cache_size =
        g.bi_idl_cache_size - (linked_blocks t : Int) ∧
      (avl_apply_flush env keep t g d kept).2.1.free_list.length =
        g.free_list.length + linked_blocks t := by
  intro t
  induction t with
  | nil => intro g d kept _ _; simp [avl_apply_flush, linked_blocks]
  | cons ic rest ih =>
    intro g d kept hr hrc
    rw [avl_apply_flush] at hrc ⊢
    by_cases h1 : (bdb_tool_idl_flush_one env ic g d).1 = -1
    · simp only [if_pos h1] at hrc
      exact absurd rfl hrc
    · simp only [if_neg h1] at hrc ⊢
      obtain ⟨a1, a2, _⟩ := flush_one_blocks env ic g d (hr ic (List.mem_cons_self _ _)) h1
      obtain ⟨b1, b2⟩ := ih _ _ _ (fun x hx => hr x (List.mem_cons_of_mem _ hx)) hrc
      rw [b1, b2, a1, a2]
      simp only [linked_blocks, List.map_cons, List.sum_cons, Nat.cast_add]
      constructor
      · ring
      · omega

theorem flush_db_blocks (env : IdlEnv) (keep : Option Key) (g : IdlGlobal) (db : DB)
    (hr : ∀ ic ∈ db.app_private, ic.count > env.BDB_IDL_DB_SIZE → ic.blocks = [])
    (h0 : (bdb_tool_idl_flush_db env keep g db).1 = 0) :
    (bdb_tool_idl_flush_db env keep g db).2.1.bi_idl_cache_size =
      g.bi_idl_cache_size - (linked_blocks db.app_private : Int) ∧
    (bdb_tool_idl_flush_db env keep g db).2.1.free_list.length =
      g.free_list.length + linked_blocks db.app_private ∧
    (bdb_tool_idl_flush_db env keep g db).2.2.1.app_private = [] := by
  have hrc : (avl_apply_flush env keep db.app_private g db.data none).1 ≠ -1 := by
    intro h
    unfold bdb_tool_idl_flush_db at h0
    simp only [h, ne_eq, not_true_eq_false, if_false] at h0
    exact absurd h0 (by decide)
  obtain ⟨a1, a2⟩ := avl_apply_flush_blocks env keep db.app_private g db.data none hr hrc
  exact ⟨a1, a2, rfl⟩

theorem linked_update :
    ∀ (t : List bdb_tool_idl_cache) (k : Key) (ic ic2 : bdb_tool_idl_cache),
      avl_find t k = some ic → ic2.kstr = k →
      linked_blocks (avl_update t ic2) + ic.blocks.length =
        linked_blocks t + ic2.blocks.length := by
  intro t
  induction t with
  | nil => intro k ic ic2 h; simp [avl_find] at h
  | cons e rest ih =>
    intro k ic ic2 h h2
    simp only [avl_find] at h
    by_cases he : e.kstr = k
    · rw [if_pos he] at h
      simp only [Option.some.injEq] at h
      subst h
      have : e.kstr = ic2.kstr := by rw [h2]; exact he
      simp only [avl_update, this, if_true, linked_blocks, List.map_cons, List.sum_cons]
      omega
    · rw [if_neg he] at h
      have hne : ¬ e.kstr = ic2.kstr := by rw [h2]; exact he
      have := ih k ic ic2 h h2
      simp only [avl_update, hne, if_false, linked_blocks, List.map_cons, List.sum_cons] at this ⊢
      omega

theorem linked_insert :
    ∀ (t : List bdb_tool_idl_cache) (x : bdb_tool_idl_cache), avl_find t x.kstr = none →
      linked_blocks (avl_insert t x) = linked_blocks t + x.blocks.length := by
  intro t
  induction t with
  | nil => intro x _; simp [avl_insert, linked_blocks]
  | cons e rest ih =>
    intro x h
    simp only [avl_find] at h
    by_cases he : e.kstr = x.kstr
    · rw [if_pos he] at h
      exact Option.noConfusion h
    · rw [if_neg he] at h
      have hne : ¬ x.kstr = e.kstr := fun hh => he hh.symm
      simp only [avl_insert, hne, if_false]
      by_cases hlt : key_lt x.kstr e.kstr = true
      · simp only [hlt, if_true, linked_blocks, List.map_cons, List.sum_cons]
        omega
      · have := ih x h
        simp only [hlt, Bool.false_eq_true, if_false, linked_blocks, List.map_cons,
          List.sum_cons] at this ⊢
        omega

theorem tail_store_length (slot id : Nat) :
    ∀ bs : List IdBlock, (tail_store bs slot id).length = bs.length := by
  intro bs
  induction bs with
  | nil => rfl
  | cons b rest ih =>
    cases rest with
    | nil => rfl
    | cons b2 rest2 =>
      show (b :: tail_store (b2 :: rest2) slot id).length = _
      rw [List.length_cons, ih]
      rfl

/-- The part of `bdb_tool_idl_add` that works on the entry keeps the block
accounting when it returns 0, and moves blocks between the entry and the free
list, creating at most one. -/
theorem idl_add_to_blocks (env : IdlEnv) (hg : env.Good) (id : Nat)
    (ic : bdb_tool_idl_cache) (g : IdlGlobal) (db : DB) (hok : TreeOk db.app_private)
    (hfind : avl_find db.app_private ic.kstr = some ic) (rest : Int)
    (hinv : BlockInv env rest g db) (h0 : (idl_add_to env id ic g db).1 = 0) :
    BlockInv env rest (idl_add_to env id ic g db).2.1 (idl_add_to env id ic g db).2.2 ∧
    (block_pool (idl_add_to env id ic g db).2.1 (idl_add_to env id ic g db).2.2 =
        block_pool g db ∨
      block_pool (idl_add_to env id ic g db).2.1 (idl_add_to env id ic g db).2.2 =
        block_pool g db + 1) := by
  obtain ⟨hrf, hcnt⟩ := hinv
  have hmem := avl_find_mem _ _ _ hfind
  -- the entry is replaced in the tree by one with the same key
  have hupd : ∀ (ic2 : bdb_tool_idl_cache) (g2 : IdlGlobal), ic2.kstr = ic.kstr →
      (ic2.count > env.BDB_IDL_DB_SIZE → ic2.blocks = []) →
      g2.bi_idl_cache_size + (ic.blocks.length : Int) =
        g.bi_idl_cache_size + (ic2.blocks.length : Int) →
      (g2.free_list.length + ic2.blocks.length = g.free_list.length + ic.blocks.length ∨
        g2.free_list.length + ic2.blocks.length = g.free_list.length + ic.blocks.length + 1) →
      BlockInv env rest g2 ⟨db.data, avl_update db.app_private ic2⟩ ∧
      (block_pool g2 ⟨db.data, avl_update db.app_private ic2⟩ = block_pool g db ∨
        block_pool g2 ⟨db.data, avl_update db.app_private ic2⟩ = block_pool g db + 1) := by
    intro ic2 g2 hk2 hr2 hs hp
    have hl := linked_update db.app_private ic.kstr ic ic2 hfind hk2
    refine ⟨⟨?_, ?_⟩, ?_⟩
    · intro x hx hxc
      rcases avl_update_mem _ _ x hx with h | h
      · rw [h]; rw [h] at hxc; exact hr2 hxc
      · exact hrf x h hxc
    · show g2.bi_idl_cache_size = (linked_blocks (avl_update db.app_private ic2) : Int) + rest
      have hl2 : (linked_blocks (avl_update db.app_private ic2) : Int) + (ic.blocks.length : Int) =
          (linked_blocks db.app_private : Int) + (ic2.blocks.length : Int) := by
        exact_mod_cast hl
      omega
    · show linked_blocks (avl_update db.app_private ic2) + g2.free_list.length =
          linked_blocks db.app_private + g.free_list.length ∨
        linked_blocks (avl_update db.app_private ic2) + g2.free_list.length =
          linked_blocks db.app_private + g.free_list.length + 1
      omega
  by_cases hA : ic.count > env.BDB_IDL_DB_SIZE
  · have hr : idl_add_to env id ic g db =
        (0, g, ⟨db.data, avl_update db.app_private { ic with last := id }⟩) := by
      unfold idl_add_to
      rw [if_pos hA]
    rw [hr]
    exact hupd { ic with last := id } g rfl (fun _ => hrf ic hmem hA) rfl (Or.inl rfl)
  · by_cases hB : ic.count = env.BDB_IDL_DB_SIZE
    · have hr : idl_add_to env id ic g db =
          (0, (if ic.blocks.length ≠ 0 then
              ({ bi_idl_cache_size := g.bi_idl_cache_size - ic.blocks.length,
                 free_list := ic.blocks ++ g.free_list } : IdlGlobal)
            else g),
            ⟨db.data, avl_update db.app_private
              { ic with blocks := [], last := id, count := ic.count + 1 }⟩) := by
        unfold idl_add_to
        rw [if_neg hA, if_pos hB]
      rw [hr]
      apply hupd { ic with blocks := [], last := id, count := ic.count + 1 } _ rfl (fun _ => rfl)
      · by_cases hl : ic.blocks.length ≠ 0
        · rw [if_pos hl]
          show g.bi_idl_cache_size - (ic.blocks.length : Int) + (ic.blocks.length : Int) =
            g.bi_idl_cache_size + ((0 : Nat) : Int)
          omega
        · rw [if_neg hl]
          have : ic.blocks.length = 0 := by omega
          rw [this]
          rfl
      · left
        by_cases hl : ic.blocks.length ≠ 0
        · rw [if_pos hl]
          show (ic.blocks ++ g.free_list).length + 0 = _
          rw [List.length_append]
          omega
        · rw [if_neg hl]
          have : ic.blocks.length = 0 := by omega
          rw [this]
          rfl
    · have hlt : ic.count < env.BDB_IDL_DB_SIZE := by omega
      have hnr : ∀ (ic2 : bdb_tool_idl_cache), ic2.count = ic.count + 1 →
          ic2.count > env.BDB_IDL_DB_SIZE → ic2.blocks = [] := by
        intro ic2 hc hgt
        omega
      by_cases hC : ic.blocks.isEmpty = true ∨ ic.count % IDBLOCK = 0
      · by_cases hD : g.bi_idl_cache_size ≥ (env.bi_idl_cache_max_size : Int)
        · -- memory-pressure flush, then one block
          obtain ⟨f1, f2, _⟩ := flush_db_data env (some ic.kstr) g db
          have hf : (bdb_tool_idl_flush_db env (some ic.kstr) g db).1 = 0 := by
            by_contra hne
            unfold idl_add_to at h0
            simp only [hA, hB, if_false, hC, if_true, hD, if_pos hne] at h0
            exact hne h0
          have hall := f2.1 hf
          have hkept : (bdb_tool_idl_flush_db env (some ic.kstr) g db).2.2.2 =
              some { ic with blocks := [] } :=
            avl_apply_flush_kept env hg ic (by omega) _ _ _ _ hok hfind hall
          obtain ⟨b1, b2, _⟩ := flush_db_blocks env (some ic.kstr) g db hrf hf
          have hr : idl_add_to env id ic g db =
              (0, { bi_idl_cache_size :=
                      (bdb_tool_idl_flush_db env (some ic.kstr) g db).2.1.bi_idl_cache_size + 1,
                    free_list :=
                      (bdb_tool_idl_flush_db env (some ic.kstr) g db).2.1.free_list.tail },
                ⟨flush_data env db.app_private db.data,
                  [{ ic with
                      blocks := tail_store ([] ++ [fun _ => 0]) (ic.count % IDBLOCK) id,
                      first := if ic.count = 0 then id else ic.first,
                      count := ic.count + 1 }]⟩) := by
            unfold idl_add_to
            simp only [hA, hB, if_false, hC, if_true, hD, hf, ne_eq, not_true_eq_false, hkept,
              Option.getD_some, f1, idl_new_block, avl_insert, avl_update, eq_self_iff_true]
          rw [hr]
          have hlen : (tail_store ([] ++ [fun _ => 0]) (ic.count % IDBLOCK) id).length = 1 := by
            rw [tail_store_length]; rfl
          have hl1 : linked_blocks [({ ic with
                      blocks := tail_store ([] ++ [fun _ => 0]) (ic.count % IDBLOCK) id,
                      first := if ic.count = 0 then id else ic.first,
                      count := ic.count + 1 } : bdb_tool_idl_cache)] = 1 := by
            simp only [linked_blocks, List.map_cons, List.map_nil, List.sum_cons, List.sum_nil,
              hlen, Nat.add_zero]
          refine ⟨⟨?_, ?_⟩, ?_⟩
          · intro x hx hxc
            rw [List.mem_singleton] at hx
            rw [hx] at hxc
            exact absurd hxc (by show ¬ ic.count + 1 > env.BDB_IDL_DB_SIZE; omega)
          · show (bdb_tool_idl_flush_db env (some ic.kstr) g db).2.1.bi_idl_cache_size + 1 =
              (linked_blocks [({ ic with
                      blocks := tail_store ([] ++ [fun _ => 0]) (ic.count % IDBLOCK) id,
                      first := if ic.count = 0 then id else ic.first,
                      count := ic.count + 1 } : bdb_tool_idl_cache)] : Int) + rest
            rw [hl1, b1, hcnt]
            push_cast
            omega
          · dsimp only [block_pool]
            rw [hl1, List.length_tail, b2]
            omega
        · -- one block, from the free list or new
          have hr : idl_add_to env id ic g db = idl_new_block id ic g db := by
            unfold idl_add_to
            simp only [hA, hB, if_false, hC, if_true, hD]
          rw [hr]
          apply hupd { ic with
              blocks := tail_store (ic.blocks ++ [fun _ => 0]) (ic.count % IDBLOCK) id,
              first := if ic.count = 0 then id else ic.first, count := ic.count + 1 }
            { bi_idl_cache_size := g.bi_idl_cache_size + 1, free_list := g.free_list.tail } rfl
            (hnr _ rfl)
          · show g.bi_idl_cache_size + 1 + (ic.blocks.length : Int) = g.bi_idl_cache_size +
              ((tail_store (ic.blocks ++ [fun _ => 0]) (ic.count % IDBLOCK) id).length : Int)
            rw [tail_store_length, List.length_append]
            simp only [List.length_singleton, Nat.cast_add, Nat.cast_one]
            omega
          · show g.free_list.tail.length +
                (tail_store (ic.blocks ++ [fun _ => 0]) (ic.count % IDBLOCK) id).length = _ ∨ _
            rw [tail_store_length, List.length_append, List.length_tail]
            simp only [List.length_singleton]
            omega
      · -- room in the tail block
        have hr : idl_add_to env id ic g db =
            (0, g, ⟨db.data, avl_update db.app_private
              { ic with blocks := tail_store ic.blocks (ic.count % IDBLOCK) id,
                        count := ic.count + 1 }⟩) := by
          unfold idl_add_to
          simp only [hA, hB, if_false, hC]
        rw [hr]
        apply hupd { ic with blocks := tail_store ic.blocks (ic.count % IDBLOCK) id,
                             count := ic.count + 1 } g rfl (hnr _ rfl)
        · show g.bi_idl_cache_size + (ic.blocks.length : Int) = g.bi_idl_cache_size +
            ((tail_store ic.blocks (ic.count % IDBLOCK) id).length : Int)
          rw [tail_store_length]
        · left
          show g.free_list.length + (tail_store ic.blocks (ic.count % IDBLOCK) id).length = _
          rw [tail_store_length]

/-- The accounting is kept by `bdb_tool_idl_add` when it returns 0. -/
theorem idl_add_blocks (env : IdlEnv) (hg : env.Good) (key : Key) (id : Nat)
    (g : IdlGlobal) (db : DB) (hok : TreeOk db.app_private) (rest : Int)
    (hinv : BlockInv env rest g db) (h0 : (bdb_tool_idl_add env key id g db).1 = 0) :
    BlockInv env rest (bdb_tool_idl_add env key id g db).2.1
      (bdb_tool_idl_add env key id g db).2.2 ∧
    (block_pool (bdb_tool_idl_add env key id g db).2.1 (bdb_tool_idl_add env key id g db).2.2 =
        block_pool g db ∨
      block_pool (bdb_tool_idl_add env key id g db).2.1
        (bdb_tool_idl_add env key id g db).2.2 = block_pool g db + 1) := by
  obtain ⟨db1, heq, hk, hok1, hfind1, hmem1, _, _, htree⟩ :=
    idl_add_eq_add_to env hg key id g db hok
  rw [heq] at h0 ⊢
  have hlink : linked_blocks db1.app_private = linked_blocks db.app_private := by
    rcases htree with h | ⟨h, hnone, hbl⟩
    · rw [h]
    · rw [h, linked_insert _ _ hnone, hbl]
      rfl
  have hinv1 : BlockInv env rest g db1 := by
    refine ⟨?_, ?_⟩
    · intro x hx hxc
      rcases htree with h | ⟨h, hnone, hbl⟩
      · rw [h] at hx
        exact hinv.range_free x hx hxc
      · rcases hmem1 x hx with h2 | h2
        · rw [h2]; exact hbl
        · exact hinv.range_free x h2 hxc
    · rw [hlink]
      exact hinv.counter
  have hpool : block_pool g db1 = block_pool g db := by
    unfold block_pool
    rw [hlink]
  have hfind2 : avl_find db1.app_private (idl_entry_of env key db).kstr =
      some (idl_entry_of env key db) := by
    rw [hk]; exact hfind1
  have h := idl_add_to_blocks env hg id (idl_entry_of env key db) g db1 hok1 hfind2 rest hinv1 h0
  rw [hpool] at h
  exact h

/-- The accounting is kept by `bdb_tool_idl_flush_db` when it returns 0; the
blocks of the database all go to the free list. -/
theorem idl_flush_db_blocks (env : IdlEnv) (keep : Option Key) (g : IdlGlobal) (db : DB)
    (rest : Int) (hinv : BlockInv env rest g db)
    (h0 : (bdb_tool_idl_flush_db env keep g db).1 = 0) :
    BlockInv env rest (bdb_tool_idl_flush_db env keep g db).2.1
      (bdb_tool_idl_flush_db env keep g db).2.2.1 ∧
    block_pool (bdb_tool_idl_flush_db env keep g db).2.1
      (bdb_tool_idl_flush_db env keep g db).2.2.1 = block_pool g db := by
  obtain ⟨b1, b2, b3⟩ := flush_db_blocks env keep g db hinv.range_free h0
  have hl : linked_blocks (bdb_tool_idl_flush_db env keep g db).2.2.1.app_private = 0 := by
    rw [b3]; rfl
  refine ⟨⟨?_, ?_⟩, ?_⟩
  · intro x hx
    rw [b3] at hx
    exact absurd hx (List.not_mem_nil x)
  · rw [b1, hl, hinv.counter]
    push_cast
    omega
  · unfold block_pool
    rw [hl, b2]
    omega

/-- Replacing one database changes the total by the difference of its own
linked blocks. -/
theorem total_linked_set :
    ∀ (dbs : List DB) (i : Nat) (db db2 : DB), dbs.get? i = some db →
      total_linked (dbs.set i db2) + linked_blocks db.app_private =
        total_linked dbs + linked_blocks db2.app_private := by
  intro dbs
  induction dbs with
  | nil => intro i db db2 h; simp at h
  | cons d rest ih =>
    intro i db db2 h
    cases i with
    | zero =>
      simp only [List.get?_cons_zero, Option.some.injEq] at h
      subst h
      simp only [List.set_cons_zero, total_linked, List.map_cons, List.sum_cons]
      omega
    | succ j =>
      simp only [List.get?_cons_succ] at h
      have := ih j db db2 h
      simp only [List.set_cons_succ, total_linked, List.map_cons, List.sum_cons] at this ⊢
      omega

/-- The block of one database and the rest: the invariant over all databases,
seen from one of them. -/
theorem RunInv.at_db (env : IdlEnv) (g : IdlGlobal) (dbs : List DB) (hinv : RunInv env g dbs)
    (i : Nat) (db : DB) (hget : dbs.get? i = some db) :
    TreeOk db.app_private ∧
    BlockInv env ((total_linked dbs : Int) - linked_blocks db.app_private) g db := by
  have hmem : db ∈ dbs := List.get?_mem hget
  refine ⟨hinv.trees db hmem, ⟨hinv.range_free db hmem, ?_⟩⟩
  rw [hinv.counter]
  omega

/-- Back from one database to all of them. -/
theorem RunInv.of_db (env : IdlEnv) (g : IdlGlobal) (dbs : List DB) (hinv : RunInv env g dbs)
    (i : Nat) (db : DB) (hget : dbs.get? i = some db) (g2 : IdlGlobal) (db2 : DB)
    (hok : TreeOk db2.app_private)
    (h2 : BlockInv env ((total_linked dbs : Int) - linked_blocks db.app_private) g2 db2) :
    RunInv env g2 (dbs.set i db2) := by
  refine ⟨?_, ?_, ?_⟩
  · intro x hx
    rcases List.mem_or_eq_of_mem_set hx with h | h
    · exact hinv.trees x h
    · rw [h]; exact hok
  · intro x hx
    rcases List.mem_or_eq_of_mem_set hx with h | h
    · exact hinv.range_free x h
    · rw [h]; exact h2.range_free
  · have hs := total_linked_set dbs i db db2 hget
    have hs2 : (total_linked (dbs.set i db2) : Int) + (linked_blocks db.app_private : Int) =
        (total_linked dbs : Int) + (linked_blocks db2.app_private : Int) := by
      exact_mod_cast hs
    rw [h2.counter]
    omega

/-- One `bdb_tool_idl_add` that returns 0, with the store operations succeeding,
caching enabled or not. -/
theorem idl_add_step (env : IdlEnv) (hcur : env.cursor_rc = 0) (hget : ∀ k, env.get_rc k = 0)
    (hput : ∀ k i, env.put_rc k i = 0) (key : Key) (id : Nat) (g : IdlGlobal) (db : DB)
    (hok : TreeOk db.app_private) (rest : Int) (hinv : BlockInv env rest g db)
    (h0 : (bdb_tool_idl_add env key id g db).1 = 0) :
    TreeOk (bdb_tool_idl_add env key id g db).2.2.app_private ∧
    BlockInv env rest (bdb_tool_idl_add env key id g db).2.1
      (bdb_tool_idl_add env key id g db).2.2 ∧
    (block_pool (bdb_tool_idl_add env key id g db).2.1 (bdb_tool_idl_add env key id g db).2.2 =
        block_pool g db ∨
      block_pool (bdb_tool_idl_add env key id g db).2.1
        (bdb_tool_idl_add env key id g db).2.2 = block_pool g db + 1) := by
  by_cases hc : env.bi_idl_cache_max_size = 0
  · have hr : bdb_tool_idl_add env key id g db =
        ((env.idl_insert_key key id db.data).1, g,
          ⟨(env.idl_insert_key key id db.data).2, db.app_private⟩) := by
      unfold bdb_tool_idl_add
      rw [if_pos hc]
    rw [hr]
    exact ⟨hok, ⟨hinv.range_free, hinv.counter⟩, Or.inl rfl⟩
  · have hg : env.Good := ⟨hc, hcur, hget, hput⟩
    exact ⟨(idl_add_ok env hg key id g db hok).1, idl_add_blocks env hg key id g db hok rest hinv h0⟩

/-- The invariant along a run in which every call returns 0, and the bounds on
the number of blocks linked or free. -/
theorem idl_run_inv (env : IdlEnv) (hcur : env.cursor_rc = 0) (hget : ∀ k, env.get_rc k = 0)
    (hput : ∀ k i, env.put_rc k i = 0) :
    ∀ (ops : List IdlOp) (g : IdlGlobal) (dbs : List DB), RunInv env g dbs →
      (idl_run env ops g dbs).1 = 0 →
      RunInv env (idl_run env ops g dbs).2.1 (idl_run env ops g dbs).2.2 ∧
      total_linked dbs + g.free_list.length ≤
        total_linked (idl_run env ops g dbs).2.2 + (idl_run env ops g dbs).2.1.free_list.length ∧
      total_linked (idl_run env ops g dbs).2.2 + (idl_run env ops g dbs).2.1.free_list.length ≤
        total_linked dbs + g.free_list.length + ops.length := by
  intro ops
  induction ops with
  | nil =>
    intro g dbs hinv _
    exact ⟨hinv, Nat.le_refl _, Nat.le_refl _⟩
  | cons op ops ih =>
    intro g dbs hinv h0
    cases op with
    | add i key id =>
      cases hgi : dbs.get? i with
      | none =>
        have hr : idl_run env (IdlOp.add i key id :: ops) g dbs = idl_run env ops g dbs := by
          rw [idl_run]
          simp only [hgi]
        rw [hr] at h0 ⊢
        obtain ⟨a1, a2, a3⟩ := ih g dbs hinv h0
        refine ⟨a1, a2, ?_⟩
        rw [List.length_cons]
        omega
      | some db =>
        by_cases hrc : (bdb_tool_idl_add env key id g db).1 = 0
        · have hr : idl_run env (IdlOp.add i key id :: ops) g dbs =
              idl_run env ops (bdb_tool_idl_add env key id g db).2.1
                (dbs.set i (bdb_tool_idl_add env key id g db).2.2) := by
            rw [idl_run]
            simp only [hgi, hrc, ne_eq, not_true_eq_false, if_false]
          rw [hr] at h0 ⊢
          obtain ⟨hok, hb⟩ := RunInv.at_db env g dbs hinv i db hgi
          obtain ⟨s1, s2, s3⟩ := idl_add_step env hcur hget hput key id g db hok _ hb hrc
          have hinv2 := RunInv.of_db env g dbs hinv i db hgi _ _ s1 s2
          obtain ⟨a1, a2, a3⟩ := ih _ _ hinv2 h0
          have hs := total_linked_set dbs i db (bdb_tool_idl_add env key id g db).2.2 hgi
          unfold block_pool at s3
          refine ⟨a1, ?_, ?_⟩
          · omega
          · rw [List.length_cons]
            omega
        · exfalso
          have hr : idl_run env (IdlOp.add i key id :: ops) g dbs =
              ((bdb_tool_idl_add env key id g db).1, (bdb_tool_idl_add env key id g db).2.1,
                dbs.set i (bdb_tool_idl_add env key id g db).2.2) := by
            rw [idl_run]
            simp only [hgi, ne_eq, hrc, not_false_eq_true, if_true]
          rw [hr] at h0
          exact hrc h0
    | flush i =>
      cases hgi : dbs.get? i with
      | none =>
        have hr : idl_run env (IdlOp.flush i :: ops) g dbs = idl_run env ops g dbs := by
          rw [idl_run]
          simp only [hgi]
        rw [hr] at h0 ⊢
        obtain ⟨a1, a2, a3⟩ := ih g dbs hinv h0
        refine ⟨a1, a2, ?_⟩
        rw [List.length_cons]
        omega
      | some db =>
        by_cases hrc : (bdb_tool_idl_flush_db env none g db).1 = 0
        · have hr : idl_run env (IdlOp.flush i :: ops) g dbs =
              idl_run env ops (bdb_tool_idl_flush_db env none g db).2.1
                (dbs.set i (bdb_tool_idl_flush_db env none g db).2.2.1) := by
            rw [idl_run]
            simp only [hgi, hrc, ne_eq, not_true_eq_false, if_false]
          rw [hr] at h0 ⊢
          obtain ⟨_, hb⟩ := RunInv.at_db env g dbs hinv i db hgi
          obtain ⟨s2, s3⟩ := idl_flush_db_blocks env none g db _ hb hrc
          have hok2 : TreeOk (bdb_tool_idl_flush_db env none g db).2.2.1.app_private :=
            List.nodup_nil
          have hinv2 := RunInv.of_db env g dbs hinv i db hgi _ _ hok2 s2
          obtain ⟨a1, a2, a3⟩ := ih _ _ hinv2 h0
          have hs := total_linked_set dbs i db (bdb_tool_idl_flush_db env none g db).2.2.1 hgi
          unfold block_pool at s3
          refine ⟨a1, ?_, ?_⟩
          · omega
          · rw [List.length_cons]
            omega
        · exfalso
          have hr : idl_run env (IdlOp.flush i :: ops) g dbs =
              ((bdb_tool_idl_flush_db env none g db).1, (bdb_tool_idl_flush_db env none g db).2.1,
                dbs.set i (bdb_tool_idl_flush_db env none g db).2.2.1) := by
            rw [idl_run]
            simp only [hgi, ne_eq, hrc, not_false_eq_true, if_true]
          rw [hr] at h0
          exact hrc h0

/-- With every tree empty nothing is linked. -/
theorem total_linked_empty :
    ∀ (dbs : List DB), (∀ db ∈ dbs, db.app_private = []) → total_linked dbs = 0 := by
  intro dbs
  induction dbs with
  | nil => intro _; rfl
  | cons d rest ih =>
    intro h
    have h1 := h d (List.mem_cons_self _ _)
    have h2 := ih (fun x hx => h x (List.mem_cons_of_mem _ hx))
    unfold total_linked at h2 ⊢
    rw [List.map_cons, List.sum_cons, h2, h1]
    rfl

/-- The counter along a run.  Start with every cache tree empty and the counter
`bi_idl_cache_size` at 0, whatever is on the free list, and let every store
operation succeed.  After any sequence of calls each of which returned 0, the
counter equals the number of id blocks linked from the cache entries of all the
databases, and the number of blocks linked or free is at least the length of the
initial free list and at most that length plus the number of calls. -/
theorem idl_run_counter (env : IdlEnv) (hcur : env.cursor_rc = 0)
    (hget : ∀ k, env.get_rc k = 0) (hput : ∀ k i, env.put_rc k i = 0)
    (ops : List IdlOp) (g : IdlGlobal) (dbs : List DB)
    (hempty : ∀ db ∈ dbs, db.app_private = []) (hzero : g.bi_idl_cache_size = 0)
    (hrc : (idl_run env ops g dbs).1 = 0) :
    (idl_run env ops g dbs).2.1.bi_idl_cache_size =
      (total_linked (idl_run env ops g dbs).2.2 : Int) ∧
    g.free_list.length ≤
      total_linked (idl_run env ops g dbs).2.2 + (idl_run env ops g dbs).2.1.free_list.length ∧
    total_linked (idl_run env ops g dbs).2.2 + (idl_run env ops g dbs).2.1.free_list.length ≤
      g.free_list.length + ops.length := by
  have hl := total_linked_empty dbs hempty
  have hinv : RunInv env g dbs := by
    refine ⟨?_, ?_, ?_⟩
    · intro db hdb
      rw [hempty db hdb]
      exact List.nodup_nil
    · intro db hdb ic hic
      rw [hempty db hdb] at hic
      exact absurd hic (List.not_mem_nil ic)
    · rw [hzero, hl]
      rfl
  obtain ⟨a1, a2, a3⟩ := idl_run_inv env hcur hget hput ops g dbs hinv hrc
  rw [hl, Nat.zero_add] at a2 a3
  exact ⟨a1.counter, a2, a3⟩

/-! ### Erasing the addresses -/

theorem map_isEmpty {α β : Type} (f : α → β) (l : List α) : (l.map f).isEmpty = l.isEmpty := by
  cases l <;> rfl

theorem plain_kstr (ic : idl_cache_ptr) : ic.plain.kstr = ic.kstr := rfl

theorem plain_count (ic : idl_cache_ptr) : ic.plain.count = ic.count := rfl

theorem plain_first (ic : idl_cache_ptr) : ic.plain.first = ic.first := rfl

theorem plain_last (ic : idl_cache_ptr) : ic.plain.last = ic.last := rfl

theorem plain_blocks (ic : idl_cache_ptr) :
    ic.plain.blocks = ic.chain.map (fun b => b.ids) := rfl

theorem avl_find_plain (t : List idl_cache_ptr) (k : Key) :
    avl_find (t.map idl_cache_ptr.plain) k = (avl_find_ptr t k).map idl_cache_ptr.plain := by
  induction t with
  | nil => rfl
  | cons e rest ih =>
    simp only [List.map_cons, avl_find, avl_find_ptr, plain_kstr]
    by_cases h : e.kstr = k
    · rw [if_pos h, if_pos h]; rfl
    · rw [if_neg h, if_neg h]; exact ih

theorem avl_insert_plain (t : List idl_cache_ptr) (ic : idl_cache_ptr) :
    avl_insert (t.map idl_cache_ptr.plain) ic.plain =
      (avl_insert_ptr t ic).map idl_cache_ptr.plain := by
  induction t with
  | nil => rfl
  | cons e rest ih =>
    simp only [List.map_cons, avl_insert, avl_insert_ptr, plain_kstr]
    by_cases h : ic.kstr = e.kstr
    · rw [if_pos h, if_pos h]; rfl
    · rw [if_neg h, if_neg h]
      by_cases h2 : key_lt ic.kstr e.kstr = true
      · rw [if_pos h2, if_pos h2]; rfl
      · rw [if_neg h2, if_neg h2, List.map_cons, ih]

theorem avl_update_plain (t : List idl_cache_ptr) (ic : idl_cache_ptr) :
    avl_update (t.map idl_cache_ptr.plain) ic.plain =
      (avl_update_ptr t ic).map idl_cache_ptr.plain := by
  induction t with
  | nil => rfl
  | cons e rest ih =>
    simp only [List.map_cons, avl_update, avl_update_ptr, plain_kstr]
    by_cases h : e.kstr = ic.kstr
    · rw [if_pos h, if_pos h]; rfl
    · rw [if_neg h, if_neg h, List.map_cons, ih]

theorem tail_store_plain :
    ∀ (l : List bdb_tool_idl_cache_entry) (slot id : Nat),
      tail_store (l.map (fun b => b.ids)) slot id =
        (tail_store_ptr l slot id).map (fun b => b.ids) := by
  intro l
  induction l with
  | nil => intro _ _; rfl
  | cons b rest ih =>
    intro slot id
    cases rest with
    | nil => rfl
    | cons c rest2 =>
      have := ih slot id
      simp only [List.map_cons, tail_store, tail_store_ptr] at this ⊢
      rw [this]

theorem tail_store_ptr_addrs :
    ∀ (l : List bdb_tool_idl_cache_entry) (slot id : Nat),
      (tail_store_ptr l slot id).map (fun b => b.addr) = l.map (fun b => b.addr) := by
  intro l
  induction l with
  | nil => intro _ _; rfl
  | cons b rest ih =>
    intro slot id
    cases rest with
    | nil => rfl
    | cons c rest2 =>
      have := ih slot id
      simp only [List.map_cons, tail_store_ptr] at this ⊢
      rw [this]

/-- Erasing the addresses turns `bdb_tool_idl_flush_one_ptr` into
`bdb_tool_idl_flush_one`. -/
theorem flush_one_plain (env : IdlEnv) (ic : idl_cache_ptr) (g : IdlHeap)
    (d : Key → List Nat) :
    bdb_tool_idl_flush_one env ic.plain g.plain d =
      ((bdb_tool_idl_flush_one_ptr env ic g d).1,
        (bdb_tool_idl_flush_one_ptr env ic g d).2.1.plain,
        (bdb_tool_idl_flush_one_ptr env ic g d).2.2.1,
        (bdb_tool_idl_flush_one_ptr env ic g d).2.2.2.plain) := by
  have he : ic.plain.blocks.isEmpty = ic.chain.isEmpty := map_isEmpty _ _
  unfold bdb_tool_idl_flush_one bdb_tool_idl_flush_one_ptr
  rw [he, plain_count, plain_kstr]
  by_cases h1 : ic.chain.isEmpty = true ∧ ic.count ≤ env.BDB_IDL_DB_SIZE
  · rw [if_pos h1, if_pos h1]
  · rw [if_neg h1, if_neg h1]
    by_cases h2 : env.cursor_rc ≠ 0
    · rw [if_pos h2, if_pos h2]
    · rw [if_neg h2, if_neg h2]
      dsimp only
      cases hn : (flush_one_dups env ic.plain (d ic.kstr)).2.1 with
      | none => rfl
      | some n =>
        by_cases h3 : ic.chain.isEmpty = true
        · simp only [h3, if_true]
          rfl
        · simp only [h3]
          simp only [IdlHeap.plain, idl_cache_ptr.plain, List.map_append, List.map_nil,
            Bool.false_eq_true, if_false]

theorem avl_apply_flush_plain (env : IdlEnv) (keep : Option Key) :
    ∀ (t : List idl_cache_ptr) (g : IdlHeap) (d : Key → List Nat) (kept : Option idl_cache_ptr),
      avl_apply_flush env keep (t.map idl_cache_ptr.plain) g.plain d
          (kept.map idl_cache_ptr.plain) =
        ((avl_apply_flush_ptr env keep t g d kept).1,
          (avl_apply_flush_ptr env keep t g d kept).2.1.plain,
          (avl_apply_flush_ptr env keep t g d kept).2.2.1,
          (avl_apply_flush_ptr env keep t g d kept).2.2.2.map idl_cache_ptr.plain) := by
  intro t
  induction t with
  | nil => intro g d kept; rfl
  | cons ic rest ih =>
    intro g d kept
    have h1 := flush_one_plain env ic g d
    have hk : (if keep = some ic.kstr then
          some (bdb_tool_idl_flush_one_ptr env ic g d).2.2.2.plain
        else kept.map idl_cache_ptr.plain) =
        (if keep = some ic.kstr then some (bdb_tool_idl_flush_one_ptr env ic g d).2.2.2
          else kept).map idl_cache_ptr.plain := by
      by_cases hc : keep = some ic.kstr
      · rw [if_pos hc, if_pos hc]; rfl
      · rw [if_neg hc, if_neg hc]
    rw [List.map_cons, avl_apply_flush, avl_apply_flush_ptr]
    simp only [h1, plain_kstr]
    by_cases hrc : (bdb_tool_idl_flush_one_ptr env ic g d).1 = -1
    · rw [if_pos hrc, if_pos hrc, hk]
    · rw [if_neg hrc, if_neg hrc, hk]
      exact ih _ _ _

/-- Erasing the addresses turns `bdb_tool_idl_flush_db_ptr` into
`bdb_tool_idl_flush_db`. -/
theorem flush_db_plain (env : IdlEnv) (keep : Option Key) (g : IdlHeap) (db : DBPtr) :
    bdb_tool_idl_flush_db env keep g.plain db.plain =
      ((bdb_tool_idl_flush_db_ptr env keep g db).1,
        (bdb_tool_idl_flush_db_ptr env keep g db).2.1.plain,
        (bdb_tool_idl_flush_db_ptr env keep g db).2.2.1.plain,
        (bdb_tool_idl_flush_db_ptr env keep g db).2.2.2.map idl_cache_ptr.plain) := by
  have h : avl_apply_flush env keep db.plain.app_private g.plain db.plain.data none = _ :=
    avl_apply_flush_plain env keep db.app_private g db.data none
  unfold bdb_tool_idl_flush_db bdb_tool_idl_flush_db_ptr
  dsimp only
  rw [h]
  rfl

theorem new_block_plain (id : Nat) (ic : idl_cache_ptr) (g : IdlHeap) (db : DBPtr) :
    idl_new_block id ic.plain g.plain db.plain =
      ((idl_new_block_ptr id ic g db).1, (idl_new_block_ptr id ic g db).2.1.plain,
        (idl_new_block_ptr id ic g db).2.2.plain) := by
  unfold idl_new_block idl_new_block_ptr
  simp only [DBPtr.plain, avl_update_plain db.app_private, Prod.mk.injEq, true_and]
  refine ⟨?_, ?_⟩
  · simp only [IdlHeap.plain, List.map_tail]
  · have ht := tail_store_plain
      (ic.chain ++ [{ addr := (match g.free_list with
          | b :: _ => b.addr
          | [] => g.brk), ids := fun _ => 0 }]) (ic.count % IDBLOCK) id
    rw [List.map_append] at ht
    rw [← avl_update_plain]
    simp only [idl_cache_ptr.plain, ← ht, List.map_cons, List.map_nil]

/-- Erasing the addresses turns `idl_add_to_ptr` into `idl_add_to`. -/
theorem idl_add_to_plain (env : IdlEnv) (id : Nat) (ic : idl_cache_ptr) (g : IdlHeap)
    (db : DBPtr) :
    idl_add_to env id ic.plain g.plain db.plain =
      ((idl_add_to_ptr env id ic g db).1, (idl_add_to_ptr env id ic g db).2.1.plain,
        (idl_add_to_ptr env id ic g db).2.2.plain) := by
  have he : ic.plain.blocks.isEmpty = ic.chain.isEmpty := map_isEmpty _ _
  have hl : ic.plain.blocks.length = ic.chain.length := List.length_map _ _
  unfold idl_add_to idl_add_to_ptr
  rw [he, hl, plain_count, plain_kstr]
  by_cases hA : ic.count > env.BDB_IDL_DB_SIZE
  · rw [if_pos hA, if_pos hA]
    show (0, g.plain, (⟨db.data, avl_update (db.app_private.map idl_cache_ptr.plain)
      (idl_cache_ptr.plain { ic with last := id })⟩ : DB)) = _
    rw [avl_update_plain]
    rfl
  · rw [if_neg hA, if_neg hA]
    by_cases hB : ic.count = env.BDB_IDL_DB_SIZE
    · rw [if_pos hB, if_pos hB]
      show (0, _, (⟨db.data, avl_update (db.app_private.map idl_cache_ptr.plain)
        (idl_cache_ptr.plain { ic with chain := [], last := id, count := ic.count + 1 })⟩ :
          DB)) = _
      rw [avl_update_plain]
      by_cases hn : ic.chain.length ≠ 0
      · simp only [hn, ne_eq, not_false_eq_true, if_true, IdlHeap.plain, DBPtr.plain,
          idl_cache_ptr.plain, List.map_append]
      · simp only [hn, ne_eq, if_false, IdlHeap.plain, DBPtr.plain]
    · rw [if_neg hB, if_neg hB]
      by_cases hC : ic.chain.isEmpty = true ∨ ic.count % IDBLOCK = 0
      · rw [if_pos hC, if_pos hC]
        show (if g.bi_idl_cache_size ≥ (env.bi_idl_cache_max_size : Int) then _ else _) = _
        by_cases hD : g.bi_idl_cache_size ≥ (env.bi_idl_cache_max_size : Int)
        · rw [if_pos hD, if_pos hD]
          have hf := flush_db_plain env (some ic.kstr) g db
          dsimp only
          rw [hf]
          dsimp only
          by_cases hrc : (bdb_tool_idl_flush_db_ptr env (some ic.kstr) g db).1 ≠ 0
          · rw [if_pos hrc, if_pos hrc]
          · rw [if_neg hrc, if_neg hrc]
            have hgd : ((bdb_tool_idl_flush_db_ptr env (some ic.kstr) g db).2.2.2.map
                idl_cache_ptr.plain).getD ic.plain =
                ((bdb_tool_idl_flush_db_ptr env (some ic.kstr) g db).2.2.2.getD ic).plain := by
              cases (bdb_tool_idl_flush_db_ptr env (some ic.kstr) g db).2.2.2 <;> rfl
            rw [hgd]
            exact new_block_plain id _ _
              ⟨(bdb_tool_idl_flush_db_ptr env (some ic.kstr) g db).2.2.1.data,
                avl_insert_ptr []
                  ((bdb_tool_idl_flush_db_ptr env (some ic.kstr) g db).2.2.2.getD ic)⟩
        · rw [if_neg hD, if_neg hD]
          exact new_block_plain id ic g db
      · rw [if_neg hC, if_neg hC]
        show (0, g.plain, (⟨db.data, avl_update (db.app_private.map idl_cache_ptr.plain)
          ⟨ic.kstr, tail_store (ic.chain.map (fun b => b.ids)) (ic.count % IDBLOCK) id,
            ic.first, ic.last, ic.count + 1⟩⟩ : DB)) = _
        rw [tail_store_plain]
        show (0, g.plain, (⟨db.data, avl_update (db.app_private.map idl_cache_ptr.plain)
          (idl_cache_ptr.plain { ic with
            chain := tail_store_ptr ic.chain (ic.count % IDBLOCK) id,
            count := ic.count + 1 })⟩ : DB)) = _
        rw [avl_update_plain]
        rfl

theorem idl_cache_load_plain (env : IdlEnv) (key : Key) (dups : List Nat) :
    (idl_cache_load_ptr env key dups).plain = idl_cache_load env key dups := by
  obtain ⟨hk, hb, _⟩ := idl_cache_load_kstr env key dups
  have hx : ∀ x : bdb_tool_idl_cache, x.kstr = key → x.blocks = [] →
      (⟨key, [], x.first, x.last, x.count⟩ : bdb_tool_idl_cache) = x := by
    intro x h1 h2
    cases x
    simp only at h1 h2
    rw [h1, h2]
  exact hx _ hk hb

/-- Erasing the addresses turns `bdb_tool_idl_add_ptr` into `bdb_tool_idl_add`. -/
theorem idl_add_plain (env : IdlEnv) (key : Key) (id : Nat) (g : IdlHeap) (db : DBPtr) :
    bdb_tool_idl_add env key id g.plain db.plain =
      ((bdb_tool_idl_add_ptr env key id g db).1, (bdb_tool_idl_add_ptr env key id g db).2.1.plain,
        (bdb_tool_idl_add_ptr env key id g db).2.2.plain) := by
  unfold bdb_tool_idl_add bdb_tool_idl_add_ptr
  by_cases hc : env.bi_idl_cache_max_size = 0
  · rw [if_pos hc, if_pos hc]
    rfl
  · rw [if_neg hc, if_neg hc]
    have hf : avl_find db.plain.app_private key =
        (avl_find_ptr db.app_private key).map idl_cache_ptr.plain :=
      avl_find_plain db.app_private key
    rw [hf]
    cases hfind : avl_find_ptr db.app_private key with
    | none =>
      dsimp only [Option.map]
      by_cases hcur : env.cursor_rc ≠ 0
      · rw [if_pos hcur, if_pos hcur]
        show (env.cursor_rc, g.plain, (⟨db.data,
          avl_insert (db.app_private.map idl_cache_ptr.plain)
            (idl_cache_ptr.plain ⟨key, [], env.uninit, 0, 0⟩)⟩ : DB)) = _
        rw [avl_insert_plain]
        rfl
      · rw [if_neg hcur, if_neg hcur]
        have hL := idl_cache_load_plain env key (db.data key)
        show idl_add_to env id (idl_cache_load env key (db.data key)) g.plain (⟨db.data,
          avl_insert (db.app_private.map idl_cache_ptr.plain)
            (idl_cache_load env key (db.data key))⟩ : DB) = _
        rw [← hL, avl_insert_plain]
        exact idl_add_to_plain env id (idl_cache_load_ptr env key (db.data key)) g
          ⟨db.data, avl_insert_ptr db.app_private (idl_cache_load_ptr env key (db.data key))⟩
    | some ic =>
      exact idl_add_to_plain env id ic g db

theorem map_set_plain (dbs : List DBPtr) (i : Nat) (db : DBPtr) :
    (dbs.set i db).map DBPtr.plain = (dbs.map DBPtr.plain).set i db.plain := by
  induction dbs generalizing i with
  | nil => rfl
  | cons d rest ih =>
    cases i with
    | zero => rfl
    | succ j => simp only [List.set_cons_succ, List.map_cons, ih]

theorem get_map_plain (dbs : List DBPtr) (i : Nat) :
    (dbs.map DBPtr.plain).get? i = (dbs.get? i).map DBPtr.plain := by
  induction dbs generalizing i with
  | nil => rfl
  | cons d rest ih =>
    cases i with
    | zero => rfl
    | succ j => simp only [List.map_cons, List.get?_cons_succ, ih]

/-- Erasing the addresses turns a run on addressed chains into the run of the
same calls. -/
theorem idl_run_plain (env : IdlEnv) :
    ∀ (ops : List IdlOp) (g : IdlHeap) (dbs : List DBPtr),
      idl_run env ops g.plain (dbs.map DBPtr.plain) =
        ((idl_run_ptr env ops g dbs).1, (idl_run_ptr env ops g dbs).2.1.plain,
          (idl_run_ptr env ops g dbs).2.2.map DBPtr.plain) := by
  intro ops
  induction ops with
  | nil => intro g dbs; rfl
  | cons op ops ih =>
    intro g dbs
    cases op with
    | add i key id =>
      rw [idl_run, idl_run_ptr, get_map_plain]
      cases hgi : dbs.get? i with
      | none => exact ih g dbs
      | some db =>
        dsimp only [Option.map]
        rw [idl_add_plain]
        dsimp only
        by_cases hrc : (bdb_tool_idl_add_ptr env key id g db).1 ≠ 0
        · rw [if_pos hrc, if_pos hrc, map_set_plain]
        · rw [if_neg hrc, if_neg hrc, ← map_set_plain]
          exact ih _ _
    | flush i =>
      rw [idl_run, idl_run_ptr, get_map_plain]
      cases hgi : dbs.get? i with
      | none => exact ih g dbs
      | some db =>
        dsimp only [Option.map]
        rw [flush_db_plain]
        dsimp only
        by_cases hrc : (bdb_tool_idl_flush_db_ptr env none g db).1 ≠ 0
        · rw [if_pos hrc, if_pos hrc, map_set_plain]
        · rw [if_neg hrc, if_neg hrc, ← map_set_plain]
          exact ih _ _

/-! ### Where the blocks are -/

theorem AddrStep.refl (b : Nat) (l : List Nat) : AddrStep b l b l :=
  ⟨Nat.le_refl _, fun _ => Nat.le_add_right _ _⟩

theorem AddrStep.trans (b1 b2 b3 : Nat) (l1 l2 l3 : List Nat) (h12 : AddrStep b1 l1 b2 l2)
    (h23 : AddrStep b2 l2 b3 l3) : AddrStep b1 l1 b3 l3 := by
  refine ⟨Nat.le_trans h12.1 h23.1, fun a => ?_⟩
  have h1 := h12.2 a
  have h2 := h23.2 a
  have hb1 := h12.1
  have hb2 := h23.1
  by_cases c1 : b1 ≤ a ∧ a < b2
  · rw [if_pos c1] at h1
    have c2 : ¬ (b2 ≤ a ∧ a < b3) := by omega
    rw [if_neg c2] at h2
    have c3 : b1 ≤ a ∧ a < b3 := by omega
    rw [if_pos c3]
    omega
  · rw [if_neg c1] at h1
    by_cases c2 : b2 ≤ a ∧ a < b3
    · rw [if_pos c2] at h2
      have c3 : b1 ≤ a ∧ a < b3 := by omega
      rw [if_pos c3]
      omega
    · rw [if_neg c2] at h2
      have := Nat.zero_le (if b1 ≤ a ∧ a < b3 then 1 else 0)
      omega

theorem HeapOk.step (b1 b2 : Nat) (l1 l2 : List Nat) (h : HeapOk b1 l1)
    (hs : AddrStep b1 l1 b2 l2) : HeapOk b2 l2 := by
  have hcount : ∀ a, l1.count a ≤ 1 := List.nodup_iff_count_le_one.mp h.1
  have hzero : ∀ a, b1 ≤ a → l1.count a = 0 := by
    intro a ha
    apply List.count_eq_zero_of_not_mem
    intro hm
    have := h.2 a hm
    omega
  refine ⟨List.nodup_iff_count_le_one.mpr (fun a => ?_), fun a ha => ?_⟩
  · have h2 := hs.2 a
    by_cases c : b1 ≤ a ∧ a < b2
    · rw [if_pos c, hzero a c.1] at h2
      omega
    · rw [if_neg c] at h2
      have := hcount a
      omega
  · have h2 := hs.2 a
    have hpos : 0 < l2.count a := List.count_pos_iff.mpr ha
    by_cases c : b1 ≤ a ∧ a < b2
    · exact c.2
    · rw [if_neg c] at h2
      have h3 : 0 < l1.count a := by omega
      have := h.2 a (List.count_pos_iff.mp h3)
      have := hs.1
      omega

theorem avl_find_ptr_kstr :
    ∀ (t : List idl_cache_ptr) (k : Key) (ic : idl_cache_ptr),
      avl_find_ptr t k = some ic → ic.kstr = k := by
  intro t
  induction t with
  | nil => intro k ic h; simp [avl_find_ptr] at h
  | cons e rest ih =>
    intro k ic h
    simp only [avl_find_ptr] at h
    by_cases he : e.kstr = k
    · rw [if_pos he] at h
      cases h
      exact he
    · rw [if_neg he] at h
      exact ih k ic h

theorem avl_find_ptr_mem :
    ∀ (t : List idl_cache_ptr) (k : Key) (ic : idl_cache_ptr),
      avl_find_ptr t k = some ic → ic ∈ t := by
  intro t
  induction t with
  | nil => intro k ic h; simp [avl_find_ptr] at h
  | cons e rest ih =>
    intro k ic h
    simp only [avl_find_ptr] at h
    by_cases he : e.kstr = k
    · rw [if_pos he] at h
      cases h
      exact List.mem_cons_self _ _
    · rw [if_neg he] at h
      exact List.mem_cons_of_mem _ (ih k ic h)

/-- Writing an entry through its pointer replaces its chain among the linked
addresses. -/
theorem tree_addrs_update (a : Nat) :
    ∀ (t : List idl_cache_ptr) (k : Key) (ic ic2 : idl_cache_ptr),
      avl_find_ptr t k = some ic → ic2.kstr = k →
      (tree_addrs (avl_update_ptr t ic2)).count a + (ic.chain.map (fun b => b.addr)).count a =
        (tree_addrs t).count a + (ic2.chain.map (fun b => b.addr)).count a := by
  intro t
  induction t with
  | nil => intro k ic ic2 h; simp [avl_find_ptr] at h
  | cons e rest ih =>
    intro k ic ic2 h hk
    simp only [avl_find_ptr] at h
    by_cases he : e.kstr = k
    · rw [if_pos he] at h
      cases h
      have he2 : e.kstr = ic2.kstr := by rw [he, hk]
      simp only [avl_update_ptr, if_pos he2, tree_addrs, List.count_append]
      omega
    · rw [if_neg he] at h
      have he2 : ¬ e.kstr = ic2.kstr := by rw [hk]; exact he
      have := ih k ic ic2 h hk
      simp only [avl_update_ptr, if_neg he2, tree_addrs, List.count_append]
      omega

/-- Inserting an entry without blocks links nothing. -/
theorem tree_addrs_insert :
    ∀ (t : List idl_cache_ptr) (ic : idl_cache_ptr), ic.chain = [] →
      tree_addrs (avl_insert_ptr t ic) = tree_addrs t := by
  intro t
  induction t with
  | nil =>
    intro ic h
    simp only [avl_insert_ptr, tree_addrs, h, List.map_nil, List.append_nil]
  | cons e rest ih =>
    intro ic h
    simp only [avl_insert_ptr]
    by_cases h1 : ic.kstr = e.kstr
    · rw [if_pos h1]
    · rw [if_neg h1]
      by_cases h2 : key_lt ic.kstr e.kstr = true
      · rw [if_pos h2]
        simp only [tree_addrs, h, List.map_nil, List.nil_append]
      · rw [if_neg h2]
        simp only [tree_addrs, ih ic h]

theorem avl_find_insert_ptr :
    ∀ (t : List idl_cache_ptr) (ic : idl_cache_ptr), avl_find_ptr t ic.kstr = none →
      avl_find_ptr (avl_insert_ptr t ic) ic.kstr = some ic := by
  intro t
  induction t with
  | nil =>
    intro ic _
    simp only [avl_insert_ptr, avl_find_ptr, if_true]
  | cons e rest ih =>
    intro ic h
    simp only [avl_find_ptr] at h
    by_cases he : e.kstr = ic.kstr
    · rw [if_pos he] at h
      cases h
    · rw [if_neg he] at h
      have he2 : ¬ ic.kstr = e.kstr := fun x => he x.symm
      simp only [avl_insert_ptr, if_neg he2]
      by_cases h2 : key_lt ic.kstr e.kstr = true
      · rw [if_pos h2]
        simp only [avl_find_ptr, if_true]
      · rw [if_neg h2]
        simp only [avl_find_ptr, if_neg he]
        exact ih ic h

theorem isEmpty_nil {α : Type} (l : List α) (h : l.isEmpty = true) : l = [] := by
  cases l with
  | nil => rfl
  | cons _ _ => cases h

/-- What `bdb_tool_idl_flush_one_ptr` does with the blocks: the free list gains
at most the chain of the entry, nothing is allocated, and unless the status is
`-1` the entry is left without a chain. -/
theorem flush_one_ptr_addrs (env : IdlEnv) (ic : idl_cache_ptr) (g : IdlHeap)
    (d : Key → List Nat) :
    (bdb_tool_idl_flush_one_ptr env ic g d).2.1.brk = g.brk ∧
    (∀ a, (free_addrs (bdb_tool_idl_flush_one_ptr env ic g d).2.1).count a ≤
      (free_addrs g).count a + (ic.chain.map (fun b => b.addr)).count a) ∧
    ((bdb_tool_idl_flush_one_ptr env ic g d).1 ≠ -1 →
      (bdb_tool_idl_flush_one_ptr env ic g d).2.2.2.chain = []) := by
  unfold bdb_tool_idl_flush_one_ptr
  by_cases h1 : ic.chain.isEmpty = true ∧ ic.count ≤ env.BDB_IDL_DB_SIZE
  · rw [if_pos h1]
    exact ⟨rfl, fun _ => Nat.le_add_right _ _, fun _ => isEmpty_nil _ h1.1⟩
  · rw [if_neg h1]
    by_cases h2 : env.cursor_rc ≠ 0
    · rw [if_pos h2]
      exact ⟨rfl, fun _ => Nat.le_add_right _ _, fun h => absurd rfl h⟩
    · rw [if_neg h2]
      dsimp only
      cases hn : (flush_one_dups env ic.plain (d ic.kstr)).2.1 with
      | none => exact ⟨rfl, fun _ => Nat.le_add_right _ _, fun _ => rfl⟩
      | some n =>
        by_cases h3 : ic.chain.isEmpty = true
        · simp only [h3, if_true]
          exact ⟨trivial, fun _ => Nat.le_add_right _ _, fun _ => trivial⟩
        · simp only [h3, Bool.false_eq_true, if_false]
          refine ⟨trivial, fun a => ?_, fun _ => trivial⟩
          simp only [free_addrs, List.map_append, List.count_append]
          omega

theorem avl_apply_flush_ptr_addrs (env : IdlEnv) (keep : Option Key) :
    ∀ (t : List idl_cache_ptr) (g : IdlHeap) (d : Key → List Nat) (kept : Option idl_cache_ptr),
      (avl_apply_flush_ptr env keep t g d kept).2.1.brk = g.brk ∧
      ∀ a, (free_addrs (avl_apply_flush_ptr env keep t g d kept).2.1).count a ≤
        (free_addrs g).count a + (tree_addrs t).count a := by
  intro t
  induction t with
  | nil =>
    intro g d kept
    exact ⟨rfl, fun _ => Nat.le_add_right _ _⟩
  | cons ic rest ih =>
    intro g d kept
    obtain ⟨f1, f2, _⟩ := flush_one_ptr_addrs env ic g d
    rw [avl_apply_flush_ptr]
    by_cases hrc : (bdb_tool_idl_flush_one_ptr env ic g d).1 = -1
    · rw [if_pos hrc]
      refine ⟨f1, fun a => ?_⟩
      have := f2 a
      simp only [tree_addrs, List.count_append]
      omega
    · rw [if_neg hrc]
      obtain ⟨i1, i2⟩ := ih (bdb_tool_idl_flush_one_ptr env ic g d).2.1
        (bdb_tool_idl_flush_one_ptr env ic g d).2.2.1
        (if keep = some ic.kstr then some (bdb_tool_idl_flush_one_ptr env ic g d).2.2.2
          else kept)
      refine ⟨i1.trans f1, fun a => ?_⟩
      have := f2 a
      have := i2 a
      simp only [tree_addrs, List.count_append]
      omega

/-- A traversal that was not stopped leaves the kept entry without a chain. -/
theorem avl_apply_flush_ptr_kept (env : IdlEnv) (k : Key) :
    ∀ (t : List idl_cache_ptr) (g : IdlHeap) (d : Key → List Nat) (kept : Option idl_cache_ptr),
      (avl_apply_flush_ptr env (some k) t g d kept).1 ≠ -1 →
      ((∃ x ∈ t, x.kstr = k) ∨ (∃ e0, kept = some e0 ∧ e0.chain = [])) →
      ∃ e, (avl_apply_flush_ptr env (some k) t g d kept).2.2.2 = some e ∧ e.chain = [] := by
  intro t
  induction t with
  | nil =>
    intro g d kept _ h
    rcases h with ⟨x, hx, _⟩ | ⟨e0, h1, h2⟩
    · exact absurd hx (List.not_mem_nil x)
    · exact ⟨e0, h1, h2⟩
  | cons ic rest ih =>
    intro g d kept hrc h
    obtain ⟨_, _, f3⟩ := flush_one_ptr_addrs env ic g d
    rw [avl_apply_flush_ptr] at hrc ⊢
    by_cases h1 : (bdb_tool_idl_flush_one_ptr env ic g d).1 = -1
    · rw [if_pos h1] at hrc
      exact absurd rfl hrc
    · rw [if_neg h1] at hrc ⊢
      apply ih _ _ _ hrc
      by_cases hk : some k = some ic.kstr
      · right
        rw [if_pos hk]
        exact ⟨_, rfl, f3 h1⟩
      · rw [if_neg hk]
        rcases h with ⟨x, hx, hxk⟩ | h
        · rcases List.mem_cons.mp hx with hx1 | hx1
          · exfalso
            apply hk
            rw [← hxk, hx1]
          · exact Or.inl ⟨x, hx1, hxk⟩
        · exact Or.inr h

/-- What `bdb_tool_idl_flush_db_ptr` does with the blocks: nothing stays linked,
the free list gains at most the chains of the tree, nothing is allocated; after
status 0 the kept entry has no chain. -/
theorem flush_db_ptr_addrs (env : IdlEnv) (keep : Option Key) (g : IdlHeap) (db : DBPtr) :
    (bdb_tool_idl_flush_db_ptr env keep g db).2.2.1.app_private = [] ∧
    (bdb_tool_idl_flush_db_ptr env keep g db).2.1.brk = g.brk ∧
    (∀ a, (free_addrs (bdb_tool_idl_flush_db_ptr env keep g db).2.1).count a ≤
      (free_addrs g).count a + (tree_addrs db.app_private).count a) ∧
    (∀ k, keep = some k → (bdb_tool_idl_flush_db_ptr env keep g db).1 = 0 →
      (∃ x ∈ db.app_private, x.kstr = k) →
      ∃ e, (bdb_tool_idl_flush_db_ptr env keep g db).2.2.2 = some e ∧ e.chain = []) := by
  obtain ⟨a1, a2⟩ := avl_apply_flush_ptr_addrs env keep db.app_private g db.data none
  refine ⟨rfl, a1, a2, ?_⟩
  intro k hk h0 hx
  subst hk
  have hrc : (avl_apply_flush_ptr env (some k) db.app_private g db.data none).1 ≠ -1 := by
    intro h
    unfold bdb_tool_idl_flush_db_ptr at h0
    simp only [h, ne_eq, not_true_eq_false, if_false] at h0
    exact absurd h0 (by decide)
  exact avl_apply_flush_ptr_kept env k db.app_private g db.data none hrc (Or.inl hx)

/-- Lines 992-1013 move the head of the free list to the tail of the chain, or
link a block that has just been allocated. -/
theorem new_block_ptr_step (id : Nat) (ic : idl_cache_ptr) (g : IdlHeap) (db : DBPtr)
    (hfind : avl_find_ptr db.app_private ic.kstr = some ic) :
    AddrStep g.brk (free_addrs g ++ tree_addrs db.app_private)
      (idl_new_block_ptr id ic g db).2.1.brk
      (free_addrs (idl_new_block_ptr id ic g db).2.1 ++
        tree_addrs (idl_new_block_ptr id ic g db).2.2.app_private) := by
  have hup : ∀ (x a : Nat),
      (tree_addrs (avl_update_ptr db.app_private
        { ic with chain := tail_store_ptr (ic.chain ++ [⟨x, fun _ => 0⟩]) (ic.count % IDBLOCK) id,
                  first := if ic.count = 0 then id else ic.first,
                  count := ic.count + 1 })).count a =
        (tree_addrs db.app_private).count a + [x].count a := by
    intro x a
    have h := tree_addrs_update a db.app_private ic.kstr ic
      { ic with chain := tail_store_ptr (ic.chain ++ [⟨x, fun _ => 0⟩]) (ic.count % IDBLOCK) id,
                first := if ic.count = 0 then id else ic.first,
                count := ic.count + 1 } hfind rfl
    rw [tail_store_ptr_addrs, List.map_append, List.count_append] at h
    simp only [List.map_cons, List.map_nil] at h
    omega
  cases hfl : g.free_list with
  | nil =>
    have hr : idl_new_block_ptr id ic g db =
        (0, ⟨g.bi_idl_cache_size + 1, [], g.brk + 1⟩,
          ⟨db.data, avl_update_ptr db.app_private
            { ic with
              chain := tail_store_ptr (ic.chain ++ [⟨g.brk, fun _ => 0⟩]) (ic.count % IDBLOCK) id,
              first := if ic.count = 0 then id else ic.first,
              count := ic.count + 1 }⟩) := by
      unfold idl_new_block_ptr
      simp only [hfl, List.tail_nil, List.isEmpty_nil, if_true]
    rw [hr]
    refine ⟨Nat.le_succ _, fun a => ?_⟩
    have h := hup g.brk a
    simp only [free_addrs, hfl, List.map_nil, List.nil_append, List.count_nil, Nat.zero_add]
    rw [h]
    by_cases ha : a = g.brk
    · have c : g.brk ≤ a ∧ a < g.brk + 1 := by omega
      rw [if_pos c, ha, List.count_singleton_self]
    · have hz : [g.brk].count a = 0 :=
        List.count_eq_zero_of_not_mem (fun hm => ha (List.mem_singleton.mp hm))
      rw [hz]
      omega
  | cons b rest =>
    have hr : idl_new_block_ptr id ic g db =
        (0, ⟨g.bi_idl_cache_size + 1, rest, g.brk⟩,
          ⟨db.data, avl_update_ptr db.app_private
            { ic with
              chain := tail_store_ptr (ic.chain ++ [⟨b.addr, fun _ => 0⟩]) (ic.count % IDBLOCK) id,
              first := if ic.count = 0 then id else ic.first,
              count := ic.count + 1 }⟩) := by
      unfold idl_new_block_ptr
      simp only [hfl, List.tail_cons, List.isEmpty_cons, Bool.false_eq_true, if_false]
    rw [hr]
    refine ⟨Nat.le_refl _, fun a => ?_⟩
    have h := hup b.addr a
    simp only [free_addrs, hfl, List.map_cons, List.count_append]
    rw [h]
    have hc : (b.addr :: rest.map (fun b => b.addr)).count a =
        (rest.map (fun b => b.addr)).count a + [b.addr].count a := by
      rw [List.count_cons, List.count_cons, List.count_nil, Nat.zero_add]
    rw [hc]
    omega

/-- The part of `bdb_tool_idl_add` that works on the entry moves blocks between
the chain and the free list and allocates at most a block that is new. -/
theorem idl_add_to_ptr_step (env : IdlEnv) (id : Nat) (ic : idl_cache_ptr) (g : IdlHeap)
    (db : DBPtr) (hfind : avl_find_ptr db.app_private ic.kstr = some ic) :
    AddrStep g.brk (free_addrs g ++ tree_addrs db.app_private)
      (idl_add_to_ptr env id ic g db).2.1.brk
      (free_addrs (idl_add_to_ptr env id ic g db).2.1 ++
        tree_addrs (idl_add_to_ptr env id ic g db).2.2.app_private) := by
  -- the entry is written through its pointer, the chain keeping its addresses
  have hsame : ∀ (ic2 : idl_cache_ptr), ic2.kstr = ic.kstr →
      ic2.chain.map (fun b => b.addr) = ic.chain.map (fun b => b.addr) →
      AddrStep g.brk (free_addrs g ++ tree_addrs db.app_private) g.brk
        (free_addrs g ++ tree_addrs (avl_update_ptr db.app_private ic2)) := by
    intro ic2 hk hc
    refine ⟨Nat.le_refl _, fun a => ?_⟩
    have h := tree_addrs_update a db.app_private ic.kstr ic ic2 hfind hk
    rw [hc] at h
    simp only [List.count_append]
    omega
  by_cases hA : ic.count > env.BDB_IDL_DB_SIZE
  · have hr : idl_add_to_ptr env id ic g db =
        (0, g, ⟨db.data, avl_update_ptr db.app_private { ic with last := id }⟩) := by
      unfold idl_add_to_ptr
      rw [if_pos hA]
    rw [hr]
    exact hsame { ic with last := id } rfl rfl
  · by_cases hB : ic.count = env.BDB_IDL_DB_SIZE
    · have hr : idl_add_to_ptr env id ic g db =
          (0, (if ic.chain.length ≠ 0 then
              ({ g with bi_idl_cache_size := g.bi_idl_cache_size - ic.chain.length,
                        free_list := ic.chain ++ g.free_list } : IdlHeap)
            else g),
            ⟨db.data, avl_update_ptr db.app_private
              { ic with chain := [], last := id, count := ic.count + 1 }⟩) := by
        unfold idl_add_to_ptr
        rw [if_neg hA, if_pos hB]
      rw [hr]
      by_cases hl : ic.chain.length ≠ 0
      · rw [if_pos hl]
        refine ⟨Nat.le_refl _, fun a => ?_⟩
        have h := tree_addrs_update a db.app_private ic.kstr ic
          { ic with chain := [], last := id, count := ic.count + 1 } hfind rfl
        simp only [List.map_nil, List.count_nil] at h
        simp only [free_addrs, List.map_append, List.count_append]
        omega
      · rw [if_neg hl]
        have hnil : ic.chain = [] := List.length_eq_zero.mp (by omega)
        apply hsame { ic with chain := [], last := id, count := ic.count + 1 } rfl
        rw [hnil]
    · by_cases hC : ic.chain.isEmpty = true ∨ ic.count % IDBLOCK = 0
      · by_cases hD : g.bi_idl_cache_size ≥ (env.bi_idl_cache_max_size : Int)
        · obtain ⟨f1, f2, f3, f4⟩ := flush_db_ptr_addrs env (some ic.kstr) g db
          by_cases hf : (bdb_tool_idl_flush_db_ptr env (some ic.kstr) g db).1 ≠ 0
          · have hr : idl_add_to_ptr env id ic g db =
                ((bdb_tool_idl_flush_db_ptr env (some ic.kstr) g db).1,
                  (bdb_tool_idl_flush_db_ptr env (some ic.kstr) g db).2.1,
                  (bdb_tool_idl_flush_db_ptr env (some ic.kstr) g db).2.2.1) := by
              unfold idl_add_to_ptr
              simp only [hA, hB, if_false, hC, if_true, hD, if_pos hf]
            rw [hr]
            dsimp only
            rw [f1, f2]
            refine ⟨Nat.le_refl _, fun a => ?_⟩
            have := f3 a
            simp only [tree_addrs, List.append_nil, List.count_append]
            omega
          · have hf0 : (bdb_tool_idl_flush_db_ptr env (some ic.kstr) g db).1 = 0 := by
              by_contra hne
              exact hf hne
            obtain ⟨e, hkept, hchain⟩ := f4 ic.kstr rfl hf0
              ⟨ic, avl_find_ptr_mem _ _ _ hfind, rfl⟩
            have hr : idl_add_to_ptr env id ic g db =
                idl_new_block_ptr id e (bdb_tool_idl_flush_db_ptr env (some ic.kstr) g db).2.1
                  ⟨(bdb_tool_idl_flush_db_ptr env (some ic.kstr) g db).2.2.1.data, [e]⟩ := by
              unfold idl_add_to_ptr
              simp only [hA, hB, if_false, hC, if_true, hD, if_neg hf, hkept, Option.getD_some,
                avl_insert_ptr]
            rw [hr]
            have hfe : avl_find_ptr [e] e.kstr = some e := by
              simp only [avl_find_ptr, if_true]
            have hs := new_block_ptr_step id e
              (bdb_tool_idl_flush_db_ptr env (some ic.kstr) g db).2.1
              ⟨(bdb_tool_idl_flush_db_ptr env (some ic.kstr) g db).2.2.1.data, [e]⟩ hfe
            refine AddrStep.trans _ _ _ _ _ _ ?_ hs
            rw [f2]
            refine ⟨Nat.le_refl _, fun a => ?_⟩
            have := f3 a
            simp only [tree_addrs, hchain, List.map_nil, List.append_nil, List.count_append,
              List.count_nil]
            omega
        · have hr : idl_add_to_ptr env id ic g db = idl_new_block_ptr id ic g db := by
            unfold idl_add_to_ptr
            simp only [hA, hB, if_false, hC, if_true, hD]
          rw [hr]
          exact new_block_ptr_step id ic g db hfind
      · have hr : idl_add_to_ptr env id ic g db =
            (0, g, ⟨db.data, avl_update_ptr db.app_private
              { ic with chain := tail_store_ptr ic.chain (ic.count % IDBLOCK) id,
                        count := ic.count + 1 }⟩) := by
          unfold idl_add_to_ptr
          simp only [hA, hB, if_false, hC]
        rw [hr]
        exact hsame { ic with chain := tail_store_ptr ic.chain (ic.count % IDBLOCK) id,
                              count := ic.count + 1 } rfl (tail_store_ptr_addrs _ _ _)

/-- Function `bdb_tool_idl_add_ptr` moves blocks between the chains of the
database and the free list and allocates at most a block that is new. -/
theorem idl_add_ptr_step (env : IdlEnv) (key : Key) (id : Nat) (g : IdlHeap) (db : DBPtr) :
    AddrStep g.brk (free_addrs g ++ tree_addrs db.app_private)
      (bdb_tool_idl_add_ptr env key id g db).2.1.brk
      (free_addrs (bdb_tool_idl_add_ptr env key id g db).2.1 ++
        tree_addrs (bdb_tool_idl_add_ptr env key id g db).2.2.app_private) := by
  by_cases hc : env.bi_idl_cache_max_size = 0
  · have hr : bdb_tool_idl_add_ptr env key id g db =
        ((env.idl_insert_key key id db.data).1, g,
          ⟨(env.idl_insert_key key id db.data).2, db.app_private⟩) := by
      unfold bdb_tool_idl_add_ptr
      rw [if_pos hc]
    rw [hr]
    exact AddrStep.refl _ _
  · cases hfind : avl_find_ptr db.app_private key with
    | none =>
      by_cases hcur : env.cursor_rc ≠ 0
      · have hr : bdb_tool_idl_add_ptr env key id g db =
            (env.cursor_rc, g, ⟨db.data, avl_insert_ptr db.app_private
              ⟨key, [], env.uninit, 0, 0⟩⟩) := by
          unfold bdb_tool_idl_add_ptr
          rw [if_neg hc]
          simp only [hfind, if_pos hcur]
        rw [hr]
        dsimp only
        rw [tree_addrs_insert _ _ rfl]
        exact AddrStep.refl _ _
      · have hr : bdb_tool_idl_add_ptr env key id g db =
            idl_add_to_ptr env id (idl_cache_load_ptr env key (db.data key)) g
              ⟨db.data, avl_insert_ptr db.app_private
                (idl_cache_load_ptr env key (db.data key))⟩ := by
          unfold bdb_tool_idl_add_ptr
          rw [if_neg hc]
          simp only [hfind, if_neg hcur]
        rw [hr]
        have hf2 : avl_find_ptr (avl_insert_ptr db.app_private
            (idl_cache_load_ptr env key (db.data key)))
            (idl_cache_load_ptr env key (db.data key)).kstr =
              some (idl_cache_load_ptr env key (db.data key)) :=
          avl_find_insert_ptr _ _ hfind
        have hs := idl_add_to_ptr_step env id (idl_cache_load_ptr env key (db.data key)) g
          ⟨db.data, avl_insert_ptr db.app_private (idl_cache_load_ptr env key (db.data key))⟩
          hf2
        rw [tree_addrs_insert _ _ rfl] at hs
        exact hs
    | some ic =>
      have hr : bdb_tool_idl_add_ptr env key id g db = idl_add_to_ptr env id ic g db := by
        unfold bdb_tool_idl_add_ptr
        rw [if_neg hc]
        simp only [hfind]
      rw [hr]
      have hk := avl_find_ptr_kstr _ _ _ hfind
      rw [← hk] at hfind
      exact idl_add_to_ptr_step env id ic g db hfind

theorem flush_db_ptr_step (env : IdlEnv) (keep : Option Key) (g : IdlHeap) (db : DBPtr) :
    AddrStep g.brk (free_addrs g ++ tree_addrs db.app_private)
      (bdb_tool_idl_flush_db_ptr env keep g db).2.1.brk
      (free_addrs (bdb_tool_idl_flush_db_ptr env keep g db).2.1 ++
        tree_addrs (bdb_tool_idl_flush_db_ptr env keep g db).2.2.1.app_private) := by
  obtain ⟨f1, f2, f3, _⟩ := flush_db_ptr_addrs env keep g db
  rw [f1, f2]
  refine ⟨Nat.le_refl _, fun a => ?_⟩
  have := f3 a
  simp only [tree_addrs, List.append_nil, List.count_append]
  omega

/-- Replacing one database replaces its linked addresses. -/
theorem linked_addrs_set (a : Nat) :
    ∀ (dbs : List DBPtr) (i : Nat) (db db2 : DBPtr), dbs.get? i = some db →
      (linked_addrs (dbs.set i db2)).count a + (tree_addrs db.app_private).count a =
        (linked_addrs dbs).count a + (tree_addrs db2.app_private).count a := by
  intro dbs
  induction dbs with
  | nil => intro i db db2 h; simp at h
  | cons d rest ih =>
    intro i db db2 h
    cases i with
    | zero =>
      simp only [List.get?_cons_zero, Option.some.injEq] at h
      subst h
      simp only [List.set_cons_zero, linked_addrs, List.count_append]
      omega
    | succ j =>
      simp only [List.get?_cons_succ] at h
      have := ih j db db2 h
      simp only [List.set_cons_succ, linked_addrs, List.count_append]
      omega

/-- A step on one database is a step on all of them. -/
theorem AddrStep.lift (dbs : List DBPtr) (i : Nat) (db db2 : DBPtr) (g g2 : IdlHeap)
    (hget : dbs.get? i = some db)
    (h : AddrStep g.brk (free_addrs g ++ tree_addrs db.app_private) g2.brk
      (free_addrs g2 ++ tree_addrs db2.app_private)) :
    AddrStep g.brk (free_addrs g ++ linked_addrs dbs) g2.brk
      (free_addrs g2 ++ linked_addrs (dbs.set i db2)) := by
  refine ⟨h.1, fun a => ?_⟩
  have h1 := h.2 a
  have h2 := linked_addrs_set a dbs i db db2 hget
  simp only [List.count_append] at h1 ⊢
  omega

/-- Along any run the blocks that are linked or free stay pairwise different
blocks that the allocator has handed out. -/
theorem idl_run_ptr_heap (env : IdlEnv) :
    ∀ (ops : List IdlOp) (g : IdlHeap) (dbs : List DBPtr),
      HeapOk g.brk (free_addrs g ++ linked_addrs dbs) →
      HeapOk (idl_run_ptr env ops g dbs).2.1.brk
        (free_addrs (idl_run_ptr env ops g dbs).2.1 ++
          linked_addrs (idl_run_ptr env ops g dbs).2.2) := by
  intro ops
  induction ops with
  | nil => intro g dbs h; exact h
  | cons op ops ih =>
    intro g dbs h
    cases op with
    | add i key id =>
      rw [idl_run_ptr]
      cases hgi : dbs.get? i with
      | none => exact ih g dbs h
      | some db =>
        have hs := AddrStep.lift dbs i db _ g _ hgi (idl_add_ptr_step env key id g db)
        have h2 := HeapOk.step _ _ _ _ h hs
        dsimp only
        by_cases hrc : (bdb_tool_idl_add_ptr env key id g db).1 ≠ 0
        · rw [if_pos hrc]
          exact h2
        · rw [if_neg hrc]
          exact ih _ _ h2
    | flush i =>
      rw [idl_run_ptr]
      cases hgi : dbs.get? i with
      | none => exact ih g dbs h
      | some db =>
        have hs := AddrStep.lift dbs i db _ g _ hgi (flush_db_ptr_step env none g db)
        have h2 := HeapOk.step _ _ _ _ h hs
        dsimp only
        by_cases hrc : (bdb_tool_idl_flush_db_ptr env none g db).1 ≠ 0
        · rw [if_pos hrc]
          exact h2
        · rw [if_neg hrc]
          exact ih _ _ h2

theorem linked_addrs_empty :
    ∀ (dbs : List DBPtr), (∀ db ∈ dbs, db.app_private = []) → linked_addrs dbs = [] := by
  intro dbs
  induction dbs with
  | nil => intro _; rfl
  | cons d rest ih =>
    intro h
    have h1 := h d (List.mem_cons_self _ _)
    have h2 := ih (fun x hx => h x (List.mem_cons_of_mem _ hx))
    simp only [linked_addrs, h1, h2, tree_addrs, List.append_nil]

theorem tree_addrs_length :
    ∀ (t : List idl_cache_ptr),
      (tree_addrs t).length = linked_blocks (t.map idl_cache_ptr.plain) := by
  intro t
  induction t with
  | nil => rfl
  | cons e rest ih =>
    simp only [tree_addrs, List.length_append, List.length_map, ih, linked_blocks,
      List.map_cons, List.sum_cons, plain_blocks]

theorem linked_addrs_length :
    ∀ (dbs : List DBPtr),
      (linked_addrs dbs).length = total_linked (dbs.map DBPtr.plain) := by
  intro dbs
  induction dbs with
  | nil => rfl
  | cons d rest ih =>
    simp only [linked_addrs, List.length_append, ih, tree_addrs_length, total_linked,
      List.map_cons, List.sum_cons, DBPtr.plain]

theorem mem_tree_addrs :
    ∀ (t : List idl_cache_ptr) (ic : idl_cache_ptr) (b : bdb_tool_idl_cache_entry),
      ic ∈ t → b ∈ ic.chain → b.addr ∈ tree_addrs t := by
  intro t
  induction t with
  | nil => intro ic b h; exact absurd h (List.not_mem_nil ic)
  | cons e rest ih =>
    intro ic b h hb
    simp only [tree_addrs, List.mem_append]
    rcases List.mem_cons.mp h with h1 | h1
    · left
      rw [← h1]
      exact List.mem_map_of_mem _ hb
    · exact Or.inr (ih ic b h1 hb)

theorem mem_linked_addrs :
    ∀ (dbs : List DBPtr) (db : DBPtr) (ic : idl_cache_ptr) (b : bdb_tool_idl_cache_entry),
      db ∈ dbs → ic ∈ db.app_private → b ∈ ic.chain → b.addr ∈ linked_addrs dbs := by
  intro dbs
  induction dbs with
  | nil => intro db ic b h; exact absurd h (List.not_mem_nil db)
  | cons d rest ih =>
    intro db ic b h hic hb
    simp only [linked_addrs, List.mem_append]
    rcases List.mem_cons.mp h with h1 | h1
    · left
      rw [← h1]
      exact mem_tree_addrs _ ic b hic hb
    · exact Or.inr (ih db ic b h1 hic hb)

/-- C18.  Block accounting invariant.  Start with every cache tree empty, the
counter `bi_idl_cache_size` at 0, and a free list of pairwise different blocks
that the allocator has handed out, and let every store operation succeed.  After
any sequence of `bdb_tool_idl_add` and `bdb_tool_idl_flush_db` calls on the
secondary databases, each of which returned 0 (list-to-range transitions and
memory-pressure flushes included): the counter equals the number of id blocks
linked from the cache entries of all the databases, blocks on the free list not
counted; no block is linked both from a cache entry and from the free list; the
blocks that are linked or free are pairwise different, so none is linked twice;
and without the addresses the run is the run of the same calls on plain
chains. -/
theorem idl_block_accounting (env : IdlEnv) (hcur : env.cursor_rc = 0)
    (hget : ∀ k, env.get_rc k = 0) (hput : ∀ k i, env.put_rc k i = 0)
    (ops : List IdlOp) (g : IdlHeap) (dbs : List DBPtr)
    (hempty : ∀ db ∈ dbs, db.app_private = []) (hzero : g.bi_idl_cache_size = 0)
    (hfree : HeapOk g.brk (free_addrs g))
    (hrc : (idl_run_ptr env ops g dbs).1 = 0) :
    (idl_run_ptr env ops g dbs).2.1.bi_idl_cache_size =
      ((linked_addrs (idl_run_ptr env ops g dbs).2.2).length : Int) ∧
    (∀ db ∈ (idl_run_ptr env ops g dbs).2.2, ∀ ic ∈ db.app_private, ∀ b ∈ ic.chain,
      ∀ f ∈ (idl_run_ptr env ops g dbs).2.1.free_list, b.addr ≠ f.addr) ∧
    (free_addrs (idl_run_ptr env ops g dbs).2.1 ++
      linked_addrs (idl_run_ptr env ops g dbs).2.2).Nodup ∧
    idl_run env ops g.plain (dbs.map DBPtr.plain) =
      ((idl_run_ptr env ops g dbs).1, (idl_run_ptr env ops g dbs).2.1.plain,
        (idl_run_ptr env ops g dbs).2.2.map DBPtr.plain) := by
  have hE := idl_run_plain env ops g dbs
  have hrc2 : (idl_run env ops g.plain (dbs.map DBPtr.plain)).1 = 0 := by
    rw [hE]
    exact hrc
  have hempty2 : ∀ db ∈ dbs.map DBPtr.plain, db.app_private = [] := by
    intro db hdb
    obtain ⟨x, hx, hxe⟩ := List.mem_map.mp hdb
    rw [← hxe]
    show x.app_private.map idl_cache_ptr.plain = []
    rw [hempty x hx]
    rfl
  have hc := (idl_run_counter env hcur hget hput ops g.plain (dbs.map DBPtr.plain) hempty2
    hzero hrc2).1
  rw [hE] at hc
  have hH : HeapOk (idl_run_ptr env ops g dbs).2.1.brk
      (free_addrs (idl_run_ptr env ops g dbs).2.1 ++
        linked_addrs (idl_run_ptr env ops g dbs).2.2) := by
    apply idl_run_ptr_heap
    rw [linked_addrs_empty dbs hempty, List.append_nil]
    exact hfree
  refine ⟨?_, ?_, hH.1, hE⟩
  · rw [linked_addrs_length]
    exact hc
  · intro db hdb ic hic b hb f hf heq
    have hdis := (List.nodup_append.mp hH.1).2.2
    have h1 : f.addr ∈ free_addrs (idl_run_ptr env ops g dbs).2.1 :=
      List.mem_map_of_mem _ hf
    have h2 : b.addr ∈ linked_addrs (idl_run_ptr env ops g dbs).2.2 :=
      mem_linked_addrs _ db ic b hdb hic hb
    rw [heq] at h2
    exact hdis h1 h2

/-- An instance of C18 with threshold 4 and a cache limit of one block, over two
databases: an insertion, a memory-pressure flush that hands the block to the
other key, and a list-to-range transition, after which one block is linked and
one is free. -/
theorem idl_block_accounting_witness :
    (idl_run_ptr (IdlEnv.ok 4 1)
      [IdlOp.add 0 [7] 1, IdlOp.add 0 [9] 2, IdlOp.add 1 [8] 3, IdlOp.add 0 [9] 4,
        IdlOp.add 0 [9] 5, IdlOp.add 0 [9] 6, IdlOp.add 0 [9] 7]
      ⟨0, [], 0⟩ (List.replicate 2 ⟨emptyData, []⟩)).1 = 0 ∧
    (idl_run_ptr (IdlEnv.ok 4 1)
      [IdlOp.add 0 [7] 1, IdlOp.add 0 [9] 2, IdlOp.add 1 [8] 3, IdlOp.add 0 [9] 4,
        IdlOp.add 0 [9] 5, IdlOp.add 0 [9] 6, IdlOp.add 0 [9] 7]
      ⟨0, [], 0⟩ (List.replicate 2 ⟨emptyData, []⟩)).2.1.bi_idl_cache_size =
    ((linked_addrs (idl_run_ptr (IdlEnv.ok 4 1)
      [IdlOp.add 0 [7] 1, IdlOp.add 0 [9] 2, IdlOp.add 1 [8] 3, IdlOp.add 0 [9] 4,
        IdlOp.add 0 [9] 5, IdlOp.add 0 [9] 6, IdlOp.add 0 [9] 7]
      ⟨0, [], 0⟩ (List.replicate 2 ⟨emptyData, []⟩)).2.2).length : Int) ∧
    (free_addrs (idl_run_ptr (IdlEnv.ok 4 1)
      [IdlOp.add 0 [7] 1, IdlOp.add 0 [9] 2, IdlOp.add 1 [8] 3, IdlOp.add 0 [9] 4,
        IdlOp.add 0 [9] 5, IdlOp.add 0 [9] 6, IdlOp.add 0 [9] 7]
      ⟨0, [], 0⟩ (List.replicate 2 ⟨emptyData, []⟩)).2.1 ++
     linked_addrs (idl_run_ptr (IdlEnv.ok 4 1)
      [IdlOp.add 0 [7] 1, IdlOp.add 0 [9] 2, IdlOp.add 1 [8] 3, IdlOp.add 0 [9] 4,
        IdlOp.add 0 [9] 5, IdlOp.add 0 [9] 6, IdlOp.add 0 [9] 7]
      ⟨0, [], 0⟩ (List.replicate 2 ⟨emptyData, []⟩)).2.2).Nodup :=
  ⟨by decide,
   (idl_block_accounting (IdlEnv.ok 4 1) rfl (fun _ => rfl) (fun _ _ => rfl)
      [IdlOp.add 0 [7] 1, IdlOp.add 0 [9] 2, IdlOp.add 1 [8] 3, IdlOp.add 0 [9] 4,
        IdlOp.add 0 [9] 5, IdlOp.add 0 [9] 6, IdlOp.add 0 [9] 7]
      ⟨0, [], 0⟩ (List.replicate 2 ⟨emptyData, []⟩)
      (fun db hdb => by rw [List.eq_of_mem_replicate hdb]) rfl
      ⟨List.nodup_nil, fun a ha => absurd ha (List.not_mem_nil a)⟩ (by decide)).1,
   (idl_block_accounting (IdlEnv.ok 4 1) rfl (fun _ => rfl) (fun _ _ => rfl)
      [IdlOp.add 0 [7] 1, IdlOp.add 0 [9] 2, IdlOp.add 1 [8] 3, IdlOp.add 0 [9] 4,
        IdlOp.add 0 [9] 5, IdlOp.add 0 [9] 6, IdlOp.add 0 [9] 7]
      ⟨0, [], 0⟩ (List.replicate 2 ⟨emptyData, []⟩)
      (fun db hdb => by rw [List.eq_of_mem_replicate hdb]) rfl
      ⟨List.nodup_nil, fun a ha => absurd ha (List.not_mem_nil a)⟩ (by decide)).2.2.1⟩

end BackBdb
